import Mathlib

/-!
# hammer-kit: fill / check, mod-k patterns, aggressor selection, address sweep,
row discovery, the linearizer, timing, configuration values and the experiment

A shallow embedding of parts of `src/lib.c`, `src/hammer.c`, `src/mm.c` and
`src/params.c`.

Conventions of the embedding:

* C `int` values are `Int`; `%` and `/` on them are `Int.tmod` and `Int.tdiv`
  (C truncates towards zero).  Signed overflow has no defined behaviour in C, so
  loop counters and sums of `int`s are taken unbounded.
* Unsigned values (`uint32_t`, `uint64_t`, `size_t`, pointers) are `Nat`, reduced
  `% 2 ^ w` wherever the C operation can wrap.
* Memory is a map from byte addresses to bytes; 32-bit accesses are little-endian
  (x86-64 and aarch64, the two targets of `lib.h`).
* `die(...)` is `none`.
* `printf` and `flush` (a cache-line flush) do not change memory contents and are
  left out.
* Loops whose number of rounds is not bounded by their arguments take a bound on the
  rounds; `none` then also stands for a run that needs more rounds.
* The timing measurement of the row discovery and the C library `qsort` are parameters.
* For the linearizer the address space is the table of pagemap entries per virtual page
  number; `mremap` moves an entry.
* The clock read by `hammer` is the sequence of its readings; `strtoull` follows the C
  standard (7.22.1.4).
* In an experiment the row discovery, the effect of hammering on memory, `time` and
  `rand` are parameters, and the state carries a record of the fills, attempts and
  checks made.  The memory at each call of `select_and_hammer_aggr` is listed by
  functions that follow the same loops.
* The arrays `rows` and `bank` of the row discovery are indexed by `Int`: the entries
  outside the array stand for the memory around it.
-/

namespace HammerKit

/-! ## Parameters (`src/params.h`) -/

/-- The `enum pattern` of `params.h`. -/
inductive pattern where
  | RANDOM
  | EVEN
  | TRRESPASS_ASSISTED_DOUBLE
  deriving DecidableEq, Repr

/-- The `enum fill_type` of `params.h`. -/
inductive fill_type where
  | FILL_RANDOM
  | FILL_MOD
  deriving DecidableEq, Repr

/-- The `struct addr_loop` of `params.h`. -/
structure addr_loop where
  count : Int := 0
  step : Int := 0
  deriving DecidableEq, Repr

/-- The `struct params` of `params.h`; the default of each field is the value
`set_defaults` (`params.c`) leaves in it. -/
structure params where
  cpus : List Int := []
  nr_cpus : Int := 0
  alt_row_find : Int := 0
  atomic_unit : Int := 0
  row_size : Int := 0
  rows_per_set : Int := 1
  bank_find_step : Int := 512 * 1024
  nr_banks : Int := 1
  delay_iters : Int := 1000
  size : Nat := 128 * 1024 * 1024
  cached : Int := 0
  contig : Int := 1
  pagemap : Int := 0
  sort_rows : Int := 0
  sort_rows_shift : Int := 15
  sched_fifo : Int := 0
  fill_type : fill_type := fill_type.FILL_RANDOM
  check_rest : Int := 1
  mod : Int := 1
  mod_stride : Int := 1
  victim_mask : Nat := 0
  victim_data_pattern : Nat := 0xffffffff
  always_refill : Int := 0
  max_fuzz : Nat := 0
  fuzz_step : Nat := 64
  measure_loops : Int := 250000
  offset0 : Nat := 16 * 1024 * 1024
  src_offset : Nat := 0
  conflict_th_us : Int := 0
  find_step : Int := 0
  n_rows : Int := 0
  min_aggr : Int := 0
  max_aggr : Int := 0
  hammer_loops : Int := 0
  repeat_flips : Int := 0
  n_tries : Int := 0
  assisted_double_dist : Int := 7
  addr_loops : List addr_loop := []
  pattern : pattern := pattern.RANDOM

/-- The `struct row` of `hammer.c`: `int idx; uint8_t *start; uint32_t len`. -/
structure row where
  idx : Int
  start : Nat
  len : Nat
  deriving DecidableEq, Repr

/-! ## Memory -/

/-- Byte-addressed memory: the byte stored at each address. -/
abbrev Mem := Nat → Nat

/-- A 32-bit little-endian load, `((uint32_t *)a)[0]`. -/
def read32 (m : Mem) (a : Nat) : Nat :=
  m a % 256 + 256 * (m (a + 1) % 256) + 65536 * (m (a + 2) % 256)
    + 16777216 * (m (a + 3) % 256)

/-- A 32-bit little-endian store, `*(uint32_t *)a = v`. -/
def write32 (m : Mem) (a v : Nat) : Mem := fun x =>
  if x = a then v % 256
  else if x = a + 1 then v / 256 % 256
  else if x = a + 2 then v / 65536 % 256
  else if x = a + 3 then v / 16777216 % 256
  else m x

/-- The helper `flush` of `lib.h` (`clflush` on x86-64, `dc civac` on aarch64): the
cache line of `addr` is written back and invalidated; the contents of memory do not
change. -/
def flush (m : Mem) (_addr : Nat) : Mem := m

/-! ## `src/lib.c`: the PRNG, `fill` and `check` -/

/-- The function `myrand32_r` of `lib.c`, on a `uint64_t` state: returns the
`uint32_t` result and the new `*state`.
`*state = (*state * 0x5DEECE66D + 0xB) & ((1LL << 48)-1); return *state >> 16;` -/
def myrand32_r (state : Nat) : Nat × Nat :=
  let state1 := ((state * 0x5DEECE66D + 0xB) % 2 ^ 64) &&& ((1 <<< 48) - 1)
  ((state1 >>> 16) % 2 ^ 32, state1)

/-- The seed both `fill` and `check` derive from the start address:
`(uint64_t)mem ^ ((uint64_t)mem >> 32)`. -/
def seed_of (mem : Nat) : Nat :=
  (mem % 2 ^ 64) ^^^ ((mem % 2 ^ 64) >>> 32)

/-- The store loop of `fill`, `for (i = 0; i < len/4; i++) mem32[i] = myrand32_r(&state);`
with `k` iterations left, at index `i`. -/
def fill_loop (mem : Nat) : Nat → Nat → Nat → Mem → Mem
  | 0, _, _, m => m
  | k + 1, i, state, m =>
    let (v, state1) := myrand32_r state
    fill_loop mem k (i + 1) state1 (write32 m (mem + 4 * i) v)

/-- The loop `for (i = 0; i < len/4; i++) flush(&mem32[i]);` of `fill` and `check`,
with `k` iterations left, at index `i`. -/
def flush_loop (mem : Nat) : Nat → Nat → Mem → Mem
  | 0, _, m => m
  | k + 1, i, m => flush_loop mem k (i + 1) (flush m (mem + 4 * i))

/-- The function `fill` of `lib.c` on the memory `m` (`base` is only printed). -/
def fill (p : params) (m : Mem) (mem len : Nat) : Option Mem :=
  if len % 4 ≠ 0 then none
  else
    let m1 := fill_loop mem (len / 4) 0 (seed_of mem) m
    some (if p.cached ≠ 0 then flush_loop mem (len / 4) 0 m1 else m1)

/-- The compare loop of `check`, with `k` iterations left, at index `i`. -/
def check_loop (m : Mem) (mem : Nat) : Nat → Nat → Nat → Nat → Nat
  | 0, _, _, dcount => dcount
  | k + 1, i, state, dcount =>
    let (expect, state1) := myrand32_r state
    let diff := read32 m (mem + 4 * i) ^^^ expect
    check_loop m mem k (i + 1) state1 (if diff ≠ 0 then dcount + 1 else dcount)

/-- The function `check` of `lib.c` on the memory `m` (`base` is only printed):
the returned `dcount`, and the memory the call leaves behind. -/
def check (p : params) (m : Mem) (mem len : Nat) : Option (Nat × Mem) :=
  if len % 4 ≠ 0 then none
  else
    let m1 := if p.cached ≠ 0 then flush_loop mem (len / 4) 0 m else m
    some (check_loop m1 mem (len / 4) 0 (seed_of mem) 0, m1)

/-- The linear congruential generator in the words of the specification: state
after `i` steps from `s`, with multiplier `0x5DEECE66D`, addend `0xB`, modulus
`2^48`. -/
def lcg_state (s : Nat) : Nat → Nat
  | 0 => s
  | i + 1 => (lcg_state s i * 0x5DEECE66D + 0xB) % 2 ^ 48

/-- The `i`-th output (from 0) of the generator seeded with `s`: the high 32 bits
of the state after step `i + 1`. -/
def lcg_output (s i : Nat) : Nat :=
  lcg_state s (i + 1) / 2 ^ 16

/-! ## `src/hammer.c`: mod-k fill and check -/

/-- The C expression `1UL << mod` for an `int mod`.  C defines it for
`0 <= mod < 64` only; there it is `2 ^ mod`.  For the other counts the value is the one
the shift instructions of x86-64 and aarch64 give, which take the count modulo 64; the
statements that depend on the value of the shift keep to `0 <= mod < 64`. -/
def shl_1UL (mod : Int) : Nat :=
  2 ^ (mod % 64).toNat

/-- The word both `fill_rows_mod_k` and `check_rows_mod_k` compute for a row:
`int mod = (rows[i].idx + p->mod - shift) % p->mod;`
`uint32_t pattern = (p->victim_mask & (1UL << mod)) ? p->victim_data_pattern :
~(p->victim_data_pattern);` -/
def mod_k_pattern (p : params) (r : row) (shift : Int) : Nat :=
  let mod := (r.idx + p.mod - shift).tmod p.mod
  if (p.victim_mask % 2 ^ 64) &&& shl_1UL mod ≠ 0 then p.victim_data_pattern % 2 ^ 32
  else 0xffffffff - p.victim_data_pattern % 2 ^ 32

/-- The inner loop of `fill_rows_mod_k`,
`for (j = 0; j < rows[i].len / 4; j++) { virt = (uint32_t *)rows[i].start + j;`
`*virt = pattern; if (p->cached) flush(virt); }`
with `k` iterations left, at index `j`. -/
def fill_row_words (cached : Int) (start pat : Nat) : Nat → Nat → Mem → Mem
  | 0, _, m => m
  | k + 1, j, m =>
    let m1 := write32 m (start + 4 * j) pat
    fill_row_words cached start pat k (j + 1)
      (if cached ≠ 0 then flush m1 (start + 4 * j) else m1)

/-- The outer loop of `fill_rows_mod_k` over `rows[0..n_rows)`. -/
def fill_rows_loop (p : params) (shift : Int) : List row → Mem → Mem
  | [], m => m
  | r :: rs, m =>
    fill_rows_loop p shift rs
      (fill_row_words p.cached r.start (mod_k_pattern p r shift) (r.len / 4) 0 m)

/-- The function `fill_rows_mod_k` of `hammer.c`; `rows` is `rows[0..n_rows)`. -/
def fill_rows_mod_k (p : params) (m : Mem) (rows : List row) (shift : Int) : Option Mem :=
  if shift < 0 ∨ shift ≥ p.mod then none
  else some (fill_rows_loop p shift rows m)

/-- The inner loop of `check_rows_mod_k`, with `k` iterations left, at index `j`. -/
def check_row_words (m : Mem) (start pat : Nat) : Nat → Nat → Nat → Nat
  | 0, _, flips => flips
  | k + 1, j, flips =>
    check_row_words m start pat k (j + 1)
      (if read32 m (start + 4 * j) ≠ pat then flips + 1 else flips)

/-- The outer loop of `check_rows_mod_k` over `rows[0..n_rows)`. -/
def check_rows_loop (p : params) (m : Mem) (shift : Int) : List row → Nat → Nat
  | [], flips => flips
  | r :: rs, flips =>
    check_rows_loop p m shift rs
      (check_row_words m r.start (mod_k_pattern p r shift) (r.len / 4) 0 flips)

/-- The function `check_rows_mod_k` of `hammer.c` (it has no guard on `shift`). -/
def check_rows_mod_k (p : params) (m : Mem) (rows : List row) (shift : Int) : Nat :=
  check_rows_loop p m shift rows 0

/-! ## `src/hammer.c`: aggressor selection -/

/-- The C library generator as `select_and_hammer_aggr` sees it: the values the
next calls of `rand()` return when the generator is left alone, and the values
they return after `srand(seed)`.  `rand()` returns a value in `[0, RAND_MAX]`. -/
structure libc_rand where
  current : Nat → Nat
  seeded : Int → Nat → Nat

/-- What `select_and_hammer_aggr` does: the row index of each `@Picking` line in
order, the address `rows[row].start` stored in `aggr[i]` (`none` when `row` is
outside `rows[0..n_rows)`), and the arguments `n_aggr`, `loops`, `timing_loops`
of the one `parallel_hammer` call. -/
structure hammer_call where
  picked : List Int
  aggr : List (Option Nat)
  count : Int
  loops : Int
  timing_loops : Int
  deriving DecidableEq, Repr

/-- The local `n_aggr` of `select_and_hammer_aggr`:
`p->min_aggr + try % (p->max_aggr - p->min_aggr + 1)`. -/
def n_aggr (p : params) (try_ : Int) : Int :=
  p.min_aggr + try_.tmod (p.max_aggr - p.min_aggr + 1)

/-- The `switch (p->pattern)` of `select_and_hammer_aggr` at loop index `i`;
`rnd i` is the value of the `rand()` call of that iteration. -/
def pick_row (p : params) (try_ : Int) (rnd : Nat → Nat) (i : Nat) : Int :=
  match p.pattern with
  | pattern.RANDOM => (rnd i : Int).tmod p.n_rows
  | pattern.EVEN => (try_ + (i : Int) * 2).tmod p.n_rows
  | pattern.TRRESPASS_ASSISTED_DOUBLE =>
    if (i : Int) = n_aggr p try_ - 1 then
      (try_ + (n_aggr p try_ - 2) * 2 + p.assisted_double_dist).tmod p.n_rows
    else (try_ + (i : Int) * 2).tmod p.n_rows

/-- The read `rows[row].start` for an `int row`. -/
def row_start (rows : List row) (r : Int) : Option Nat :=
  if 0 ≤ r then (rows.get? r.toNat).map row.start else none

/-- The function `select_and_hammer_aggr` of `hammer.c`.  The loop
`for (int i = 0; i < n_aggr; i++)` runs for `i = 0 .. n_aggr - 1`. -/
def select_and_hammer_aggr (p : params) (try_ : Int) (rows : List row) (seed : Int)
    (g : libc_rand) : hammer_call :=
  let rnd := if seed ≠ 0 then g.seeded seed else g.current
  let n := n_aggr p try_
  let picked := (List.range n.toNat).map (pick_row p try_ rnd)
  { picked := picked
    aggr := picked.map (row_start rows)
    count := n
    loops := p.hammer_loops.tdiv n
    timing_loops := 1 }

/-! ## Auxiliary notions and concrete inputs used in the statements -/

/-- Two rows occupy disjoint byte ranges `[start, start + len)`. -/
def rows_apart (r1 r2 : row) : Prop :=
  r1.start + r1.len ≤ r2.start ∨ r2.start + r2.len ≤ r1.start

instance rows_apart_decidable : DecidableRel rows_apart := fun r1 r2 => by
  unfold rows_apart; infer_instance

/-- A memory holding zero in every byte. -/
def zero_mem : Mem := fun _ => 0

/-- A libc generator that always returns zero. -/
def zero_rand : libc_rand := { current := fun _ => 0, seeded := fun _ _ => 0 }

/-- Eight adjacent rows of 4 KiB from address 4096 on, `idx` 0 to 7. -/
def eight_rows : List row :=
  (List.range 8).map
    (fun (i : Nat) => { idx := Int.ofNat i, start := 4096 * (i + 1), len := 4096 })

/-- Sixteen adjacent rows of 4 KiB from address 4096 on, `idx` 0 to 15. -/
def sixteen_rows : List row :=
  (List.range 16).map
    (fun (i : Nat) => { idx := Int.ofNat i, start := 4096 * (i + 1), len := 4096 })

/-- A configuration with `mod = 2` whose victim is the residue 0. -/
def overlap_cfg : params := { mod := 2, victim_mask := 1 }

/-- Two rows of one word each, both starting at address 4096. -/
def overlap_rows : List row :=
  [{ idx := 0, start := 4096, len := 4 }, { idx := 1, start := 4096, len := 4 }]

/-- A configuration with `mod = 4` whose victims are the residues 0 and 2. -/
def periodic_cfg : params := { mod := 4, victim_mask := 5 }

/-- Four adjacent one-word rows from address 4096 on, `idx` 0 to 3. -/
def periodic_rows : List row :=
  [{ idx := 0, start := 4096, len := 4 }, { idx := 1, start := 4100, len := 4 },
   { idx := 2, start := 4104, len := 4 }, { idx := 3, start := 4108, len := 4 }]

/-- Scenario S1: `fill_type=random`, other parameters at their defaults. -/
def s1_cfg : params := { fill_type := fill_type.FILL_RANDOM }

/-- Scenario S2: `mod = 3`, `victim_mask = 0x1`. -/
def s2_cfg : params := { mod := 3, victim_mask := 1, victim_data_pattern := 0x5a5a5a5a }

/-- Scenario S2: one row of 16 bytes with `idx = 0`. -/
def s2_rows : List row := [{ idx := 0, start := 4096, len := 16 }]

/-- Scenario S3: `n_rows=16, min_aggr=max_aggr=4, assisted_double_dist=7`. -/
def s3_cfg : params :=
  { n_rows := 16, min_aggr := 4, max_aggr := 4, assisted_double_dist := 7,
    pattern := pattern.TRRESPASS_ASSISTED_DOUBLE }

/-- Scenario S4: `n_rows=8, min_aggr=max_aggr=5`, pattern EVEN. -/
def s4_cfg : params :=
  { n_rows := 8, min_aggr := 5, max_aggr := 5, pattern := pattern.EVEN }

/-- A configuration file can ask for the assisted-double pattern with a single
aggressor: `pattern=trrespass_assisted_double`, `min_aggr=1`, `max_aggr=1`,
`assisted_double_dist=0`, `n_rows=8`. -/
def single_assisted_cfg : params :=
  { n_rows := 8, min_aggr := 1, max_aggr := 1, assisted_double_dist := 0,
    hammer_loops := 1000000, pattern := pattern.TRRESPASS_ASSISTED_DOUBLE }

/-- The assisted-double pattern with a single aggressor on sixteen rows:
`pattern=trrespass_assisted_double`, `min_aggr=1`, `max_aggr=1`,
`assisted_double_dist=1`, `n_rows=16`. -/
def lone_assisted_cfg : params :=
  { n_rows := 16, min_aggr := 1, max_aggr := 1, assisted_double_dist := 1,
    hammer_loops := 1000000, pattern := pattern.TRRESPASS_ASSISTED_DOUBLE }

/-! ## `src/lib.c`: the dispatch loop of `parallel_hammer` -/

/-- The loop of `parallel_hammer` over the worker descriptors,
`for (cur = first_cpu, idx = 0; cur; cur = cur->next, idx++)`, with `n` descriptors
left in the list.  Each step yields the slice given to the worker at position `idx`:
the offset `rows_allotted` of `cur->rows = &rows[rows_allotted]` and `cur->row_count`. -/
def dispatch_loop (row_count thread_count : Int) : Nat → Int → Int → List (Int × Int)
  | 0, _, _ => []
  | n + 1, idx, rows_allotted =>
    let c0 := row_count.tdiv thread_count
    let c := if idx < row_count.tmod thread_count then c0 + 1 else c0
    (rows_allotted, c) :: dispatch_loop row_count thread_count n (idx + 1) (rows_allotted + c)

/-- The slices `parallel_hammer` hands out when `nr_cpus >= 2`.  The list
`first_cpu` holds one descriptor per `setup_thread` call, and `thread_count` counts
the same calls, so the loop runs `thread_count` times. -/
def parallel_hammer_dispatch (row_count : Int) (thread_count : Nat) : List (Int × Int) :=
  dispatch_loop row_count thread_count thread_count 0 0

/-! ## `src/hammer.c`: the address sweep `run_hammer` -/

/-- The constant `MAX_ADDR_LOOPS` of `params.h`. -/
def MAX_ADDR_LOOPS : Nat := 8

/-- The array element `p->addr_loops[depth]` for `depth < MAX_ADDR_LOOPS`: the entries
after the configured ones are the zeros `set_defaults` leaves (`memset`). -/
def addr_loops_at (p : params) (depth : Nat) : addr_loop :=
  p.addr_loops.getD depth { count := 0, step := 0 }

/-- The `for` loop of `run_hammer` at one level,
`for (int count = 0; mem < max_addr && (!l.count || count < l.count);`
`count++, mem += l.step) run_hammer(p, base, mem, max_addr, depth+1);`
with `body` the recursive call.  The first argument bounds the number of
iterations; `none` means that bound was reached or `body` gave no result. -/
def run_hammer_loop {σ : Type} (body : Nat → σ → Option σ) (l : addr_loop) (max_addr : Nat) :
    Nat → Nat → Int → σ → Option σ
  | 0, _, _, _ => none
  | fuel + 1, mem, count, s =>
    if mem < max_addr ∧ (l.count = 0 ∨ count < l.count) then
      match body mem s with
      | none => none
      | some s1 =>
        run_hammer_loop body l max_addr fuel ((mem : Int) + l.step).toNat (count + 1) s1
    else some s

/-- The recursion of `run_hammer` with `n` array entries left from `depth` on
(`n = MAX_ADDR_LOOPS - depth`); with none left, the read `p->addr_loops[depth]` is
outside the array and there is no result.  `once mem len` is the experiment
`run_hammer_once(p, base, mem, len)` acting on a state `σ`;
`len = p->size - (mem - base)` in `size_t`. -/
def run_hammer_levels {σ : Type} (once : Nat → Nat → σ → Option σ) (p : params)
    (base max_addr fuel : Nat) : Nat → Nat → Nat → σ → Option σ
  | 0, _, _, _ => none
  | n + 1, mem, depth, s =>
    if (addr_loops_at p depth).step = 0 then
      once mem (((p.size : Int) - ((mem : Int) - (base : Int))) % 2 ^ 64).toNat s
    else
      run_hammer_loop (fun mem1 s1 => run_hammer_levels once p base max_addr fuel n mem1 (depth + 1) s1)
        (addr_loops_at p depth) max_addr fuel mem 0 s

/-- The function `run_hammer` of `hammer.c`, every `for` loop being cut after `fuel`
iterations. -/
def run_hammer {σ : Type} (once : Nat → Nat → σ → Option σ) (p : params)
    (base mem max_addr depth fuel : Nat) (s : σ) : Option σ :=
  run_hammer_levels once p base max_addr fuel (MAX_ADDR_LOOPS - depth) mem depth s

/-- An experiment that only records its arguments `(mem, len)`, in call order. -/
def record_experiment (mem len : Nat) (tr : List (Nat × Nat)) : Option (List (Nat × Nat)) :=
  some (tr ++ [(mem, len)])

/-- A region of 4 KiB swept with `step=2:4096` and `step=1:1024`. -/
def short_sweep_cfg : params :=
  { size := 4096, addr_loops := [{ count := 2, step := 4096 }, { count := 1, step := 1024 }] }

/-- A region of 64 KiB swept with `step=2:4096` and `step=3:1024`. -/
def two_level_cfg : params :=
  { size := 65536, addr_loops := [{ count := 2, step := 4096 }, { count := 3, step := 1024 }] }

/-- Scenario S6: a region of 12 KiB swept with `step=0:4096` and `step=3:1024`. -/
def s6_cfg : params :=
  { size := 12288, addr_loops := [{ count := 0, step := 4096 }, { count := 3, step := 1024 }] }

/-! ## `src/hammer.c`: row discovery, the same-bank walk -/

/-- The timing oracle: `timing k a0 a1` is the value the `k`-th call (from 0) of
`hammer(p, addr, 2, p->measure_loops/5, 5)` in one row discovery returns for
`addr = {a0, a1}`.  It may depend on the call as well as on the addresses. -/
abbrev timing_oracle := Nat → Nat → Nat → Nat

/-- The test `t/1000 > p->conflict_th_us` on a `uint64_t t`; the `int` threshold is
converted to `uint64_t` for the comparison. -/
def is_conflict (p : params) (t : Nat) : Bool :=
  decide ((p.conflict_th_us % 2 ^ 64).toNat < t % 2 ^ 64 / 1000)

/-- The state of a row discovery: the memory at `rows[i]` for every index `i` (the
array is `rows[0..rows_len)`, other indices lie outside it), the local `nr_rows`, and
the number of `hammer` calls made so far. -/
structure find_state where
  rows : Int → row
  nr_rows : Int
  calls : Nat

/-- The store `rows[i].len = len`. -/
def set_row_len (rows : Int → row) (i : Int) (len : Nat) : Int → row :=
  fun j => if j = i then { rows j with len := len } else rows j

/-- The stores `rows[i].idx = idx; rows[i].start = start`. -/
def set_row_idx_start (rows : Int → row) (i : Int) (idx : Int) (start : Nat) : Int → row :=
  fun j => if j = i then { rows j with idx := idx, start := start } else rows j

/-- The fuzz loop of `find_rows_in_same_bank`,
`for (fuzz = 0; fuzz <= p->max_fuzz; fuzz += p->fuzz_step, target += p->fuzz_step)`,
with its `uint64_t fuzz`.  It yields the final `is_bank_conflict`, `target` and call
count; the first argument bounds the number of iterations (`none`: bound reached). -/
def fuzz_scan (p : params) (timing : timing_oracle) (anchor : Nat) :
    Nat → Nat → Nat → Nat → Option (Bool × Nat × Nat)
  | 0, _, _, _ => none
  | fuel + 1, fuzz, target, calls =>
    if fuzz ≤ p.max_fuzz then
      if is_conflict p (timing calls anchor target) then some (true, target, calls + 1)
      else
        fuzz_scan p timing anchor fuel ((fuzz + p.fuzz_step) % 2 ^ 64) (target + p.fuzz_step)
          (calls + 1)
    else some (false, target, calls)

/-- The body of `find_rows_in_same_bank` after a conflict at `target`:
`if (nr_rows > 0) rows[nr_rows - 1].len = target - rows[nr_rows - 1].start;`
`rows[nr_rows].idx = nr_rows; rows[nr_rows++].start = target;`
The pointer difference is stored in the `uint32_t len`. -/
def accept_row (st : find_state) (target calls : Nat) : find_state :=
  let rows1 :=
    if st.nr_rows > 0 then
      set_row_len st.rows (st.nr_rows - 1)
        ((((target : Int) - ((st.rows (st.nr_rows - 1)).start : Int)) % 2 ^ 32).toNat)
    else st.rows
  { rows := set_row_idx_start rows1 st.nr_rows st.nr_rows target
    nr_rows := st.nr_rows + 1
    calls := calls }

/-- The outer loop of `find_rows_in_same_bank`,
`for (uint64_t off = p->offset0; off < len; off += step)`, with `step` an `int` added
to a `uint64_t`.  `ffuel` bounds each fuzz loop and the first argument after it the
iterations of this loop (`none`: a bound was reached). -/
def find_rows_loop (p : params) (timing : timing_oracle) (mem : Nat) (step : Int) (len : Nat)
    (rows_len : Int) (ffuel : Nat) : Nat → Nat → find_state → Option find_state
  | 0, _, _ => none
  | fuel + 1, off, st =>
    if off < len then
      match fuzz_scan p timing mem ffuel 0 (mem + off) st.calls with
      | none => none
      | some (is_bank_conflict, target, calls) =>
        let off1 := (((off : Int) + step) % 2 ^ 64).toNat
        if is_bank_conflict = false then
          find_rows_loop p timing mem step len rows_len ffuel fuel off1 { st with calls := calls }
        else
          let st1 := accept_row st target calls
          if st1.nr_rows = rows_len then some st1
          else find_rows_loop p timing mem step len rows_len ffuel fuel off1 st1
    else some st

/-- The renumbering `rows[row].idx = row` after the sort, the sorted rows being
written back to `rows[0..nr_rows)`. -/
def store_sorted (rows : Int → row) (sorted : List row) : Int → row :=
  fun j =>
    if 0 ≤ j then
      match sorted.get? j.toNat with
      | some r => { r with idx := j }
      | none => rows j
    else rows j

/-- The function `find_rows_in_same_bank` of `hammer.c` (`base` is only printed).
`rows0` is the memory at and around the uninitialised array `rows` before the call;
`qsort_r` stands for the C library call
`qsort_r(rows, nr_rows, sizeof(*rows), row_compar, p)` on `rows[0..nr_rows)`;
`fuel` bounds the iterations of every loop.  The result holds the returned `nr_rows`
and the memory at `rows[i]` after the call; `none` means `die` or a bound reached. -/
def find_rows_in_same_bank (p : params) (timing : timing_oracle)
    (qsort_r : List row → List row) (mem : Nat) (step : Int) (len : Nat)
    (rows0 : Int → row) (rows_len : Int) (fuel : Nat) : Option find_state :=
  match find_rows_loop p timing mem step len rows_len fuel fuel p.offset0
      { rows := rows0, nr_rows := 0, calls := 0 } with
  | none => none
  | some st =>
    let rows1 := set_row_len st.rows (st.nr_rows - 1) (st.rows (st.nr_rows - 2)).len
    if p.sort_rows ≠ 0 then
      if p.pagemap = 0 then none
      else
        let sorted := qsort_r ((List.range st.nr_rows.toNat).map (fun (i : Nat) => rows1 i))
        some { st with rows := store_sorted rows1 sorted }
    else some { st with rows := rows1 }

/-- The rows a discovery returns: `rows[0..nr_rows)`. -/
def found_rows (st : find_state) : List row :=
  (List.range st.nr_rows.toNat).map (fun (i : Nat) => st.rows i)

/-- Uninitialised row memory, every field holding `junk`. -/
def junk_rows (junk : Nat) : Int → row := fun _ => { idx := junk, start := junk, len := junk }

/-- An oracle that reports a conflict (5 ms) exactly for the targets in `hits`. -/
def conflict_at (hits : List Nat) : timing_oracle :=
  fun _ _ target => if target ∈ hits then 5000000 else 1000

/-- The address of the region in the concrete walks below. -/
def walk_mem : Nat := 1048576

/-- A walk over 14 KiB without fuzz in steps of 4 KiB from offset 4 KiB
(`size=14336`, `find_step=4096`, `offset0=4096`, `n_rows=3`), threshold 1000 us. -/
def plain_walk_cfg : params :=
  { size := 14336, find_step := 4096, max_fuzz := 0, fuzz_step := 64, offset0 := 4096, conflict_th_us := 1000,
    n_rows := 3 }

/-- A walk over 8 KiB in steps of 4 KiB whose fuzz window spans one step in
increments of 1 KiB (`size=8192`, `find_step=4096`, `max_fuzz=4096`, `fuzz_step=1024`,
`offset0=0`), threshold 1000 us. -/
def step_fuzz_cfg : params :=
  { size := 8192, find_step := 4096, max_fuzz := 4096, fuzz_step := 1024, offset0 := 0,
    conflict_th_us := 1000, n_rows := 2 }

/-- A walk over 8 GiB in steps of 1 GiB from offset 1 GiB (`size=8G`, `find_step=1G`,
`offset0=1G`), threshold 1000 us. -/
def huge_walk_cfg : params :=
  { size := 8 * 1024 * 1024 * 1024, find_step := 1024 * 1024 * 1024, max_fuzz := 0,
    fuzz_step := 64, offset0 := 1024 * 1024 * 1024, conflict_th_us := 1000, n_rows := 2 }

/-- The rows found so far are numbered in order, and each row but the last has as
`len` the difference to the next start, as stored in a `uint32_t`. -/
def rows_linked (st : find_state) : Prop :=
  0 ≤ st.nr_rows ∧
  (∀ i : Int, 0 ≤ i → i < st.nr_rows → (st.rows i).idx = i) ∧
  (∀ i : Int, 0 ≤ i → i + 1 < st.nr_rows →
    ((st.rows i).len : Int)
      = (((st.rows (i + 1)).start : Int) - ((st.rows i).start : Int)) % 2 ^ 32)

/-- The starts found so far lie in `[lo, hi)` and below `cur`, and increase strictly. -/
def rows_ascending (lo hi cur : Nat) (st : find_state) : Prop :=
  (∀ i : Int, 0 ≤ i → i < st.nr_rows →
    lo ≤ (st.rows i).start ∧ (st.rows i).start < hi ∧ (st.rows i).start < cur) ∧
  (∀ i : Int, 0 ≤ i → i + 1 < st.nr_rows → (st.rows i).start < (st.rows (i + 1)).start)

/-- The `uint64_t` counters `off` and `fuzz` of the walk do not wrap: the step is
positive, and `len + step` and `max_fuzz + fuzz_step` stay within 64 bits. -/
def walk_no_wrap (p : params) (step : Int) (len : Nat) : Prop :=
  0 < step ∧ (len : Int) + step ≤ 2 ^ 64 ∧ p.max_fuzz + p.fuzz_step < 2 ^ 64

/-- The result of the plain walk over 14 KiB with conflicts at the offsets 4, 8 and
12 KiB (the state of an empty discovery if there were none). -/
def plain_walk_result : find_state :=
  (find_rows_in_same_bank plain_walk_cfg
    (conflict_at [walk_mem + 4096, walk_mem + 8192, walk_mem + 12288]) id walk_mem
    plain_walk_cfg.find_step plain_walk_cfg.size (junk_rows 7) plain_walk_cfg.n_rows 20).getD
    { rows := junk_rows 7, nr_rows := 0, calls := 0 }

/-! ## `src/lib.c`, `src/mm.c`: the linearizer -/

/-- `PTE_PRESENT`, `(1ULL << 63)`. -/
def PTE_PRESENT : Nat := 2 ^ 63

/-- `PTE_SWAP`, `(1ULL << 62)`. -/
def PTE_SWAP : Nat := 2 ^ 62

/-- `PTE_PFN_MASK`, `((1ULL << 55) - 1)`. -/
def PTE_PFN_MASK : Nat := 2 ^ 55 - 1

/-- The file `/proc/<pid>/pagemap` of the process: the 64-bit entry of each virtual page
number. The address space of the process is represented by this table. -/
abbrev proc_pagemap := Nat → Nat

/-- `physical_address` of `lib.c`; `page_size` is `sysconf(_SC_PAGE_SIZE)`. `none` is `die`
(page not present, or swapped out); opening and reading the pagemap are taken to succeed. -/
def physical_address (pm : proc_pagemap) (page_size virtual_address : Nat) : Option Nat :=
  let virtual_page_number := virtual_address / page_size
  let page_offset := virtual_address % page_size
  let pte := pm virtual_page_number % 2 ^ 64
  if pte &&& PTE_PRESENT = 0 then none
  else if pte &&& PTE_SWAP ≠ 0 then none
  else some (((pte &&& PTE_PFN_MASK) * page_size + page_offset) % 2 ^ 64)

/-- `struct page` of `mm.c`. -/
structure page where
  virt : Nat
  phys : Nat
  consec_len : Int
  deriving DecidableEq, Repr

/-- `struct range` of `mm.c`; `virt_addrs` holds the entries of the array written so far,
`virt_addrs[next_page]` up to `virt_addrs[nr_pages - 1]`. -/
structure range where
  nr_pages : Int
  virt_addrs : List Nat
  deriving DecidableEq, Repr

/-- `page_compar`. -/
def page_compar (page0 page1 : page) : Int :=
  if page0.phys < page1.phys then -1 else 1

/-- `range_compar`. -/
def range_compar (range0 range1 : range) : Int :=
  if range0.nr_pages > range1.nr_pages then -1 else 1

/-- The two calls of the C library `qsort` in `get_contig_ranges`: on the array of pages with
`page_compar`, and on the array of ranges with `range_compar`. The order of elements that the
comparison does not separate is the library's choice, so the sort is a parameter. -/
structure libc_qsort where
  pages : List page → List page
  ranges : List range → List range

/-- The first loop of `get_contig_ranges`: `count` pages from index `page_idx` on, each with
its virtual and physical address. `consec_len` is not initialised by the code (written here
as 0); every entry is assigned by the marking loop before it is read. -/
def collect_pages (pm : proc_pagemap) (page_size virtual_address : Nat) :
    Nat → Nat → Option (List page)
  | 0, _ => some []
  | count + 1, page_idx =>
    let offset := page_idx * page_size
    match physical_address pm page_size (virtual_address + offset) with
    | none => none
    | some phys =>
      match collect_pages pm page_size virtual_address count (page_idx + 1) with
      | none => none
      | some rest => some ({ virt := virtual_address + offset, phys := phys, consec_len := 0 } :: rest)

/-- The marking loop of `get_contig_ranges` from index `page_idx` on: `prev` is
`pages[page_idx - 1]` with the value of `consec_len` it has at that point, the list is
`pages[page_idx..]`. Returns the pages from `page_idx - 1` on as the loop leaves them, and
`range_count`. -/
def mark_consec (page_size : Nat) : page → List page → Int → List page × Int
  | prev, [], range_count => ([prev], range_count)
  | prev, pg :: rest, range_count =>
    if pg.phys = (prev.phys + page_size) % 2 ^ 64 then
      let out := mark_consec page_size { pg with consec_len := prev.consec_len + 1 } rest range_count
      ({ prev with consec_len := 0 } :: out.1, out.2)
    else
      let out := mark_consec page_size { pg with consec_len := 1 } rest (range_count + 1)
      (prev :: out.1, out.2)

/-- The loop of `get_contig_ranges` that builds the ranges; the list is the pages in the order
the loop visits them (`page_count - 1` down to 0), `acc` is `ranges[range_idx]`,
`ranges[range_idx - 1]`, ..., `ranges[0]`. `none` is a store through `ranges[-1]` or at a
negative index of `virt_addrs`. -/
def build_ranges : List page → List range → Int → Option (List range)
  | [], acc, _ => some acc.reverse
  | pg :: rest, acc, next_page =>
    let consec_len := pg.consec_len
    let acc1 := if consec_len > 0 then { nr_pages := consec_len, virt_addrs := [] } :: acc else acc
    let next1 := if consec_len > 0 then consec_len else next_page
    match acc1 with
    | [] => none
    | cur :: done =>
      if next1 - 1 < 0 then none
      else build_ranges rest ({ cur with virt_addrs := pg.virt :: cur.virt_addrs } :: done) (next1 - 1)

/-- `get_contig_ranges` of `mm.c` (its parameter `p` is not used by the code): the returned
count and the array `*ret_ranges`. `none` is `die`, or undefined behaviour: no page at all
(`pages[0]` is written in an empty allocation), or a number of built ranges other than
`range_count` (the array has `range_count` slots and `qsort` reads that many). -/
def get_contig_ranges (qs : libc_qsort) (pm : proc_pagemap) (page_size virtual_address len : Nat) :
    Option (Int × List range) :=
  let page_count := len / page_size
  if len % page_size ≠ 0 then none
  else
    match collect_pages pm page_size virtual_address page_count 0 with
    | none => none
    | some pages =>
      match qs.pages pages with
      | [] => none
      | first :: rest =>
        let marked := mark_consec page_size { first with consec_len := 1 } rest 1
        match build_ranges marked.1.reverse [] 0 with
        | none => none
        | some ranges =>
          if (ranges.length : Int) ≠ marked.2 then none
          else some (marked.2, qs.ranges ranges)

/-- `mremap(old_address, page_size, page_size, MREMAP_FIXED | MREMAP_MAYMOVE, new_address)`:
the page at `old_address` moves to `new_address`, replacing what was mapped there. The call
is taken to succeed. -/
def mremap (pm : proc_pagemap) (page_size old_address new_address : Nat) : proc_pagemap :=
  fun vpn =>
    if vpn = new_address / page_size then pm (old_address / page_size)
    else if vpn = old_address / page_size then 0
    else pm vpn

/-- `mmap(NULL, len, PROT_READ|PROT_WRITE, MAP_ANONYMOUS | MAP_PRIVATE, -1, 0)` returning
`new_range`: the pages of the new mapping are not populated. -/
def mmap_anon (pm : proc_pagemap) (page_size new_range len : Nat) : proc_pagemap :=
  fun vpn =>
    if new_range / page_size ≤ vpn ∧ vpn * page_size < new_range + len then 0 else pm vpn

/-- The inner loop of `linearize_ranges` over the entries `virt_addrs[j]` of one range. -/
def remap_pages (page_size new_range : Nat) : List Nat → proc_pagemap → Nat → proc_pagemap × Nat
  | [], pm, offset => (pm, offset)
  | va :: rest, pm, offset =>
    remap_pages page_size new_range rest (mremap pm page_size va (new_range + offset))
      (offset + page_size)

/-- The outer loop of `linearize_ranges`. `none`: a range whose array has fewer entries than
`nr_pages` (the loop would read past them). -/
def remap_ranges (page_size new_range : Nat) : List range → proc_pagemap → Nat → Option proc_pagemap
  | [], pm, _ => some pm
  | r :: rest, pm, offset =>
    if (r.virt_addrs.length : Int) < r.nr_pages then none
    else
      let out := remap_pages page_size new_range (r.virt_addrs.take r.nr_pages.toNat) pm offset
      remap_ranges page_size new_range rest out.1 out.2

/-- `linearize_ranges` of `mm.c`: the returned address and the address space afterwards.
`new_range` is the address the kernel chooses for the new mapping. -/
def linearize_ranges (pm : proc_pagemap) (page_size new_range : Nat) (ranges : List range)
    (nr_ranges : Int) (len : Nat) : Option (Nat × proc_pagemap) :=
  if len % page_size ≠ 0 then none
  else if (ranges.length : Int) < nr_ranges then none
  else
    match remap_ranges page_size new_range (ranges.take nr_ranges.toNat)
        (mmap_anon pm page_size new_range len) 0 with
    | none => none
    | some pm1 => some (new_range, pm1)

/-- `linearize_alloc` of `mm.c`. -/
def linearize_alloc (qs : libc_qsort) (p : params) (pm : proc_pagemap)
    (page_size new_range mem len : Nat) : Option (Nat × proc_pagemap) :=
  if p.pagemap = 0 then some (mem, pm)
  else
    match get_contig_ranges qs pm page_size mem len with
    | none => none
    | some (nr_ranges, ranges) =>
      if nr_ranges = 1 then some (mem, pm)
      else linearize_ranges pm page_size new_range ranges nr_ranges len

/-! ### Notions and inputs for the linearizer statements -/

/-- A sort by insertion with the comparison `cmp` of a `qsort` call: `a` stays before `b`
unless `cmp b a < 0`. -/
def insertion_sort {α : Type} (cmp : α → α → Int) (l : List α) : List α :=
  l.insertionSort (fun a b => ¬ cmp b a < 0)

/-- One admissible C library sort. -/
def insertion_qsort : libc_qsort :=
  { pages := insertion_sort page_compar, ranges := insertion_sort range_compar }

/-- What is assumed of a `qsort` call with comparison `cmp`: the result is a rearrangement
of the input in which no element is followed by one that compares smaller. -/
def sorts_with {α : Type} (cmp : α → α → Int) (sort : List α → List α) : Prop :=
  ∀ l, (sort l).Perm l ∧ (sort l).Pairwise (fun a b => ¬ cmp b a < 0)

/-- Both `qsort` calls sort. -/
def libc_qsort.correct (qs : libc_qsort) : Prop :=
  sorts_with page_compar qs.pages ∧ sorts_with range_compar qs.ranges

/-- A pagemap in which page `i` of the region at `mem` is present on frame `frames[i]`. -/
def pagemap_of (page_size mem : Nat) (frames : List Nat) : proc_pagemap :=
  fun vpn =>
    if mem / page_size ≤ vpn ∧ vpn - mem / page_size < frames.length then
      PTE_PRESENT + frames.getD (vpn - mem / page_size) 0
    else 0

/-- Physical addresses of the `count` pages from `mem` on. -/
def region_phys (pm : proc_pagemap) (page_size mem count : Nat) : List (Option Nat) :=
  (List.range count).map (fun (k : Nat) => physical_address pm page_size (mem + k * page_size))

/-- The virtual and the physical address of a page record. -/
def page.addrs (pg : page) : Nat × Nat := (pg.virt, pg.phys)

/-- Puts a page in front of the first run. -/
def cons_run (a : Nat × Nat) : List (List (Nat × Nat)) → List (List (Nat × Nat))
  | [] => [[a]]
  | R :: Rs => (a :: R) :: Rs

/-- The runs of the page list `a :: rest` (pairs of virtual and physical address): a run is
cut wherever the physical address of the next page is not the previous one plus one page,
with the test the marking loop makes. -/
def runs_from (page_size : Nat) : Nat × Nat → List (Nat × Nat) → List (List (Nat × Nat))
  | a, [] => [[a]]
  | a, b :: rest =>
    if b.2 = (a.2 + page_size) % 2 ^ 64 then cons_run a (runs_from page_size b rest)
    else [a] :: runs_from page_size b rest

/-- The page records of one run as the marking loop leaves them: `consec_len` is 0 on every
page but the last, which carries the length of the run (plus `e`). -/
def mark_run : Int → List (Nat × Nat) → List page
  | _, [] => []
  | e, [a] => [{ virt := a.1, phys := a.2, consec_len := 1 + e }]
  | e, a :: b :: rest => { virt := a.1, phys := a.2, consec_len := 0 } :: mark_run (e + 1) (b :: rest)

/-- The range record of a run. -/
def to_range (R : List (Nat × Nat)) : range :=
  { nr_pages := R.length, virt_addrs := R.map Prod.fst }

/-- The frame number in the pagemap entry of a virtual page number. -/
def frame_of (pm : proc_pagemap) (vpn : Nat) : Nat :=
  (pm vpn % 2 ^ 64) &&& PTE_PFN_MASK

/-- The `count` pages of the region at `mem` are present and not swapped out, and the
physical address of the page after each of them is below `2 ^ 64`. -/
def region_mapped (pm : proc_pagemap) (page_size mem count : Nat) : Prop :=
  ∀ i < count,
    (pm (mem / page_size + i) % 2 ^ 64) &&& PTE_PRESENT ≠ 0 ∧
    (pm (mem / page_size + i) % 2 ^ 64) &&& PTE_SWAP = 0 ∧
    (frame_of pm (mem / page_size + i) + 1) * page_size < 2 ^ 64

/-- The `count` pages of the region at `mem` are on pairwise distinct frames. -/
def distinct_frames (pm : proc_pagemap) (page_size mem count : Nat) : Prop :=
  ∀ i < count, ∀ j < count,
    frame_of pm (mem / page_size + i) = frame_of pm (mem / page_size + j) → i = j

/-- The virtual addresses of the `count` pages of the region at `mem`. -/
def region_pages (page_size mem count : Nat) : List Nat :=
  (List.range count).map (fun (i : Nat) => mem + i * page_size)

/-- Page `b` is physically the page after page `a`. -/
def phys_next (pm : proc_pagemap) (page_size a b : Nat) : Prop :=
  ∃ x, physical_address pm page_size a = some x ∧ physical_address pm page_size b = some (x + page_size)

/-- The page records the first loop of `get_contig_ranges` builds for a mapped region. -/
def region_records (pm : proc_pagemap) (page_size mem count : Nat) : List page :=
  (List.range' 0 count).map (fun (i : Nat) =>
    ({ virt := mem + i * page_size, phys := frame_of pm (mem / page_size + i) * page_size,
       consec_len := 0 } : page))

/-- The test of `phys_next` as a Boolean. -/
def phys_next_b (pm : proc_pagemap) (page_size a b : Nat) : Bool :=
  match physical_address pm page_size a, physical_address pm page_size b with
  | some x, some y => y == x + page_size
  | _, _ => false

/-- A configuration that asks for linearization (`pagemap=1`). -/
def linearizer_cfg : params := { pagemap := 1 }

/-- Pages P0..P3 on the frames 30, 10, 20, 40. -/
def s5_pagemap : proc_pagemap := pagemap_of 4096 walk_mem [30, 10, 20, 40]

/-- Pages P0, P1, P2 on the frames 5, 6, 1: the run P0, P1 and the single page P2. -/
def split_pagemap : proc_pagemap := pagemap_of 4096 walk_mem [5, 6, 1]

/-- Six pages on the frames 5, 6, 1, 7, 2, 9: the runs 5, 6, 7 and 1, 2, and the page 9. -/
def mixed_pagemap : proc_pagemap := pagemap_of 4096 walk_mem [5, 6, 1, 7, 2, 9]

/-! ## `src/hammer.c`: the sort key `physaddr_to_row` -/

/-- The function `physaddr_to_row` of `hammer.c` on a `uintptr_t addr`; the result is an
`unsigned int`.  `none`: the shift count is negative or not below 64, the width of
`uintptr_t`, for which `addr >> sort_rows_shift` has no defined value in C. -/
def physaddr_to_row (addr : Nat) (sort_rows_shift : Int) : Option Nat :=
  if sort_rows_shift < 0 ∨ 64 ≤ sort_rows_shift then none
  else
    let row := ((addr % 2 ^ 64) >>> sort_rows_shift.toNat) &&& 0xffff
    let bit3 := (row &&& (1 <<< 3)) >>> 3
    let row1 := row ^^^ (bit3 <<< 2)
    let row2 := row1 ^^^ (bit3 <<< 1)
    some (row2 % 2 ^ 32)

/-- Bits `[s, s + 16)` of a 64-bit address. -/
def row_bits (addr s : Nat) : Nat := addr % 2 ^ 64 / 2 ^ s % 2 ^ 16

/-! ## `src/lib.c`: `hammer` and the single-CPU path of `parallel_hammer` -/

/-- The constant `INT64_MAX`. -/
def INT64_MAX : Nat := 2 ^ 63 - 1

/-- The monotonic clock: `clock k` is the `uint64_t` the `k`-th call (from 0) of `ns()`
returns; `clock_gettime` is taken to succeed. -/
abbrev clock_readings := Nat → Nat

/-- The timing loop of `hammer`, `for (int t = 0; t < timing_loops; t++)`, with `k` rounds
left, `c` calls of `ns()` made so far and the current `mintime`: each round reads the
clock before and after the access loop (`delta = ns()-start` in `uint64_t`) and keeps the
smaller value.  Returns `mintime` and the number of clock calls. -/
def hammer_rounds (clock : clock_readings) : Nat → Nat → Nat → Nat × Nat
  | 0, c, mintime => (mintime, c)
  | k + 1, c, mintime =>
    let start := clock c % 2 ^ 64
    let delta := (clock (c + 1) % 2 ^ 64 + 2 ^ 64 - start) % 2 ^ 64
    hammer_rounds clock k (c + 2) (if delta < mintime then delta else mintime)

/-- The function `hammer` of `lib.c`, started after `c` clock calls: the returned
`mintime * timing_loops` (in `uint64_t`) and the number of clock calls made.  The
accesses `*(addr[k])`, the flushes and the delay loop have no part in the value; they
are what takes the time the clock shows. -/
def hammer (clock : clock_readings) (c : Nat) (_p : params) (_addr : List Nat)
    (_count _loops timing_loops : Int) : Nat × Nat :=
  let r := hammer_rounds clock timing_loops.toNat c INT64_MAX
  (r.1 * (timing_loops % 2 ^ 64).toNat % 2 ^ 64, r.2)

/-- The function `parallel_hammer` of `lib.c`, started after `c` clock calls: the
returned value and the number of clock calls made.  With `params->nr_cpus < 2` it is
`start = ns(); (void) hammer(...); return ns() - start;`.  The path through the worker
threads is not described here: `threaded c` stands for what it returns. -/
def parallel_hammer (threaded : Nat → Nat × Nat) (clock : clock_readings) (c : Nat)
    (params : params) (rows : List Nat) (row_count loops timing_loops : Int) : Nat × Nat :=
  if params.nr_cpus < 2 then
    let start := clock c % 2 ^ 64
    let h := hammer clock (c + 1) params rows row_count loops timing_loops
    ((clock h.2 % 2 ^ 64 + 2 ^ 64 - start) % 2 ^ 64, h.2 + 1)
  else threaded c

/-- The nanoseconds run `t` of a `hammer` call started after `c` clock calls takes. -/
def run_elapsed (clock : clock_readings) (c t : Nat) : Nat :=
  (clock (c + 2 * t + 1) % 2 ^ 64 + 2 ^ 64 - clock (c + 2 * t) % 2 ^ 64) % 2 ^ 64

/-- Clock readings 10, 10, 20, 20, 50, 50: time passes only inside the two hammered
runs, 10 ns in the first and 30 ns in the second. -/
def two_run_clock : clock_readings := fun k => [10, 10, 20, 20, 50, 50].getD k 50

/-- A configuration with one CPU. -/
def one_cpu_cfg : params := { cpus := [0], nr_cpus := 1 }

/-! ## `src/params.c`: numbers and `step` entries -/

/-- The C library `isspace` in the C locale: space, `\t`, `\n`, `\v`, `\f`, `\r`. -/
def isspace (ch : Char) : Bool :=
  ch.toNat = 32 || (9 ≤ ch.toNat && ch.toNat ≤ 13)

/-- The value of a character as a digit: `0`..`9`, then the letters of either case from
10 on. -/
def digit_val (ch : Char) : Option Nat :=
  if 48 ≤ ch.toNat ∧ ch.toNat ≤ 57 then some (ch.toNat - 48)
  else if 97 ≤ ch.toNat ∧ ch.toNat ≤ 122 then some (ch.toNat - 97 + 10)
  else if 65 ≤ ch.toNat ∧ ch.toNat ≤ 90 then some (ch.toNat - 65 + 10)
  else none

/-- The character is a digit of the base. -/
def is_digit (base : Nat) (ch : Char) : Bool :=
  match digit_val ch with
  | some v => decide (v < base)
  | none => false

/-- The string starts with `0x` or `0X` and a hexadecimal digit. -/
def starts_with_0x (s : List Char) : Bool :=
  match s with
  | c0 :: c1 :: c2 :: _ => c0 = '0' && (c1 = 'x' || c1 = 'X') && is_digit 16 c2
  | _ => false

/-- The C library `strtoull(nptr, &endptr, base)` for base 10 and 16, as the C standard
describes it (7.22.1.4): white space is skipped, a sign and, in base 16, a prefix `0x`
may precede the digits; the value is that of the longest run of digits, `ULLONG_MAX`
when it does not fit, negated in `unsigned long long` after a minus sign; `endptr` is
the rest of the string behind the digits.  Without a digit the value is 0 and `endptr`
is `nptr`.  A string is the list of its characters before the terminating zero. -/
def strtoull (nptr : List Char) (base : Nat) : Nat × List Char :=
  let s1 := nptr.dropWhile isspace
  let s2 := if s1.head? = some '-' ∨ s1.head? = some '+' then s1.tail else s1
  let s3 := if base = 16 ∧ starts_with_0x s2 = true then s2.drop 2 else s2
  let digits := s3.takeWhile (is_digit base)
  if digits = [] then (0, nptr)
  else
    let v := digits.foldl (fun acc ch => acc * base + (digit_val ch).getD 0) 0
    (if 2 ^ 64 ≤ v then 2 ^ 64 - 1
     else if s1.head? = some '-' then (2 ^ 64 - v) % 2 ^ 64 else v,
     s3.dropWhile (is_digit base))

/-- The function `to_uint64_t` of `params.c`; `none` is `die`.  The `switch (*endptr)`
falls through from `G` to `M` to `K`, each step being `llvalue *= 1024` in `uint64_t`. -/
def to_uint64_t (value : List Char) : Option Nat :=
  let r := strtoull value 10
  if value = [] then none
  else
    let r1 : Nat × List Char :=
      match r.2 with
      | ch :: rest =>
        if ch = 'G' then (r.1 * 1024 % 2 ^ 64 * 1024 % 2 ^ 64 * 1024 % 2 ^ 64, rest)
        else if ch = 'M' then (r.1 * 1024 % 2 ^ 64 * 1024 % 2 ^ 64, rest)
        else if ch = 'K' then (r.1 * 1024 % 2 ^ 64, rest)
        else (r.1, r.2)
      | [] => (r.1, [])
    if r1.2 ≠ [] then none else some r1.1

/-- The function `parse_hex` of `params.c`; `none` is `die`. -/
def parse_hex (value : List Char) : Option Nat :=
  let r := strtoull value 16
  if r.2 ≠ [] then none else some r.1

/-- The conversion of a `uint64_t` to `int` in an assignment (the low 32 bits, as a
two's complement value). -/
def to_int (v : Nat) : Int :=
  if v % 2 ^ 32 < 2 ^ 31 then (v % 2 ^ 32 : Nat) else (v % 2 ^ 32 : Nat) - 2 ^ 32

/-- The loop `for (cur = 0; cur < MAX_ADDR_LOOPS; cur++) if (p->addr_loops[cur].step == 0)
break;` of `parse_step`, with `k` iterations left: the value of `cur` after it. -/
def find_free_loop (p : params) : Nat → Nat → Nat
  | 0, cur => cur
  | k + 1, cur =>
    if (addr_loops_at p cur).step = 0 then cur else find_free_loop p k (cur + 1)

/-- The array `addr_loops` with the entry at `cur` replaced (entries the list does not
hold yet are the zeros of `set_defaults`). -/
def set_addr_loop (l : List addr_loop) (cur : Nat) (e : addr_loop) : List addr_loop :=
  (l ++ List.replicate (cur + 1 - l.length) ({ count := 0, step := 0 } : addr_loop)).set cur e

/-- The function `parse_step` of `params.c` on the value of a `step=` line; `none` is
`die`.  `strchr(value, ':')` finds the first colon, which is overwritten by a zero. -/
def parse_step (p : params) (value : List Char) : Option params :=
  if value.dropWhile (fun ch => ch ≠ ':') = [] then none
  else
    let cur := find_free_loop p MAX_ADDR_LOOPS 0
    if cur = MAX_ADDR_LOOPS then none
    else
      match to_uint64_t (value.takeWhile (fun ch => ch ≠ ':')) with
      | none => none
      | some count =>
        match to_uint64_t (value.dropWhile (fun ch => ch ≠ ':')).tail with
        | none => none
        | some step =>
          if to_int step = 0 then none
          else
            let entry : addr_loop := { count := to_int count, step := to_int step }
            some { p with addr_loops := set_addr_loop p.addr_loops cur entry }

/-- The value a non-empty run of decimal digits denotes. -/
def decimal_value (ds : List Char) : Nat :=
  ds.foldl (fun acc ch => acc * 10 + (ch.toNat - 48)) 0

/-- The character is one of `0`..`9`. -/
def is_decimal (ch : Char) : Bool := decide (48 ≤ ch.toNat ∧ ch.toNat ≤ 57)

/-- The strings `to_uint64_t` takes a number from: white space, an optional sign, a
non-empty run of decimal digits and an optional `K`, `M` or `G`, and nothing else. -/
def numeric_shape (value : List Char) : Prop :=
  ∃ ws sign ds suf, value = ws ++ sign ++ ds ++ suf ∧ (∀ ch ∈ ws, isspace ch = true) ∧
    (sign = [] ∨ sign = ['+'] ∨ sign = ['-']) ∧ ds ≠ [] ∧ (∀ ch ∈ ds, is_decimal ch = true) ∧
    (suf = [] ∨ suf = ['K'] ∨ suf = ['M'] ∨ suf = ['G'])

/-- The strings `parse_hex` takes a number from: white space, an optional sign, an
optional `0x` or `0X`, a non-empty run of hexadecimal digits, and nothing else. -/
def hex_shape (value : List Char) : Prop :=
  ∃ ws sign pre hs, value = ws ++ sign ++ pre ++ hs ∧ (∀ ch ∈ ws, isspace ch = true) ∧
    (sign = [] ∨ sign = ['+'] ∨ sign = ['-']) ∧
    (pre = [] ∨ pre = ['0', 'x'] ∨ pre = ['0', 'X']) ∧
    hs ≠ [] ∧ (∀ ch ∈ hs, is_digit 16 ch = true)

/-- The `step=` lines of a configuration file in order, from the parameters `p` on:
`set` calls `parse_step` for each. -/
def parse_steps (p : params) : List (List Char) → Option params
  | [] => some p
  | value :: rest =>
    match parse_step p value with
    | none => none
    | some p1 => parse_steps p1 rest

/-- A region of 4 KiB with all eight entries of `addr_loops` in use, each `1:4096`. -/
def eight_step_cfg : params :=
  { size := 4096, addr_loops := List.replicate 8 { count := 1, step := 4096 } }

/-- A region of 4 KiB with seven entries of `addr_loops` in use, each `1:4096`. -/
def seven_step_cfg : params :=
  { size := 4096, addr_loops := List.replicate 7 { count := 1, step := 4096 } }

/-! ## `src/hammer.c`: the experiment `run_hammer_once` and `main` -/

/-- The constant `UINTPTR_MAX`. -/
def UINTPTR_MAX : Nat := 2 ^ 64 - 1

/-- The loop of `get_row_range` over `rows[0..nr_rows)`, on the pair
`(*rowstart, *rowend)`. -/
def get_row_range_loop : List row → Nat × Nat → Nat × Nat
  | [], range => range
  | r :: rs, range =>
    get_row_range_loop rs
      (if r.start < range.1 then r.start else range.1,
       if r.start + r.len > range.2 then r.start + r.len else range.2)

/-- The function `get_row_range` of `hammer.c`: `(*rowstart, *rowend)`. -/
def get_row_range (rows : List row) : Nat × Nat :=
  get_row_range_loop rows (UINTPTR_MAX, 0)

/-- The difference `a - b` of two pointers, converted to `size_t`. -/
def ptr_diff (a b : Nat) : Nat := (((a : Int) - (b : Int)) % 2 ^ 64).toNat

/-- The function `fill_rows_random` of `hammer.c`. -/
def fill_rows_random (p : params) (m : Mem) (rows : List row) : Option Mem :=
  fill p m (get_row_range rows).1 (ptr_diff (get_row_range rows).2 (get_row_range rows).1)

/-- The function `check_rows_random` of `hammer.c`. -/
def check_rows_random (p : params) (m : Mem) (rows : List row) : Option (Nat × Mem) :=
  check p m (get_row_range rows).1 (ptr_diff (get_row_range rows).2 (get_row_range rows).1)

/-- The function `fill_rows` of `hammer.c`. -/
def fill_rows (p : params) (m : Mem) (rows : List row) (shift : Int) : Option Mem :=
  match p.fill_type with
  | fill_type.FILL_RANDOM => fill_rows_random p m rows
  | fill_type.FILL_MOD => fill_rows_mod_k p m rows shift

/-- The function `check_rows` of `hammer.c`: the flip count and the memory the call
leaves behind. -/
def check_rows (p : params) (m : Mem) (rows : List row) (shift : Int) : Option (Nat × Mem) :=
  match p.fill_type with
  | fill_type.FILL_RANDOM => check_rows_random p m rows
  | fill_type.FILL_MOD => some (check_rows_mod_k p m rows shift, m)

/-- What a run does, in order (a record kept beside the program state). -/
inductive event where
  /-- `Can't find enough rows!` for the experiment at `mem`. -/
  | skipped (mem : Nat)
  /-- The two `fill` calls on the rest of memory. -/
  | filled_rest (mem : Nat)
  /-- The call `fill_rows(p, base, rows, p->n_rows, mod)` at the head of a shift. -/
  | filled_rows (shift : Int)
  /-- One `select_and_hammer_aggr` call and the `check_rows` call behind it, with the
  flip count the check returned. -/
  | attempt (shift try_ : Int) (first_try : Bool) (flips : Int)
  /-- The call of `fill_rows` after an attempt. -/
  | refilled (shift : Int)
  /-- One `check` call on the rest of memory, with the count it returned. -/
  | checked_rest (flips : Int)
  deriving DecidableEq, Repr

/-- The state of a run: memory, the three counters of `hammer.c`, and beside them the
number of experiments started, the number of `select_and_hammer_aggr` calls made, and
the record of events. -/
structure run_state where
  mem : Mem
  total_tries : Int
  total_flips : Int
  flips_from_repeats : Int
  experiments : Nat
  hammers : Nat
  log : List event

/-- What the program does not decide itself.  `same_bank e mem len` and `alt e mem len`
are the results of `find_rows_in_same_bank(p, base, mem, p->find_step, len, rows,
p->n_rows)` and `find_rows_alt(p, base, mem, len, rows, p->n_rows)` in experiment
number `e`: the returned `n` and the array `rows[0..n_rows)` (`none`: the call dies).
`time k` is `time(NULL)`, as the `int` it is passed on as, `rand k` the C library
generator and `hammered k` the effect on memory of hammering, each at the `k`-th
`select_and_hammer_aggr` call of the run. -/
structure experiment_env where
  same_bank : Nat → Nat → Nat → Option (Int × List row)
  alt : Nat → Nat → Nat → Option (Int × List row)
  time : Nat → Int
  rand : Nat → libc_rand
  hammered : Nat → hammer_call → Mem → Mem

/-- The `switch (p->alt_row_find)` of `run_hammer_once` in experiment number `e`. -/
def find_rows (env : experiment_env) (p : params) (e mem len : Nat) :
    Option (Int × List row) :=
  if p.alt_row_find = 0 then env.same_bank e mem len
  else if p.alt_row_find = 1 then env.alt e mem len
  else none

/-- The call of `select_and_hammer_aggr` has defined behaviour: the divisors
`p->max_aggr - p->min_aggr + 1` and `n_aggr` are not zero, the array `aggr[p->max_aggr]`
has a positive size and holds `n_aggr` entries, and every picked row is one of
`rows[0..n_rows)`. -/
def hammer_call_defined (p : params) (c : hammer_call) : Bool :=
  decide (p.max_aggr - p.min_aggr + 1 ≠ 0) && decide (0 < p.max_aggr) &&
    decide (c.count ≠ 0) && decide (c.count ≤ p.max_aggr) && c.aggr.all Option.isSome

/-- One round of the `do ... while` loop of `run_hammer_once`, up to the refill: the
state after it and the `flips` of the round. -/
def attempt (env : experiment_env) (p : params) (rows : List row) (shift try_ seed : Int)
    (first_try : Bool) (s : run_state) : Option (run_state × Int) :=
  let call := select_and_hammer_aggr p try_ rows seed (env.rand s.hammers)
  if hammer_call_defined p call = false then none
  else
    match check_rows p (env.hammered s.hammers call s.mem) rows shift with
    | none => none
    | some (flips, m1) =>
      let s1 : run_state :=
        { mem := m1
          total_tries := s.total_tries
          total_flips := if first_try = true then s.total_flips + flips else s.total_flips
          flips_from_repeats :=
            if first_try = true then s.flips_from_repeats else s.flips_from_repeats + flips
          experiments := s.experiments
          hammers := s.hammers + 1
          log := s.log ++ [event.attempt shift try_ first_try flips] }
      if flips ≠ 0 ∨ p.always_refill ≠ 0 then
        match fill_rows p s1.mem rows shift with
        | none => none
        | some m2 =>
          some ({ s1 with mem := m2, log := s1.log ++ [event.refilled shift] }, flips)
      else some (s1, flips)

/-- The `do ... while (p->repeat_flips && rep < p->repeat_flips)` loop of
`run_hammer_once`, entered with the values of `rep` and `first_try`; the first argument
bounds the number of rounds (`none` when it is reached). -/
def attempts_loop (env : experiment_env) (p : params) (rows : List row)
    (shift try_ seed : Int) : Nat → Int → Bool → run_state → Option run_state
  | 0, _, _, _ => none
  | fuel + 1, rep, first_try, s =>
    match attempt env p rows shift try_ seed first_try s with
    | none => none
    | some (s1, flips) =>
      if first_try = true ∧ flips = 0 then some s1
      else if p.repeat_flips ≠ 0 ∧ rep + 1 < p.repeat_flips then
        attempts_loop env p rows shift try_ seed fuel (rep + 1) false s1
      else some s1

/-- The body of the loop over `try` in `run_hammer_once`.  The `do ... while` loop makes
at most `max(1, p->repeat_flips)` rounds. -/
def run_try (env : experiment_env) (p : params) (rows : List row) (shift try_ : Int)
    (s : run_state) : Option run_state :=
  let seed := if p.repeat_flips ≠ 0 then env.time s.hammers else 0
  attempts_loop env p rows shift try_ seed (p.repeat_flips.toNat + 1) 0 true s

/-- The loop `for (int try = mod; try < p->n_tries; try += stride, total_tries++)`; the
first argument bounds the number of rounds (`none` when it is reached). -/
def tries_loop (env : experiment_env) (p : params) (rows : List row) (shift stride : Int) :
    Nat → Int → run_state → Option run_state
  | 0, _, _ => none
  | fuel + 1, try_, s =>
    if try_ < p.n_tries then
      match run_try env p rows shift try_ s with
      | none => none
      | some s1 =>
        tries_loop env p rows shift stride fuel (try_ + stride)
          { s1 with total_tries := s1.total_tries + 1 }
    else some s

/-- The loop `for (int mod = 0; mod < stride; mod++)` of `run_hammer_once`, with `k`
rounds left, at `mod`.  The loop over `try` starts at `mod >= 0` and steps by
`stride > mod`, so it makes at most `n_tries` rounds. -/
def shifts_loop (env : experiment_env) (p : params) (rows : List row) (stride : Int) :
    Nat → Int → run_state → Option run_state
  | 0, _, s => some s
  | k + 1, mod, s =>
    match fill_rows p s.mem rows mod with
    | none => none
    | some m1 =>
      match tries_loop env p rows mod stride (p.n_tries.toNat + 1) mod
          { s with mem := m1, log := s.log ++ [event.filled_rows mod] } with
      | none => none
      | some s1 => shifts_loop env p rows stride k (mod + 1) s1

/-- The size `len-(rowend-mem)` of the second rest of memory, in `size_t`. -/
def rest_len (mem len rowend : Nat) : Nat :=
  (((len : Int) - ((rowend : Int) - (mem : Int))) % 2 ^ 64).toNat

/-- The function `run_hammer_once` of `hammer.c` (`base` is only printed). -/
def run_hammer_once (env : experiment_env) (p : params) (_base mem len : Nat)
    (s : run_state) : Option run_state :=
  match find_rows env p s.experiments mem len with
  | none => none
  | some (n, rows) =>
    let s0 : run_state := { s with experiments := s.experiments + 1 }
    if n ≠ p.n_rows then some { s0 with log := s0.log ++ [event.skipped mem] }
    else
      let range := get_row_range rows
      let filled : Option run_state :=
        if p.check_rest ≠ 0 then
          match fill p s0.mem mem (ptr_diff range.1 mem) with
          | none => none
          | some m1 =>
            match fill p m1 range.2 (rest_len mem len range.2) with
            | none => none
            | some m2 => some { s0 with mem := m2, log := s0.log ++ [event.filled_rest mem] }
        else some s0
      match filled with
      | none => none
      | some s1 =>
        let stride := if p.mod_stride ≠ 0 then p.mod else 1
        match shifts_loop env p rows stride stride.toNat 0 s1 with
        | none => none
        | some s2 =>
          if p.check_rest ≠ 0 then
            match check p s2.mem mem (ptr_diff range.1 mem) with
            | none => none
            | some (d1, m1) =>
              match check p m1 range.2 (rest_len mem len range.2) with
              | none => none
              | some (d2, m2) =>
                some { s2 with
                  mem := m2
                  total_flips := s2.total_flips + d1 + d2
                  log := s2.log ++ [event.checked_rest d1, event.checked_rest d2] }
          else some s2

/-- The state `main` starts the sweep from: the counters are zero. -/
def initial_state (m : Mem) : run_state :=
  { mem := m, total_tries := 0, total_flips := 0, flips_from_repeats := 0,
    experiments := 0, hammers := 0, log := [] }

/-- The function `main` of `hammer.c` from the call of `run_hammer` on: `p` is the
configuration `init` has read, `mem` the address `linearize_alloc` has returned and `m`
the contents of memory.  The exit code `(total_flips > 0) ? 1 : 0`, with the final state. -/
def main (env : experiment_env) (p : params) (mem : Nat) (m : Mem) (fuel : Nat) :
    Option (Int × run_state) :=
  match run_hammer (run_hammer_once env p mem) p mem (mem + p.src_offset) (mem + p.size) 0 fuel
      (initial_state m) with
  | none => none
  | some s => some (if s.total_flips > 0 then 1 else 0, s)

/-! ### Notions and inputs for the statements on `run_hammer_once` -/

/-- The flip count a check reported: that of an attempt or of a `check` call on the rest
of memory; 0 for an event that is no check. -/
def event_flips : event → Int
  | event.attempt _ _ _ flips => flips
  | event.checked_rest flips => flips
  | _ => 0

/-- The flip count of a first attempt or of a check of the rest of memory. -/
def first_flips : event → Int
  | event.attempt _ _ true flips => flips
  | event.checked_rest flips => flips
  | _ => 0

/-- The flip count of a repeat attempt. -/
def repeat_flips : event → Int
  | event.attempt _ _ false flips => flips
  | _ => 0

/-- The counters agree with the record: no check reported a negative count,
`total_flips` is the sum over the first attempts and the checks of the rest,
`flips_from_repeats` the sum over the repeat attempts, and the latter is positive only
if the former is. -/
def accounted (s : run_state) : Prop :=
  (∀ e ∈ s.log, 0 ≤ first_flips e ∧ 0 ≤ repeat_flips e) ∧
  s.total_flips = (s.log.map first_flips).sum ∧
  s.flips_from_repeats = (s.log.map repeat_flips).sum ∧
  (0 < s.flips_from_repeats → 0 < s.total_flips)

/-- The events of the rounds of one try whose checks return the counts `flips`, in order;
`first_try` says whether the first of them is the first attempt of the try. -/
def round_events (p : params) (shift try_ : Int) : Bool → List Int → List event
  | _, [] => []
  | first_try, flips :: rest =>
    (event.attempt shift try_ first_try flips ::
      (if flips ≠ 0 ∨ p.always_refill ≠ 0 then [event.refilled shift] else [])) ++
    round_events p shift try_ false rest

/-- The attempts in a record. -/
def attempt_events (log : List event) : List event :=
  log.filter (fun e => match e with
    | event.attempt _ _ _ _ => true
    | _ => false)

/-- The part of an event in the schedule of an experiment: a fill at the head of a shift
gives `(shift, none)`, a first attempt gives `(shift, some try)`. -/
def schedule_entry : event → Option (Int × Option Int)
  | event.filled_rows shift => some (shift, none)
  | event.attempt shift try_ true _ => some (shift, some try_)
  | _ => none

/-- The schedule in a record: the fills at the head of a shift and the tries, in order. -/
def schedule (log : List event) : List (Int × Option Int) :=
  log.filterMap schedule_entry

/-- The values `try` takes in the loop over `try` from `try_` on, the number of rounds
being bounded like that of the loop. -/
def tries_from (n_tries stride : Int) : Nat → Int → List Int
  | 0, _ => []
  | fuel + 1, try_ =>
    if try_ < n_tries then try_ :: tries_from n_tries stride fuel (try_ + stride) else []

/-- Two rows of one word each at 4096 and 4100. -/
def two_word_rows : List row :=
  [{ idx := 0, start := 4096, len := 4 }, { idx := 1, start := 4100, len := 4 }]

/-- An environment in which every row discovery finds `two_word_rows` and hammering
changes nothing. -/
def quiet_env : experiment_env :=
  { same_bank := fun _ _ _ => some (2, two_word_rows)
    alt := fun _ _ _ => none
    time := fun _ => 1
    rand := fun _ => zero_rand
    hammered := fun _ _ m => m }

/-- An environment in which every row discovery finds `two_word_rows` and every
hammering leaves `0x12345678` in the word at 4096. -/
def flipping_env : experiment_env :=
  { same_bank := fun _ _ _ => some (2, two_word_rows)
    alt := fun _ _ _ => none
    time := fun _ => 1
    rand := fun _ => zero_rand
    hammered := fun _ _ m => write32 m 4096 0x12345678 }

/-- An environment in which the row discovery of the first experiment finds one row only
and the later ones find `two_word_rows`; every hammering leaves `0x12345678` in the word
at 4096. -/
def short_first_env : experiment_env :=
  { same_bank := fun e _ _ => if e = 0 then some (1, two_word_rows) else some (2, two_word_rows)
    alt := fun _ _ _ => none
    time := fun _ => 1
    rand := fun _ => zero_rand
    hammered := fun _ _ m => write32 m 4096 0x12345678 }

/-- `fill_type=mod`, `mod=3`, `mod_stride=1`, `n_tries=3`, two rows, one aggressor,
`check_rest=0`. -/
def shift_cfg : params :=
  { n_rows := 2, min_aggr := 1, max_aggr := 1, hammer_loops := 100, n_tries := 3,
    pattern := pattern.EVEN, fill_type := fill_type.FILL_MOD, mod := 3, mod_stride := 1,
    victim_mask := 1, check_rest := 0 }

/-- `fill_type=mod`, `mod=1`, `n_tries=2`, `repeat_flips=3`, two rows, one aggressor,
`check_rest=0`, a region of 8 KiB swept with `step=2:4096`. -/
def repeat_cfg : params :=
  { n_rows := 2, min_aggr := 1, max_aggr := 1, hammer_loops := 100, n_tries := 2,
    repeat_flips := 3, pattern := pattern.EVEN, fill_type := fill_type.FILL_MOD, mod := 1,
    victim_mask := 1, check_rest := 0, size := 8192,
    addr_loops := [{ count := 2, step := 4096 }] }

/-- The state the first try of an experiment with `repeat_cfg` under `flipping_env`
ends in, from the initial state on zeroed memory. -/
def repeat_try_result : run_state :=
  (run_try flipping_env repeat_cfg two_word_rows 0 0 (initial_state zero_mem)).getD
    (initial_state zero_mem)

/-- The exit code and the final state of the run with `repeat_cfg` under
`short_first_env` on zeroed memory. -/
def repeat_run_result : Int × run_state :=
  (main short_first_env repeat_cfg 0 zero_mem 5).getD (0, initial_state zero_mem)

/-- The schedule of one experiment in the words of the description, `mod_stride` read as
a number: the fill-shifts are those of `[0, mod_stride)`, only `0` when `mod_stride` is
off, and the tries under the shift `s` are `s, s + mod_stride, ...` below `n_tries`, with
step `1` when `mod_stride` is off. -/
def described_schedule (p : params) : List (Int × Option Int) :=
  let step : Int := if p.mod_stride ≠ 0 then p.mod_stride else 1
  (List.range step.toNat).flatMap (fun (s : Nat) =>
    ((s : Int), none) ::
      ((List.range p.n_tries.toNat).map (fun (k : Nat) => (s : Int) + k * step)).filterMap
        (fun t => if t < p.n_tries then some ((s : Int), some t) else none))

/-- The state one experiment with `shift_cfg` under `flipping_env` ends in, from the
initial state on zeroed memory. -/
def shift_run_result : run_state :=
  (run_hammer_once flipping_env shift_cfg 0 0 8192 (initial_state zero_mem)).getD
    (initial_state zero_mem)

/-! ## `src/hammer.c`: row discovery, the alternative finder -/

/-- The constant `MAX_BANKS` of `hammer.c`. -/
def MAX_BANKS : Nat := 16

/-- The state of the bank search of `find_rows_alt`: the memory at `bank[i]` for every
index `i` (the array is `bank[0..MAX_BANKS)`), the locals `found_banks` and `phase`, and
the number of `hammer` calls made so far. -/
structure bank_state where
  bank : Int → Nat
  found_banks : Int
  phase : Int
  calls : Nat

/-- The store `bank[i] = target`. -/
def set_bank (bank : Int → Nat) (i : Int) (target : Nat) : Int → Nat :=
  fun j => if j = i then target else bank j

/-- The loop `for (i = 0; i < found_banks; i++)` of the bank search, which stops at the
first bank in conflict with `target`: the final `i` and call count, with `k` rounds left,
at `i`. -/
def bank_probe (p : params) (timing : timing_oracle) (bank : Int → Nat) (target : Nat)
    (found_banks : Int) : Nat → Int → Nat → Int × Nat
  | 0, i, calls => (i, calls)
  | k + 1, i, calls =>
    if i < found_banks then
      if is_conflict p (timing calls (bank i) target) then (i, calls + 1)
      else bank_probe p timing bank target found_banks k (i + 1) (calls + 1)
    else (i, calls)

/-- The first loop of `find_rows_alt`,
`for (uintptr_t off = p->bank_find_step; off < len && found_banks < p->nr_banks;`
`off += p->atomic_unit)`, the `int`s being added to the `uintptr_t off`.  The first
argument bounds the iterations (`none`: bound reached). -/
def bank_find_loop (p : params) (timing : timing_oracle) (mem len : Nat) :
    Nat → Nat → bank_state → Option bank_state
  | 0, _, _ => none
  | fuel + 1, off, st =>
    if off < len ∧ st.found_banks < p.nr_banks then
      let target := mem + off
      if st.phase = 0 then
        let t := timing st.calls (st.bank (st.found_banks - 1)) target
        bank_find_loop p timing mem len fuel (((off : Int) + p.atomic_unit) % 2 ^ 64).toNat
          { st with phase := if is_conflict p t then 1 else 0, calls := st.calls + 1 }
      else
        let r := bank_probe p timing st.bank target st.found_banks st.found_banks.toNat 0 st.calls
        if r.1 = st.found_banks then
          let off1 := (((off : Int) + p.bank_find_step) % 2 ^ 64).toNat
          bank_find_loop p timing mem len fuel (((off1 : Int) + p.atomic_unit) % 2 ^ 64).toNat
            { bank := set_bank st.bank st.found_banks target
              found_banks := st.found_banks + 1
              phase := 0
              calls := r.2 }
        else
          bank_find_loop p timing mem len fuel (((off : Int) + p.atomic_unit) % 2 ^ 64).toNat
            { st with calls := r.2 }
    else some st

/-- The state of the second loop of `find_rows_alt`: the rows found (as in the same-bank
walk), and the locals `nr_atomic_units`, `row_start`, `cur_bank`, `set_row` and
`addr[0]`. -/
structure alt_state where
  found : find_state
  nr_atomic_units : Int
  row_start : Nat
  cur_bank : Int
  set_row : Int
  addr0 : Nat

/-- The second loop of `find_rows_alt`,
`for (uint64_t off = p->offset0; off < len; off += p->atomic_unit)`.  A row is complete
when `nr_atomic_units == p->row_size`; its stores in `rows` are those of `accept_row`
at `row_start`.  The first argument bounds the iterations (`none`: bound reached). -/
def alt_rows_loop (p : params) (timing : timing_oracle) (bank : Int → Nat) (mem len : Nat)
    (rows_len : Int) : Nat → Nat → alt_state → Option alt_state
  | 0, _, _ => none
  | fuel + 1, off, st =>
    if off < len then
      let target := mem + off
      let off1 := (((off : Int) + p.atomic_unit) % 2 ^ 64).toNat
      let calls := st.found.calls + 1
      if is_conflict p (timing st.found.calls st.addr0 target) = false then
        alt_rows_loop p timing bank mem len rows_len fuel off1
          { st with found := { st.found with calls := calls } }
      else
        let row_start := if st.nr_atomic_units = 0 then target else st.row_start
        let n := st.nr_atomic_units + 1
        if n = p.row_size then
          let found1 := accept_row st.found row_start calls
          let set_row1 := st.set_row + 1
          let cur_bank1 := if set_row1 = p.rows_per_set then st.cur_bank + 1 else st.cur_bank
          let set_row2 := if set_row1 = p.rows_per_set then 0 else set_row1
          let cur_bank2 := if cur_bank1 = p.nr_banks then 0 else cur_bank1
          let st1 : alt_state :=
            { found := found1
              nr_atomic_units := 0
              row_start := row_start
              cur_bank := cur_bank2
              set_row := set_row2
              addr0 := bank cur_bank2 }
          if found1.nr_rows = rows_len then some st1
          else alt_rows_loop p timing bank mem len rows_len fuel off1 st1
        else
          alt_rows_loop p timing bank mem len rows_len fuel off1
            { st with
              found := { st.found with calls := calls }
              nr_atomic_units := n
              row_start := row_start }
    else some st

/-- The function `find_rows_alt` of `hammer.c` (`base` is only printed).  `rows0` and
`bank0` are the memory at and around the uninitialised arrays `rows` and `bank` before
the call; `row_start` is assigned before its first use, whatever it holds at first.
`fuel` bounds the iterations of each of the two loops.  The result holds the returned
`nr_rows` and the memory at `rows[i]` after the call; `none` means a bound reached. -/
def find_rows_alt (p : params) (timing : timing_oracle) (mem len : Nat)
    (rows0 : Int → row) (bank0 : Int → Nat) (rows_len : Int) (fuel : Nat) :
    Option find_state :=
  match bank_find_loop p timing mem len fuel (p.bank_find_step % 2 ^ 64).toNat
      { bank := set_bank bank0 0 mem, found_banks := 1, phase := 0, calls := 0 } with
  | none => none
  | some b =>
    match alt_rows_loop p timing b.bank mem len rows_len fuel p.offset0
        { found := { rows := rows0, nr_rows := 0, calls := b.calls }
          nr_atomic_units := 0
          row_start := 0
          cur_bank := 0
          set_row := 0
          addr0 := b.bank 0 } with
    | none => none
    | some st =>
      if st.found.nr_rows > 0 then
        some { st.found with
          rows := set_row_len st.found.rows (st.found.nr_rows - 1)
            (st.found.rows (st.found.nr_rows - 2)).len }
      else some st.found

/-- Row memory in which the entry at index `i` holds `100 + i` in its `len` (for `i`
from -100 on), so that entries can be told apart. -/
def numbered_rows : Int → row := fun i => { idx := 0, start := 0, len := (100 + i).toNat }

/-- An alternative search over 16 KiB in units of 1 KiB, four units to a row, one bank
(`size=16384`, `atomic_unit=1024`, `row_size=4`, `offset0=0`, `n_rows=3`), threshold
1000 us. -/
def alt_cfg : params :=
  { size := 16384, alt_row_find := 1, atomic_unit := 1024, row_size := 4, offset0 := 0,
    conflict_th_us := 1000, n_rows := 3 }

/-- An oracle that reports a conflict (5 ms) for every pair of addresses. -/
def always_conflict : timing_oracle := fun _ _ _ => 5000000

/-- The `uint64_t` offsets of `find_rows_alt` do not wrap: `bank_find_step` is not
negative, and `len + bank_find_step + atomic_unit` stays within 64 bits. -/
def alt_no_wrap (p : params) (len : Nat) : Prop :=
  0 ≤ p.bank_find_step ∧ (len : Int) + p.bank_find_step + p.atomic_unit ≤ 2 ^ 64

instance alt_no_wrap_decidable (p : params) (len : Nat) : Decidable (alt_no_wrap p len) := by
  unfold alt_no_wrap; infer_instance

/-- A walk over 8 KiB in steps of 4 KiB whose fuzz window is the whole `uint64_t` range
(`size=8192`, `find_step=4096`, `max_fuzz=18446744073709551615`, `fuzz_step=64`,
`offset0=0`, `n_rows=2`), threshold 1000 us. -/
def endless_fuzz_cfg : params :=
  { size := 8192, find_step := 4096, max_fuzz := 2 ^ 64 - 1, fuzz_step := 64, offset0 := 0,
    conflict_th_us := 1000, n_rows := 2 }

/-- The plain walk over 14 KiB with `sort_rows=1` and without `pagemap`. -/
def sort_no_pagemap_cfg : params :=
  { size := 14336, find_step := 4096, max_fuzz := 0, fuzz_step := 64, offset0 := 4096,
    conflict_th_us := 1000, n_rows := 3, sort_rows := 1, pagemap := 0 }

/-- The alternative search of `alt_cfg` without an `n_rows` line: `n_rows` keeps the 0
of `set_defaults`. -/
def alt_no_rows_cfg : params :=
  { size := 16384, alt_row_find := 1, atomic_unit := 1024, row_size := 4, offset0 := 0,
    conflict_th_us := 1000, n_rows := 0 }

/-- A walk in steps of 2 bytes without fuzz (`find_step=2`, `max_fuzz=0`, `offset0=0`,
`n_rows=2`), threshold 1000 us; it is run over a length of `2^64 - 1`. -/
def wrap_walk_cfg : params :=
  { find_step := 2, max_fuzz := 0, fuzz_step := 64, offset0 := 0, conflict_th_us := 1000,
    n_rows := 2 }

/-- An alternative search in units of 2 bytes, one bank (`atomic_unit=2`, `row_size=4`,
`offset0=0`, `n_rows=2`), threshold 1000 us; it is run over a length of `2^64 - 1`. -/
def wrap_alt_cfg : params :=
  { alt_row_find := 1, atomic_unit := 2, row_size := 4, offset0 := 0, conflict_th_us := 1000,
    n_rows := 2 }

/-- The configuration `shift_cfg` with `n_tries=-1`. -/
def negative_tries_cfg : params :=
  { n_rows := 2, min_aggr := 1, max_aggr := 1, hammer_loops := 100, n_tries := -1,
    pattern := pattern.EVEN, fill_type := fill_type.FILL_MOD, mod := 3, mod_stride := 1,
    victim_mask := 1, check_rest := 0 }

/-- A schedule made of one block for each shift `sh` of `[0, k)`, in order: the fill
with shift `sh`, then the tries `tries sh` under it. -/
def shift_blocks (k : Nat) (tries : Nat → List Int) : List (Int × Option Int) :=
  (List.range k).flatMap (fun (sh : Nat) =>
    ((sh : Int), none) :: (tries sh).map (fun t => ((sh : Int), some t)))

/-! ## The memory at the calls of `select_and_hammer_aggr` -/

/-- The rows hold the fill pattern of `shift` in the memory `m`: `check_rows` with that
shift returns 0. -/
def rows_hold (p : params) (rows : List row) (shift : Int) (m : Mem) : Prop :=
  (check_rows p m rows shift).map Prod.fst = some 0

/-- The memory at each call of `select_and_hammer_aggr` in the `do ... while` loop, in
order; the loop is followed as `attempts_loop` follows it. -/
def attempts_calls (env : experiment_env) (p : params) (rows : List row)
    (shift try_ seed : Int) : Nat → Int → Bool → run_state → List Mem
  | 0, _, _, _ => []
  | fuel + 1, rep, first_try, s =>
    s.mem ::
      (match attempt env p rows shift try_ seed first_try s with
      | none => []
      | some (s1, flips) =>
        if first_try = true ∧ flips = 0 then []
        else if p.repeat_flips ≠ 0 ∧ rep + 1 < p.repeat_flips then
          attempts_calls env p rows shift try_ seed fuel (rep + 1) false s1
        else [])

/-- The memory at each call of `select_and_hammer_aggr` in one round of the loop over
`try`, followed as `run_try` follows it. -/
def try_calls (env : experiment_env) (p : params) (rows : List row) (shift try_ : Int)
    (s : run_state) : List Mem :=
  let seed := if p.repeat_flips ≠ 0 then env.time s.hammers else 0
  attempts_calls env p rows shift try_ seed (p.repeat_flips.toNat + 1) 0 true s

/-- The memory at each call of `select_and_hammer_aggr` in the loop over `try`, followed
as `tries_loop` follows it. -/
def tries_calls (env : experiment_env) (p : params) (rows : List row) (shift stride : Int) :
    Nat → Int → run_state → List Mem
  | 0, _, _ => []
  | fuel + 1, try_, s =>
    if try_ < p.n_tries then
      try_calls env p rows shift try_ s ++
        (match run_try env p rows shift try_ s with
        | none => []
        | some s1 =>
          tries_calls env p rows shift stride fuel (try_ + stride)
            { s1 with total_tries := s1.total_tries + 1 })
    else []

/-- The current shift and the memory at each call of `select_and_hammer_aggr` in the loop
over `mod`, followed as `shifts_loop` follows it. -/
def shifts_calls (env : experiment_env) (p : params) (rows : List row) (stride : Int) :
    Nat → Int → run_state → List (Int × Mem)
  | 0, _, _ => []
  | k + 1, mod, s =>
    match fill_rows p s.mem rows mod with
    | none => []
    | some m1 =>
      let s0 : run_state := { s with mem := m1, log := s.log ++ [event.filled_rows mod] }
      (tries_calls env p rows mod stride (p.n_tries.toNat + 1) mod s0).map (fun m => (mod, m)) ++
        (match tries_loop env p rows mod stride (p.n_tries.toNat + 1) mod s0 with
        | none => []
        | some s1 => shifts_calls env p rows stride k (mod + 1) s1)

/-- The current shift and the memory at each call of `select_and_hammer_aggr` in
`run_hammer_once`, in order; the function is followed up to its loop over `mod`. -/
def experiment_calls (env : experiment_env) (p : params) (mem len : Nat) (s : run_state) :
    List (Int × Mem) :=
  match find_rows env p s.experiments mem len with
  | none => []
  | some (n, rows) =>
    let s0 : run_state := { s with experiments := s.experiments + 1 }
    if n ≠ p.n_rows then []
    else
      let range := get_row_range rows
      let filled : Option run_state :=
        if p.check_rest ≠ 0 then
          match fill p s0.mem mem (ptr_diff range.1 mem) with
          | none => none
          | some m1 =>
            match fill p m1 range.2 (rest_len mem len range.2) with
            | none => none
            | some m2 => some { s0 with mem := m2, log := s0.log ++ [event.filled_rest mem] }
        else some s0
      match filled with
      | none => []
      | some s1 =>
        let stride := if p.mod_stride ≠ 0 then p.mod else 1
        shifts_calls env p rows stride stride.toNat 0 s1

/-- A walk over 8 GiB in steps of 1 KiB whose fuzz window probes one address 4 KiB on
(`size=8G`, `find_step=1024`, `max_fuzz=4096`, `fuzz_step=4096`, `offset0=0`,
`n_rows=2`), threshold 1000 us, and an experiment with `fill_type=mod`, `mod=2`,
`victim_mask=1`, one aggressor, one try, `check_rest=0`. -/
def descending_cfg : params :=
  { size := 8 * 1024 * 1024 * 1024, find_step := 1024, max_fuzz := 4096, fuzz_step := 4096,
    offset0 := 0, conflict_th_us := 1000, n_rows := 2, min_aggr := 1, max_aggr := 1,
    hammer_loops := 100, n_tries := 1, pattern := pattern.EVEN,
    fill_type := fill_type.FILL_MOD, mod := 2, mod_stride := 1, victim_mask := 1,
    check_rest := 0 }

/-- The two rows the walk of `descending_cfg` finds at `walk_mem` when the addresses
1 KiB and 4 KiB into the region conflict: the second start is below the first, and the
difference, stored in the `uint32_t len`, is `2^32 - 3072`. -/
def descending_rows : List row :=
  [{ idx := 0, start := walk_mem + 4096, len := 4294964224 },
   { idx := 1, start := walk_mem + 1024, len := 4294964224 }]

/-- An environment whose same-bank row discovery is the walk `find_rows_in_same_bank`
under the oracle with conflicts at 1 KiB and 4 KiB into the region at `walk_mem`;
hammering changes nothing. -/
def descending_env : experiment_env :=
  { same_bank := fun _ mem len =>
      (find_rows_in_same_bank descending_cfg
        (conflict_at [walk_mem + 1024, walk_mem + 4096]) id mem descending_cfg.find_step len
        (junk_rows 7) descending_cfg.n_rows 5).map (fun st => (st.nr_rows, found_rows st))
    alt := fun _ _ _ => none
    time := fun _ => 1
    rand := fun _ => zero_rand
    hammered := fun _ _ m => m }

/-! ## Lemmas on memory -/

theorem read32_write32_same (m : Mem) (a v : Nat) :
    read32 (write32 m a v) a = v % 2 ^ 32 := by
  simp only [read32, write32]
  simp
  omega

theorem read32_congr (m1 m2 : Mem) (a : Nat)
    (h : ∀ x, a ≤ x → x < a + 4 → m1 x = m2 x) : read32 m1 a = read32 m2 a := by
  simp only [read32]
  rw [h a (by omega) (by omega), h (a + 1) (by omega) (by omega),
    h (a + 2) (by omega) (by omega), h (a + 3) (by omega) (by omega)]

theorem write32_outside (m : Mem) (a v x : Nat) (h : x < a ∨ a + 4 ≤ x) :
    write32 m a v x = m x := by
  simp only [write32]
  rw [if_neg (by omega), if_neg (by omega), if_neg (by omega), if_neg (by omega)]

theorem read32_lt (m : Mem) (a : Nat) : read32 m a < 2 ^ 32 := by
  simp only [read32]
  omega

/-! ## Lemmas on the PRNG, `fill` and `check` -/

theorem myrand32_r_state (s : Nat) :
    (myrand32_r s).2 = (s * 0x5DEECE66D + 0xB) % 2 ^ 48 := by
  simp only [myrand32_r, Nat.one_shiftLeft, Nat.and_pow_two_sub_one_eq_mod]
  exact Nat.mod_mod_of_dvd _ (by decide)

theorem myrand32_r_value (s : Nat) :
    (myrand32_r s).1 = (myrand32_r s).2 / 2 ^ 16 := by
  have h := myrand32_r_state s
  simp only [myrand32_r, Nat.shiftRight_eq_div_pow] at h ⊢
  rw [h]
  omega

theorem lcg_state_shift (s : Nat) (j : Nat) :
    lcg_state (lcg_state s 1) j = lcg_state s (j + 1) := by
  induction j with
  | zero => rfl
  | succ j ih => simp only [lcg_state] at ih ⊢; rw [ih]

theorem myrand32_r_state_lcg (s : Nat) : (myrand32_r s).2 = lcg_state s 1 := by
  rw [myrand32_r_state]; rfl

theorem myrand32_r_value_lcg (s : Nat) : (myrand32_r s).1 = lcg_output s 0 := by
  rw [myrand32_r_value, myrand32_r_state_lcg]; rfl

theorem lcg_output_lt (s i : Nat) : lcg_output s i < 2 ^ 32 := by
  simp only [lcg_output, lcg_state]
  omega

theorem lcg_output_succ (s j : Nat) :
    lcg_output (lcg_state s 1) j = lcg_output s (j + 1) := by
  simp only [lcg_output]
  rw [lcg_state_shift]

theorem flush_loop_eq (mem : Nat) (k : Nat) :
    ∀ (i : Nat) (m : Mem), flush_loop mem k i m = m := by
  induction k with
  | zero => intro i m; rfl
  | succ k ih => intro i m; simp only [flush_loop, flush]; exact ih _ _

theorem fill_eq (p : params) (m : Mem) (mem len : Nat) (hlen : len % 4 = 0) :
    fill p m mem len = some (fill_loop mem (len / 4) 0 (seed_of mem) m) := by
  simp only [fill, hlen, ne_eq, not_true_eq_false, if_false, flush_loop_eq, ite_self]

theorem check_eq (p : params) (m : Mem) (mem len : Nat) (hlen : len % 4 = 0) :
    check p m mem len = some (check_loop m mem (len / 4) 0 (seed_of mem) 0, m) := by
  simp only [check, hlen, ne_eq, not_true_eq_false, if_false, flush_loop_eq, ite_self]

theorem fill_loop_outside (mem : Nat) (k : Nat) :
    ∀ (i s : Nat) (m : Mem) (a : Nat), (a < mem + 4 * i ∨ mem + 4 * (i + k) ≤ a) →
      fill_loop mem k i s m a = m a := by
  induction k with
  | zero => intro i s m a _; rfl
  | succ k ih =>
    intro i s m a h
    simp only [fill_loop]
    rw [ih (i + 1) _ _ a (by omega)]
    exact write32_outside m _ _ a (by omega)

theorem fill_loop_word (mem : Nat) (k : Nat) :
    ∀ (i s : Nat) (m : Mem) (j : Nat), j < k →
      read32 (fill_loop mem k i s m) (mem + 4 * (i + j)) = lcg_output s j := by
  induction k with
  | zero => intro i s m j h; omega
  | succ k ih =>
    intro i s m j h
    simp only [fill_loop]
    cases j with
    | zero =>
      rw [read32_congr _ (write32 m (mem + 4 * i) (myrand32_r s).1) _
        (fun x h1 h2 => fill_loop_outside mem k (i + 1) _ _ x (by omega))]
      rw [Nat.add_zero, read32_write32_same, myrand32_r_value_lcg]
      exact Nat.mod_eq_of_lt (lcg_output_lt s 0)
    | succ j =>
      have h1 := ih (i + 1) (myrand32_r s).2 (write32 m (mem + 4 * i) (myrand32_r s).1) j
        (by omega)
      rw [myrand32_r_state_lcg, lcg_output_succ] at h1
      rw [← h1, myrand32_r_state_lcg]
      congr 2
      omega

theorem countP_range_succ (q : Nat → Bool) (k : Nat) :
    (List.range (k + 1)).countP q
      = (if q 0 then 1 else 0) + (List.range k).countP (fun j => q (j + 1)) := by
  rw [List.range_succ_eq_map, List.countP_cons, List.countP_map, Nat.add_comm]
  rfl

theorem check_loop_count (m : Mem) (mem : Nat) (k : Nat) :
    ∀ (i s d : Nat), check_loop m mem k i s d
      = d + (List.range k).countP
          (fun j => read32 m (mem + 4 * (i + j)) != lcg_output s j) := by
  induction k with
  | zero => intro i s d; rfl
  | succ k ih =>
    intro i s d
    simp only [check_loop]
    rw [ih, countP_range_succ, myrand32_r_state_lcg, myrand32_r_value_lcg]
    have e : ∀ j, mem + 4 * (i + 1 + j) = mem + 4 * (i + (j + 1)) := fun j => by omega
    simp only [e, lcg_output_succ, Nat.add_zero, Nat.xor_ne_zero, bne_iff_ne, ne_eq]
    split <;> omega

/-! ## Lemmas on the mod-k fill and check -/

theorem mod_k_pattern_lt (p : params) (r : row) (shift : Int) :
    mod_k_pattern p r shift < 2 ^ 32 := by
  simp only [mod_k_pattern]
  split <;> omega

theorem fill_row_words_outside (cached : Int) (start pat : Nat) (k : Nat) :
    ∀ (j : Nat) (m : Mem) (a : Nat), (a < start + 4 * j ∨ start + 4 * (j + k) ≤ a) →
      fill_row_words cached start pat k j m a = m a := by
  induction k with
  | zero => intro j m a _; rfl
  | succ k ih =>
    intro j m a h
    simp only [fill_row_words, flush, ite_self]
    rw [ih (j + 1) _ a (by omega)]
    exact write32_outside m _ _ a (by omega)

theorem fill_row_words_word (cached : Int) (start pat : Nat) (k : Nat) :
    ∀ (j : Nat) (m : Mem) (i : Nat), i < k →
      read32 (fill_row_words cached start pat k j m) (start + 4 * (j + i))
        = pat % 2 ^ 32 := by
  induction k with
  | zero => intro j m i h; omega
  | succ k ih =>
    intro j m i h
    simp only [fill_row_words, flush, ite_self]
    cases i with
    | zero =>
      rw [read32_congr _ (write32 m (start + 4 * j) pat) _
        (fun x h1 h2 => fill_row_words_outside cached start pat k (j + 1) _ x (by omega))]
      rw [Nat.add_zero, read32_write32_same]
    | succ i =>
      have h1 := ih (j + 1) (write32 m (start + 4 * j) pat) i (by omega)
      rw [← h1]
      congr 2
      omega

theorem fill_rows_loop_outside (p : params) (shift : Int) (rows : List row) :
    ∀ (m : Mem) (a : Nat), (∀ r ∈ rows, a < r.start ∨ r.start + 4 * (r.len / 4) ≤ a) →
      fill_rows_loop p shift rows m a = m a := by
  induction rows with
  | nil => intro m a _; rfl
  | cons r rs ih =>
    intro m a h
    simp only [fill_rows_loop]
    rw [ih _ a (fun r1 hr1 => h r1 (List.mem_cons_of_mem _ hr1))]
    have h0 := h r (List.mem_cons_self _ _)
    exact fill_row_words_outside _ _ _ _ 0 m a (by omega)

theorem fill_rows_loop_word (p : params) (shift : Int) (rows : List row) :
    ∀ (m : Mem), rows.Pairwise rows_apart → ∀ r ∈ rows, ∀ i, i < r.len / 4 →
      read32 (fill_rows_loop p shift rows m) (r.start + 4 * i) = mod_k_pattern p r shift := by
  induction rows with
  | nil => intro m _ r hr; cases hr
  | cons r0 rs ih =>
    intro m hp r hr i hi
    rw [List.pairwise_cons] at hp
    simp only [fill_rows_loop]
    rcases List.mem_cons.mp hr with h | h
    · subst h
      rw [read32_congr _
        (fill_row_words p.cached r.start (mod_k_pattern p r shift) (r.len / 4) 0 m) _
        (fun x h1 h2 => fill_rows_loop_outside p shift rs _ x (fun r1 hr1 => by
          have := hp.1 r1 hr1
          unfold rows_apart at this
          omega))]
      have h1 :=
        fill_row_words_word p.cached r.start (mod_k_pattern p r shift) (r.len / 4) 0 m i hi
      rw [Nat.zero_add] at h1
      rw [h1]
      exact Nat.mod_eq_of_lt (mod_k_pattern_lt p r shift)
    · exact ih _ hp.2 r h i hi

theorem check_row_words_uniform (m : Mem) (start pat v : Nat) (k : Nat) :
    ∀ (j flips : Nat), (∀ i, i < k → read32 m (start + 4 * (j + i)) = v) →
      check_row_words m start pat k j flips = flips + (if v = pat then 0 else k) := by
  induction k with
  | zero => intro j flips _; simp [check_row_words]
  | succ k ih =>
    intro j flips h
    simp only [check_row_words]
    rw [ih (j + 1) _ (fun i hi => by
      have := h (i + 1) (by omega)
      rw [← this]; congr 2; omega)]
    have h0 := h 0 (by omega)
    rw [Nat.add_zero] at h0
    rw [h0]
    by_cases hv : v = pat
    · simp [hv]
    · simp [hv]; omega

theorem check_rows_loop_uniform (p : params) (m : Mem) (shift : Int) (val : row → Nat)
    (rows : List row) :
    ∀ (flips : Nat), (∀ r ∈ rows, ∀ i, i < r.len / 4 → read32 m (r.start + 4 * i) = val r) →
      check_rows_loop p m shift rows flips
        = flips + (rows.map
            (fun r => if val r = mod_k_pattern p r shift then 0 else r.len / 4)).sum := by
  induction rows with
  | nil => intro flips _; simp [check_rows_loop]
  | cons r rs ih =>
    intro flips h
    simp only [check_rows_loop, List.map_cons, List.sum_cons]
    rw [ih _ (fun r1 hr1 => h r1 (List.mem_cons_of_mem _ hr1))]
    rw [check_row_words_uniform m r.start _ (val r) (r.len / 4) 0 flips (fun i hi => by
      rw [Nat.zero_add]; exact h r (List.mem_cons_self _ _) i hi)]
    omega

/-- For a count `0 <= mod < 64` the condition `p->victim_mask & (1UL << mod)` tests
bit `mod` of the mask. -/
theorem victim_mask_and_shl (v : Nat) (k : Int) (h0 : 0 ≤ k) (h1 : k < 64) :
    ((v % 2 ^ 64) &&& shl_1UL k ≠ 0) ↔ (v % 2 ^ 64).testBit k.toNat = true := by
  have e : (k % 64).toNat = k.toNat := by
    rw [Int.emod_eq_of_lt h0 h1]
  simp only [shl_1UL, e]
  rw [Nat.and_two_pow]
  cases hb : (v % 2 ^ 64).testBit k.toNat <;> simp

/-! ## Lemmas on aggressor selection -/

theorem picked_length (p : params) (t : Int) (rows : List row) (seed : Int) (g : libc_rand) :
    (select_and_hammer_aggr p t rows seed g).picked.length = (n_aggr p t).toNat := by
  simp [select_and_hammer_aggr]

/-- On a dividend that is not negative the remainder of C is the mathematical
residue, whatever the sign of the divisor. -/
theorem tmod_eq_emod_of_nonneg (a b : Int) (ha : 0 ≤ a) : a.tmod b = a % b := by
  rcases Int.le_total 0 b with hb | hb
  · exact Int.tmod_eq_emod ha hb
  · have h : a.tmod (-b) = a % (-b) := Int.tmod_eq_emod ha (by omega)
    rwa [Int.tmod_neg, Int.emod_neg] at h

theorem n_aggr_eq_emod (p : params) (t : Int) (hmin : p.min_aggr ≤ p.max_aggr) (ht : 0 ≤ t) :
    n_aggr p t = p.min_aggr + t % (p.max_aggr - p.min_aggr + 1) := by
  simp only [n_aggr]
  rw [Int.tmod_eq_emod ht (by omega)]

/-- Whenever the dividend of the final assisted-double index is not negative, every
index picked lies in `[0, n_rows)`. -/
theorem pick_row_in_range (p : params) (t : Int) (rnd : Nat → Nat) (i : Nat)
    (ht : 0 ≤ t) (hn : 0 < p.n_rows)
    (hd : p.pattern = pattern.TRRESPASS_ASSISTED_DOUBLE →
      0 ≤ t + (n_aggr p t - 2) * 2 + p.assisted_double_dist) :
    0 ≤ pick_row p t rnd i ∧ pick_row p t rnd i < p.n_rows := by
  have key : ∀ a : Int, 0 ≤ a → 0 ≤ a.tmod p.n_rows ∧ a.tmod p.n_rows < p.n_rows := by
    intro a ha
    rw [Int.tmod_eq_emod ha (by omega)]
    exact ⟨Int.emod_nonneg _ (by omega), Int.emod_lt_of_pos _ hn⟩
  unfold pick_row
  split
  · exact key _ (by omega)
  · exact key _ (by omega)
  · rename_i hpat
    split
    · exact key _ (hd hpat)
    · exact key _ (by omega)

theorem complement32_eq_xor (x : Nat) (hx : x < 2 ^ 32) :
    0xffffffff - x = x ^^^ 0xffffffff := by
  apply Nat.eq_of_testBit_eq
  intro i
  have e1 : 0xffffffff - x = 2 ^ 32 - (x + 1) := by omega
  have e2 : (0xffffffff : Nat) = 2 ^ 32 - 1 := by decide
  rw [e1, Nat.testBit_two_pow_sub_succ hx, Nat.testBit_xor, e2, Nat.testBit_two_pow_sub_one]
  by_cases hi : i < 32
  · simp [hi]
  · have : x.testBit i = false :=
      Nat.testBit_lt_two_pow (Nat.lt_of_lt_of_le hx (Nat.pow_le_pow_right (by decide) (by omega)))
    simp [hi, this]

theorem pick_row_even (p : params) (t : Int) (rnd : Nat → Nat) (i : Nat)
    (hpat : p.pattern = pattern.EVEN) :
    pick_row p t rnd i = (t + (i : Int) * 2).tmod p.n_rows := by
  simp [pick_row, hpat]

theorem pick_row_assisted (p : params) (t : Int) (rnd : Nat → Nat) (i : Nat)
    (hpat : p.pattern = pattern.TRRESPASS_ASSISTED_DOUBLE) :
    pick_row p t rnd i =
      if (i : Int) = n_aggr p t - 1 then
        (t + (n_aggr p t - 2) * 2 + p.assisted_double_dist).tmod p.n_rows
      else (t + (i : Int) * 2).tmod p.n_rows := by
  simp [pick_row, hpat]

/-! ## The claims -/

/-- C1: for every start address, every length divisible by 4 and every initial
memory content, `check` called right after `fill` on the same region returns 0. -/
theorem fill_check_roundtrip (p : params) (m : Mem) (mem len : Nat) (hlen : len % 4 = 0) :
    (fill p m mem len).bind (fun m1 => (check p m1 mem len).map Prod.fst) = some 0 := by
  simp only [fill_eq p m mem len hlen, Option.some_bind, check_eq p _ mem len hlen,
    Option.map_some']
  rw [check_loop_count, Nat.zero_add, List.countP_eq_zero.mpr]
  intro j hj
  have h := fill_loop_word mem (len / 4) 0 (seed_of mem) m j (List.mem_range.mp hj)
  simp [h]
  rw [Nat.zero_add] at h
  exact h

/-- Scenario S1 as an instance of C1: a region of 4 KiB of zeros, filled and checked
at once, has no mismatch. -/
theorem fill_check_roundtrip_witness :
    4096 % 4 = 0 ∧
    (fill s1_cfg zero_mem 4096 4096).bind
      (fun m1 => (check s1_cfg m1 4096 4096).map Prod.fst) = some 0 :=
  ⟨by decide, fill_check_roundtrip s1_cfg zero_mem 4096 4096 (by decide)⟩

/-- C2: for every memory and every length divisible by 4, `check` returns the number
of word positions `i < len/4` whose stored word differs from the `i`-th output of
the generator seeded with `mem XOR (mem >> 32)`, each position counted once, and
leaves memory as it was; that output is the word `fill` stores at position `i`. -/
theorem check_counts_mismatches (p : params) (m : Mem) (mem len : Nat)
    (hlen : len % 4 = 0) :
    check p m mem len = some ((List.range (len / 4)).countP
        (fun i => read32 m (mem + 4 * i) != lcg_output (seed_of mem) i), m) ∧
    (∀ (m0 : Mem) (i : Nat), i < len / 4 →
      (fill p m0 mem len).map (fun m1 => read32 m1 (mem + 4 * i))
        = some (lcg_output (seed_of mem) i)) ∧
    (mem < 2 ^ 64 → seed_of mem = mem ^^^ (mem / 2 ^ 32)) := by
  refine ⟨?_, ?_, ?_⟩
  · rw [check_eq p m mem len hlen, check_loop_count, Nat.zero_add]
    simp only [Nat.zero_add]
  · intro m0 i hi
    rw [fill_eq p m0 mem len hlen, Option.map_some']
    have h := fill_loop_word mem (len / 4) 0 (seed_of mem) m0 i hi
    rw [Nat.zero_add] at h
    rw [h]
  · intro h
    simp only [seed_of, Nat.mod_eq_of_lt h, Nat.shiftRight_eq_div_pow]

/-- An instance of C2: two words of zeros at address 4096. -/
theorem check_counts_mismatches_witness :
    8 % 4 = 0 ∧
    (check s1_cfg zero_mem 4096 8 = some ((List.range (8 / 4)).countP
        (fun i => read32 zero_mem (4096 + 4 * i) != lcg_output (seed_of 4096) i),
        zero_mem) ∧
    (∀ (m0 : Mem) (i : Nat), i < 8 / 4 →
      (fill s1_cfg m0 4096 8).map (fun m1 => read32 m1 (4096 + 4 * i))
        = some (lcg_output (seed_of 4096) i)) ∧
    (4096 < 2 ^ 64 → seed_of 4096 = 4096 ^^^ (4096 / 2 ^ 32))) :=
  ⟨by decide, check_counts_mismatches s1_cfg zero_mem 4096 8 (by decide)⟩

/-- C3 as stated fails: two rows that cover the same word and have different mod-k
patterns (`mod = 2`, `victim_mask = 1`, `shift = 0`); the second row overwrites the
first, and the check of the first row reports one mismatch. -/
theorem mod_k_roundtrip_overlap_counterexample :
    (0 : Int) ≤ 0 ∧ (0 : Int) < overlap_cfg.mod ∧
    (fill_rows_mod_k overlap_cfg zero_mem overlap_rows 0).map
      (fun m1 => check_rows_mod_k overlap_cfg m1 overlap_rows 0) = some 1 := by
  decide

/-- C3 (amended): for every list of rows whose byte ranges are pairwise disjoint and
every shift with `0 <= shift < mod`, `check_rows_mod_k` right after
`fill_rows_mod_k` with the same shift on the same rows returns 0. -/
theorem mod_k_roundtrip (p : params) (m : Mem) (rows : List row) (shift : Int)
    (hrows : rows.Pairwise rows_apart) (h0 : 0 ≤ shift) (h1 : shift < p.mod) :
    (fill_rows_mod_k p m rows shift).map
      (fun m1 => check_rows_mod_k p m1 rows shift) = some 0 := by
  have hg : ¬ (shift < 0 ∨ shift ≥ p.mod) := by omega
  simp only [fill_rows_mod_k, hg, if_false, Option.map_some', check_rows_mod_k]
  rw [check_rows_loop_uniform p _ shift (fun r => mod_k_pattern p r shift) rows 0
    (fill_rows_loop_word p shift rows m hrows)]
  simp

/-- An instance of the amended C3: four adjacent one-word rows, `mod = 4`,
`shift = 1`. -/
theorem mod_k_roundtrip_witness :
    periodic_rows.Pairwise rows_apart ∧ (0 : Int) ≤ 1 ∧ (1 : Int) < periodic_cfg.mod ∧
    (fill_rows_mod_k periodic_cfg zero_mem periodic_rows 1).map
      (fun m1 => check_rows_mod_k periodic_cfg m1 periodic_rows 1) = some 0 :=
  ⟨by decide, by decide, by decide,
    mod_k_roundtrip periodic_cfg zero_mem periodic_rows 1 (by decide) (by decide) (by decide)⟩

/-- C5 as stated fails: two rows covering the same word, `mod = 2`,
`victim_mask = 1`, `shift = 0`.  Bit 0 of the mask is set for the row with `idx = 0`,
and after the fill its word holds 0, the complement of `victim_data_pattern`
(0xffffffff), written for the second row. -/
theorem mod_k_fill_overlap_counterexample :
    (0 : Int) ≤ 0 ∧ (0 : Int) < overlap_cfg.mod ∧
    (overlap_cfg.victim_mask % 2 ^ 64).testBit
      (((0 : Int) + overlap_cfg.mod - 0) % overlap_cfg.mod).toNat = true ∧
    overlap_cfg.victim_data_pattern = 0xffffffff ∧
    (fill_rows_mod_k overlap_cfg zero_mem overlap_rows 0).map (fun m1 => read32 m1 4096)
      = some 0 := by
  decide

/-- C5 (amended): after `fill_rows_mod_k(p, rows, n, shift)` with `0 <= shift < mod`
on rows with pairwise disjoint byte ranges, with `idx >= 0` and `mod <= 64` (so that the
count of the shift `1UL << mod` lies in `[0, 64)`, where C defines it), every 32-bit
word of every row holds `victim_data_pattern` if bit `(idx + mod - shift) mod mod` of
`victim_mask` is set and its bitwise complement otherwise; memory outside the rows
is unchanged. -/
theorem mod_k_fill_pattern (p : params) (m : Mem) (rows : List row) (shift : Int)
    (hrows : rows.Pairwise rows_apart) (h0 : 0 ≤ shift) (h1 : shift < p.mod)
    (hidx : ∀ r ∈ rows, 0 ≤ r.idx) (hmod : p.mod ≤ 64) :
    ∃ m1, fill_rows_mod_k p m rows shift = some m1 ∧
      (∀ r ∈ rows, ∀ j, j < r.len / 4 →
        read32 m1 (r.start + 4 * j) =
          if (p.victim_mask % 2 ^ 64).testBit ((r.idx + p.mod - shift) % p.mod).toNat
          then p.victim_data_pattern % 2 ^ 32
          else (p.victim_data_pattern % 2 ^ 32) ^^^ 0xffffffff) ∧
      (∀ a, (∀ r ∈ rows, a < r.start ∨ r.start + r.len ≤ a) → m1 a = m a) := by
  have hg : ¬ (shift < 0 ∨ shift ≥ p.mod) := by omega
  refine ⟨fill_rows_loop p shift rows m, by simp only [fill_rows_mod_k, hg, if_false], ?_, ?_⟩
  · intro r hr j hj
    rw [fill_rows_loop_word p shift rows m hrows r hr j hj]
    have hi := hidx r hr
    simp only [mod_k_pattern]
    rw [Int.tmod_eq_emod (by omega) (by omega),
      ← complement32_eq_xor _ (Nat.mod_lt _ (by positivity))]
    have hk0 : 0 ≤ (r.idx + p.mod - shift) % p.mod := Int.emod_nonneg _ (by omega)
    have hk1 : (r.idx + p.mod - shift) % p.mod < 64 :=
      lt_of_lt_of_le (Int.emod_lt_of_pos _ (by omega)) hmod
    by_cases hb : (p.victim_mask % 2 ^ 64).testBit
        ((r.idx + p.mod - shift) % p.mod).toNat = true
    · rw [if_pos ((victim_mask_and_shl _ _ hk0 hk1).mpr hb), if_pos hb]
    · rw [if_neg (fun h => hb ((victim_mask_and_shl _ _ hk0 hk1).mp h)), if_neg hb]
  · intro a ha
    exact fill_rows_loop_outside p shift rows m a (fun r hr => by
      have := ha r hr
      omega)

/-- Scenario S2 as an instance of the amended C5: `mod = 3`, `victim_mask = 0x1`,
`shift = 0`, one 16-byte row with `idx = 0` at address 4096.  The four words of the
row end up as `victim_data_pattern`; the words before and after keep their zeros. -/
theorem mod_k_fill_pattern_witness :
    (s2_rows.Pairwise rows_apart ∧ (0 : Int) ≤ 0 ∧ (0 : Int) < s2_cfg.mod ∧
      (∀ r ∈ s2_rows, 0 ≤ r.idx) ∧ s2_cfg.mod ≤ 64) ∧
    (∃ m1, fill_rows_mod_k s2_cfg zero_mem s2_rows 0 = some m1 ∧
      (∀ r ∈ s2_rows, ∀ j, j < r.len / 4 →
        read32 m1 (r.start + 4 * j) =
          if (s2_cfg.victim_mask % 2 ^ 64).testBit
            ((r.idx + s2_cfg.mod - 0) % s2_cfg.mod).toNat
          then s2_cfg.victim_data_pattern % 2 ^ 32
          else (s2_cfg.victim_data_pattern % 2 ^ 32) ^^^ 0xffffffff) ∧
      (∀ a, (∀ r ∈ s2_rows, a < r.start ∨ r.start + r.len ≤ a) → m1 a = zero_mem a)) ∧
    (fill_rows_mod_k s2_cfg zero_mem s2_rows 0).map
        (fun m1 => (List.range 6).map (fun j => read32 m1 (4092 + 4 * j)))
      = some [0, s2_cfg.victim_data_pattern, s2_cfg.victim_data_pattern,
          s2_cfg.victim_data_pattern, s2_cfg.victim_data_pattern, 0] :=
  ⟨⟨by decide, by decide, by decide, by decide, by decide⟩,
    mod_k_fill_pattern s2_cfg zero_mem s2_rows 0
      (by decide) (by decide) (by decide) (by decide) (by decide),
    by decide⟩

/-- C6: for every input state `s` (every 64-bit value, also those at or above
`2^48`), `myrand32_r` sets the state to `(s * 0x5DEECE66D + 0xB) mod 2^48` computed
over the unbounded integers, and returns that state divided by `2^16`, which is below
`2^32`. -/
theorem myrand32_r_spec (s : Nat) :
    (myrand32_r s).2 = (s * 0x5DEECE66D + 0xB) % 2 ^ 48 ∧
    (myrand32_r s).1 = (myrand32_r s).2 / 2 ^ 16 ∧
    (myrand32_r s).1 < 2 ^ 32 := by
  refine ⟨myrand32_r_state s, myrand32_r_value s, ?_⟩
  rw [myrand32_r_value_lcg]
  exact lcg_output_lt s 0

/-- C7, the code at the failing input: pattern assisted-double with a single
aggressor (`min_aggr = max_aggr = 1`), `assisted_double_dist = 0`, `n_rows = 8`,
try 0.  The one index picked is `(0 + (1 - 2)*2 + 0) % 8 = -2`, outside `[0, 8)`,
and `rows[-2]` is read. -/
theorem single_assisted_index_out_of_range :
    0 < single_assisted_cfg.n_rows ∧ eight_rows.length = 8 ∧
    (select_and_hammer_aggr single_assisted_cfg 0 eight_rows 0 zero_rand).picked = [-2] ∧
    (select_and_hammer_aggr single_assisted_cfg 0 eight_rows 0 zero_rand).aggr = [none] := by
  decide

/-- C8: for `1 <= min_aggr <= max_aggr` and a try `t >= 0`, `select_and_hammer_aggr`
selects exactly `n = min_aggr + (t mod (max_aggr - min_aggr + 1))` aggressors and
hammers them with `loops = hammer_loops / n` (C division) and `timing_loops = 1`;
`min_aggr <= n <= max_aggr`, so the buffer of `max_aggr` entries is not overrun and
`n` is not zero. -/
theorem n_aggr_count_and_loops (p : params) (t : Int) (rows : List row) (seed : Int)
    (g : libc_rand) (h1 : 1 ≤ p.min_aggr) (h2 : p.min_aggr ≤ p.max_aggr) (ht : 0 ≤ t) :
    let c := select_and_hammer_aggr p t rows seed g
    let n := p.min_aggr + t % (p.max_aggr - p.min_aggr + 1)
    (c.picked.length : Int) = n ∧ c.aggr.length = c.picked.length ∧ c.count = n ∧
    c.loops = p.hammer_loops.tdiv n ∧ c.timing_loops = 1 ∧
    p.min_aggr ≤ n ∧ n ≤ p.max_aggr ∧ n ≠ 0 := by
  intro c n
  have hn : n_aggr p t = n := n_aggr_eq_emod p t h2 ht
  have hlo : 0 ≤ t % (p.max_aggr - p.min_aggr + 1) := Int.emod_nonneg _ (by omega)
  have hhi : t % (p.max_aggr - p.min_aggr + 1) < p.max_aggr - p.min_aggr + 1 :=
    Int.emod_lt_of_pos _ (by omega)
  have hlen : (c.picked.length : Int) = n := by
    rw [picked_length, hn]
    exact Int.toNat_of_nonneg (by omega)
  refine ⟨hlen, ?_, ?_, ?_, rfl, ?_, ?_, ?_⟩
  · simp [c, select_and_hammer_aggr]
  · exact hn
  · show p.hammer_loops.tdiv (n_aggr p t) = p.hammer_loops.tdiv n
    rw [hn]
  · omega
  · omega
  · omega

/-- An instance of C8: scenario S4 (`min_aggr = max_aggr = 5`), try 3. -/
theorem n_aggr_count_and_loops_witness :
    ((1 : Int) ≤ s4_cfg.min_aggr ∧ s4_cfg.min_aggr ≤ s4_cfg.max_aggr ∧ (0 : Int) ≤ 3) ∧
    (let c := select_and_hammer_aggr s4_cfg 3 eight_rows 0 zero_rand
     let n := s4_cfg.min_aggr + 3 % (s4_cfg.max_aggr - s4_cfg.min_aggr + 1)
     (c.picked.length : Int) = n ∧ c.aggr.length = c.picked.length ∧ c.count = n ∧
     c.loops = s4_cfg.hammer_loops.tdiv n ∧ c.timing_loops = 1 ∧
     s4_cfg.min_aggr ≤ n ∧ n ≤ s4_cfg.max_aggr ∧ n ≠ 0) :=
  ⟨by decide,
    n_aggr_count_and_loops s4_cfg 3 eight_rows 0 zero_rand (by decide) (by decide) (by decide)⟩

/-- C9: with pattern EVEN, for every try `t >= 0`, the `i`-th aggressor selected, for
every position `i` below the number selected, is row `(t + 2*i) mod n_rows`, whatever
the seed and the state of the library generator. -/
theorem even_pattern_indices (p : params) (t : Int) (rows : List row) (seed : Int)
    (g : libc_rand) (hpat : p.pattern = pattern.EVEN) (ht : 0 ≤ t) :
    (select_and_hammer_aggr p t rows seed g).picked
      = (List.range (n_aggr p t).toNat).map (fun (i : Nat) => (t + 2 * (i : Int)) % p.n_rows) := by
  simp only [select_and_hammer_aggr]
  apply List.map_congr_left
  intro i _
  rw [pick_row_even p t _ i hpat, tmod_eq_emod_of_nonneg _ _ (by omega), Int.mul_comm]

/-- Scenario S4 as an instance of C9: `n_rows=8, min_aggr=max_aggr=5, t=3` gives the
index sequence 3, 5, 7, 1, 3. -/
theorem even_pattern_indices_witness :
    (s4_cfg.pattern = pattern.EVEN ∧ (0 : Int) ≤ 3) ∧
    (select_and_hammer_aggr s4_cfg 3 eight_rows 0 zero_rand).picked = [3, 5, 7, 1, 3] :=
  ⟨by decide,
    (even_pattern_indices s4_cfg 3 eight_rows 0 zero_rand rfl (by decide)).trans
      (by decide)⟩

/-- The indices of the assisted-double pattern as the code computes them: for every try
`t` and aggressor count `n >= 1`, the first `n-1` are `(t + 2*i) % n_rows` and the final
one is `(t + 2*(n - 2) + assisted_double_dist) % n_rows`, `%` being the remainder of C,
which keeps the sign of the dividend; when `t >= 0`, `n_rows > 0` and the final dividend
is not negative, these are the residues modulo `n_rows`. -/
theorem assisted_double_indices (p : params) (t : Int) (rows : List row) (seed : Int)
    (g : libc_rand) (hpat : p.pattern = pattern.TRRESPASS_ASSISTED_DOUBLE)
    (hn : 1 ≤ n_aggr p t) :
    (select_and_hammer_aggr p t rows seed g).picked
      = (List.range ((n_aggr p t).toNat - 1)).map
          (fun (i : Nat) => (t + 2 * (i : Int)).tmod p.n_rows)
        ++ [(t + 2 * (n_aggr p t - 2) + p.assisted_double_dist).tmod p.n_rows] ∧
    (0 ≤ t → 0 < p.n_rows → 0 ≤ t + 2 * (n_aggr p t - 2) + p.assisted_double_dist →
      (select_and_hammer_aggr p t rows seed g).picked
        = (List.range ((n_aggr p t).toNat - 1)).map
            (fun (i : Nat) => (t + 2 * (i : Int)) % p.n_rows)
          ++ [(t + 2 * (n_aggr p t - 2) + p.assisted_double_dist) % p.n_rows]) := by
  have hk : (n_aggr p t).toNat = ((n_aggr p t).toNat - 1) + 1 := by omega
  have hlast : (((n_aggr p t).toNat - 1 : Nat) : Int) = n_aggr p t - 1 := by omega
  have hfirst : (select_and_hammer_aggr p t rows seed g).picked
      = (List.range ((n_aggr p t).toNat - 1)).map
          (fun (i : Nat) => (t + 2 * (i : Int)).tmod p.n_rows)
        ++ [(t + 2 * (n_aggr p t - 2) + p.assisted_double_dist).tmod p.n_rows] := by
    simp only [select_and_hammer_aggr]
    rw [hk, List.range_succ, List.map_append, List.map_singleton, ← hk]
    congr 1
    · apply List.map_congr_left
      intro i hi
      have hi1 := List.mem_range.mp hi
      rw [pick_row_assisted p t _ i hpat, if_neg (by omega), Int.mul_comm]
    · rw [pick_row_assisted p t _ _ hpat, if_pos hlast, Int.mul_comm]
  refine ⟨hfirst, ?_⟩
  intro ht hrows hd
  rw [hfirst, Int.tmod_eq_emod hd (by omega)]
  congr 1
  apply List.map_congr_left
  intro i _
  rw [Int.tmod_eq_emod (by omega) (by omega)]

/-- Scenario S3 as an instance: `n_rows=16, min_aggr=max_aggr=4,
assisted_double_dist=7, t=0` gives the indices 0, 2, 4, 11. -/
theorem assisted_double_indices_witness :
    (s3_cfg.pattern = pattern.TRRESPASS_ASSISTED_DOUBLE ∧ 1 ≤ n_aggr s3_cfg 0) ∧
    (select_and_hammer_aggr s3_cfg 0 sixteen_rows 0 zero_rand).picked = [0, 2, 4, 11] :=
  ⟨by decide,
    (assisted_double_indices s3_cfg 0 sixteen_rows 0 zero_rand rfl (by decide)).1.trans
      (by decide)⟩

/-- C10, the code at the failing input: pattern assisted-double with a single aggressor
(`min_aggr = max_aggr = 1`), `assisted_double_dist = 1`, `n_rows = 16`, try 0.  The
aggressor count is `n = 1`, the one aggressor is the final one, and the claim gives it
the index `(0 + 2*(1 - 2) + 1) mod 16 = 15`; the code picks `(0 + (1 - 2)*2 + 1) % 16`,
which is -1 in C, and reads `rows[-1]`.  With the four aggressors of scenario S3 the
code picks 0, 2, 4, 11, as the claim says. -/
theorem assisted_double_final_index_negative :
    lone_assisted_cfg.pattern = pattern.TRRESPASS_ASSISTED_DOUBLE ∧
    n_aggr lone_assisted_cfg 0 = 1 ∧ sixteen_rows.length = 16 ∧
    ((0 : Int) + 2 * (n_aggr lone_assisted_cfg 0 - 2) + lone_assisted_cfg.assisted_double_dist)
      % lone_assisted_cfg.n_rows = 15 ∧
    (select_and_hammer_aggr lone_assisted_cfg 0 sixteen_rows 0 zero_rand).picked = [-1] ∧
    (select_and_hammer_aggr lone_assisted_cfg 0 sixteen_rows 0 zero_rand).aggr = [none] ∧
    (select_and_hammer_aggr s3_cfg 0 sixteen_rows 0 zero_rand).picked = [0, 2, 4, 11] := by
  decide

/-! ## Lemmas on the dispatch loop of `parallel_hammer` -/

theorem dispatch_loop_length (rc tc : Int) (n : Nat) :
    ∀ (idx a : Int), (dispatch_loop rc tc n idx a).length = n := by
  induction n with
  | zero => intro idx a; rfl
  | succ n ih => intro idx a; simp [dispatch_loop, ih]

theorem dispatch_loop_get (rc tc : Int) (n : Nat) :
    ∀ (idx a : Int) (k : Nat), k < n → 0 ≤ idx →
      a = idx * (rc / tc) + min idx (rc % tc) → 0 ≤ rc → 0 < tc →
      (dispatch_loop rc tc n idx a)[k]? =
        some ((idx + k) * (rc / tc) + min (idx + k) (rc % tc),
          rc / tc + if idx + k < rc % tc then 1 else 0) := by
  induction n with
  | zero => intro idx a k hk; omega
  | succ n ih =>
    intro idx a k hk hidx ha hrc htc
    have hq : rc.tdiv tc = rc / tc := Int.tdiv_eq_ediv hrc (by omega)
    have hr : rc.tmod tc = rc % tc := Int.tmod_eq_emod hrc (by omega)
    simp only [dispatch_loop, hq, hr]
    cases k with
    | zero =>
      simp only [List.getElem?_cons_zero, Nat.cast_zero, Int.add_zero, ha]
      congr 1
      split <;> simp
    | succ k =>
      rw [List.getElem?_cons_succ, ih (idx + 1) _ k (by omega) (by omega) ?_ hrc htc]
      · congr 2
        · push_cast; ring_nf
        · push_cast; ring_nf
      · rw [ha]
        split
        · rw [min_eq_left (by omega), min_eq_left (by omega)]; ring
        · rw [min_eq_right (by omega), min_eq_right (by omega)]; ring

theorem dispatch_loop_sum (rc tc : Int) (n : Nat) :
    ∀ (idx a : Int), 0 ≤ idx →
      a = idx * (rc / tc) + min idx (rc % tc) → 0 ≤ rc → 0 < tc →
      a + ((dispatch_loop rc tc n idx a).map Prod.snd).sum
        = (idx + n) * (rc / tc) + min (idx + n) (rc % tc) := by
  induction n with
  | zero => intro idx a _ ha _ _; simp [dispatch_loop, ha]
  | succ n ih =>
    intro idx a hidx ha hrc htc
    have hq : rc.tdiv tc = rc / tc := Int.tdiv_eq_ediv hrc (by omega)
    have hr : rc.tmod tc = rc % tc := Int.tmod_eq_emod hrc (by omega)
    simp only [dispatch_loop, hq, hr, List.map_cons, List.sum_cons]
    have h := ih (idx + 1) (a + if idx < rc % tc then rc / tc + 1 else rc / tc) (by omega)
      (by
        rw [ha]
        split
        · rw [min_eq_left (by omega), min_eq_left (by omega)]; ring
        · rw [min_eq_right (by omega), min_eq_right (by omega)]; ring) hrc htc
    rw [← Int.add_assoc, h]
    push_cast
    ring_nf

/-! ## Lemmas on the address sweep -/

theorem run_hammer_loop_append {τ : Type} (body : Nat → List τ → Option (List τ))
    (f : Nat → List τ) (l : addr_loop) (max_addr : Nat) (n : Nat) :
    ∀ (fuel mem : Nat) (count : Int) (s : List τ), n < fuel →
      (∀ k : Nat, k < n → 0 ≤ (mem : Int) + k * l.step ∧ (mem : Int) + k * l.step < max_addr ∧
          (l.count = 0 ∨ count + k < l.count)) →
      ¬ (((mem : Int) + n * l.step).toNat < max_addr ∧ (l.count = 0 ∨ count + n < l.count)) →
      (∀ k : Nat, k < n → ∀ s1, body ((mem : Int) + k * l.step).toNat s1
          = some (s1 ++ f ((mem : Int) + k * l.step).toNat)) →
      run_hammer_loop body l max_addr fuel mem count s
        = some (s ++ (List.range n).flatMap (fun k => f ((mem : Int) + k * l.step).toNat)) := by
  induction n with
  | zero =>
    intro fuel mem count s hfuel _ hexit _
    obtain ⟨fuel, rfl⟩ : ∃ m, fuel = m + 1 := ⟨fuel - 1, by omega⟩
    simp only [Nat.cast_zero, Int.zero_mul, Int.add_zero, Int.toNat_ofNat] at hexit
    simp only [run_hammer_loop, if_neg hexit, List.range_zero, List.flatMap_nil, List.append_nil]
  | succ n ih =>
    intro fuel mem count s hfuel hin hexit hbody
    obtain ⟨fuel, rfl⟩ : ∃ m, fuel = m + 1 := ⟨fuel - 1, by omega⟩
    have h0 := hin 0 (by omega)
    simp only [Nat.cast_zero, Int.zero_mul, Int.add_zero] at h0
    have hb0 := hbody 0 (by omega) s
    simp only [Nat.cast_zero, Int.zero_mul, Int.add_zero, Int.toNat_ofNat] at hb0
    simp only [run_hammer_loop]
    rw [if_pos ⟨by omega, h0.2.2⟩, hb0]
    simp only
    have hshift : ∀ k : Nat, 1 ≤ n ∨ k = 0 →
        ((((mem : Int) + l.step).toNat : Nat) : Int) + k * l.step
          = (mem : Int) + ((k + 1 : Nat) : Int) * l.step ∨
        (n = 0 ∧ k = 0 ∧ (mem : Int) + l.step < 0) := by
      intro k hk
      by_cases hneg : (mem : Int) + l.step < 0
      · right
        refine ⟨?_, ?_, hneg⟩
        · by_contra hn
          have h1 := (hin 1 (by omega)).1
          simp only [Nat.cast_one, Int.one_mul] at h1
          omega
        · rcases hk with hk | hk
          · exfalso
            have h1 := (hin 1 (by omega)).1
            simp only [Nat.cast_one, Int.one_mul] at h1
            omega
          · exact hk
      · left
        rw [Int.toNat_of_nonneg (by omega)]
        push_cast
        ring
    have haddr : ∀ k : Nat, k ≤ n → (1 ≤ n ∨ k = 0) →
        (((((mem : Int) + l.step).toNat : Nat) : Int) + k * l.step).toNat
          = ((mem : Int) + ((k + 1 : Nat) : Int) * l.step).toNat := by
      intro k _ hk
      rcases hshift k hk with h | ⟨_, hk0, hneg⟩
      · rw [h]
      · subst hk0
        simp only [Nat.cast_zero, Int.zero_mul, Int.add_zero, Int.toNat_ofNat, Nat.zero_add,
          Nat.cast_one, Int.one_mul]
    rw [ih fuel _ (count + 1) _ (by omega)]
    · rw [List.range_succ_eq_map, List.flatMap_cons, List.flatMap_map, List.append_assoc]
      simp only [Nat.cast_zero, Int.zero_mul, Int.add_zero, Int.toNat_ofNat]
      congr 3
      apply List.flatMap_congr
      intro k hk
      have hk1 := List.mem_range.mp hk
      simp only [Function.comp, Nat.succ_eq_add_one]
      rw [haddr k (by omega) (by omega)]
    · intro k hk
      have hk1 := hin (k + 1) (by omega)
      rcases hshift k (by omega) with h | ⟨hn0, _, _⟩
      · rw [h]
        refine ⟨hk1.1, hk1.2.1, ?_⟩
        rcases hk1.2.2 with h2 | h2
        · exact Or.inl h2
        · right; push_cast at h2 ⊢; omega
      · omega
    · rw [haddr n (le_refl n) (by omega)]
      intro hc
      apply hexit
      refine ⟨hc.1, ?_⟩
      rcases hc.2 with h2 | h2
      · exact Or.inl h2
      · right; push_cast at h2 ⊢; omega
    · intro k hk s1
      rw [haddr k (by omega) (by omega)]
      exact hbody (k + 1) (by omega) s1

theorem record_terminal (p : params) (base max_addr fuel n mem depth : Nat)
    (tr : List (Nat × Nat)) (h : (addr_loops_at p depth).step = 0) :
    run_hammer_levels record_experiment p base max_addr fuel (n + 1) mem depth tr
      = some (tr ++ [(mem, (((p.size : Int) - ((mem : Int) - (base : Int))) % 2 ^ 64).toNat)]) := by
  simp only [run_hammer_levels, h, if_true, record_experiment]

/-- Two configured levels followed by the terminal level: the sweep records the
experiments of the inner loop for each iteration of the outer loop, in order. -/
theorem run_hammer_two_level (p : params) (base mem max_addr fuel : Nat) (l0 l1 : addr_loop)
    (n0 n1 : Nat) (tr : List (Nat × Nat))
    (hcfg : p.addr_loops = [l0, l1]) (h0 : l0.step ≠ 0) (h1 : l1.step ≠ 0)
    (hf0 : n0 < fuel) (hf1 : n1 < fuel)
    (hin0 : ∀ i : Nat, i < n0 → 0 ≤ (mem : Int) + i * l0.step ∧
        (mem : Int) + i * l0.step < max_addr ∧ (l0.count = 0 ∨ (0 : Int) + i < l0.count))
    (hex0 : ¬ (((mem : Int) + n0 * l0.step).toNat < max_addr ∧
        (l0.count = 0 ∨ (0 : Int) + n0 < l0.count)))
    (hin1 : ∀ i : Nat, i < n0 → ∀ j : Nat, j < n1 →
        0 ≤ ((((mem : Int) + i * l0.step).toNat : Nat) : Int) + j * l1.step ∧
        ((((mem : Int) + i * l0.step).toNat : Nat) : Int) + j * l1.step < max_addr ∧
        (l1.count = 0 ∨ (0 : Int) + j < l1.count))
    (hex1 : ∀ i : Nat, i < n0 →
        ¬ ((((((mem : Int) + i * l0.step).toNat : Nat) : Int) + n1 * l1.step).toNat < max_addr ∧
          (l1.count = 0 ∨ (0 : Int) + n1 < l1.count))) :
    run_hammer record_experiment p base mem max_addr 0 fuel tr
      = some (tr ++ (List.range n0).flatMap (fun i => (List.range n1).flatMap (fun j =>
          [((((((mem : Int) + i * l0.step).toNat : Nat) : Int) + j * l1.step).toNat,
            (((p.size : Int) - ((((((((mem : Int) + i * l0.step).toNat : Nat) : Int)
              + j * l1.step).toNat : Nat) : Int) - (base : Int))) % 2 ^ 64).toNat)]))) := by
  have e0 : addr_loops_at p 0 = l0 := by simp [addr_loops_at, hcfg]
  have e1 : addr_loops_at p 1 = l1 := by simp [addr_loops_at, hcfg]
  have e2 : (addr_loops_at p 2).step = 0 := by simp [addr_loops_at, hcfg]
  have inner : ∀ (m1 : Nat) (s1 : List (Nat × Nat)),
      (∀ j : Nat, j < n1 → 0 ≤ (m1 : Int) + j * l1.step ∧ (m1 : Int) + j * l1.step < max_addr ∧
        (l1.count = 0 ∨ (0 : Int) + j < l1.count)) →
      ¬ (((m1 : Int) + n1 * l1.step).toNat < max_addr ∧
        (l1.count = 0 ∨ (0 : Int) + n1 < l1.count)) →
      run_hammer_levels record_experiment p base max_addr fuel (6 + 1) m1 1 s1
        = some (s1 ++ (fun m1 : Nat => (List.range n1).flatMap (fun j =>
            (fun m2 : Nat => [(m2, (((p.size : Int) - ((m2 : Int) - (base : Int))) % 2 ^ 64).toNat)])
              ((m1 : Int) + j * l1.step).toNat)) m1) := by
    intro m1 s1 hin hex
    simp only [run_hammer_levels, e1, h1, if_false]
    exact run_hammer_loop_append
      (fun mem1 s1 => run_hammer_levels record_experiment p base max_addr fuel 6 mem1 (1 + 1) s1)
      (fun m2 : Nat => [(m2, (((p.size : Int) - ((m2 : Int) - (base : Int))) % 2 ^ 64).toNat)])
      l1 max_addr n1 fuel m1 0 s1 hf1 hin hex
      (fun j _ s2 => record_terminal p base max_addr fuel 5 _ 2 s2 e2)
  show run_hammer_levels record_experiment p base max_addr fuel (7 + 1) mem 0 tr = _
  simp only [run_hammer_levels, e0, h0, if_false]
  exact run_hammer_loop_append
    (fun mem1 s1 => run_hammer_levels record_experiment p base max_addr fuel 7 mem1 (0 + 1) s1)
    (fun m1 : Nat => (List.range n1).flatMap (fun j =>
      (fun m2 : Nat => [(m2, (((p.size : Int) - ((m2 : Int) - (base : Int))) % 2 ^ 64).toNat)])
        ((m1 : Int) + j * l1.step).toNat))
    l0 max_addr n0 fuel mem 0 tr hf0 hin0 hex0
    (fun i hi s1 => inner _ s1 (hin1 i hi) (hex1 i hi))

/-! ## Lemmas on the same-bank walk -/

theorem set_row_len_start (rows : Int → row) (i : Int) (len : Nat) (j : Int) :
    (set_row_len rows i len j).start = (rows j).start := by
  simp only [set_row_len]; split <;> rfl

theorem set_row_len_idx (rows : Int → row) (i : Int) (len : Nat) (j : Int) :
    (set_row_len rows i len j).idx = (rows j).idx := by
  simp only [set_row_len]; split <;> rfl

theorem set_row_len_same (rows : Int → row) (i : Int) (len : Nat) :
    (set_row_len rows i len i).len = len := by
  simp only [set_row_len, if_true]

theorem set_row_len_other (rows : Int → row) (i : Int) (len : Nat) (j : Int) (h : j ≠ i) :
    (set_row_len rows i len j).len = (rows j).len := by
  simp only [set_row_len, h, if_false]

theorem accept_row_nr (st : find_state) (target calls : Nat) :
    (accept_row st target calls).nr_rows = st.nr_rows + 1 := rfl

theorem accept_row_new (st : find_state) (target calls : Nat) :
    ((accept_row st target calls).rows st.nr_rows).idx = st.nr_rows ∧
    ((accept_row st target calls).rows st.nr_rows).start = target := by
  simp only [accept_row, set_row_idx_start, if_true, and_self]

theorem accept_row_old (st : find_state) (target calls : Nat) (i : Int) (h : i ≠ st.nr_rows) :
    ((accept_row st target calls).rows i).idx = (st.rows i).idx ∧
    ((accept_row st target calls).rows i).start = (st.rows i).start := by
  simp only [accept_row, set_row_idx_start, h, if_false]
  split
  · exact ⟨set_row_len_idx _ _ _ _, set_row_len_start _ _ _ _⟩
  · exact ⟨rfl, rfl⟩

theorem accept_row_len_prev (st : find_state) (target calls : Nat) (h : 0 < st.nr_rows) :
    (((accept_row st target calls).rows (st.nr_rows - 1)).len : Int)
      = ((target : Int) - ((st.rows (st.nr_rows - 1)).start : Int)) % 2 ^ 32 := by
  have hne : st.nr_rows - 1 ≠ st.nr_rows := by omega
  simp only [accept_row, set_row_idx_start, hne, if_false, gt_iff_lt, h, if_true,
    set_row_len_same]
  exact Int.toNat_of_nonneg (Int.emod_nonneg _ (by norm_num))

theorem accept_row_len_old (st : find_state) (target calls : Nat) (i : Int)
    (h1 : i ≠ st.nr_rows) (h2 : i ≠ st.nr_rows - 1) :
    ((accept_row st target calls).rows i).len = (st.rows i).len := by
  simp only [accept_row, set_row_idx_start, h1, if_false]
  split
  · exact set_row_len_other _ _ _ _ h2
  · rfl

theorem accept_row_linked (st : find_state) (target calls : Nat) (hl : rows_linked st) :
    rows_linked (accept_row st target calls) := by
  obtain ⟨h0, hidx, hlen⟩ := hl
  refine ⟨by rw [accept_row_nr]; omega, ?_, ?_⟩
  · intro i hi0 hi
    rw [accept_row_nr] at hi
    by_cases hin : i = st.nr_rows
    · rw [hin]; exact (accept_row_new st target calls).1
    · rw [(accept_row_old st target calls i hin).1]
      exact hidx i hi0 (by omega)
  · intro i hi0 hi
    rw [accept_row_nr] at hi
    have hne : i ≠ st.nr_rows := by omega
    rw [(accept_row_old st target calls i hne).2]
    by_cases hlast : i = st.nr_rows - 1
    · have h1 : i + 1 = st.nr_rows := by omega
      rw [h1, (accept_row_new st target calls).2, hlast,
        accept_row_len_prev st target calls (by omega)]
    · rw [accept_row_len_old st target calls i hne hlast,
        (accept_row_old st target calls (i + 1) (by omega)).2]
      exact hlen i hi0 (by omega)

theorem fuzz_scan_target (p : params) (timing : timing_oracle) (anchor : Nat)
    (hw : p.max_fuzz + p.fuzz_step < 2 ^ 64) (fuel : Nat) :
    ∀ (fuzz target calls t1 c1 : Nat),
      fuzz_scan p timing anchor fuel fuzz target calls = some (true, t1, c1) →
      ∃ f1, fuzz ≤ f1 ∧ f1 ≤ p.max_fuzz ∧ t1 + fuzz = target + f1 := by
  induction fuel with
  | zero => intro fuzz target calls t1 c1 h; simp [fuzz_scan] at h
  | succ fuel ih =>
    intro fuzz target calls t1 c1 h
    simp only [fuzz_scan] at h
    split at h
    · rename_i hle
      split at h
      · simp only [Option.some.injEq, Prod.mk.injEq, true_and] at h
        exact ⟨fuzz, le_refl _, hle, by omega⟩
      · obtain ⟨f1, h1, h2, h3⟩ := ih _ _ _ _ _ h
        rw [Nat.mod_eq_of_lt (by omega)] at h1 h3
        exact ⟨f1, by omega, h2, by omega⟩
    · simp at h

theorem find_rows_loop_linked (p : params) (timing : timing_oracle) (mem : Nat) (step : Int)
    (len : Nat) (rows_len : Int) (ffuel : Nat) (fuel : Nat) :
    ∀ (off : Nat) (st st1 : find_state), rows_linked st →
      find_rows_loop p timing mem step len rows_len ffuel fuel off st = some st1 →
      rows_linked st1 := by
  induction fuel with
  | zero => intro off st st1 _ h; simp [find_rows_loop] at h
  | succ fuel ih =>
    intro off st st1 hl h
    simp only [find_rows_loop] at h
    split at h
    · split at h
      · simp at h
      · rename_i conflict target calls _
        split at h
        · exact ih _ { rows := st.rows, nr_rows := st.nr_rows, calls := calls } _ hl h
        · have hnew := accept_row_linked st target calls hl
          split at h
          · cases h
            exact hnew
          · exact ih _ _ _ hnew h
    · cases h
      exact hl

theorem accept_row_ascending (st : find_state) (target calls lo hi cur cur1 : Nat)
    (ha : rows_ascending lo hi cur st) (h1 : lo ≤ target) (h2 : cur ≤ target)
    (h3 : target < hi) (h4 : target < cur1) :
    rows_ascending lo hi cur1 (accept_row st target calls) := by
  obtain ⟨hb, hm⟩ := ha
  constructor
  · intro i hi0 hi
    rw [accept_row_nr] at hi
    by_cases hin : i = st.nr_rows
    · rw [hin, (accept_row_new st target calls).2]
      exact ⟨h1, h3, h4⟩
    · rw [(accept_row_old st target calls i hin).2]
      have := hb i hi0 (by omega)
      exact ⟨this.1, this.2.1, by omega⟩
  · intro i hi0 hi
    rw [accept_row_nr] at hi
    have hne : i ≠ st.nr_rows := by omega
    rw [(accept_row_old st target calls i hne).2]
    by_cases hlast : i + 1 = st.nr_rows
    · rw [hlast, (accept_row_new st target calls).2]
      have := hb i hi0 (by omega)
      omega
    · rw [(accept_row_old st target calls (i + 1) hlast).2]
      exact hm i hi0 (by omega)

theorem rows_ascending_mono (st : find_state) (lo hi cur cur1 : Nat)
    (ha : rows_ascending lo hi cur st) (h : cur ≤ cur1) : rows_ascending lo hi cur1 st := by
  refine ⟨fun i hi0 hi => ?_, ha.2⟩
  have := ha.1 i hi0 hi
  exact ⟨this.1, this.2.1, by omega⟩

theorem rows_ascending_hi (st : find_state) (lo hi cur : Nat)
    (ha : rows_ascending lo hi cur st) : rows_ascending lo hi hi st := by
  refine ⟨fun i hi0 hi => ?_, ha.2⟩
  have := ha.1 i hi0 hi
  exact ⟨this.1, this.2.1, this.2.1⟩

theorem find_rows_loop_ascending (p : params) (timing : timing_oracle) (mem : Nat) (step : Int)
    (len : Nat) (rows_len : Int) (ffuel : Nat) (hw : walk_no_wrap p step len)
    (hfz : (p.max_fuzz : Int) < step) (fuel : Nat) :
    ∀ (off : Nat) (st st1 : find_state), p.offset0 ≤ off →
      rows_ascending (mem + p.offset0) (mem + len + p.max_fuzz) (mem + off) st →
      find_rows_loop p timing mem step len rows_len ffuel fuel off st = some st1 →
      rows_ascending (mem + p.offset0) (mem + len + p.max_fuzz) (mem + len + p.max_fuzz) st1 := by
  obtain ⟨hstep, hlen, hfw⟩ := hw
  induction fuel with
  | zero => intro off st st1 _ _ h; simp [find_rows_loop] at h
  | succ fuel ih =>
    intro off st st1 hoff ha h
    simp only [find_rows_loop] at h
    split at h
    · rename_i hlt
      have hoff1 : (((off : Int) + step) % 2 ^ 64).toNat = off + step.toNat := by
        rw [Int.emod_eq_of_lt (by omega) (by omega)]
        omega
      rw [hoff1] at h
      split at h
      · simp at h
      · rename_i conflict target calls hfs
        split at h
        · exact ih _ { rows := st.rows, nr_rows := st.nr_rows, calls := calls } _ (by omega)
            (rows_ascending_mono st _ _ _ _ ha (by omega)) h
        · rename_i hc
          have hct : conflict = true := by
            cases conflict
            · exact absurd rfl hc
            · rfl
          rw [hct] at hfs
          obtain ⟨f1, _, hf1, ht⟩ := fuzz_scan_target p timing mem hfw _ _ _ _ _ _ hfs
          split at h
          · cases h
            exact accept_row_ascending st target calls _ _ _ _ ha (by omega) (by omega)
              (by omega) (by omega)
          · exact ih _ _ _ (by omega)
              (accept_row_ascending st target calls _ _ _ _ ha (by omega) (by omega)
                (by omega) (by omega)) h
    · cases h
      exact rows_ascending_hi st _ _ _ ha

theorem fuzz_scan_returns (p : params) (timing : timing_oracle) (anchor : Nat)
    (hfs : 0 < p.fuzz_step) (hw : p.max_fuzz + p.fuzz_step < 2 ^ 64) (fuel : Nat) :
    ∀ (fuzz target calls : Nat), 1 ≤ fuel → p.max_fuzz + 2 ≤ fuzz + fuel →
      ∃ r, fuzz_scan p timing anchor fuel fuzz target calls = some r := by
  induction fuel with
  | zero => intro fuzz target calls h; omega
  | succ fuel ih =>
    intro fuzz target calls _ hb
    simp only [fuzz_scan]
    split
    · split
      · exact ⟨_, rfl⟩
      · apply ih
        · omega
        · rw [Nat.mod_eq_of_lt (by omega)]
          omega
    · exact ⟨_, rfl⟩

theorem find_rows_loop_returns (p : params) (timing : timing_oracle) (mem : Nat) (step : Int)
    (len : Nat) (rows_len : Int) (ffuel : Nat) (hw : walk_no_wrap p step len)
    (hfs : 0 < p.fuzz_step) (hff : p.max_fuzz + 2 ≤ ffuel) (fuel : Nat) :
    ∀ (off : Nat) (st : find_state), 1 ≤ fuel → len + 1 ≤ off + fuel →
      ∃ st1, find_rows_loop p timing mem step len rows_len ffuel fuel off st = some st1 := by
  obtain ⟨hstep, hlen, hfw⟩ := hw
  induction fuel with
  | zero => intro off st h; omega
  | succ fuel ih =>
    intro off st _ hb
    simp only [find_rows_loop]
    split
    · rename_i hlt
      have hoff1 : (((off : Int) + step) % 2 ^ 64).toNat = off + step.toNat := by
        rw [Int.emod_eq_of_lt (by omega) (by omega)]
        omega
      rw [hoff1]
      obtain ⟨r, hr⟩ := fuzz_scan_returns p timing mem hfs hfw ffuel 0 (mem + off) st.calls
        (by omega) (by omega)
      rw [hr]
      obtain ⟨conflict, target, calls⟩ := r
      simp only
      split
      · exact ih _ _ (by omega) (by omega)
      · split
        · exact ⟨_, rfl⟩
        · exact ih _ _ (by omega) (by omega)
    · exact ⟨_, rfl⟩

theorem find_rows_no_sort (p : params) (timing : timing_oracle) (qs : List row → List row)
    (mem : Nat) (step : Int) (len : Nat) (rows0 : Int → row) (rows_len : Int) (fuel : Nat)
    (st : find_state) (hsort : p.sort_rows = 0)
    (h : find_rows_in_same_bank p timing qs mem step len rows0 rows_len fuel = some st) :
    ∃ st0, find_rows_loop p timing mem step len rows_len fuel fuel p.offset0
        { rows := rows0, nr_rows := 0, calls := 0 } = some st0 ∧
      st.nr_rows = st0.nr_rows ∧
      st.rows = set_row_len st0.rows (st0.nr_rows - 1) (st0.rows (st0.nr_rows - 2)).len := by
  simp only [find_rows_in_same_bank] at h
  split at h
  · simp at h
  · rename_i st0 hst0
    simp only [hsort, ne_eq, not_true_eq_false, if_false, Option.some.injEq] at h
    refine ⟨st0, hst0, ?_, ?_⟩
    · rw [← h]
    · rw [← h]

theorem init_linked (rows0 : Int → row) :
    rows_linked { rows := rows0, nr_rows := 0, calls := 0 } :=
  ⟨le_refl _, fun i h0 h1 => by have : i < 0 := h1; omega,
    fun i h0 h1 => by have : i + 1 < 0 := h1; omega⟩

theorem init_ascending (rows0 : Int → row) (lo hi cur : Nat) :
    rows_ascending lo hi cur { rows := rows0, nr_rows := 0, calls := 0 } :=
  ⟨fun i h0 h1 => by have : i < 0 := h1; omega,
    fun i h0 h1 => by have : i + 1 < 0 := h1; omega⟩

/-- Without `sort_rows`, the returned rows are numbered in order, linked by their
lengths modulo `2^32`, and the last length is that of its predecessor. -/
theorem find_rows_linked (p : params) (timing : timing_oracle) (qs : List row → List row)
    (mem : Nat) (step : Int) (len : Nat) (rows0 : Int → row) (rows_len : Int) (fuel : Nat)
    (st : find_state) (hsort : p.sort_rows = 0)
    (h : find_rows_in_same_bank p timing qs mem step len rows0 rows_len fuel = some st) :
    (∀ i : Int, 0 ≤ i → i < st.nr_rows → (st.rows i).idx = i) ∧
    (∀ i : Int, 0 ≤ i → i + 1 < st.nr_rows →
      ((st.rows i).len : Int)
        = (((st.rows (i + 1)).start : Int) - ((st.rows i).start : Int)) % 2 ^ 32) ∧
    (2 ≤ st.nr_rows → (st.rows (st.nr_rows - 1)).len = (st.rows (st.nr_rows - 2)).len) := by
  obtain ⟨st0, hloop, hnr, hrows⟩ := find_rows_no_sort p timing qs mem step len rows0 rows_len
    fuel st hsort h
  obtain ⟨_, hidx, hlen⟩ := find_rows_loop_linked p timing mem step len rows_len fuel fuel _ _ _
    (init_linked rows0) hloop
  rw [hnr, hrows]
  refine ⟨?_, ?_, ?_⟩
  · intro i hi0 hi
    rw [set_row_len_idx]
    exact hidx i hi0 hi
  · intro i hi0 hi
    rw [set_row_len_start, set_row_len_start, set_row_len_other _ _ _ _ (by omega)]
    exact hlen i hi0 hi
  · intro _
    rw [set_row_len_same, set_row_len_other _ _ _ _ (by omega)]

/-- Without `sort_rows`, when the counters do not wrap and the fuzz window is smaller
than the step, the returned starts increase strictly and lie in
`[mem + offset0, mem + len + max_fuzz)`. -/
theorem find_rows_ascending (p : params) (timing : timing_oracle) (qs : List row → List row)
    (mem : Nat) (step : Int) (len : Nat) (rows0 : Int → row) (rows_len : Int) (fuel : Nat)
    (st : find_state) (hsort : p.sort_rows = 0) (hw : walk_no_wrap p step len)
    (hfz : (p.max_fuzz : Int) < step)
    (h : find_rows_in_same_bank p timing qs mem step len rows0 rows_len fuel = some st) :
    (∀ i : Int, 0 ≤ i → i < st.nr_rows →
      mem + p.offset0 ≤ (st.rows i).start ∧ (st.rows i).start < mem + len + p.max_fuzz) ∧
    (∀ i : Int, 0 ≤ i → i + 1 < st.nr_rows → (st.rows i).start < (st.rows (i + 1)).start) := by
  obtain ⟨st0, hloop, hnr, hrows⟩ := find_rows_no_sort p timing qs mem step len rows0 rows_len
    fuel st hsort h
  obtain ⟨hb, hm⟩ := find_rows_loop_ascending p timing mem step len rows_len fuel hw hfz fuel
    _ _ _ (le_refl _) (init_ascending rows0 _ _ _) hloop
  rw [hnr, hrows]
  refine ⟨?_, ?_⟩
  · intro i hi0 hi
    rw [set_row_len_start]
    exact ⟨(hb i hi0 hi).1, (hb i hi0 hi).2.1⟩
  · intro i hi0 hi
    rw [set_row_len_start, set_row_len_start]
    exact hm i hi0 hi

theorem find_rows_returns (p : params) (timing : timing_oracle) (qs : List row → List row)
    (mem : Nat) (step : Int) (len : Nat) (rows0 : Int → row) (rows_len : Int) (fuel : Nat)
    (hsort : p.sort_rows = 0) (hw : walk_no_wrap p step len) (hfs : 0 < p.fuzz_step)
    (hfuel : len + p.max_fuzz + 2 ≤ fuel) :
    ∃ st, find_rows_in_same_bank p timing qs mem step len rows0 rows_len fuel = some st := by
  obtain ⟨st0, h0⟩ := find_rows_loop_returns p timing mem step len rows_len fuel hw hfs
    (by omega) fuel p.offset0 { rows := rows0, nr_rows := 0, calls := 0 } (by omega) (by omega)
  simp only [find_rows_in_same_bank, h0, hsort, ne_eq, not_true_eq_false, if_false]
  exact ⟨_, rfl⟩

theorem flatMap_singleton_eq_map {α β : Type} (l : List α) (f : α → β) :
    l.flatMap (fun x => [f x]) = l.map f := by
  induction l with
  | nil => rfl
  | cons a l ih => simp only [List.flatMap_cons, ih, List.singleton_append, List.map_cons]

theorem length_flatMap_const {α β : Type} (l : List α) (f : α → List β) (n : Nat)
    (h : ∀ x ∈ l, (f x).length = n) : (l.flatMap f).length = l.length * n := by
  induction l with
  | nil => simp
  | cons a l ih =>
    rw [List.flatMap_cons, List.length_append, h a (List.mem_cons_self _ _),
      ih (fun x hx => h x (List.mem_cons_of_mem _ hx)), List.length_cons]
    ring

/-! ## The claims C11 to C20 -/

/-- C11 as stated fails: with `step=2:4096`, `step=1:1024` (so `a = 2`, `b = 1`) on a
region of 4 KiB the second outer iteration starts at the end of the region, where the
guard `mem < max_addr` stops the loop: one experiment runs, not `a*b = 2`. -/
theorem two_level_sweep_cut_counterexample :
    short_sweep_cfg.addr_loops = [{ count := 2, step := 4096 }, { count := 1, step := 1024 }] ∧
    run_hammer record_experiment short_sweep_cfg 65536 (65536 + short_sweep_cfg.src_offset)
      (65536 + short_sweep_cfg.size) 0 10 [] = some [(65536, 4096)] := by
  decide

/-- C11 (amended): for a two-level configuration `[{count=a, step=sa}, {count=b, step=sb}]`
with `a, b > 0` (and non-zero steps, as `parse_step` enforces) such that every address
`mem + i*sa + j*sb` with `0 <= i < a`, `0 <= j < b` lies below `max_addr` (and is not
negative), `run_hammer` starts exactly `a*b` experiments, and their base addresses
are `mem + i*sa + j*sb`, `j` varying fastest. -/
theorem two_level_sweep (p : params) (base mem max_addr fuel : Nat) (a b sa sb : Int)
    (hcfg : p.addr_loops = [{ count := a, step := sa }, { count := b, step := sb }])
    (ha : 0 < a) (hb : 0 < b) (hsa : sa ≠ 0) (hsb : sb ≠ 0)
    (hrange : ∀ i j : Nat, (i : Int) < a → (j : Int) < b →
      0 ≤ (mem : Int) + i * sa + j * sb ∧ (mem : Int) + i * sa + j * sb < max_addr)
    (hfa : a < fuel) (hfb : b < fuel) :
    ∃ tr, run_hammer record_experiment p base mem max_addr 0 fuel [] = some tr ∧
      (tr.length : Int) = a * b ∧
      tr.map Prod.fst = (List.range a.toNat).flatMap (fun (i : Nat) =>
        (List.range b.toNat).map (fun (j : Nat) => ((mem : Int) + i * sa + j * sb).toNat)) := by
  have hr0 : ∀ i : Nat, i < a.toNat →
      ((((mem : Int) + i * sa).toNat : Nat) : Int) = (mem : Int) + i * sa := by
    intro i hi
    have h := (hrange i 0 (by omega) (by omega)).1
    simp only [Nat.cast_zero, Int.zero_mul, Int.add_zero] at h
    exact Int.toNat_of_nonneg h
  have key := run_hammer_two_level p base mem max_addr fuel
    { count := a, step := sa } { count := b, step := sb } a.toNat b.toNat [] hcfg hsa hsb
    (by omega) (by omega)
    (by
      intro i hi
      have h := hrange i 0 (by omega) (by omega)
      simp only [Nat.cast_zero, Int.zero_mul, Int.add_zero] at h
      exact ⟨h.1, h.2, Or.inr (by show (0 : Int) + i < a; omega)⟩)
    (by
      intro h
      rcases h.2 with h2 | h2
      · have h3 : a = 0 := h2
        omega
      · have h3 : (0 : Int) + a.toNat < a := h2
        omega)
    (by
      intro i hi j hj
      show 0 ≤ ((((mem : Int) + i * sa).toNat : Nat) : Int) + j * sb ∧
        ((((mem : Int) + i * sa).toNat : Nat) : Int) + j * sb < max_addr ∧
        (b = 0 ∨ (0 : Int) + j < b)
      rw [hr0 i hi]
      have h := hrange i j (by omega) (by omega)
      exact ⟨h.1, h.2, Or.inr (by omega)⟩)
    (by
      intro i _ h
      rcases h.2 with h2 | h2
      · have h3 : b = 0 := h2
        omega
      · have h3 : (0 : Int) + b.toNat < b := h2
        omega)
  have hfst : (([] : List (Nat × Nat)) ++ (List.range a.toNat).flatMap (fun (i : Nat) =>
      (List.range b.toNat).flatMap (fun j =>
        [((((((mem : Int) + i * sa).toNat : Nat) : Int) + j * sb).toNat,
          (((p.size : Int) - ((((((((mem : Int) + i * sa).toNat : Nat) : Int)
            + j * sb).toNat : Nat) : Int) - (base : Int))) % 2 ^ 64).toNat)]))).map Prod.fst
      = (List.range a.toNat).flatMap (fun (i : Nat) =>
        (List.range b.toNat).map (fun (j : Nat) => ((mem : Int) + i * sa + j * sb).toNat)) := by
    rw [List.nil_append, List.map_flatMap]
    apply List.flatMap_congr
    intro i hi
    rw [List.map_flatMap]
    simp only [List.map_cons, List.map_nil]
    rw [flatMap_singleton_eq_map, hr0 i (List.mem_range.mp hi)]
  refine ⟨_, key, ?_, hfst⟩
  · rw [← List.length_map _ Prod.fst, hfst,
      length_flatMap_const _ _ b.toNat (fun x _ => by simp), List.length_range]
    push_cast
    rw [Int.toNat_of_nonneg (by omega), Int.toNat_of_nonneg (by omega)]

/-- An instance of the amended C11: `step=2:4096`, `step=3:1024` on a region of 64 KiB
gives the six experiments at offsets 0, 1024, 2048, 4096, 5120, 6144. -/
theorem two_level_sweep_witness :
    (two_level_cfg.addr_loops = [{ count := 2, step := 4096 }, { count := 3, step := 1024 }] ∧
      (0 : Int) < 2 ∧ (0 : Int) < 3 ∧ (4096 : Int) ≠ 0 ∧ (1024 : Int) ≠ 0 ∧
      (2 : Int) < (10 : Nat) ∧ (3 : Int) < (10 : Nat)) ∧
    (∃ tr, run_hammer record_experiment two_level_cfg 65536 65536 131072 0 10 [] = some tr ∧
      (tr.length : Int) = 2 * 3 ∧
      tr.map Prod.fst = (List.range (2 : Int).toNat).flatMap (fun (i : Nat) =>
        (List.range (3 : Int).toNat).map
          (fun (j : Nat) => (((65536 : Nat) : Int) + i * 4096 + j * 1024).toNat))) ∧
    (run_hammer record_experiment two_level_cfg 65536 65536 131072 0 10 []).map
        (List.map (fun x => x.1 - 65536)) = some [0, 1024, 2048, 4096, 5120, 6144] :=
  ⟨by decide,
    two_level_sweep two_level_cfg 65536 65536 131072 10 2 3 4096 1024 rfl (by decide)
      (by decide) (by decide) (by decide)
      (by
        intro i j hi hj
        have hi1 : i < 2 := by omega
        have hj1 : j < 3 := by omega
        constructor <;> push_cast <;> omega)
      (by decide) (by decide),
    by decide⟩

/-- C12: with the levels `step=0:4096` and `step=3:1024` on a region of 12 KiB swept from
its start, `run_hammer` runs the experiments at exactly the base offsets 0, 1024, 2048,
4096, 5120, 6144, 8192, 9216, 10240, in that order: the level with count 0 repeats
until the address reaches the end of the region.  This holds for every base address
and every iteration bound of at least 4. -/
theorem s6_address_loop (base fuel : Nat) :
    (run_hammer record_experiment s6_cfg base (base + s6_cfg.src_offset)
        (base + s6_cfg.size) 0 (fuel + 4) []).map (List.map (fun x => x.1 - base))
      = some [0, 1024, 2048, 4096, 5120, 6144, 8192, 9216, 10240] := by
  have key := run_hammer_two_level s6_cfg base (base + s6_cfg.src_offset)
    (base + s6_cfg.size) (fuel + 4)
    { count := 0, step := 4096 } { count := 3, step := 1024 } 3 3 [] rfl (by decide)
    (by decide) (by omega) (by omega)
    (by
      intro i hi
      refine ⟨?_, ?_, Or.inl rfl⟩
      · simp only [s6_cfg]; omega
      · simp only [s6_cfg]; push_cast; omega)
    (by
      simp only [s6_cfg]
      intro h
      have h1 := h.1
      omega)
    (by
      intro i hi j hj
      refine ⟨?_, ?_, Or.inr ?_⟩
      · simp only [s6_cfg]; omega
      · simp only [s6_cfg]; push_cast; omega
      · show (0 : Int) + j < 3
        omega)
    (by
      intro i _ h
      rcases h.2 with h2 | h2
      · have h3 : (3 : Int) = 0 := h2
        omega
      · have h3 : (0 : Int) + (3 : Nat) < 3 := h2
        omega)
  rw [key]
  simp only [s6_cfg, List.nil_append, Option.map_some', Option.some.injEq]
  simp only [List.range_succ, List.range_zero, List.nil_append, List.flatMap_cons,
    List.flatMap_nil, List.append_nil, List.cons_append, List.map_cons, List.map_nil]
  refine List.cons_eq_cons.mpr ⟨by omega, ?_⟩
  refine List.cons_eq_cons.mpr ⟨by omega, ?_⟩
  refine List.cons_eq_cons.mpr ⟨by omega, ?_⟩
  refine List.cons_eq_cons.mpr ⟨by omega, ?_⟩
  refine List.cons_eq_cons.mpr ⟨by omega, ?_⟩
  refine List.cons_eq_cons.mpr ⟨by omega, ?_⟩
  refine List.cons_eq_cons.mpr ⟨by omega, ?_⟩
  refine List.cons_eq_cons.mpr ⟨by omega, ?_⟩
  refine List.cons_eq_cons.mpr ⟨by omega, rfl⟩

/-- C20: for every `row_count >= 0` and `W >= 2` workers, `parallel_hammer` gives the
worker at dispatch position `idx` a slice of `row_count / W` rows plus one more if
`idx < row_count mod W`; the slices start at 0, each starts where the one before
ends, the last ends at `row_count`, their sizes sum to `row_count` and differ by at
most 1. -/
theorem parallel_hammer_partition (row_count : Int) (W : Nat) (hrc : 0 ≤ row_count)
    (hW : 2 ≤ W) :
    (parallel_hammer_dispatch row_count W).length = W ∧
    (∀ idx, idx < W → ∃ start, (parallel_hammer_dispatch row_count W)[idx]? =
        some (start, row_count / W + if (idx : Int) < row_count % W then 1 else 0)) ∧
    ((parallel_hammer_dispatch row_count W)[0]?).map Prod.fst = some 0 ∧
    (∀ idx, idx + 1 < W →
      ((parallel_hammer_dispatch row_count W)[idx + 1]?).map Prod.fst
        = ((parallel_hammer_dispatch row_count W)[idx]?).map (fun x => x.1 + x.2)) ∧
    ((parallel_hammer_dispatch row_count W)[W - 1]?).map (fun x => x.1 + x.2)
      = some row_count ∧
    ((parallel_hammer_dispatch row_count W).map Prod.snd).sum = row_count ∧
    (∀ x ∈ parallel_hammer_dispatch row_count W, ∀ y ∈ parallel_hammer_dispatch row_count W,
      x.2 ≤ y.2 + 1) := by
  have hWpos : (0 : Int) < W := by omega
  have hr0 : 0 ≤ row_count % W := Int.emod_nonneg _ (by omega)
  have hrW : row_count % W < W := Int.emod_lt_of_pos _ hWpos
  have hget : ∀ k, k < W → (parallel_hammer_dispatch row_count W)[k]? =
      some ((k : Int) * (row_count / W) + min (k : Int) (row_count % W),
        row_count / W + if (k : Int) < row_count % W then 1 else 0) := by
    intro k hk
    have h := dispatch_loop_get row_count W W 0 0 k hk (le_refl 0)
      (by rw [min_eq_left hr0]; ring) hrc hWpos
    simpa only [Int.zero_add] using h
  refine ⟨dispatch_loop_length _ _ _ _ _, ?_, ?_, ?_, ?_, ?_, ?_⟩
  · intro idx hidx
    exact ⟨_, hget idx hidx⟩
  · rw [hget 0 (by omega)]
    simp [min_eq_left hr0]
  · intro idx hidx
    rw [hget (idx + 1) hidx, hget idx (by omega)]
    simp only [Option.map_some', Option.some.injEq]
    push_cast
    split
    · rw [min_eq_left (by omega), min_eq_left (by omega)]; ring
    · rw [min_eq_right (by omega), min_eq_right (by omega)]; ring
  · rw [hget (W - 1) (by omega)]
    simp only [Option.map_some', Option.some.injEq]
    have hc : ((W - 1 : Nat) : Int) = (W : Int) - 1 := by omega
    rw [hc]
    have hdiv := Int.emod_add_ediv row_count W
    split
    · omega
    · rw [min_eq_right (by omega)]; linarith
  · have h := dispatch_loop_sum row_count W W 0 0 (le_refl 0)
      (by rw [min_eq_left hr0]; ring) hrc hWpos
    rw [Int.zero_add, Int.zero_add, min_eq_right (by omega)] at h
    have hdiv := Int.emod_add_ediv row_count W
    show ((dispatch_loop row_count W W 0 0).map Prod.snd).sum = row_count
    rw [h]
    linarith
  · intro x hx y hy
    obtain ⟨i, hi, hxi⟩ := List.getElem_of_mem hx
    obtain ⟨j, hj, hyj⟩ := List.getElem_of_mem hy
    have hlen : (parallel_hammer_dispatch row_count W).length = W :=
      dispatch_loop_length _ _ _ _ _
    have h1 := hget i (by omega)
    have h2 := hget j (by omega)
    rw [List.getElem?_eq_getElem hi, hxi] at h1
    rw [List.getElem?_eq_getElem hj, hyj] at h2
    cases h1
    cases h2
    simp only
    split <;> split <;> omega

/-- An instance of C20: 10 rows over 4 workers are dealt as 3, 3, 2, 2 from the
offsets 0, 3, 6, 8. -/
theorem parallel_hammer_partition_witness :
    ((0 : Int) ≤ 10 ∧ 2 ≤ 4) ∧
    parallel_hammer_dispatch 10 4 = [(0, 3), (3, 3), (6, 2), (8, 2)] ∧
    ((parallel_hammer_dispatch 10 4).map Prod.snd).sum = 10 :=
  ⟨by decide, by decide,
    (parallel_hammer_partition 10 4 (by decide) (by decide)).2.2.2.2.2.1⟩

/-- C13 as stated fails: with a fuzz window that spans the step (`find_step = 4096`,
`max_fuzz = 4096`) and an oracle that reports a conflict at `mem + 4096` only, the walk
accepts `mem + 4096` at the end of the first window and again at the start of the
second: two rows with the same start, both of length 0. -/
theorem fuzz_window_rows_counterexample :
    step_fuzz_cfg.sort_rows = 0 ∧
    (find_rows_in_same_bank step_fuzz_cfg (conflict_at [walk_mem + 4096]) id walk_mem
        step_fuzz_cfg.find_step step_fuzz_cfg.size (junk_rows 7) step_fuzz_cfg.n_rows 20).map
      (fun st => (st.nr_rows, found_rows st))
      = some (2, [{ idx := 0, start := walk_mem + 4096, len := 0 },
          { idx := 1, start := walk_mem + 4096, len := 0 }]) := by
  decide

/-- C13 (amended): for every timing oracle and every configuration without
`sort_rows` whose fuzz window is smaller than the step (`max_fuzz < step`, `step > 0`)
and whose scanned span `len + max_fuzz - offset0` is at most 4 GiB, when
`find_rows_in_same_bank` returns `n >= 2` rows, `rows[i].start < rows[i+1].start` for
every `i < n-1` and every `rows[i].len` is positive.  With `fuzz_step > 0` the walk
returns for every iteration bound of at least `len + max_fuzz + 2`. -/
theorem same_bank_rows_ascending (p : params) (timing : timing_oracle)
    (qs : List row → List row) (mem : Nat) (step : Int) (len : Nat) (rows0 : Int → row)
    (rows_len : Int) (hsort : p.sort_rows = 0) (hw : walk_no_wrap p step len)
    (hfz : (p.max_fuzz : Int) < step) (h32 : len + p.max_fuzz ≤ p.offset0 + 2 ^ 32) :
    (∀ (fuel : Nat) (st : find_state),
      find_rows_in_same_bank p timing qs mem step len rows0 rows_len fuel = some st →
      2 ≤ st.nr_rows →
      (∀ i : Int, 0 ≤ i → i + 1 < st.nr_rows → (st.rows i).start < (st.rows (i + 1)).start) ∧
      (∀ i : Int, 0 ≤ i → i < st.nr_rows → 0 < (st.rows i).len)) ∧
    (0 < p.fuzz_step → ∀ fuel : Nat, len + p.max_fuzz + 2 ≤ fuel →
      ∃ st, find_rows_in_same_bank p timing qs mem step len rows0 rows_len fuel = some st) := by
  refine ⟨?_, fun hfs fuel hfuel =>
    find_rows_returns p timing qs mem step len rows0 rows_len fuel hsort hw hfs hfuel⟩
  intro fuel st h hn
  obtain ⟨hb, hm⟩ := find_rows_ascending p timing qs mem step len rows0 rows_len fuel st hsort
    hw hfz h
  obtain ⟨_, hlen, hlast⟩ := find_rows_linked p timing qs mem step len rows0 rows_len fuel st
    hsort h
  have hpos : ∀ i : Int, 0 ≤ i → i + 1 < st.nr_rows → 0 < (st.rows i).len := by
    intro i hi0 hi
    have h1 := hlen i hi0 hi
    have h2 := hm i hi0 hi
    have h3 := hb i hi0 (by omega)
    have h4 := hb (i + 1) (by omega) hi
    rw [Int.emod_eq_of_lt (by omega) (by omega)] at h1
    omega
  refine ⟨hm, ?_⟩
  intro i hi0 hi
  by_cases hl : i + 1 < st.nr_rows
  · exact hpos i hi0 hl
  · have hi1 : i = st.nr_rows - 1 := by omega
    rw [hi1, hlast hn]
    exact hpos (st.nr_rows - 2) (by omega) (by omega)

/-- An instance of the amended C13: a walk without fuzz over 14 KiB in steps of 4 KiB,
with conflicts at offsets 4, 8 and 12 KiB, returns three rows of 4 KiB. -/
theorem same_bank_rows_ascending_witness :
    (plain_walk_cfg.sort_rows = 0 ∧
      walk_no_wrap plain_walk_cfg plain_walk_cfg.find_step plain_walk_cfg.size ∧
      (plain_walk_cfg.max_fuzz : Int) < plain_walk_cfg.find_step ∧
      plain_walk_cfg.size + plain_walk_cfg.max_fuzz ≤ plain_walk_cfg.offset0 + 2 ^ 32) ∧
    (find_rows_in_same_bank plain_walk_cfg
        (conflict_at [walk_mem + 4096, walk_mem + 8192, walk_mem + 12288]) id walk_mem
        plain_walk_cfg.find_step plain_walk_cfg.size (junk_rows 7) plain_walk_cfg.n_rows 20).map
      (fun st => (st.nr_rows, found_rows st))
      = some (3, [{ idx := 0, start := walk_mem + 4096, len := 4096 },
          { idx := 1, start := walk_mem + 8192, len := 4096 },
          { idx := 2, start := walk_mem + 12288, len := 4096 }]) ∧
    ((∀ (fuel : Nat) (st : find_state),
      find_rows_in_same_bank plain_walk_cfg
        (conflict_at [walk_mem + 4096, walk_mem + 8192, walk_mem + 12288]) id walk_mem
        plain_walk_cfg.find_step plain_walk_cfg.size (junk_rows 7) plain_walk_cfg.n_rows fuel
          = some st →
      2 ≤ st.nr_rows →
      (∀ i : Int, 0 ≤ i → i + 1 < st.nr_rows → (st.rows i).start < (st.rows (i + 1)).start) ∧
      (∀ i : Int, 0 ≤ i → i < st.nr_rows → 0 < (st.rows i).len)) ∧
    (0 < plain_walk_cfg.fuzz_step → ∀ fuel : Nat,
      plain_walk_cfg.size + plain_walk_cfg.max_fuzz + 2 ≤ fuel →
      ∃ st, find_rows_in_same_bank plain_walk_cfg
        (conflict_at [walk_mem + 4096, walk_mem + 8192, walk_mem + 12288]) id walk_mem
        plain_walk_cfg.find_step plain_walk_cfg.size (junk_rows 7) plain_walk_cfg.n_rows fuel
          = some st)) :=
  ⟨⟨by decide, by unfold walk_no_wrap; decide, by decide, by decide⟩, by decide,
    same_bank_rows_ascending plain_walk_cfg _ id walk_mem plain_walk_cfg.find_step
      plain_walk_cfg.size (junk_rows 7) plain_walk_cfg.n_rows (by decide)
      (by unfold walk_no_wrap; decide) (by decide) (by decide)⟩

/-- C15, the code at the failing input: a walk over a region of 8 KiB in steps of
4 KiB with a fuzz window of 4 KiB probed every 1 KiB, the oracle reporting conflicts
at the offsets 2 KiB and 8 KiB.  In the second window the probes reach
`mem + 4096 + 4096 = mem + size`, which is accepted as the start of row 1: a start at
the end of the region, outside `[base + offset0, base + size)`. -/
theorem fuzz_window_start_past_end :
    (find_rows_in_same_bank step_fuzz_cfg (conflict_at [walk_mem + 2048, walk_mem + 8192]) id
        walk_mem step_fuzz_cfg.find_step step_fuzz_cfg.size (junk_rows 7)
        step_fuzz_cfg.n_rows 20).map (fun st => (found_rows st).map row.start)
      = some [walk_mem + 2048, walk_mem + 8192] ∧
    walk_mem + 8192 = walk_mem + step_fuzz_cfg.size := by
  decide

/-- C16 as stated fails: a walk over 8 GiB in steps of 1 GiB with conflicts at the
offsets 1 GiB and 5 GiB returns two rows whose starts are `2^32` bytes apart; the
`uint32_t` field `rows[0].len` holds 0, not the difference of the starts. -/
theorem row_len_wraps_counterexample :
    huge_walk_cfg.sort_rows = 0 ∧
    (find_rows_in_same_bank huge_walk_cfg
        (conflict_at [walk_mem + 2 ^ 30, walk_mem + 2 ^ 30 + 2 ^ 32]) id walk_mem
        huge_walk_cfg.find_step huge_walk_cfg.size (junk_rows 7) huge_walk_cfg.n_rows 20).map
      (fun st => (st.nr_rows, found_rows st))
      = some (2, [{ idx := 0, start := walk_mem + 2 ^ 30, len := 0 },
          { idx := 1, start := walk_mem + 2 ^ 30 + 2 ^ 32, len := 0 }]) ∧
    (walk_mem + 2 ^ 30 + 2 ^ 32) - (walk_mem + 2 ^ 30) ≠ 0 := by
  decide

/-- C16 (amended): when `find_rows_in_same_bank` returns `n >= 2` rows without
`sort_rows`, `rows[i].idx = i` for every `i < n`, `rows[i].len` is
`rows[i+1].start - rows[i].start` reduced modulo `2^32` (the difference itself when it
is not negative and below `2^32`) for every `i < n-1`, and
`rows[n-1].len = rows[n-2].len`. -/
theorem same_bank_rows_linked (p : params) (timing : timing_oracle)
    (qs : List row → List row) (mem : Nat) (step : Int) (len : Nat) (rows0 : Int → row)
    (rows_len : Int) (fuel : Nat) (st : find_state) (hsort : p.sort_rows = 0)
    (h : find_rows_in_same_bank p timing qs mem step len rows0 rows_len fuel = some st)
    (hn : 2 ≤ st.nr_rows) :
    (∀ i : Int, 0 ≤ i → i < st.nr_rows → (st.rows i).idx = i) ∧
    (∀ i : Int, 0 ≤ i → i + 1 < st.nr_rows →
      ((st.rows i).len : Int)
        = (((st.rows (i + 1)).start : Int) - ((st.rows i).start : Int)) % 2 ^ 32 ∧
      ((st.rows i).start ≤ (st.rows (i + 1)).start →
        (st.rows (i + 1)).start - (st.rows i).start < 2 ^ 32 →
        (st.rows i).len = (st.rows (i + 1)).start - (st.rows i).start)) ∧
    (st.rows (st.nr_rows - 1)).len = (st.rows (st.nr_rows - 2)).len := by
  obtain ⟨hidx, hlen, hlast⟩ := find_rows_linked p timing qs mem step len rows0 rows_len fuel
    st hsort h
  refine ⟨hidx, ?_, hlast hn⟩
  intro i hi0 hi
  refine ⟨hlen i hi0 hi, ?_⟩
  intro h1 h2
  have h3 := hlen i hi0 hi
  rw [Int.emod_eq_of_lt (by omega) (by omega)] at h3
  omega

/-- An instance of the amended C16: the plain walk over 14 KiB with conflicts at
offsets 4, 8 and 12 KiB returns the rows (0, 4 KiB), (1, 4 KiB), (2, 4 KiB). -/
theorem same_bank_rows_linked_witness :
    (plain_walk_cfg.sort_rows = 0 ∧
      find_rows_in_same_bank plain_walk_cfg
        (conflict_at [walk_mem + 4096, walk_mem + 8192, walk_mem + 12288]) id walk_mem
        plain_walk_cfg.find_step plain_walk_cfg.size (junk_rows 7) plain_walk_cfg.n_rows 20
          = some plain_walk_result ∧
      2 ≤ plain_walk_result.nr_rows) ∧
    found_rows plain_walk_result
      = [{ idx := 0, start := walk_mem + 4096, len := 4096 },
          { idx := 1, start := walk_mem + 8192, len := 4096 },
          { idx := 2, start := walk_mem + 12288, len := 4096 }] ∧
    ((∀ i : Int, 0 ≤ i → i < plain_walk_result.nr_rows → (plain_walk_result.rows i).idx = i) ∧
    (∀ i : Int, 0 ≤ i → i + 1 < plain_walk_result.nr_rows →
      ((plain_walk_result.rows i).len : Int)
        = (((plain_walk_result.rows (i + 1)).start : Int)
            - ((plain_walk_result.rows i).start : Int)) % 2 ^ 32 ∧
      ((plain_walk_result.rows i).start ≤ (plain_walk_result.rows (i + 1)).start →
        (plain_walk_result.rows (i + 1)).start - (plain_walk_result.rows i).start < 2 ^ 32 →
        (plain_walk_result.rows i).len
          = (plain_walk_result.rows (i + 1)).start - (plain_walk_result.rows i).start)) ∧
    (plain_walk_result.rows (plain_walk_result.nr_rows - 1)).len
      = (plain_walk_result.rows (plain_walk_result.nr_rows - 2)).len) :=
  ⟨⟨by decide, by rfl, by decide⟩, by decide,
    same_bank_rows_linked plain_walk_cfg
      (conflict_at [walk_mem + 4096, walk_mem + 8192, walk_mem + 12288]) id walk_mem
      plain_walk_cfg.find_step plain_walk_cfg.size (junk_rows 7) plain_walk_cfg.n_rows 20
      plain_walk_result (by decide) (by rfl) (by decide)⟩

/-! ## Lemmas on the linearizer -/

theorem runs_from_pos (ps : Nat) (a b : Nat × Nat) (rest : List (Nat × Nat))
    (h : b.2 = (a.2 + ps) % 2 ^ 64) :
    runs_from ps a (b :: rest) = cons_run a (runs_from ps b rest) := by
  rw [runs_from, if_pos h]

theorem runs_from_neg (ps : Nat) (a b : Nat × Nat) (rest : List (Nat × Nat))
    (h : ¬ b.2 = (a.2 + ps) % 2 ^ 64) :
    runs_from ps a (b :: rest) = [a] :: runs_from ps b rest := by
  rw [runs_from, if_neg h]

theorem mark_consec_pos (ps : Nat) (prev pg : page) (rest : List page) (rc : Int)
    (h : pg.phys = (prev.phys + ps) % 2 ^ 64) :
    mark_consec ps prev (pg :: rest) rc
      = ({ prev with consec_len := 0 } ::
          (mark_consec ps { pg with consec_len := prev.consec_len + 1 } rest rc).1,
         (mark_consec ps { pg with consec_len := prev.consec_len + 1 } rest rc).2) := by
  rw [mark_consec, if_pos h]

theorem mark_consec_neg (ps : Nat) (prev pg : page) (rest : List page) (rc : Int)
    (h : ¬ pg.phys = (prev.phys + ps) % 2 ^ 64) :
    mark_consec ps prev (pg :: rest) rc
      = (prev :: (mark_consec ps { pg with consec_len := 1 } rest (rc + 1)).1,
         (mark_consec ps { pg with consec_len := 1 } rest (rc + 1)).2) := by
  rw [mark_consec, if_neg h]

theorem runs_from_head (ps : Nat) : ∀ (rest : List (Nat × Nat)) (a : Nat × Nat),
    ∃ X Y, runs_from ps a rest = (a :: X) :: Y := by
  intro rest
  induction rest with
  | nil => intro a; exact ⟨[], [], rfl⟩
  | cons b rest ih =>
    intro a
    obtain ⟨X, Y, h⟩ := ih b
    by_cases hc : b.2 = (a.2 + ps) % 2 ^ 64
    · exact ⟨b :: X, Y, by rw [runs_from_pos ps a b rest hc, h]; rfl⟩
    · exact ⟨[], runs_from ps b rest, by rw [runs_from_neg ps a b rest hc]⟩

theorem mark_consec_runs (ps : Nat) : ∀ (rest : List page) (prev : page) (rc : Int),
    ∃ R Rs, runs_from ps prev.addrs (rest.map page.addrs) = R :: Rs ∧
      mark_consec ps prev rest rc
        = (mark_run (prev.consec_len - 1) R ++ Rs.flatMap (mark_run 0), rc + Rs.length) := by
  intro rest
  induction rest with
  | nil =>
    intro prev rc
    refine ⟨[prev.addrs], [], rfl, ?_⟩
    cases prev
    simp [mark_consec, mark_run, page.addrs]
  | cons pg rest ih =>
    intro prev rc
    by_cases hc : pg.phys = (prev.phys + ps) % 2 ^ 64
    · obtain ⟨R, Rs, hr, hm⟩ := ih { pg with consec_len := prev.consec_len + 1 } rc
      obtain ⟨X, Y, hh⟩ := runs_from_head ps (rest.map page.addrs) pg.addrs
      have hr2 : runs_from ps pg.addrs (rest.map page.addrs) = R :: Rs := hr
      rw [hh] at hr2
      obtain ⟨rfl, rfl⟩ := List.cons.inj hr2
      refine ⟨prev.addrs :: pg.addrs :: X, Y, ?_, ?_⟩
      · rw [List.map_cons, runs_from_pos ps prev.addrs pg.addrs _ hc, hh]
        rfl
      · rw [mark_consec_pos ps prev pg rest rc hc, hm]
        have e1 : prev.consec_len + 1 - 1 = prev.consec_len - 1 + 1 := by ring
        show (_ :: (mark_run (prev.consec_len + 1 - 1) (pg.addrs :: X) ++ _), _) = _
        rw [e1]
        rfl
    · obtain ⟨R, Rs, hr, hm⟩ := ih { pg with consec_len := 1 } (rc + 1)
      have hr2 : runs_from ps pg.addrs (rest.map page.addrs) = R :: Rs := hr
      refine ⟨[prev.addrs], R :: Rs, ?_, ?_⟩
      · rw [List.map_cons, runs_from_neg ps prev.addrs pg.addrs _ hc, hr2]
      · rw [mark_consec_neg ps prev pg rest rc hc, hm]
        cases prev
        simp [page.addrs, List.flatMap_cons, mark_run]
        ring

theorem mark_run_concat : ∀ (R : List (Nat × Nat)) (e : Int) (a : Nat × Nat),
    mark_run e (R ++ [a])
      = R.map (fun x => ({ virt := x.1, phys := x.2, consec_len := 0 } : page)) ++
        [{ virt := a.1, phys := a.2, consec_len := (R.length : Int) + 1 + e }] := by
  intro R
  induction R with
  | nil => intro e a; simp [mark_run]
  | cons x R ih =>
    intro e a
    cases R with
    | nil => simp [mark_run]; ring
    | cons y R =>
      have := ih (e + 1) a
      simp only [List.cons_append] at this ⊢
      simp only [mark_run, this]
      simp
      ring

theorem build_ranges_zero : ∀ (M : List (Nat × Nat)) (rest : List page) (cur : range)
    (done : List range) (next : Int), (M.length : Int) ≤ next →
    build_ranges (M.map (fun x => ({ virt := x.1, phys := x.2, consec_len := 0 } : page)) ++ rest)
        (cur :: done) next
      = build_ranges rest
          ({ cur with virt_addrs := M.reverse.map Prod.fst ++ cur.virt_addrs } :: done)
          (next - M.length) := by
  intro M
  induction M with
  | nil => intro rest cur done next _; simp
  | cons x M ih =>
    intro rest cur done next h
    simp only [List.length_cons, Nat.cast_add, Nat.cast_one] at h
    have step : build_ranges
        (({ virt := x.1, phys := x.2, consec_len := 0 } : page) ::
          (M.map (fun x => ({ virt := x.1, phys := x.2, consec_len := 0 } : page)) ++ rest))
        (cur :: done) next
        = build_ranges (M.map (fun x => ({ virt := x.1, phys := x.2, consec_len := 0 } : page)) ++ rest)
          ({ cur with virt_addrs := x.1 :: cur.virt_addrs } :: done) (next - 1) := by
      simp only [build_ranges, lt_irrefl, if_false]
      rw [if_neg (by omega)]
    rw [List.map_cons, List.cons_append, step, ih _ _ _ _ (by omega)]
    simp only [List.reverse_cons, List.map_append, List.map_cons, List.map_nil, List.append_assoc,
      List.singleton_append, List.length_cons, Nat.cast_add, Nat.cast_one]
    congr 1
    omega

theorem build_ranges_run (R : List (Nat × Nat)) (hR : R ≠ []) (rest : List page)
    (acc : List range) (next : Int) :
    build_ranges ((mark_run 0 R).reverse ++ rest) acc next
      = build_ranges rest (to_range R :: acc) 0 := by
  rcases List.eq_nil_or_concat R with h | ⟨L, a, h⟩
  · exact absurd h hR
  · rw [List.concat_eq_append] at h
    subst h
    rw [mark_run_concat]
    simp only [List.reverse_append, List.reverse_cons, List.reverse_nil, List.nil_append,
      List.singleton_append, List.cons_append, ← List.map_reverse]
    have hpos : (0 : Int) < (L.length : Int) + 1 + 0 := by omega
    simp only [build_ranges, hpos, if_true]
    rw [if_neg (by omega)]
    rw [build_ranges_zero _ _ _ _ _ (by simp)]
    simp [to_range]

theorem build_ranges_runs : ∀ (L : List (List (Nat × Nat))), (∀ R ∈ L, R ≠ []) →
    ∀ (acc : List range) (next : Int),
    build_ranges (L.flatMap (fun R => (mark_run 0 R).reverse)) acc next
      = some ((L.reverse.map to_range ++ acc).reverse) := by
  intro L
  induction L with
  | nil => intro _ acc next; simp [build_ranges]
  | cons R L ih =>
    intro h acc next
    rw [List.flatMap_cons, build_ranges_run R (h R (by simp)),
      ih (fun R1 h1 => h R1 (by simp [h1]))]
    simp

theorem cons_run_flatten (a : Nat × Nat) (Rs : List (List (Nat × Nat))) :
    (cons_run a Rs).flatten = a :: Rs.flatten := by
  cases Rs <;> simp [cons_run]

theorem runs_from_flatten (ps : Nat) : ∀ (rest : List (Nat × Nat)) (a : Nat × Nat),
    (runs_from ps a rest).flatten = a :: rest := by
  intro rest
  induction rest with
  | nil => intro a; simp [runs_from]
  | cons b rest ih =>
    intro a
    by_cases hc : b.2 = (a.2 + ps) % 2 ^ 64
    · rw [runs_from_pos ps a b rest hc, cons_run_flatten, ih]
    · rw [runs_from_neg ps a b rest hc, List.flatten_cons, ih]
      rfl

theorem mem_of_mem_runs_from (ps : Nat) (rest : List (Nat × Nat)) (a : Nat × Nat)
    (R : List (Nat × Nat)) (hR : R ∈ runs_from ps a rest) (x : Nat × Nat) (hx : x ∈ R) :
    x ∈ a :: rest := by
  rw [← runs_from_flatten ps rest a]
  exact List.mem_flatten.2 ⟨R, hR, hx⟩

theorem runs_from_chain (ps : Nat) : ∀ (rest : List (Nat × Nat)) (a : Nat × Nat),
    ∀ R ∈ runs_from ps a rest,
      R ≠ [] ∧ R.Chain' (fun x y => y.2 = (x.2 + ps) % 2 ^ 64) := by
  intro rest
  induction rest with
  | nil =>
    intro a R hR
    simp only [runs_from, List.mem_singleton] at hR
    subst hR
    simp
  | cons b rest ih =>
    intro a R hR
    obtain ⟨X, Y, hh⟩ := runs_from_head ps rest b
    by_cases hc : b.2 = (a.2 + ps) % 2 ^ 64
    · rw [runs_from_pos ps a b rest hc, hh] at hR
      simp only [cons_run, List.mem_cons] at hR
      rcases hR with rfl | hR
      · exact ⟨by simp, List.Chain'.cons hc (ih b (b :: X) (by rw [hh]; simp)).2⟩
      · exact ih b R (by rw [hh]; simp [hR])
    · rw [runs_from_neg ps a b rest hc] at hR
      simp only [List.mem_cons] at hR
      rcases hR with rfl | hR
      · simp
      · exact ih b R hR

theorem runs_from_last_maximal (ps : Nat) (hps : 0 < ps) :
    ∀ (rest : List (Nat × Nat)) (a : Nat × Nat),
    (a :: rest).Pairwise (fun x y => x.2 + ps ≤ y.2) → (∀ x ∈ a :: rest, x.2 + ps < 2 ^ 64) →
    ∀ R ∈ runs_from ps a rest, ∀ l ∈ R.getLast?, ∀ q ∈ a :: rest, q.2 ≠ l.2 + ps := by
  intro rest
  induction rest with
  | nil =>
    intro a _ _ R hR l hl q hq
    simp only [runs_from, List.mem_singleton] at hR
    subst hR
    simp only [List.getLast?_singleton, Option.mem_def, Option.some.injEq] at hl
    simp only [List.mem_singleton] at hq
    subst hl hq
    omega
  | cons b rest ih =>
    intro a hG hW R hR l hl q hq
    obtain ⟨hab, hGb⟩ := List.pairwise_cons.1 hG
    have ihb := ih b hGb (fun x hx => hW x (List.mem_cons_of_mem _ hx))
    have key : ∀ R0 ∈ runs_from ps b rest, l ∈ R0.getLast? → q.2 ≠ l.2 + ps := by
      intro R0 hR0 hl0
      have hlm : l ∈ b :: rest :=
        mem_of_mem_runs_from ps rest b R0 hR0 l (List.mem_of_mem_getLast? hl0)
      rcases List.mem_cons.1 hq with rfl | hq1
      · have := hab l hlm
        omega
      · exact ihb R0 hR0 l hl0 q hq1
    obtain ⟨X, Y, hh⟩ := runs_from_head ps rest b
    have hWa := hW a (by simp)
    by_cases hc : b.2 = (a.2 + ps) % 2 ^ 64
    · rw [runs_from_pos ps a b rest hc, hh] at hR
      simp only [cons_run, List.mem_cons] at hR
      rcases hR with rfl | hR
      · rw [List.getLast?_cons_cons] at hl
        exact key (b :: X) (by rw [hh]; simp) hl
      · exact key R (by rw [hh]; simp [hR]) hl
    · rw [runs_from_neg ps a b rest hc] at hR
      simp only [List.mem_cons] at hR
      rcases hR with rfl | hR
      · simp only [List.getLast?_singleton, Option.mem_def, Option.some.injEq] at hl
        subst hl
        rw [Nat.mod_eq_of_lt hWa] at hc
        rcases List.mem_cons.1 hq with rfl | hq1
        · omega
        · rcases List.mem_cons.1 hq1 with rfl | hq2
          · exact hc
          · have h1 := (List.pairwise_cons.1 hGb).1 q hq2
            have h2 := hab b (by simp)
            omega
      · exact key R hR hl

theorem runs_from_head_maximal (ps : Nat) (hps : 0 < ps) :
    ∀ (rest : List (Nat × Nat)) (a : Nat × Nat),
    (a :: rest).Pairwise (fun x y => x.2 + ps ≤ y.2) → (∀ x ∈ a :: rest, x.2 + ps < 2 ^ 64) →
    ∀ R ∈ runs_from ps a rest, ∀ h ∈ R.head?, ∀ q ∈ a :: rest, q.2 + ps ≠ h.2 := by
  intro rest
  induction rest with
  | nil =>
    intro a _ _ R hR h hh q hq
    simp only [runs_from, List.mem_singleton] at hR
    subst hR
    simp only [List.head?_cons, Option.mem_def, Option.some.injEq] at hh
    simp only [List.mem_singleton] at hq
    subst hh hq
    omega
  | cons b rest ih =>
    intro a hG hW R hR h hh q hq
    obtain ⟨hab, hGb⟩ := List.pairwise_cons.1 hG
    have ihb := ih b hGb (fun x hx => hW x (List.mem_cons_of_mem _ hx))
    obtain ⟨X, Y, hrun⟩ := runs_from_head ps rest b
    have hWa := hW a (by simp)
    have hfl := runs_from_flatten ps rest b
    have first : h = a → q.2 + ps ≠ h.2 := by
      intro e
      subst e
      rcases List.mem_cons.1 hq with rfl | hq1
      · omega
      · have := hab q hq1
        omega
    have hb2 := hab b (by simp)
    by_cases hc : b.2 = (a.2 + ps) % 2 ^ 64
    · rw [runs_from_pos ps a b rest hc, hrun] at hR
      simp only [cons_run, List.mem_cons] at hR
      rcases hR with rfl | hR
      · simp only [List.head?_cons, Option.mem_def, Option.some.injEq] at hh
        exact first hh.symm
      · rcases List.mem_cons.1 hq with rfl | hq1
        · have hm : h ∈ rest := by
            rw [hrun] at hfl
            simp only [List.flatten_cons, List.cons_append, List.cons.injEq, true_and] at hfl
            rw [← hfl]
            exact List.mem_append_right _ (List.mem_flatten.2 ⟨R, hR, List.mem_of_mem_head? hh⟩)
          have := (List.pairwise_cons.1 hGb).1 h hm
          omega
        · exact ihb R (by rw [hrun]; simp [hR]) h hh q hq1
    · rw [runs_from_neg ps a b rest hc] at hR
      simp only [List.mem_cons] at hR
      rcases hR with rfl | hR
      · simp only [List.head?_cons, Option.mem_def, Option.some.injEq] at hh
        exact first hh.symm
      · rcases List.mem_cons.1 hq with rfl | hq1
        · rw [Nat.mod_eq_of_lt hWa] at hc
          have hm : h ∈ b :: rest :=
            mem_of_mem_runs_from ps rest b R hR h (List.mem_of_mem_head? hh)
          rcases List.mem_cons.1 hm with rfl | hm1
          · exact fun e => hc e.symm
          · have := (List.pairwise_cons.1 hGb).1 h hm1
            omega
        · exact ihb R hR h hh q hq1

theorem physical_address_page (pm : proc_pagemap) (ps mem count i : Nat) (hps : 0 < ps)
    (hal : mem % ps = 0) (hm : region_mapped pm ps mem count) (hi : i < count) :
    physical_address pm ps (mem + i * ps) = some (frame_of pm (mem / ps + i) * ps) := by
  obtain ⟨h1, h2, h3⟩ := hm i hi
  have hv : (mem + i * ps) / ps = mem / ps + i := Nat.add_mul_div_right _ _ hps
  have ho : (mem + i * ps) % ps = 0 := by rw [Nat.add_mul_mod_self_right, hal]
  have hlt : frame_of pm (mem / ps + i) * ps < 2 ^ 64 := by
    have : frame_of pm (mem / ps + i) * ps ≤ (frame_of pm (mem / ps + i) + 1) * ps :=
      Nat.mul_le_mul_right _ (Nat.le_succ _)
    omega
  unfold physical_address
  simp only [hv, ho, Nat.add_zero]
  rw [if_neg h1, if_neg (by simpa using h2)]
  unfold frame_of at hlt ⊢
  rw [Nat.mod_eq_of_lt hlt]

theorem collect_pages_eq (pm : proc_pagemap) (ps mem total : Nat) (hps : 0 < ps)
    (hal : mem % ps = 0) (hm : region_mapped pm ps mem total) :
    ∀ (count page_idx : Nat), page_idx + count ≤ total →
    collect_pages pm ps mem count page_idx
      = some ((List.range' page_idx count).map (fun (i : Nat) =>
          ({ virt := mem + i * ps, phys := frame_of pm (mem / ps + i) * ps, consec_len := 0 } : page))) := by
  intro count
  induction count with
  | zero => intro k _; simp [collect_pages]
  | succ n ih =>
    intro k hk
    simp only [collect_pages]
    rw [physical_address_page pm ps mem total k hps hal hm (by omega), ih (k + 1) (by omega)]
    simp [List.range'_succ]

theorem get_contig_ranges_eq (qs : libc_qsort) (pm : proc_pagemap) (ps mem len : Nat)
    (hps : 0 < ps) (hal : mem % ps = 0) (hlen : len % ps = 0)
    (hm : region_mapped pm ps mem (len / ps)) (first : page) (rest : List page)
    (hS : qs.pages (region_records pm ps mem (len / ps)) = first :: rest) :
    get_contig_ranges qs pm ps mem len
      = some (((runs_from ps first.addrs (rest.map page.addrs)).length : Int),
          qs.ranges ((runs_from ps first.addrs (rest.map page.addrs)).reverse.map to_range)) := by
  obtain ⟨R, Rs, hruns, hmark⟩ := mark_consec_runs ps rest { first with consec_len := 1 } 1
  have hruns1 : runs_from ps first.addrs (rest.map page.addrs) = R :: Rs := hruns
  have hmark1 : mark_consec ps { first with consec_len := 1 } rest 1
      = ((R :: Rs).flatMap (mark_run 0), 1 + (Rs.length : Int)) := by
    rw [hmark, List.flatMap_cons]
    rfl
  have hne : ∀ X ∈ (R :: Rs).reverse, X ≠ [] := fun X hX =>
    (runs_from_chain ps _ _ X (by rw [hruns1]; exact List.mem_reverse.1 hX)).1
  have hb := build_ranges_runs (R :: Rs).reverse hne [] 0
  have hrev : ((R :: Rs).flatMap (mark_run 0)).reverse
      = (R :: Rs).reverse.flatMap (fun X => (mark_run 0 X).reverse) := by
    rw [List.reverse_flatMap]
    rfl
  have hc := collect_pages_eq pm ps mem (len / ps) hps hal hm (len / ps) 0 (by omega)
  have hc1 : collect_pages pm ps mem (len / ps) 0 = some (region_records pm ps mem (len / ps)) := hc
  unfold get_contig_ranges
  simp only [hlen, ne_eq, not_true_eq_false, if_false, hc1, hS, hmark1, hrev, hb, hruns1]
  simp
  omega

theorem region_records_mem (pm : proc_pagemap) (ps mem n : Nat) (pg : page)
    (h : pg ∈ region_records pm ps mem n) :
    ∃ i < n, pg.virt = mem + i * ps ∧ pg.phys = frame_of pm (mem / ps + i) * ps := by
  simp only [region_records, List.mem_map, List.mem_range'_1] at h
  obtain ⟨i, ⟨_, hi⟩, rfl⟩ := h
  exact ⟨i, by omega, rfl, rfl⟩

theorem region_records_virt (pm : proc_pagemap) (ps mem n : Nat) :
    (region_records pm ps mem n).map page.virt = region_pages ps mem n := by
  simp [region_records, region_pages, List.range_eq_range']

theorem region_records_nodup (pm : proc_pagemap) (ps mem n : Nat) (hps : 0 < ps)
    (hd : distinct_frames pm ps mem n) :
    ((region_records pm ps mem n).map page.phys).Nodup := by
  simp only [region_records, List.map_map]
  refine List.Nodup.map_on ?_ (List.nodup_range' 0 n)
  intro i hi j hj h
  simp only [List.mem_range'_1] at hi hj
  simp only [Function.comp] at h
  exact hd i (by omega) j (by omega) (Nat.eq_of_mul_eq_mul_right hps h)

theorem sorted_pages_gap (sort : List page → List page) (hq : sorts_with page_compar sort)
    (pm : proc_pagemap) (ps mem n : Nat) (hps : 0 < ps) (hd : distinct_frames pm ps mem n) :
    ((sort (region_records pm ps mem n)).map page.addrs).Pairwise
      (fun x y => x.2 + ps ≤ y.2) := by
  obtain ⟨hperm, hsorted⟩ := hq (region_records pm ps mem n)
  have hnd : ((sort (region_records pm ps mem n)).map page.phys).Nodup :=
    (List.Perm.nodup_iff (hperm.map page.phys)).2 (region_records_nodup pm ps mem n hps hd)
  rw [List.pairwise_map]
  refine List.Pairwise.imp_of_mem ?_ (hsorted.and (List.pairwise_map.1 hnd))
  intro a b ha hb hab
  obtain ⟨h1, h2⟩ := hab
  obtain ⟨i, _, _, hai⟩ := region_records_mem pm ps mem n a (hperm.mem_iff.1 ha)
  obtain ⟨j, _, _, hbj⟩ := region_records_mem pm ps mem n b (hperm.mem_iff.1 hb)
  have h3 : a.phys ≤ b.phys := by
    unfold page_compar at h1
    split at h1
    · exact absurd (by decide) h1
    · omega
  show a.phys + ps ≤ b.phys
  rw [hai, hbj] at h3 h2 ⊢
  have h4 : frame_of pm (mem / ps + i) < frame_of pm (mem / ps + j) := by
    rcases Nat.lt_or_ge (frame_of pm (mem / ps + i)) (frame_of pm (mem / ps + j)) with h | h
    · exact h
    · exact absurd (Nat.le_antisymm h3 (Nat.mul_le_mul_right ps h)) h2
  calc frame_of pm (mem / ps + i) * ps + ps = (frame_of pm (mem / ps + i) + 1) * ps := by ring
    _ ≤ frame_of pm (mem / ps + j) * ps := Nat.mul_le_mul_right ps h4

/-- What `get_contig_ranges` returns for a mapped region of at least one page on distinct
frames, with a C library sort that sorts. -/
theorem get_contig_ranges_spec (qs : libc_qsort) (pm : proc_pagemap) (ps mem len : Nat)
    (hq : qs.correct) (hps : 0 < ps) (hal : mem % ps = 0) (hlen : len % ps = 0)
    (hpos : 0 < len) (hm : region_mapped pm ps mem (len / ps))
    (hd : distinct_frames pm ps mem (len / ps)) :
    ∃ ranges : List range,
      get_contig_ranges qs pm ps mem len = some ((ranges.length : Int), ranges) ∧
      (∀ r ∈ ranges, r.nr_pages = r.virt_addrs.length ∧ r.virt_addrs ≠ [] ∧
        r.virt_addrs.Chain' (phys_next pm ps) ∧
        (∀ l ∈ r.virt_addrs.getLast?, ∀ q ∈ region_pages ps mem (len / ps),
          ¬ phys_next pm ps l q) ∧
        (∀ h ∈ r.virt_addrs.head?, ∀ q ∈ region_pages ps mem (len / ps),
          ¬ phys_next pm ps q h)) ∧
      (ranges.flatMap range.virt_addrs).Perm (region_pages ps mem (len / ps)) ∧
      ranges.Pairwise (fun r r1 => r1.nr_pages ≤ r.nr_pages) := by
  have hn : 0 < len / ps :=
    Nat.div_pos (Nat.le_of_dvd hpos (Nat.dvd_of_mod_eq_zero hlen)) hps
  obtain ⟨hperm, _⟩ := hq.1 (region_records pm ps mem (len / ps))
  have hG := sorted_pages_gap qs.pages hq.1 pm ps mem (len / ps) hps hd
  have hlenS : (qs.pages (region_records pm ps mem (len / ps))).length = len / ps := by
    rw [hperm.length_eq]
    simp [region_records]
  cases hS : qs.pages (region_records pm ps mem (len / ps)) with
  | nil => rw [hS] at hlenS; simp at hlenS; omega
  | cons first rest =>
    rw [hS] at hperm hG
    have hG1 : (first.addrs :: rest.map page.addrs).Pairwise (fun x y => x.2 + ps ≤ y.2) := hG
    -- facts on the sorted records
    have hinfo : ∀ x ∈ first.addrs :: rest.map page.addrs,
        x.1 ∈ region_pages ps mem (len / ps) ∧ physical_address pm ps x.1 = some x.2 ∧
        x.2 + ps < 2 ^ 64 := by
      intro x hx
      have hx1 : x ∈ (first :: rest).map page.addrs := hx
      obtain ⟨pg, hpg, rfl⟩ := List.mem_map.1 hx1
      obtain ⟨i, hi, hv, hp⟩ := region_records_mem pm ps mem (len / ps) pg (hperm.mem_iff.1 hpg)
      refine ⟨?_, ?_, ?_⟩
      · show pg.virt ∈ region_pages ps mem (len / ps)
        rw [hv]
        exact List.mem_map.2 ⟨i, List.mem_range.2 hi, rfl⟩
      · show physical_address pm ps pg.virt = some pg.phys
        rw [hv, hp]
        exact physical_address_page pm ps mem (len / ps) i hps hal hm hi
      · show pg.phys + ps < 2 ^ 64
        rw [hp]
        have := (hm i hi).2.2
        calc frame_of pm (mem / ps + i) * ps + ps
            = (frame_of pm (mem / ps + i) + 1) * ps := by ring
          _ < 2 ^ 64 := this
    have hcover : ∀ q ∈ region_pages ps mem (len / ps),
        ∃ y ∈ first.addrs :: rest.map page.addrs, y.1 = q := by
      intro q hq1
      rw [← region_records_virt pm ps mem (len / ps)] at hq1
      obtain ⟨pg, hpg, rfl⟩ := List.mem_map.1 hq1
      exact ⟨pg.addrs, List.mem_map.2 ⟨pg, hperm.mem_iff.2 hpg, rfl⟩, rfl⟩
    have hW : ∀ x ∈ first.addrs :: rest.map page.addrs, x.2 + ps < 2 ^ 64 :=
      fun x hx => (hinfo x hx).2.2
    obtain ⟨hperm2, hsorted2⟩ :=
      hq.2 ((runs_from ps first.addrs (rest.map page.addrs)).reverse.map to_range)
    refine ⟨qs.ranges ((runs_from ps first.addrs (rest.map page.addrs)).reverse.map to_range),
      ?_, ?_, ?_, ?_⟩
    · rw [get_contig_ranges_eq qs pm ps mem len hps hal hlen hm first rest hS, hperm2.length_eq]
      simp
    · intro r hr
      obtain ⟨R, hR, rfl⟩ := List.mem_map.1 (hperm2.mem_iff.1 hr)
      have hR1 : R ∈ runs_from ps first.addrs (rest.map page.addrs) := List.mem_reverse.1 hR
      have hmemR : ∀ x ∈ R, x ∈ first.addrs :: rest.map page.addrs :=
        mem_of_mem_runs_from ps _ _ R hR1
      obtain ⟨hne, hch⟩ := runs_from_chain ps _ _ R hR1
      refine ⟨by simp [to_range], by simpa [to_range] using hne, ?_, ?_, ?_⟩
      · show (R.map Prod.fst).Chain' (phys_next pm ps)
        rw [List.chain'_map]
        refine List.Chain'.imp ?_ (List.Chain'.iff_mem.1 hch)
        intro a b hab
        obtain ⟨ha, hb, hab1⟩ := hab
        refine ⟨a.2, (hinfo a (hmemR a ha)).2.1, ?_⟩
        rw [(hinfo b (hmemR b hb)).2.1, hab1, Nat.mod_eq_of_lt (hW a (hmemR a ha))]
      · intro l hl q hq1 hnext
        have hl1 : l ∈ (R.map Prod.fst).getLast? := hl
        rw [List.getLast?_map] at hl1
        obtain ⟨x, hx, rfl⟩ := Option.mem_map.1 hl1
        obtain ⟨y, hy, rfl⟩ := hcover q hq1
        obtain ⟨v, hv1, hv2⟩ := hnext
        rw [(hinfo x (hmemR x (List.mem_of_mem_getLast? hx))).2.1] at hv1
        rw [(hinfo y hy).2.1] at hv2
        have e1 : x.2 = v := Option.some.inj hv1
        have e2 : y.2 = v + ps := Option.some.inj hv2
        exact runs_from_last_maximal ps hps _ _ hG1 hW R hR1 x hx y hy (by omega)
      · intro h hh q hq1 hnext
        have hh1 : h ∈ (R.map Prod.fst).head? := hh
        rw [List.head?_map] at hh1
        obtain ⟨x, hx, rfl⟩ := Option.mem_map.1 hh1
        obtain ⟨y, hy, rfl⟩ := hcover q hq1
        obtain ⟨v, hv1, hv2⟩ := hnext
        rw [(hinfo y hy).2.1] at hv1
        rw [(hinfo x (hmemR x (List.mem_of_mem_head? hx))).2.1] at hv2
        have e1 : y.2 = v := Option.some.inj hv1
        have e2 : x.2 = v + ps := Option.some.inj hv2
        exact runs_from_head_maximal ps hps _ _ hG1 hW R hR1 x hx y hy (by omega)
    · refine (hperm2.flatMap_right _).trans ?_
      rw [List.flatMap_map]
      refine ((List.reverse_perm _).flatMap_right _).trans ?_
      have e : (runs_from ps first.addrs (rest.map page.addrs)).flatMap
            (fun R => (to_range R).virt_addrs)
          = ((runs_from ps first.addrs (rest.map page.addrs)).flatten).map Prod.fst := by
        simp [List.flatMap, to_range, List.map_flatten]
      rw [e, runs_from_flatten, ← region_records_virt pm ps mem (len / ps)]
      have e2 : (first.addrs :: rest.map page.addrs).map Prod.fst = (first :: rest).map page.virt := by
        simp [page.addrs]
      rw [e2]
      exact hperm.map page.virt
    · refine hsorted2.imp ?_
      intro a b hab
      unfold range_compar at hab
      split at hab
      · exact absurd (by decide) hab
      · omega

theorem remap_pages_append (ps nr : Nat) : ∀ (l1 l2 : List Nat) (pm : proc_pagemap) (off : Nat),
    remap_pages ps nr (l1 ++ l2) pm off
      = remap_pages ps nr l2 (remap_pages ps nr l1 pm off).1 (remap_pages ps nr l1 pm off).2 := by
  intro l1
  induction l1 with
  | nil => intro l2 pm off; rfl
  | cons s l1 ih => intro l2 pm off; exact ih l2 _ _

theorem remap_ranges_flat (ps nr : Nat) : ∀ (ranges : List range) (pm : proc_pagemap) (off : Nat),
    (∀ r ∈ ranges, r.nr_pages = r.virt_addrs.length) →
    remap_ranges ps nr ranges pm off
      = some (remap_pages ps nr (ranges.flatMap range.virt_addrs) pm off).1 := by
  intro ranges
  induction ranges with
  | nil => intro pm off _; rfl
  | cons r rest ih =>
    intro pm off h
    have hr := h r (by simp)
    rw [remap_ranges, if_neg (by omega), hr, Int.toNat_ofNat, List.take_length,
      ih _ _ (fun r1 h1 => h r1 (by simp [h1])), List.flatMap_cons, remap_pages_append]

theorem linearize_ranges_eq (pm : proc_pagemap) (ps nr len : Nat) (ranges : List range)
    (hlen : len % ps = 0) (h : ∀ r ∈ ranges, r.nr_pages = r.virt_addrs.length) :
    linearize_ranges pm ps nr ranges ranges.length len
      = some (nr, (remap_pages ps nr (ranges.flatMap range.virt_addrs)
          (mmap_anon pm ps nr len) 0).1) := by
  unfold linearize_ranges
  rw [if_neg (by simp [hlen]), if_neg (by omega), Int.toNat_ofNat, List.take_length,
    remap_ranges_flat ps nr ranges _ 0 h]

theorem remap_pages_untouched (ps nr : Nat) (hps : 0 < ps) :
    ∀ (l : List Nat) (pm : proc_pagemap) (off vpn : Nat),
    (∀ s ∈ l, vpn ≠ s / ps) → (∀ t < l.length, vpn ≠ (nr + off) / ps + t) →
    (remap_pages ps nr l pm off).1 vpn = pm vpn := by
  intro l
  induction l with
  | nil => intro pm off vpn _ _; rfl
  | cons s l ih =>
    intro pm off vpn hs ht
    have e : (nr + (off + ps)) / ps = (nr + off) / ps + 1 := by
      rw [← Nat.add_assoc, Nat.add_div_right _ hps]
    rw [remap_pages, ih _ _ _ (fun s1 h1 => hs s1 (by simp [h1]))
      (fun t h1 => by
        have := ht (t + 1) (by simp; omega)
        rw [e]; omega)]
    have h0 := ht 0 (by simp)
    have h1 := hs s (by simp)
    simp only [Nat.add_zero] at h0
    simp [mremap, h0, h1]

theorem remap_pages_moved (ps nr : Nat) (hps : 0 < ps) :
    ∀ (l : List Nat) (pm : proc_pagemap) (off : Nat),
    (l.map (fun s => s / ps)).Nodup →
    (∀ s ∈ l, ∀ t < l.length, s / ps ≠ (nr + off) / ps + t) →
    (List.range l.length).map (fun (t : Nat) => (remap_pages ps nr l pm off).1 ((nr + off) / ps + t))
      = l.map (fun s => pm (s / ps)) := by
  intro l
  induction l with
  | nil => intro pm off _ _; rfl
  | cons s l ih =>
    intro pm off hnd hdis
    have e : (nr + (off + ps)) / ps = (nr + off) / ps + 1 := by
      rw [← Nat.add_assoc, Nat.add_div_right _ hps]
    obtain ⟨hs, hnd1⟩ := List.nodup_cons.1 hnd
    have hdis1 : ∀ s1 ∈ l, ∀ t < l.length, s1 / ps ≠ (nr + (off + ps)) / ps + t := by
      intro s1 h1 t ht
      have := hdis s1 (by simp [h1]) (t + 1) (by simp; omega)
      rw [e]; omega
    have ih1 := ih (mremap pm ps s (nr + off)) (off + ps) hnd1 hdis1
    rw [List.length_cons, List.range_succ_eq_map, List.map_cons, List.map_map, List.map_cons]
    congr 1
    · rw [remap_pages, remap_pages_untouched ps nr hps l _ _ _
        (fun s1 h1 => by
          have := hdis s1 (by simp [h1]) 0 (by simp)
          simp only [Nat.add_zero] at this ⊢
          exact fun e1 => this e1.symm)
        (fun t _ => by rw [e]; omega)]
      simp [mremap]
    · have e2 : ∀ t, (nr + off) / ps + (t + 1) = (nr + (off + ps)) / ps + t := by
        intro t; rw [e]; omega
      have e3 : ((fun (t : Nat) => (remap_pages ps nr (s :: l) pm off).1 ((nr + off) / ps + t)) ∘ Nat.succ)
          = (fun (t : Nat) => (remap_pages ps nr l (mremap pm ps s (nr + off)) (off + ps)).1
              ((nr + (off + ps)) / ps + t)) := by
        funext t
        show (remap_pages ps nr (s :: l) pm off).1 ((nr + off) / ps + (t + 1)) = _
        rw [e2, remap_pages]
      rw [e3, ih1]
      refine List.map_congr_left ?_
      intro s1 h1
      have n1 : s1 / ps ≠ (nr + off) / ps := by
        have := hdis s1 (by simp [h1]) 0 (by simp)
        simpa using this
      have n2 : s1 / ps ≠ s / ps := by
        intro e3
        exact hs (List.mem_map.2 ⟨s1, h1, e3⟩)
      simp [mremap, n1, n2]

theorem physical_address_congr (pm pm1 : proc_pagemap) (ps va va1 : Nat)
    (h1 : pm (va / ps) = pm1 (va1 / ps)) (h2 : va % ps = va1 % ps) :
    physical_address pm ps va = physical_address pm1 ps va1 := by
  unfold physical_address
  simp only [h1, h2]

theorem region_pages_mem (ps mem n s : Nat) (hps : 0 < ps) (hal : mem % ps = 0)
    (h : s ∈ region_pages ps mem n) :
    ∃ i < n, s / ps = mem / ps + i ∧ s % ps = 0 := by
  obtain ⟨i, hi, rfl⟩ := List.mem_map.1 h
  exact ⟨i, List.mem_range.1 hi, Nat.add_mul_div_right _ _ hps,
    by rw [Nat.add_mul_mod_self_right, hal]⟩

/-- What `linearize_ranges` does with ranges that hold each page of the region once: slot
`k` of the new region receives the page `k` of the concatenated ranges. -/
theorem linearize_ranges_phys (pm : proc_pagemap) (ps nr mem len : Nat) (ranges : List range)
    (hps : 0 < ps) (hal : mem % ps = 0) (hnr : nr % ps = 0) (hlen : len % ps = 0)
    (hdisj : nr + len ≤ mem ∨ mem + len ≤ nr)
    (hval : ∀ r ∈ ranges, r.nr_pages = r.virt_addrs.length)
    (hperm : (ranges.flatMap range.virt_addrs).Perm (region_pages ps mem (len / ps))) :
    ∃ pm1, linearize_ranges pm ps nr ranges ranges.length len = some (nr, pm1) ∧
      region_phys pm1 ps nr (len / ps)
        = (ranges.flatMap range.virt_addrs).map (physical_address pm ps) := by
  refine ⟨_, linearize_ranges_eq pm ps nr len ranges hlen hval, ?_⟩
  have hsl : (ranges.flatMap range.virt_addrs).length = len / ps := by
    rw [hperm.length_eq]
    simp [region_pages]
  have hlen1 : len = len / ps * ps := (Nat.div_mul_cancel (Nat.dvd_of_mod_eq_zero hlen)).symm
  have hnr1 : nr = nr / ps * ps := (Nat.div_mul_cancel (Nat.dvd_of_mod_eq_zero hnr)).symm
  have hvp : nr / ps + len / ps ≤ mem / ps ∨ mem / ps + len / ps ≤ nr / ps := by
    rcases hdisj with h | h
    · left
      have := Nat.div_le_div_right (c := ps) h
      rw [hlen1, Nat.add_mul_div_right _ _ hps] at this
      exact this
    · right
      have := Nat.div_le_div_right (c := ps) h
      rw [hlen1, Nat.add_mul_div_right _ _ hps] at this
      exact this
  have hmemS : ∀ s ∈ ranges.flatMap range.virt_addrs,
      ∃ i < len / ps, s / ps = mem / ps + i ∧ s % ps = 0 :=
    fun s hs => region_pages_mem ps mem (len / ps) s hps hal (hperm.mem_iff.1 hs)
  have hnd : ((ranges.flatMap range.virt_addrs).map (fun s => s / ps)).Nodup := by
    rw [(hperm.map _).nodup_iff]
    simp only [region_pages, List.map_map]
    refine List.Nodup.map_on ?_ (List.nodup_range _)
    intro i _ j _ h
    simp only [Function.comp, Nat.add_mul_div_right _ _ hps] at h
    omega
  have hdis : ∀ s ∈ ranges.flatMap range.virt_addrs,
      ∀ t < (ranges.flatMap range.virt_addrs).length, s / ps ≠ (nr + 0) / ps + t := by
    intro s hs t ht
    obtain ⟨i, hi, hv, _⟩ := hmemS s hs
    rw [hsl] at ht
    rw [hv, Nat.add_zero]
    omega
  have hmv := remap_pages_moved ps nr hps (ranges.flatMap range.virt_addrs)
    (mmap_anon pm ps nr len) 0 hnd hdis
  rw [hsl, Nat.add_zero] at hmv
  have e1 : region_phys (remap_pages ps nr (ranges.flatMap range.virt_addrs)
        (mmap_anon pm ps nr len) 0).1 ps nr (len / ps)
      = ((List.range (len / ps)).map (fun (t : Nat) =>
          (remap_pages ps nr (ranges.flatMap range.virt_addrs) (mmap_anon pm ps nr len) 0).1
            (nr / ps + t))).map (fun pte => physical_address (fun _ => pte) ps 0) := by
    rw [List.map_map]
    refine List.map_congr_left ?_
    intro k _
    show physical_address _ ps (nr + k * ps) = physical_address (fun _ => _) ps 0
    refine physical_address_congr _ _ ps _ _ ?_ ?_
    · rw [Nat.add_mul_div_right _ _ hps]
    · rw [Nat.add_mul_mod_self_right, hnr, Nat.zero_mod]
  rw [e1, hmv, List.map_map]
  refine List.map_congr_left ?_
  intro s hs
  obtain ⟨i, hi, hv, ho⟩ := hmemS s hs
  show physical_address (fun _ => mmap_anon pm ps nr len (s / ps)) ps 0 = physical_address pm ps s
  refine physical_address_congr _ _ ps _ _ ?_ ?_
  · show mmap_anon pm ps nr len (s / ps) = pm (s / ps)
    unfold mmap_anon
    rw [if_neg]
    intro hc
    rw [hv] at hc
    rcases hvp with h | h
    · have : (nr / ps + len / ps) * ps ≤ (mem / ps + i) * ps := Nat.mul_le_mul_right ps (by omega)
      rw [Nat.add_mul, ← hnr1, ← hlen1] at this
      omega
    · omega
  · rw [ho, Nat.zero_mod]

theorem insertion_qsort_correct : insertion_qsort.correct := by
  constructor
  · intro l
    have hiff : ∀ a b : page, (¬ page_compar b a < 0) ↔ a.phys ≤ b.phys := by
      intro a b
      unfold page_compar
      split
      · simp; omega
      · simp; omega
    haveI : IsTotal page (fun a b => ¬ page_compar b a < 0) :=
      ⟨fun a b => by rw [hiff, hiff]; omega⟩
    haveI : IsTrans page (fun a b => ¬ page_compar b a < 0) :=
      ⟨fun a b c => by rw [hiff, hiff, hiff]; omega⟩
    exact ⟨List.perm_insertionSort _ l, List.sorted_insertionSort _ l⟩
  · intro l
    have hiff : ∀ a b : range, (¬ range_compar b a < 0) ↔ b.nr_pages ≤ a.nr_pages := by
      intro a b
      unfold range_compar
      split
      · simp; omega
      · simp; omega
    haveI : IsTotal range (fun a b => ¬ range_compar b a < 0) :=
      ⟨fun a b => by rw [hiff, hiff]; omega⟩
    haveI : IsTrans range (fun a b => ¬ range_compar b a < 0) :=
      ⟨fun a b c => by rw [hiff, hiff, hiff]; omega⟩
    exact ⟨List.perm_insertionSort _ l, List.sorted_insertionSort _ l⟩

theorem phys_next_iff (pm : proc_pagemap) (ps a b : Nat) :
    phys_next pm ps a b ↔ phys_next_b pm ps a b = true := by
  constructor
  · rintro ⟨x, h1, h2⟩
    simp only [phys_next_b, h1, h2, beq_self_eq_true]
  · intro h
    unfold phys_next_b at h
    split at h
    · rename_i x y h1 h2
      exact ⟨x, h1, by rw [h2, eq_of_beq h]⟩
    · exact absurd h (by decide)

theorem linearize_alloc_eq (qs : libc_qsort) (p : params) (pm : proc_pagemap)
    (ps nr mem len : Nat) (ranges : List range) (hp : p.pagemap ≠ 0)
    (hget : get_contig_ranges qs pm ps mem len = some ((ranges.length : Int), ranges)) :
    linearize_alloc qs p pm ps nr mem len
      = if ranges.length = 1 then some (mem, pm)
        else linearize_ranges pm ps nr ranges ranges.length len := by
  unfold linearize_alloc
  rw [if_neg hp, hget]
  by_cases h : ranges.length = 1
  · simp [h]
  · have h1 : ¬ ((ranges.length : Int) = 1) := by omega
    simp [h, h1]

/-! ## The claims C17 to C19 -/

/-- C19: for a page-aligned region of at least one page whose pages are mapped on pairwise
distinct frames (and a C library `qsort` that sorts), `get_contig_ranges` returns the count
of the ranges it stores, and these ranges are exactly the maximal runs of physically
consecutive pages: `nr_pages` is the number of entries, no range is empty, inside a range
each entry is physically the page after the previous one, no page of the region is
physically the page after the last entry or the page before the first entry of a range,
the entries of all ranges together are the pages of the region, each once, and the ranges
are in non-increasing order of length. `linearize_ranges` then gives slot `k` of the new
region the page `k` of the concatenated ranges, so each page goes to exactly one slot. -/
theorem contig_ranges_are_maximal_runs (qs : libc_qsort) (pm : proc_pagemap)
    (ps mem len new_range : Nat)
    (hq : qs.correct) (hps : 0 < ps) (hal : mem % ps = 0) (hlen : len % ps = 0)
    (hpos : 0 < len) (hm : region_mapped pm ps mem (len / ps))
    (hd : distinct_frames pm ps mem (len / ps))
    (hnr : new_range % ps = 0) (hdisj : new_range + len ≤ mem ∨ mem + len ≤ new_range) :
    ∃ ranges : List range,
      get_contig_ranges qs pm ps mem len = some ((ranges.length : Int), ranges) ∧
      (∀ r ∈ ranges, r.nr_pages = r.virt_addrs.length ∧ r.virt_addrs ≠ [] ∧
        r.virt_addrs.Chain' (phys_next pm ps) ∧
        (∀ l ∈ r.virt_addrs.getLast?, ∀ q ∈ region_pages ps mem (len / ps),
          ¬ phys_next pm ps l q) ∧
        (∀ h ∈ r.virt_addrs.head?, ∀ q ∈ region_pages ps mem (len / ps),
          ¬ phys_next pm ps q h)) ∧
      (ranges.flatMap range.virt_addrs).Perm (region_pages ps mem (len / ps)) ∧
      ranges.Pairwise (fun r r1 => r1.nr_pages ≤ r.nr_pages) ∧
      ∃ pm1, linearize_ranges pm ps new_range ranges ranges.length len = some (new_range, pm1) ∧
        region_phys pm1 ps new_range (len / ps)
          = (ranges.flatMap range.virt_addrs).map (physical_address pm ps) := by
  obtain ⟨ranges, hget, hprops, hperm, hsorted⟩ :=
    get_contig_ranges_spec qs pm ps mem len hq hps hal hlen hpos hm hd
  exact ⟨ranges, hget, hprops, hperm, hsorted,
    linearize_ranges_phys pm ps new_range mem len ranges hps hal hnr hlen hdisj
      (fun r hr => (hprops r hr).1) hperm⟩

theorem contig_ranges_are_maximal_runs_witness :
    (insertion_qsort.correct ∧ 0 < 4096 ∧ walk_mem % 4096 = 0 ∧ (6 * 4096) % 4096 = 0 ∧
      0 < 6 * 4096 ∧ region_mapped mixed_pagemap 4096 walk_mem (6 * 4096 / 4096) ∧
      distinct_frames mixed_pagemap 4096 walk_mem (6 * 4096 / 4096) ∧
      (2 * walk_mem) % 4096 = 0 ∧
      (2 * walk_mem + 6 * 4096 ≤ walk_mem ∨ walk_mem + 6 * 4096 ≤ 2 * walk_mem)) ∧
    get_contig_ranges insertion_qsort mixed_pagemap 4096 walk_mem (6 * 4096)
      = some (3, [{ nr_pages := 3, virt_addrs := [walk_mem, walk_mem + 4096, walk_mem + 3 * 4096] },
          { nr_pages := 2, virt_addrs := [walk_mem + 2 * 4096, walk_mem + 4 * 4096] },
          { nr_pages := 1, virt_addrs := [walk_mem + 5 * 4096] }]) ∧
    ∃ ranges : List range,
      get_contig_ranges insertion_qsort mixed_pagemap 4096 walk_mem (6 * 4096)
        = some ((ranges.length : Int), ranges) ∧
      (∀ r ∈ ranges, r.nr_pages = r.virt_addrs.length ∧ r.virt_addrs ≠ [] ∧
        r.virt_addrs.Chain' (phys_next mixed_pagemap 4096) ∧
        (∀ l ∈ r.virt_addrs.getLast?, ∀ q ∈ region_pages 4096 walk_mem (6 * 4096 / 4096),
          ¬ phys_next mixed_pagemap 4096 l q) ∧
        (∀ h ∈ r.virt_addrs.head?, ∀ q ∈ region_pages 4096 walk_mem (6 * 4096 / 4096),
          ¬ phys_next mixed_pagemap 4096 q h)) ∧
      (ranges.flatMap range.virt_addrs).Perm (region_pages 4096 walk_mem (6 * 4096 / 4096)) ∧
      ranges.Pairwise (fun r r1 => r1.nr_pages ≤ r.nr_pages) ∧
      ∃ pm1, linearize_ranges mixed_pagemap 4096 (2 * walk_mem) ranges ranges.length (6 * 4096)
          = some (2 * walk_mem, pm1) ∧
        region_phys pm1 4096 (2 * walk_mem) (6 * 4096 / 4096)
          = (ranges.flatMap range.virt_addrs).map (physical_address mixed_pagemap 4096) :=
  ⟨⟨insertion_qsort_correct, by decide, by decide, by decide, by decide,
      by unfold region_mapped; decide, by unfold distinct_frames; decide, by decide, by decide⟩,
    by decide,
    contig_ranges_are_maximal_runs insertion_qsort mixed_pagemap 4096 walk_mem (6 * 4096)
      (2 * walk_mem) insertion_qsort_correct (by decide) (by decide) (by decide) (by decide)
      (by unfold region_mapped; decide) (by unfold distinct_frames; decide) (by decide)
      (by decide)⟩

/-- C17 as stated fails: pages P0, P1, P2 on the distinct frames 5, 6, 1 form the two
runs P0, P1 and P2 (not a single run); `get_contig_ranges` puts the longer run first, and
`linearize_alloc` returns a region whose pages have the physical addresses `5 * 4096`,
`6 * 4096`, `1 * 4096`: page 1 is not below page 2. -/
theorem linearize_order_counterexample :
    distinct_frames split_pagemap 4096 walk_mem 3 ∧
    get_contig_ranges insertion_qsort split_pagemap 4096 walk_mem (3 * 4096)
      = some (2, [{ nr_pages := 2, virt_addrs := [walk_mem, walk_mem + 4096] },
          { nr_pages := 1, virt_addrs := [walk_mem + 2 * 4096] }]) ∧
    (linearize_alloc insertion_qsort linearizer_cfg split_pagemap 4096 (2 * walk_mem) walk_mem
        (3 * 4096)).map (fun x => (x.1, region_phys x.2 4096 x.1 3))
      = some (2 * walk_mem, [some (5 * 4096), some (6 * 4096), some (1 * 4096)]) ∧
    ¬ (6 * 4096 < 1 * 4096) := by
  refine ⟨by unfold distinct_frames; decide, by decide, by decide, by decide⟩

/-- C17 (amended): for a page-aligned region of at least one page mapped on pairwise distinct
frames, with `pagemap` set, a `qsort` that sorts, and a new mapping that is page aligned and
apart from the region: when `get_contig_ranges` counts one run `linearize_alloc` returns
`mem` and leaves the address space as it is; otherwise it returns the new region, whose
page `k` has the physical address of page `k` of the concatenated ranges. Inside each range
every page is physically the page after the previous one, and the ranges are laid out in
non-increasing order of length (not in order of physical address). -/
theorem linearize_alloc_runs_by_length (qs : libc_qsort) (p : params) (pm : proc_pagemap)
    (ps mem len new_range : Nat)
    (hp : p.pagemap ≠ 0)
    (hq : qs.correct) (hps : 0 < ps) (hal : mem % ps = 0) (hlen : len % ps = 0)
    (hpos : 0 < len) (hm : region_mapped pm ps mem (len / ps))
    (hd : distinct_frames pm ps mem (len / ps))
    (hnr : new_range % ps = 0) (hdisj : new_range + len ≤ mem ∨ mem + len ≤ new_range) :
    ∃ ranges : List range,
      get_contig_ranges qs pm ps mem len = some ((ranges.length : Int), ranges) ∧
      (ranges.length = 1 → linearize_alloc qs p pm ps new_range mem len = some (mem, pm)) ∧
      (ranges.length ≠ 1 →
        ∃ pm1, linearize_alloc qs p pm ps new_range mem len = some (new_range, pm1) ∧
          region_phys pm1 ps new_range (len / ps)
            = (ranges.flatMap range.virt_addrs).map (physical_address pm ps)) ∧
      (∀ r ∈ ranges, r.virt_addrs.Chain' (phys_next pm ps)) ∧
      ranges.Pairwise (fun r r1 => r1.virt_addrs.length ≤ r.virt_addrs.length) := by
  obtain ⟨ranges, hget, hprops, hperm, hsorted⟩ :=
    get_contig_ranges_spec qs pm ps mem len hq hps hal hlen hpos hm hd
  have heq := linearize_alloc_eq qs p pm ps new_range mem len ranges hp hget
  refine ⟨ranges, hget, ?_, ?_, fun r hr => (hprops r hr).2.2.1, ?_⟩
  · intro h1
    rw [heq, if_pos h1]
  · intro h1
    rw [heq, if_neg h1]
    exact linearize_ranges_phys pm ps new_range mem len ranges hps hal hnr hlen hdisj
      (fun r hr => (hprops r hr).1) hperm
  · refine List.Pairwise.imp_of_mem ?_ hsorted
    intro a b ha hb hab
    have h1 := (hprops a ha).1
    have h2 := (hprops b hb).1
    omega

theorem linearize_alloc_runs_by_length_witness :
    (linearizer_cfg.pagemap ≠ 0 ∧ insertion_qsort.correct ∧ 0 < 4096 ∧ walk_mem % 4096 = 0 ∧
      (3 * 4096) % 4096 = 0 ∧ 0 < 3 * 4096 ∧
      region_mapped split_pagemap 4096 walk_mem (3 * 4096 / 4096) ∧
      distinct_frames split_pagemap 4096 walk_mem (3 * 4096 / 4096) ∧
      (2 * walk_mem) % 4096 = 0 ∧
      (2 * walk_mem + 3 * 4096 ≤ walk_mem ∨ walk_mem + 3 * 4096 ≤ 2 * walk_mem)) ∧
    ∃ ranges : List range,
      get_contig_ranges insertion_qsort split_pagemap 4096 walk_mem (3 * 4096)
        = some ((ranges.length : Int), ranges) ∧
      (ranges.length = 1 →
        linearize_alloc insertion_qsort linearizer_cfg split_pagemap 4096 (2 * walk_mem) walk_mem
          (3 * 4096) = some (walk_mem, split_pagemap)) ∧
      (ranges.length ≠ 1 →
        ∃ pm1, linearize_alloc insertion_qsort linearizer_cfg split_pagemap 4096 (2 * walk_mem)
            walk_mem (3 * 4096) = some (2 * walk_mem, pm1) ∧
          region_phys pm1 4096 (2 * walk_mem) (3 * 4096 / 4096)
            = (ranges.flatMap range.virt_addrs).map (physical_address split_pagemap 4096)) ∧
      (∀ r ∈ ranges, r.virt_addrs.Chain' (phys_next split_pagemap 4096)) ∧
      ranges.Pairwise (fun r r1 => r1.virt_addrs.length ≤ r.virt_addrs.length) :=
  ⟨⟨by decide, insertion_qsort_correct, by decide, by decide, by decide, by decide,
      by unfold region_mapped; decide, by unfold distinct_frames; decide, by decide, by decide⟩,
    linearize_alloc_runs_by_length insertion_qsort linearizer_cfg split_pagemap 4096 walk_mem
      (3 * 4096) (2 * walk_mem) (by decide) insertion_qsort_correct (by decide) (by decide)
      (by decide) (by decide) (by unfold region_mapped; decide)
      (by unfold distinct_frames; decide) (by decide) (by decide)⟩

/-- C18 as stated fails: with the frames 30, 10, 20, 40 for P0..P3 (page size 4096) no two
pages are one page apart, so `get_contig_ranges` returns four runs of one page each (with
a sort by insertion in the order P3, P0, P2, P1), not a run P1, P2 of length 2, and the
linearized region holds the physical addresses `40, 30, 20, 10` times the page size. -/
theorem s5_runs_counterexample :
    region_phys s5_pagemap 4096 walk_mem 4
      = [some (30 * 4096), some (10 * 4096), some (20 * 4096), some (40 * 4096)] ∧
    get_contig_ranges insertion_qsort s5_pagemap 4096 walk_mem (4 * 4096)
      = some (4, [{ nr_pages := 1, virt_addrs := [walk_mem + 3 * 4096] },
          { nr_pages := 1, virt_addrs := [walk_mem] },
          { nr_pages := 1, virt_addrs := [walk_mem + 2 * 4096] },
          { nr_pages := 1, virt_addrs := [walk_mem + 4096] }]) ∧
    (linearize_alloc insertion_qsort linearizer_cfg s5_pagemap 4096 (2 * walk_mem) walk_mem
        (4 * 4096)).map (fun x => (x.1, region_phys x.2 4096 x.1 4))
      = some (2 * walk_mem,
          [some (40 * 4096), some (30 * 4096), some (20 * 4096), some (10 * 4096)]) := by
  decide

/-- C18 (amended): with the frames 30, 10, 20, 40 for P0..P3 and any `qsort` that sorts,
`get_contig_ranges` returns 4 ranges of one page each that hold P0..P3 once each, and
`linearize_alloc` returns the new region with page `k` on the physical address of the page
of the `k`-th range; the order of the four ranges is the order the C library gives to
ranges of equal length. -/
theorem s5_four_single_page_runs (qs : libc_qsort) (hq : qs.correct) :
    ∃ ranges : List range,
      get_contig_ranges qs s5_pagemap 4096 walk_mem (4 * 4096) = some (4, ranges) ∧
      (∀ r ∈ ranges, r.nr_pages = 1 ∧ r.virt_addrs.length = 1) ∧
      (ranges.flatMap range.virt_addrs).Perm
        [walk_mem, walk_mem + 4096, walk_mem + 2 * 4096, walk_mem + 3 * 4096] ∧
      ∃ pm1, linearize_alloc qs linearizer_cfg s5_pagemap 4096 (2 * walk_mem) walk_mem (4 * 4096)
          = some (2 * walk_mem, pm1) ∧
        region_phys pm1 4096 (2 * walk_mem) 4
          = (ranges.flatMap range.virt_addrs).map (physical_address s5_pagemap 4096) := by
  obtain ⟨ranges, hget, hprops, hperm, _⟩ :=
    get_contig_ranges_spec qs s5_pagemap 4096 walk_mem (4 * 4096) hq (by decide) (by decide)
      (by decide) (by decide) (by unfold region_mapped; decide)
      (by unfold distinct_frames; decide)
  have hnone : ∀ a ∈ region_pages 4096 walk_mem (4 * 4096 / 4096),
      ∀ b ∈ region_pages 4096 walk_mem (4 * 4096 / 4096),
      phys_next_b s5_pagemap 4096 a b = false := by decide
  have hone : ∀ r ∈ ranges, r.virt_addrs.length = 1 := by
    intro r hr
    obtain ⟨_, hne, hch, _, _⟩ := hprops r hr
    have hsub : ∀ v ∈ r.virt_addrs, v ∈ region_pages 4096 walk_mem (4 * 4096 / 4096) :=
      fun v hv => hperm.mem_iff.1 (List.mem_flatMap.2 ⟨r, hr, hv⟩)
    cases hva : r.virt_addrs with
    | nil => exact absurd hva hne
    | cons a t =>
      cases t with
      | nil => rfl
      | cons b t =>
        rw [hva] at hch hsub
        have h1 : phys_next s5_pagemap 4096 a b := (List.chain'_cons.1 hch).1
        have h2 := hnone a (hsub a (by simp)) b (hsub b (by simp))
        rw [(phys_next_iff _ _ _ _).1 h1] at h2
        exact absurd h2 (by decide)
  have hlen4 : ranges.length = 4 := by
    have h1 := length_flatMap_const ranges range.virt_addrs 1 hone
    rw [hperm.length_eq] at h1
    have h2 : (region_pages 4096 walk_mem (4 * 4096 / 4096)).length = 4 := by decide
    omega
  have hget4 : get_contig_ranges qs s5_pagemap 4096 walk_mem (4 * 4096) = some (4, ranges) := by
    rw [hget, hlen4]
    rfl
  refine ⟨ranges, hget4, ?_, hperm, ?_⟩
  · intro r hr
    have h1 := (hprops r hr).1
    have h2 := hone r hr
    exact ⟨by omega, h2⟩
  · have heq := linearize_alloc_eq qs linearizer_cfg s5_pagemap 4096 (2 * walk_mem) walk_mem
      (4 * 4096) ranges (by decide) hget
    rw [heq, if_neg (by omega)]
    exact linearize_ranges_phys s5_pagemap 4096 (2 * walk_mem) walk_mem (4 * 4096) ranges
      (by decide) (by decide) (by decide) (by decide) (by decide)
      (fun r hr => (hprops r hr).1) hperm

theorem s5_four_single_page_runs_witness :
    insertion_qsort.correct ∧
    ∃ ranges : List range,
      get_contig_ranges insertion_qsort s5_pagemap 4096 walk_mem (4 * 4096) = some (4, ranges) ∧
      (∀ r ∈ ranges, r.nr_pages = 1 ∧ r.virt_addrs.length = 1) ∧
      (ranges.flatMap range.virt_addrs).Perm
        [walk_mem, walk_mem + 4096, walk_mem + 2 * 4096, walk_mem + 3 * 4096] ∧
      ∃ pm1, linearize_alloc insertion_qsort linearizer_cfg s5_pagemap 4096 (2 * walk_mem)
          walk_mem (4 * 4096) = some (2 * walk_mem, pm1) ∧
        region_phys pm1 4096 (2 * walk_mem) 4
          = (ranges.flatMap range.virt_addrs).map (physical_address s5_pagemap 4096) :=
  ⟨insertion_qsort_correct, s5_four_single_page_runs insertion_qsort insertion_qsort_correct⟩

/-! ## Lemmas on `physaddr_to_row` -/

theorem bit3_eq (row : Nat) : (row &&& (1 <<< 3)) >>> 3 = row / 8 % 2 := by
  have h8 : (1 <<< 3 : Nat) = 2 ^ 3 := by decide
  rw [h8, Nat.and_two_pow, Nat.testBit_to_div_mod]
  have h2 : (2 : Nat) ^ 3 = 8 := by decide
  rw [h2]
  rcases Nat.mod_two_eq_zero_or_one (row / 8) with h | h
  · rw [h]; decide
  · rw [h]; decide

theorem remap_bits (b : Nat) (hb : b = 0 ∨ b = 1) (row : Nat) :
    (row ^^^ (b <<< 2)) ^^^ (b <<< 1) = row ^^^ ((b <<< 2) ||| (b <<< 1)) ∧
    (b <<< 2) ||| (b <<< 1) < 2 ^ 16 ∧ ((b <<< 2) ||| (b <<< 1)) &&& (1 <<< 3) = 0 := by
  rcases hb with rfl | rfl
  · refine ⟨?_, by decide, by decide⟩
    simp
  · refine ⟨?_, by decide, by decide⟩
    rw [Nat.xor_assoc]
    rfl

theorem physaddr_to_row_eq (addr : Nat) (s : Int) (hs0 : 0 ≤ s) (hs : s < 64) :
    physaddr_to_row addr s
      = some (row_bits addr s.toNat ^^^
          (((row_bits addr s.toNat / 8 % 2) <<< 2) ||| ((row_bits addr s.toNat / 8 % 2) <<< 1))) ∧
    row_bits addr s.toNat ^^^
      (((row_bits addr s.toNat / 8 % 2) <<< 2) ||| ((row_bits addr s.toNat / 8 % 2) <<< 1))
      < 2 ^ 16 := by
  have hr : ((addr % 2 ^ 64) >>> s.toNat) &&& 0xffff = row_bits addr s.toNat := by
    have h16 : (0xffff : Nat) = 2 ^ 16 - 1 := by decide
    rw [h16, Nat.and_pow_two_sub_one_eq_mod, Nat.shiftRight_eq_div_pow]
    rfl
  have hb : row_bits addr s.toNat / 8 % 2 = 0 ∨ row_bits addr s.toNat / 8 % 2 = 1 :=
    Nat.mod_two_eq_zero_or_one _
  obtain ⟨h1, h2, _⟩ := remap_bits _ hb (row_bits addr s.toNat)
  have hlt : row_bits addr s.toNat < 2 ^ 16 := Nat.mod_lt _ (by decide)
  have hk := Nat.xor_lt_two_pow hlt h2
  refine ⟨?_, hk⟩
  unfold physaddr_to_row
  rw [if_neg (by omega)]
  simp only [hr, bit3_eq, h1]
  rw [Nat.mod_eq_of_lt (by omega)]

theorem remap_involution (r : Nat) :
    (r ^^^ (((r / 8 % 2) <<< 2) ||| ((r / 8 % 2) <<< 1))) ^^^
      ((((r ^^^ (((r / 8 % 2) <<< 2) ||| ((r / 8 % 2) <<< 1))) / 8 % 2) <<< 2) |||
       (((r ^^^ (((r / 8 % 2) <<< 2) ||| ((r / 8 % 2) <<< 1))) / 8 % 2) <<< 1)) = r := by
  have hb : r / 8 % 2 = 0 ∨ r / 8 % 2 = 1 := Nat.mod_two_eq_zero_or_one _
  obtain ⟨_, _, h3⟩ := remap_bits _ hb r
  have hsame : (r ^^^ (((r / 8 % 2) <<< 2) ||| ((r / 8 % 2) <<< 1))) / 8 % 2 = r / 8 % 2 := by
    have e1 := bit3_eq (r ^^^ (((r / 8 % 2) <<< 2) ||| ((r / 8 % 2) <<< 1)))
    rw [← e1, Nat.and_xor_distrib_right, h3, Nat.xor_zero, bit3_eq]
  rw [hsame, Nat.xor_cancel_right]

/-! ## The claim C30 -/

/-- C30: for every physical address `addr` and every shift `0 <= s < 64` (the shifts for
which `addr >> s` is defined on a 64-bit `uintptr_t`), `physaddr_to_row(addr, s)` is
`r XOR ((b3 << 2) | (b3 << 1))`, where `r` is the value of bits `[s, s + 16)` of `addr`
and `b3` is bit 3 of `r`; the result is below `2 ^ 16`; and two addresses with different
row numbers `r` get different sort keys. -/
theorem physaddr_to_row_remap (addr addr1 : Nat) (s : Int) (hs0 : 0 ≤ s) (hs : s < 64) :
    physaddr_to_row addr s
      = some (row_bits addr s.toNat ^^^
          (((row_bits addr s.toNat / 8 % 2) <<< 2) ||| ((row_bits addr s.toNat / 8 % 2) <<< 1))) ∧
    row_bits addr s.toNat ^^^
      (((row_bits addr s.toNat / 8 % 2) <<< 2) ||| ((row_bits addr s.toNat / 8 % 2) <<< 1))
      < 2 ^ 16 ∧
    (row_bits addr s.toNat ≠ row_bits addr1 s.toNat →
      physaddr_to_row addr s ≠ physaddr_to_row addr1 s) := by
  obtain ⟨h1, h2⟩ := physaddr_to_row_eq addr s hs0 hs
  obtain ⟨h3, _⟩ := physaddr_to_row_eq addr1 s hs0 hs
  refine ⟨h1, h2, ?_⟩
  intro hne heq
  rw [h1, h3] at heq
  have hk := Option.some.inj heq
  apply hne
  rw [← remap_involution (row_bits addr s.toNat), ← remap_involution (row_bits addr1 s.toNat), hk]

theorem physaddr_to_row_remap_witness :
    ((0 : Int) ≤ 15 ∧ (15 : Int) < 64) ∧
    physaddr_to_row 0x12345678 15 = some 0x246e ∧
    physaddr_to_row 0x12345678 15
      = some (row_bits 0x12345678 (15 : Int).toNat ^^^
          (((row_bits 0x12345678 (15 : Int).toNat / 8 % 2) <<< 2) |||
            ((row_bits 0x12345678 (15 : Int).toNat / 8 % 2) <<< 1))) ∧
    row_bits 0x12345678 (15 : Int).toNat ^^^
      (((row_bits 0x12345678 (15 : Int).toNat / 8 % 2) <<< 2) |||
        ((row_bits 0x12345678 (15 : Int).toNat / 8 % 2) <<< 1)) < 2 ^ 16 ∧
    (row_bits 0x12345678 (15 : Int).toNat ≠ row_bits 0x12340000 (15 : Int).toNat →
      physaddr_to_row 0x12345678 15 ≠ physaddr_to_row 0x12340000 15) :=
  ⟨⟨by decide, by decide⟩, by decide,
    physaddr_to_row_remap 0x12345678 0x12340000 15 (by decide) (by decide)⟩

/-! ## Lemmas on `hammer` -/

theorem run_elapsed_shift (clock : clock_readings) (c t : Nat) :
    run_elapsed clock (c + 2) t = run_elapsed clock c (t + 1) := by
  unfold run_elapsed
  have e : c + 2 + 2 * t = c + 2 * (t + 1) := by ring
  rw [e]

theorem hammer_rounds_min (clock : clock_readings) : ∀ (k c m0 : Nat),
    (hammer_rounds clock k c m0).1 ≤ m0 ∧
    (∀ t < k, (hammer_rounds clock k c m0).1 ≤ run_elapsed clock c t) ∧
    ((hammer_rounds clock k c m0).1 = m0 ∨
      ∃ t < k, (hammer_rounds clock k c m0).1 = run_elapsed clock c t) ∧
    (hammer_rounds clock k c m0).2 = c + 2 * k := by
  intro k
  induction k with
  | zero => intro c m0; simp [hammer_rounds]
  | succ k ih =>
    intro c m0
    have hd : (clock (c + 1) % 2 ^ 64 + 2 ^ 64 - clock c % 2 ^ 64) % 2 ^ 64
        = run_elapsed clock c 0 := by
      unfold run_elapsed; rfl
    rw [hammer_rounds]
    simp only [hd]
    have hsh : ∀ t, run_elapsed clock (c + 2) t = run_elapsed clock c (t + 1) :=
      run_elapsed_shift clock c
    by_cases hlt : run_elapsed clock c 0 < m0
    · rw [if_pos hlt]
      obtain ⟨h1, h2, h3, h4⟩ := ih (c + 2) (run_elapsed clock c 0)
      refine ⟨by omega, ?_, ?_, by rw [h4]; ring⟩
      · intro t ht
        cases t with
        | zero => exact h1
        | succ t => rw [← hsh]; exact h2 t (by omega)
      · rcases h3 with h | ⟨t, ht, h⟩
        · exact Or.inr ⟨0, by omega, h⟩
        · exact Or.inr ⟨t + 1, by omega, by rw [← hsh]; exact h⟩
    · rw [if_neg hlt]
      obtain ⟨h1, h2, h3, h4⟩ := ih (c + 2) m0
      refine ⟨h1, ?_, ?_, by rw [h4]; ring⟩
      · intro t ht
        cases t with
        | zero => omega
        | succ t => rw [← hsh]; exact h2 t (by omega)
      · rcases h3 with h | ⟨t, ht, h⟩
        · exact Or.inl h
        · exact Or.inr ⟨t + 1, by omega, by rw [← hsh]; exact h⟩

theorem elapsed_sum_bound (clock : clock_readings) (hmono : ∀ k, clock k ≤ clock (k + 1))
    (hrange : ∀ k, clock k < 2 ^ 64) (m : Nat) : ∀ (k c : Nat),
    (∀ t < k, m ≤ run_elapsed clock c t) → m * k + clock c ≤ clock (c + 2 * k) := by
  intro k
  induction k with
  | zero => intro c _; simp
  | succ k ih =>
    intro c h
    have h0 := h 0 (by omega)
    have hs := ih (c + 2) (fun t ht => by
      have := h (t + 1) (by omega)
      rw [← run_elapsed_shift] at this
      exact this)
    unfold run_elapsed at h0
    simp only [Nat.mul_zero, Nat.add_zero] at h0
    rw [Nat.mod_eq_of_lt (hrange (c + 1)), Nat.mod_eq_of_lt (hrange c)] at h0
    have hm1 := hmono c
    have hm2 := hmono (c + 1)
    have hr1 := hrange (c + 1)
    have e1 : (clock (c + 1) + 2 ^ 64 - clock c) % 2 ^ 64 = clock (c + 1) - clock c := by
      have : clock (c + 1) + 2 ^ 64 - clock c = (clock (c + 1) - clock c) + 2 ^ 64 := by omega
      rw [this, Nat.add_mod_right, Nat.mod_eq_of_lt (by omega)]
    rw [e1] at h0
    have e2 : c + 2 * (k + 1) = c + 2 + 2 * k := by ring
    rw [e2, Nat.mul_succ]
    have : c + 1 + 1 = c + 2 := rfl
    rw [this] at hm2
    omega

theorem exists_min_below (f : Nat → Nat) : ∀ (n : Nat), 1 ≤ n →
    ∃ t < n, ∀ u < n, f t ≤ f u := by
  intro n
  induction n with
  | zero => intro h; omega
  | succ n ih =>
    intro _
    rcases Nat.eq_zero_or_pos n with h0 | hpos
    · subst h0
      exact ⟨0, by omega, fun u hu => by
        have : u = 0 := by omega
        subst this; exact Nat.le_refl _⟩
    · obtain ⟨t, ht, hmin⟩ := ih hpos
      by_cases hc : f n < f t
      · refine ⟨n, by omega, fun u hu => ?_⟩
        rcases Nat.lt_or_ge u n with h | h
        · have := hmin u h; omega
        · have : u = n := by omega
          subst this; exact Nat.le_refl _
      · refine ⟨t, by omega, fun u hu => ?_⟩
        rcases Nat.lt_or_ge u n with h | h
        · exact hmin u h
        · have : u = n := by omega
          subst this; omega

theorem clock_le_of_le (clock : clock_readings) (hmono : ∀ k, clock k ≤ clock (k + 1))
    (a b : Nat) (h : a ≤ b) : clock a ≤ clock b := by
  induction b with
  | zero =>
    have : a = 0 := by omega
    subst this; exact Nat.le_refl _
  | succ b ih =>
    rcases Nat.lt_or_ge a (b + 1) with h1 | h1
    · exact Nat.le_trans (ih (by omega)) (hmono b)
    · have : a = b + 1 := by omega
      subst this; exact Nat.le_refl _

theorem hammer_value (clock : clock_readings) (c : Nat) (p : params) (addr : List Nat)
    (count loops : Int) (R : Nat) (hR31 : R < 2 ^ 31)
    (hmono : ∀ k, clock k ≤ clock (k + 1)) (hrange : ∀ k, clock k < 2 ^ 64) :
    (hammer clock c p addr count loops R).1 = (hammer_rounds clock R c INT64_MAX).1 * R ∧
    (hammer_rounds clock R c INT64_MAX).1 * R + clock c ≤ clock (c + 2 * R) ∧
    (hammer clock c p addr count loops R).2 = c + 2 * R := by
  obtain ⟨_, h2, _, h4⟩ := hammer_rounds_min clock R c INT64_MAX
  have hb := elapsed_sum_bound clock hmono hrange (hammer_rounds clock R c INT64_MAX).1 R c h2
  have hr := hrange (c + 2 * R)
  have e1 : (((R : Int) % 2 ^ 64).toNat) = R := by
    rw [Int.emod_eq_of_lt (by omega) (by omega)]
    simp
  refine ⟨?_, hb, ?_⟩
  · unfold hammer
    simp only [Int.toNat_ofNat, e1]
    exact Nat.mod_eq_of_lt (by omega)
  · unfold hammer
    simp only [Int.toNat_ofNat]
    exact h4

theorem two_run_clock_mono : ∀ k, two_run_clock k ≤ two_run_clock (k + 1) := by
  intro k
  rcases Nat.lt_or_ge k 6 with h | h
  · revert k; decide
  · unfold two_run_clock
    rw [List.getD_eq_default _ _ (by simp; omega), List.getD_eq_default _ _ (by simp; omega)]

theorem two_run_clock_range : ∀ k, two_run_clock k < 2 ^ 64 := by
  intro k
  rcases Nat.lt_or_ge k 6 with h | h
  · revert k; decide
  · unfold two_run_clock
    rw [List.getD_eq_default _ _ (by simp; omega)]
    decide

/-! ## The claims C21 and C22 -/

/-- C21: for every repeat count `R = timing_loops >= 1` (an `int`) and every sequence of
monotonic clock readings (`uint64_t` nanoseconds) in which no run lasts longer than
`INT64_MAX` ns, about 292 years, `hammer` returns `R` times the minimum `m` over its `R`
runs of the run's elapsed nanoseconds, and not the sum of the runs; the product does not
wrap. -/
theorem hammer_min_times_runs (clock : clock_readings) (c : Nat) (p : params)
    (addr : List Nat) (count loops : Int) (R : Nat) (hR : 1 ≤ R) (hR31 : R < 2 ^ 31)
    (hmono : ∀ k, clock k ≤ clock (k + 1)) (hrange : ∀ k, clock k < 2 ^ 64)
    (hrun : ∀ t < R, run_elapsed clock c t ≤ INT64_MAX) :
    ∃ m, (∃ t < R, m = run_elapsed clock c t) ∧ (∀ t < R, m ≤ run_elapsed clock c t) ∧
      (hammer clock c p addr count loops R).1 = R * m ∧ R * m < 2 ^ 64 := by
  obtain ⟨t0, ht0, hmin⟩ := exists_min_below (run_elapsed clock c) R hR
  obtain ⟨h1, h2, h3, _⟩ := hammer_rounds_min clock R c INT64_MAX
  obtain ⟨hv, hb, _⟩ := hammer_value clock c p addr count loops R hR31 hmono hrange
  have hrm : (hammer_rounds clock R c INT64_MAX).1 = run_elapsed clock c t0 := by
    have hle := h2 t0 ht0
    rcases h3 with h | ⟨t, ht, h⟩
    · have := hrun t0 ht0
      omega
    · have := hmin t ht
      omega
  have hr := hrange (c + 2 * R)
  refine ⟨run_elapsed clock c t0, ⟨t0, ht0, rfl⟩, hmin, ?_, ?_⟩
  · rw [hv, hrm, Nat.mul_comm]
  · rw [hrm] at hb
    rw [Nat.mul_comm]
    omega

theorem hammer_min_times_runs_witness :
    ((1 : Nat) ≤ 2 ∧ (2 : Nat) < 2 ^ 31 ∧ (∀ k, two_run_clock k ≤ two_run_clock (k + 1)) ∧
      (∀ k, two_run_clock k < 2 ^ 64) ∧
      (∀ t < 2, run_elapsed two_run_clock 1 t ≤ INT64_MAX)) ∧
    (hammer two_run_clock 1 one_cpu_cfg [4096, 8192] 2 100 2).1 = 20 ∧
    run_elapsed two_run_clock 1 0 + run_elapsed two_run_clock 1 1 = 40 ∧
    ∃ m, (∃ t < 2, m = run_elapsed two_run_clock 1 t) ∧
      (∀ t < 2, m ≤ run_elapsed two_run_clock 1 t) ∧
      (hammer two_run_clock 1 one_cpu_cfg [4096, 8192] 2 100 (2 : Nat)).1 = 2 * m ∧
      2 * m < 2 ^ 64 :=
  ⟨⟨by decide, by decide, two_run_clock_mono, two_run_clock_range, by decide⟩, by decide,
    by decide,
    hammer_min_times_runs two_run_clock 1 one_cpu_cfg [4096, 8192] 2 100 2 (by decide)
      (by decide) two_run_clock_mono two_run_clock_range (by decide)⟩

/-- C22 as stated fails: with `nr_cpus = 1`, two runs and the clock readings 10, 10, 20,
20, 50, 50 (time passes only inside the two hammered runs, 10 ns and 30 ns), the direct
`hammer` call returns `2 * 10 = 20`, and `parallel_hammer`, which reads the clock before
and after the `hammer` call and drops its value, returns `50 - 10 = 40`. -/
theorem parallel_hammer_counterexample :
    one_cpu_cfg.nr_cpus = 1 ∧
    (hammer two_run_clock 1 one_cpu_cfg [4096, 8192] 2 100 2).1 = 20 ∧
    (parallel_hammer (fun c => (0, c)) two_run_clock 0 one_cpu_cfg [4096, 8192] 2 100 2).1 = 40 := by
  decide

/-- C22 (amended): with `nr_cpus < 2` (so with `nr_cpus == 1`), for every address list,
`loops`, `timing_loops = R` and every sequence of monotonic clock readings,
`parallel_hammer` returns the time between a clock reading taken before the `hammer`
call and one taken after it, whatever `hammer` returns; that time is at least the value
of the `hammer` call (`R` times its shortest run). -/
theorem parallel_hammer_wall_time (threaded : Nat → Nat × Nat) (clock : clock_readings)
    (c : Nat) (p : params) (rows : List Nat) (row_count loops : Int) (R : Nat)
    (hcpu : p.nr_cpus < 2) (hR31 : R < 2 ^ 31)
    (hmono : ∀ k, clock k ≤ clock (k + 1)) (hrange : ∀ k, clock k < 2 ^ 64) :
    (parallel_hammer threaded clock c p rows row_count loops R).1
      = clock (c + 2 * R + 1) - clock c ∧
    (parallel_hammer threaded clock c p rows row_count loops R).2 = c + 2 * R + 2 ∧
    (hammer clock (c + 1) p rows row_count loops R).1
      ≤ (parallel_hammer threaded clock c p rows row_count loops R).1 := by
  obtain ⟨hv, hb, hc⟩ := hammer_value clock (c + 1) p rows row_count loops R hR31 hmono hrange
  have e : c + 1 + 2 * R = c + 2 * R + 1 := by ring
  rw [e] at hb hc
  have hle : clock c ≤ clock (c + 2 * R + 1) := clock_le_of_le clock hmono _ _ (by omega)
  have hle1 : clock c ≤ clock (c + 1) := hmono c
  have hr := hrange (c + 2 * R + 1)
  have hval : (parallel_hammer threaded clock c p rows row_count loops R).1
      = clock (c + 2 * R + 1) - clock c := by
    unfold parallel_hammer
    rw [if_pos hcpu]
    simp only [hc]
    rw [Nat.mod_eq_of_lt hr, Nat.mod_eq_of_lt (hrange c)]
    have : clock (c + 2 * R + 1) + 2 ^ 64 - clock c
        = (clock (c + 2 * R + 1) - clock c) + 2 ^ 64 := by omega
    rw [this, Nat.add_mod_right, Nat.mod_eq_of_lt (by omega)]
  refine ⟨hval, ?_, ?_⟩
  · unfold parallel_hammer
    rw [if_pos hcpu]
    simp only [hc]
  · rw [hval, hv]
    omega

theorem parallel_hammer_wall_time_witness :
    (one_cpu_cfg.nr_cpus < 2 ∧ (2 : Nat) < 2 ^ 31 ∧
      (∀ k, two_run_clock k ≤ two_run_clock (k + 1)) ∧ (∀ k, two_run_clock k < 2 ^ 64)) ∧
    (parallel_hammer (fun c => (0, c)) two_run_clock 0 one_cpu_cfg [4096, 8192] 2 100 (2 : Nat)).1
      = two_run_clock (0 + 2 * 2 + 1) - two_run_clock 0 ∧
    (parallel_hammer (fun c => (0, c)) two_run_clock 0 one_cpu_cfg [4096, 8192] 2 100 (2 : Nat)).2
      = 0 + 2 * 2 + 2 ∧
    (hammer two_run_clock (0 + 1) one_cpu_cfg [4096, 8192] 2 100 (2 : Nat)).1
      ≤ (parallel_hammer (fun c => (0, c)) two_run_clock 0 one_cpu_cfg [4096, 8192] 2 100
          (2 : Nat)).1 :=
  ⟨⟨by decide, by decide, two_run_clock_mono, two_run_clock_range⟩,
    parallel_hammer_wall_time (fun c => (0, c)) two_run_clock 0 one_cpu_cfg [4096, 8192] 2 100 2
      (by decide) (by decide) two_run_clock_mono two_run_clock_range⟩

/-! ## Lemmas on the numbers of a configuration -/

theorem is_digit_of_is_decimal (ch : Char) (h : is_decimal ch = true) :
    is_digit 10 ch = true ∧ (digit_val ch).getD 0 = ch.toNat - 48 ∧ isspace ch = false ∧
      ch ≠ '-' ∧ ch ≠ '+' := by
  unfold is_decimal at h
  have h1 : 48 ≤ ch.toNat ∧ ch.toNat ≤ 57 := of_decide_eq_true h
  refine ⟨?_, ?_, ?_, ?_, ?_⟩
  · unfold is_digit digit_val
    rw [if_pos h1]
    exact decide_eq_true (by omega)
  · unfold digit_val
    rw [if_pos h1]
    rfl
  · unfold isspace
    have a1 : ¬ ch.toNat = 32 := by omega
    have a2 : ¬ ch.toNat ≤ 13 := by omega
    simp [a1, a2]
  · intro e; subst e; revert h1; decide
  · intro e; subst e; revert h1; decide

theorem is_decimal_of_is_digit (ch : Char) (h : is_digit 10 ch = true) : is_decimal ch = true := by
  unfold is_digit digit_val at h
  unfold is_decimal
  by_cases h1 : 48 ≤ ch.toNat ∧ ch.toNat ≤ 57
  · exact decide_eq_true h1
  · rw [if_neg h1] at h
    by_cases h2 : 97 ≤ ch.toNat ∧ ch.toNat ≤ 122
    · rw [if_pos h2] at h
      have := of_decide_eq_true h
      omega
    · rw [if_neg h2] at h
      by_cases h3 : 65 ≤ ch.toNat ∧ ch.toNat ≤ 90
      · rw [if_pos h3] at h
        have := of_decide_eq_true h
        omega
      · rw [if_neg h3] at h
        exact absurd h (by decide)

theorem foldl_decimal (ds : List Char) (hd : ∀ ch ∈ ds, is_decimal ch = true) : ∀ (acc : Nat),
    ds.foldl (fun acc ch => acc * 10 + (digit_val ch).getD 0) acc
      = ds.foldl (fun acc ch => acc * 10 + (ch.toNat - 48)) acc := by
  induction ds with
  | nil => intro acc; rfl
  | cons ch ds ih =>
    intro acc
    simp only [List.foldl_cons]
    rw [(is_digit_of_is_decimal ch (hd ch (by simp))).2.1]
    exact ih (fun c hc => hd c (by simp [hc])) _

/-- What `strtoull` in base 10 returns on a run of decimal digits followed by a rest that
does not start with a digit. -/
theorem strtoull_decimal (ds rest : List Char) (hne : ds ≠ [])
    (hd : ∀ ch ∈ ds, is_decimal ch = true) (hrest : rest.takeWhile (is_digit 10) = []) :
    strtoull (ds ++ rest) 10 = (min (decimal_value ds) (2 ^ 64 - 1), rest) := by
  obtain ⟨c, t, rfl⟩ := List.exists_cons_of_ne_nil hne
  obtain ⟨_, _, hsp, hm, hp⟩ := is_digit_of_is_decimal c (hd c (by simp))
  have hall : ∀ a ∈ c :: t, is_digit 10 a = true :=
    fun a ha => (is_digit_of_is_decimal a (hd a ha)).1
  have h1 : (c :: t ++ rest).dropWhile isspace = c :: t ++ rest := by
    rw [List.cons_append, List.dropWhile_cons_of_neg (by simp [hsp])]
  have h2 : (c :: t ++ rest).head? = some c := rfl
  have h3 : ¬ (some c = some '-' ∨ some c = some '+') := by
    intro h
    rcases h with h | h
    · exact hm (Option.some.inj h)
    · exact hp (Option.some.inj h)
  have h4 : (c :: t ++ rest).takeWhile (is_digit 10) = c :: t := by
    rw [List.takeWhile_append_of_pos hall, hrest, List.append_nil]
  have h5 : (c :: t ++ rest).dropWhile (is_digit 10) = rest := by
    rw [List.dropWhile_append_of_pos hall]
    have := List.takeWhile_append_dropWhile (is_digit 10) rest
    rw [hrest, List.nil_append] at this
    exact this
  have h6 : ¬ (some c = some '-') := fun h => hm (Option.some.inj h)
  have hb : ∀ (x : List Char),
      (if (10 : Nat) = 16 ∧ starts_with_0x x = true then x.drop 2 else x) = x :=
    fun x => if_neg (fun h => absurd h.1 (by decide))
  unfold strtoull
  simp only [h1, h2, if_neg h3, hb, h4, h5, if_neg h6]
  rw [if_neg (by simp), foldl_decimal (c :: t) hd 0]
  show ((if 2 ^ 64 ≤ decimal_value (c :: t) then 2 ^ 64 - 1 else decimal_value (c :: t)), rest) = _
  congr 1
  split
  · rw [Nat.min_eq_right (by omega)]
  · rw [Nat.min_eq_left (by omega)]

/-! ## The claim C25 -/

/-- C25 as stated fails: the digits `18446744073709551616` denote `2 ^ 64`; `strtoull`
returns `ULLONG_MAX` for them, so `to_uint64_t` returns `2 ^ 64 - 1` for the bare string
and `(2 ^ 64 - 1) * 1024 mod 2 ^ 64` with the suffix `K`, while `d` and `d * 1024` are
both 0 modulo `2 ^ 64`. -/
theorem to_uint64_t_saturates_counterexample :
    decimal_value "18446744073709551616".toList = 2 ^ 64 ∧
    to_uint64_t "18446744073709551616".toList = some (2 ^ 64 - 1) ∧
    to_uint64_t "18446744073709551616K".toList = some (2 ^ 64 - 1024) ∧
    (2 ^ 64 - 1 : Nat) ≠ 2 ^ 64 % 2 ^ 64 ∧ (2 ^ 64 - 1024 : Nat) ≠ 2 ^ 64 * 1024 % 2 ^ 64 := by
  decide

/-- C25 (amended): for every non-empty string of decimal digits denoting `d`, with
`d1 = d` when `d < 2 ^ 64` and `d1 = 2 ^ 64 - 1` otherwise (the value `strtoull` returns),
`to_uint64_t` returns `d1` for the bare string, `d1 * 1024` with suffix `K`,
`d1 * 1024 ^ 2` with suffix `M` and `d1 * 1024 ^ 3` with suffix `G`, the products being
taken modulo `2 ^ 64`. -/
theorem to_uint64_t_suffixes (ds : List Char) (hne : ds ≠ [])
    (hd : ∀ ch ∈ ds, is_decimal ch = true) :
    to_uint64_t ds = some (min (decimal_value ds) (2 ^ 64 - 1)) ∧
    to_uint64_t (ds ++ ['K']) = some (min (decimal_value ds) (2 ^ 64 - 1) * 1024 % 2 ^ 64) ∧
    to_uint64_t (ds ++ ['M']) = some (min (decimal_value ds) (2 ^ 64 - 1) * 1024 ^ 2 % 2 ^ 64) ∧
    to_uint64_t (ds ++ ['G']) = some (min (decimal_value ds) (2 ^ 64 - 1) * 1024 ^ 3 % 2 ^ 64) := by
  have h0 := strtoull_decimal ds [] hne hd rfl
  rw [List.append_nil] at h0
  have hK := strtoull_decimal ds ['K'] hne hd (by decide)
  have hM := strtoull_decimal ds ['M'] hne hd (by decide)
  have hG := strtoull_decimal ds ['G'] hne hd (by decide)
  have hne1 : ∀ ch : Char, ds ++ [ch] ≠ [] := fun ch => by simp
  refine ⟨?_, ?_, ?_, ?_⟩
  · unfold to_uint64_t
    rw [h0, if_neg hne]
    simp
  · unfold to_uint64_t
    rw [hK, if_neg (hne1 _)]
    simp
  · unfold to_uint64_t
    rw [hM, if_neg (hne1 _)]
    simp
    omega
  · unfold to_uint64_t
    rw [hG, if_neg (hne1 _)]
    simp
    omega

theorem to_uint64_t_suffixes_witness :
    ("512".toList ≠ [] ∧ ∀ ch ∈ "512".toList, is_decimal ch = true) ∧
    to_uint64_t "512K".toList = some 524288 ∧
    to_uint64_t "512".toList = some (min (decimal_value "512".toList) (2 ^ 64 - 1)) ∧
    to_uint64_t ("512".toList ++ ['K'])
      = some (min (decimal_value "512".toList) (2 ^ 64 - 1) * 1024 % 2 ^ 64) ∧
    to_uint64_t ("512".toList ++ ['M'])
      = some (min (decimal_value "512".toList) (2 ^ 64 - 1) * 1024 ^ 2 % 2 ^ 64) ∧
    to_uint64_t ("512".toList ++ ['G'])
      = some (min (decimal_value "512".toList) (2 ^ 64 - 1) * 1024 ^ 3 % 2 ^ 64) :=
  ⟨⟨by decide, by decide⟩, by decide,
    to_uint64_t_suffixes "512".toList (by decide) (by decide)⟩

/-- How `strtoull` splits its argument: either there is no digit and `endptr` is the
whole string, or the string is white space, sign, prefix, digits and `endptr`. -/
theorem strtoull_parts (nptr : List Char) (base : Nat) :
    strtoull nptr base = (0, nptr) ∨
    ∃ ws sign pre ds, nptr = ws ++ sign ++ pre ++ ds ++ (strtoull nptr base).2 ∧
      (∀ ch ∈ ws, isspace ch = true) ∧ (sign = [] ∨ sign = ['+'] ∨ sign = ['-']) ∧
      (pre = [] ∨ (base = 16 ∧ (pre = ['0', 'x'] ∨ pre = ['0', 'X']))) ∧
      ds ≠ [] ∧ (∀ ch ∈ ds, is_digit base ch = true) := by
  -- the sign
  have hsign : ∀ s1 : List Char, ∃ sign,
      s1 = sign ++ (if s1.head? = some '-' ∨ s1.head? = some '+' then s1.tail else s1) ∧
      (sign = [] ∨ sign = ['+'] ∨ sign = ['-']) := by
    intro s1
    by_cases h : s1.head? = some '-' ∨ s1.head? = some '+'
    · rw [if_pos h]
      cases s1 with
      | nil => rcases h with h | h <;> exact absurd h (by simp)
      | cons c t =>
        refine ⟨[c], rfl, ?_⟩
        rcases h with h | h
        · have : c = '-' := by simpa using h
          subst this; exact Or.inr (Or.inr rfl)
        · have : c = '+' := by simpa using h
          subst this; exact Or.inr (Or.inl rfl)
    · rw [if_neg h]
      exact ⟨[], rfl, Or.inl rfl⟩
  -- the prefix
  have hpre : ∀ s2 : List Char, ∃ pre,
      s2 = pre ++ (if base = 16 ∧ starts_with_0x s2 = true then s2.drop 2 else s2) ∧
      (pre = [] ∨ (base = 16 ∧ (pre = ['0', 'x'] ∨ pre = ['0', 'X']))) := by
    intro s2
    by_cases h : base = 16 ∧ starts_with_0x s2 = true
    · rw [if_pos h]
      obtain ⟨hb, hp⟩ := h
      match s2, hp with
      | c0 :: c1 :: c2 :: t, hp =>
        simp only [starts_with_0x, Bool.and_eq_true, Bool.or_eq_true, decide_eq_true_eq] at hp
        obtain ⟨⟨h0, h1⟩, _⟩ := hp
        subst h0
        refine ⟨['0', c1], rfl, Or.inr ⟨hb, ?_⟩⟩
        rcases h1 with h1 | h1
        · subst h1; exact Or.inl rfl
        · subst h1; exact Or.inr rfl
    · rw [if_neg h]
      exact ⟨[], rfl, Or.inl rfl⟩
  unfold strtoull
  simp only []
  have hws : nptr = nptr.takeWhile isspace ++ nptr.dropWhile isspace :=
    (List.takeWhile_append_dropWhile isspace nptr).symm
  have hwsp : ∀ ch ∈ nptr.takeWhile isspace, isspace ch = true :=
    fun ch hch => List.mem_takeWhile_imp hch
  generalize nptr.takeWhile isspace = ws at hws hwsp
  generalize nptr.dropWhile isspace = s1 at hws ⊢
  obtain ⟨sign, hs1, hsg⟩ := hsign s1
  generalize (if s1.head? = some '-' ∨ s1.head? = some '+' then s1.tail else s1) = s2 at hs1 ⊢
  obtain ⟨pre, hs2, hpr⟩ := hpre s2
  generalize (if base = 16 ∧ starts_with_0x s2 = true then s2.drop 2 else s2) = s3 at hs2 ⊢
  by_cases hdig : s3.takeWhile (is_digit base) = []
  · rw [if_pos hdig]
    exact Or.inl rfl
  · rw [if_neg hdig]
    refine Or.inr ⟨ws, sign, pre, s3.takeWhile (is_digit base), ?_, hwsp, hsg, hpr, hdig, ?_⟩
    · simp only [List.append_assoc, List.takeWhile_append_dropWhile]
      rw [← hs2, ← hs1]
      exact hws
    · intro ch hch
      exact List.mem_takeWhile_imp hch

theorem to_uint64_t_endptr (value : List Char) :
    to_uint64_t value = none ∨
    (value ≠ [] ∧ ((strtoull value 10).2 = [] ∨ (strtoull value 10).2 = ['K'] ∨
      (strtoull value 10).2 = ['M'] ∨ (strtoull value 10).2 = ['G'])) := by
  unfold to_uint64_t
  simp only []
  by_cases hv : value = []
  · rw [if_pos hv]; exact Or.inl rfl
  · rw [if_neg hv]
    cases he : (strtoull value 10).2 with
    | nil => exact Or.inr ⟨hv, Or.inl rfl⟩
    | cons ch rest =>
      simp only []
      by_cases hG : ch = 'G'
      · rw [if_pos hG]
        cases rest with
        | nil => subst hG; exact Or.inr ⟨hv, Or.inr (Or.inr (Or.inr rfl))⟩
        | cons c t => simp
      · rw [if_neg hG]
        by_cases hM : ch = 'M'
        · rw [if_pos hM]
          cases rest with
          | nil => subst hM; exact Or.inr ⟨hv, Or.inr (Or.inr (Or.inl rfl))⟩
          | cons c t => simp
        · rw [if_neg hM]
          by_cases hK : ch = 'K'
          · rw [if_pos hK]
            cases rest with
            | nil => subst hK; exact Or.inr ⟨hv, Or.inr (Or.inl rfl)⟩
            | cons c t => simp
          · rw [if_neg hK]
            simp

/-! ## The claim C26 -/

/-- C26 as stated fails: a sign and leading white space do not make `to_uint64_t` abort
(`strtoull` takes them), and `parse_hex` takes a sign and the prefix `0x`: `+5` and ` 5`
give 5, `-5` gives `2 ^ 64 - 5`, and `-0x1f` gives `2 ^ 64 - 31`. -/
theorem signed_number_counterexample :
    to_uint64_t "+5".toList = some 5 ∧ to_uint64_t " 5".toList = some 5 ∧
    to_uint64_t "-5".toList = some (2 ^ 64 - 5) ∧
    parse_hex "-0x1f".toList = some (2 ^ 64 - 31) := by
  decide

/-- C26 (amended): `to_uint64_t` aborts on every string that is neither of the form
white space, optional sign, non-empty run of decimal digits, optional single `K`, `M`
or `G` (with nothing else in it), nor one of the bare suffixes `K`, `M`, `G` (about
which nothing is said here); the empty string is among the strings it aborts on.
`parse_hex` aborts on every non-empty string that is not of the form white space,
optional sign, optional `0x` or `0X`, non-empty run of hexadecimal digits. -/
theorem malformed_numbers_abort (value : List Char) :
    (to_uint64_t value = none ∨ numeric_shape value ∨
      value = ['K'] ∨ value = ['M'] ∨ value = ['G']) ∧
    to_uint64_t [] = none ∧
    (parse_hex value = none ∨ hex_shape value ∨ value = []) := by
  refine ⟨?_, by decide, ?_⟩
  · rcases to_uint64_t_endptr value with h | ⟨hv, hend⟩
    · exact Or.inl h
    · rcases strtoull_parts value 10 with h0 | ⟨ws, sign, pre, ds, hval, hws, hsg, hpr, hne, hds⟩
      · -- no digit: `endptr` is the whole string
        have e : (strtoull value 10).2 = value := by rw [h0]
        rw [e] at hend
        rcases hend with h | h | h | h
        · exact absurd h hv
        · exact Or.inr (Or.inr (Or.inl h))
        · exact Or.inr (Or.inr (Or.inr (Or.inl h)))
        · exact Or.inr (Or.inr (Or.inr (Or.inr h)))
      · have hpre : pre = [] := by
          rcases hpr with h | ⟨h, _⟩
          · exact h
          · exact absurd h (by decide)
        subst hpre
        rw [List.append_nil] at hval
        exact Or.inr (Or.inl ⟨ws, sign, ds, (strtoull value 10).2, hval, hws, hsg, hne,
          fun ch hch => is_decimal_of_is_digit ch (hds ch hch), hend⟩)
  · by_cases hp : parse_hex value = none
    · exact Or.inl hp
    · have hend : (strtoull value 16).2 = [] := by
        unfold parse_hex at hp
        simp only [] at hp
        by_contra hne
        exact hp (if_pos hne)
      rcases strtoull_parts value 16 with h0 | ⟨ws, sign, pre, ds, hval, hws, hsg, hpr, hne, hds⟩
      · have e : (strtoull value 16).2 = value := by rw [h0]
        rw [e] at hend
        exact Or.inr (Or.inr hend)
      · rw [hend, List.append_nil] at hval
        refine Or.inr (Or.inl ⟨ws, sign, pre, ds, hval, hws, hsg, ?_, hne, hds⟩)
        rcases hpr with h | ⟨_, h | h⟩
        · exact Or.inl h
        · exact Or.inr (Or.inl h)
        · exact Or.inr (Or.inr h)

/-! ## The claim C27 -/

/-- C27, the code at the failing input: eight lines `step=1:4096` are all accepted and
fill `addr_loops[0..8)` (a ninth line is refused); no entry with `step == 0` is left,
so the `run_hammer` recursion goes from depth 0 to depth 8 and there reads
`p->addr_loops[8]`, outside the array: the sweep has no result, whatever bound the loops
are given.  With seven lines the recursion ends at depth 7 and runs one experiment. -/
theorem eight_steps_read_past_array :
    (parse_steps { size := 4096 } (List.replicate 8 "1:4096".toList)).map params.addr_loops
      = some eight_step_cfg.addr_loops ∧
    (parse_steps { size := 4096 } (List.replicate 9 "1:4096".toList)).map params.addr_loops
      = none ∧
    (∀ depth < 8, (addr_loops_at eight_step_cfg depth).step ≠ 0) ∧
    (∀ fuel, run_hammer record_experiment eight_step_cfg walk_mem walk_mem (walk_mem + 4096) 0
      fuel [] = none) ∧
    run_hammer record_experiment seven_step_cfg walk_mem walk_mem (walk_mem + 4096) 0 2 []
      = some [(walk_mem, 4096)] := by
  refine ⟨by decide, by decide, by decide, ?_, by decide⟩
  intro fuel
  cases fuel with
  | zero => rfl
  | succ n =>
    simp [run_hammer, run_hammer_levels, run_hammer_loop, addr_loops_at, eight_step_cfg,
      MAX_ADDR_LOOPS, walk_mem, List.replicate]

/-! ## Lemmas on `run_hammer_once` -/

theorem attempt_spec (env : experiment_env) (p : params) (rows : List row)
    (shift try_ seed : Int) (first_try : Bool) (s s1 : run_state) (flips : Int)
    (h : attempt env p rows shift try_ seed first_try s = some (s1, flips)) :
    0 ≤ flips ∧ s1.log = s.log ++ round_events p shift try_ first_try [flips] ∧
    s1.total_tries = s.total_tries ∧
    s1.total_flips = (if first_try = true then s.total_flips + flips else s.total_flips) ∧
    s1.flips_from_repeats
      = (if first_try = true then s.flips_from_repeats else s.flips_from_repeats + flips) ∧
    s1.experiments = s.experiments ∧ s1.hammers = s.hammers + 1 := by
  unfold attempt at h
  simp only [] at h
  split at h
  · exact absurd h (by simp)
  · split at h
    · exact absurd h (by simp)
    · rename_i fl m1 _
      split at h
      · rename_i hc
        split at h
        · exact absurd h (by simp)
        · simp only [Option.some.injEq, Prod.mk.injEq] at h
          obtain ⟨h1, h2⟩ := h
          subst h1 h2
          simp [round_events, hc]
      · rename_i hc
        simp only [Option.some.injEq, Prod.mk.injEq] at h
        obtain ⟨h1, h2⟩ := h
        subst h1 h2
        simp [round_events, hc]

theorem round_events_cons (p : params) (shift try_ : Int) (b : Bool) (f : Int) (fs : List Int) :
    round_events p shift try_ b (f :: fs)
      = round_events p shift try_ b [f] ++ round_events p shift try_ false fs := by
  simp [round_events]

theorem attempts_loop_repeats (env : experiment_env) (p : params) (rows : List row)
    (shift try_ seed : Int) : ∀ (fuel : Nat) (rep : Int) (s s1 : run_state),
    attempts_loop env p rows shift try_ seed fuel rep false s = some s1 →
    ∃ fs : List Int, fs ≠ [] ∧ (∀ f ∈ fs, 0 ≤ f) ∧
      s1.log = s.log ++ round_events p shift try_ false fs ∧
      s1.total_tries = s.total_tries ∧ s1.total_flips = s.total_flips ∧
      s1.flips_from_repeats = s.flips_from_repeats + fs.sum ∧
      s1.experiments = s.experiments := by
  intro fuel
  induction fuel with
  | zero => intro rep s s1 h; exact absurd h (by simp [attempts_loop])
  | succ fuel ih =>
    intro rep s s1 h
    rw [attempts_loop] at h
    cases ha : attempt env p rows shift try_ seed false s with
    | none => rw [ha] at h; exact absurd h (by simp)
    | some r =>
      obtain ⟨s2, flips⟩ := r
      rw [ha] at h
      simp only [Bool.false_eq_true, false_and, if_false] at h
      obtain ⟨h0, hlog, htr, htf, hfr, hex, _⟩ :=
        attempt_spec env p rows shift try_ seed false s s2 flips ha
      simp only [Bool.false_eq_true, if_false] at htf hfr
      split at h
      · obtain ⟨fs, _, hpos, hlog1, htr1, htf1, hfr1, hex1⟩ := ih _ _ _ h
        refine ⟨flips :: fs, by simp, ?_, ?_, by omega, by omega, ?_, by omega⟩
        · intro f hf
          rcases List.mem_cons.1 hf with rfl | hf1
          · exact h0
          · exact hpos f hf1
        · rw [hlog1, hlog, List.append_assoc, ← round_events_cons]
        · rw [hfr1, hfr, List.sum_cons]; ring
      · simp only [Option.some.injEq] at h
        subst h
        refine ⟨[flips], by simp, ?_, hlog, htr, htf, ?_, hex⟩
        · intro f hf
          have : f = flips := by simpa using hf
          subst this; exact h0
        · rw [hfr]; simp

theorem run_try_spec (env : experiment_env) (p : params) (rows : List row)
    (shift try_ : Int) (s s1 : run_state) (h : run_try env p rows shift try_ s = some s1) :
    ∃ (first : Int) (later : List Int), 0 ≤ first ∧ (∀ f ∈ later, 0 ≤ f) ∧
      s1.log = s.log ++ round_events p shift try_ true (first :: later) ∧
      s1.total_tries = s.total_tries ∧ s1.total_flips = s.total_flips + first ∧
      s1.flips_from_repeats = s.flips_from_repeats + later.sum ∧
      s1.experiments = s.experiments ∧
      (later ≠ [] → 0 < p.repeat_flips ∧ 0 < first) := by
  unfold run_try at h
  simp only [] at h
  rw [attempts_loop] at h
  generalize (if p.repeat_flips ≠ 0 then env.time s.hammers else 0) = seed at h
  cases ha : attempt env p rows shift try_ seed true s with
  | none => rw [ha] at h; exact absurd h (by simp)
  | some r =>
    obtain ⟨s2, flips⟩ := r
    rw [ha] at h
    simp only [true_and] at h
    obtain ⟨h0, hlog, htr, htf, hfr, hex, _⟩ :=
      attempt_spec env p rows shift try_ seed true s s2 flips ha
    simp only [if_true] at htf hfr
    split at h
    · simp only [Option.some.injEq] at h
      subst h
      exact ⟨flips, [], h0, by simp, hlog, htr, htf, by simpa using hfr, hex, by simp⟩
    · rename_i hne
      split at h
      · rename_i hc
        obtain ⟨fs, _, hpos, hlog1, htr1, htf1, hfr1, hex1⟩ :=
          attempts_loop_repeats env p rows shift try_ seed _ _ _ _ h
        refine ⟨flips, fs, h0, hpos, ?_, by omega, by omega, by omega, by omega, ?_⟩
        · rw [hlog1, hlog, List.append_assoc, ← round_events_cons]
        · intro _
          exact ⟨by omega, by omega⟩
      · simp only [Option.some.injEq] at h
        subst h
        exact ⟨flips, [], h0, by simp, hlog, htr, htf, by simpa using hfr, hex, by simp⟩

theorem attempt_events_append (l1 l2 : List event) :
    attempt_events (l1 ++ l2) = attempt_events l1 ++ attempt_events l2 := by
  unfold attempt_events
  rw [List.filter_append]

theorem attempt_events_repeats (p : params) (shift try_ : Int) : ∀ (fs : List Int),
    attempt_events (round_events p shift try_ false fs)
      = fs.map (fun f => event.attempt shift try_ false f) := by
  intro fs
  induction fs with
  | nil => rfl
  | cons f fs ih =>
    rw [round_events_cons, attempt_events_append, ih]
    by_cases hc : f ≠ 0 ∨ p.always_refill ≠ 0
    · simp [round_events, attempt_events, hc]
    · simp [round_events, attempt_events, hc]

theorem attempt_events_rounds (p : params) (shift try_ : Int) (first : Int) (later : List Int) :
    attempt_events (round_events p shift try_ true (first :: later))
      = event.attempt shift try_ true first ::
          later.map (fun f => event.attempt shift try_ false f) := by
  rw [round_events_cons, attempt_events_append, attempt_events_repeats]
  by_cases hc : first ≠ 0 ∨ p.always_refill ≠ 0
  · simp [round_events, attempt_events, hc]
  · simp [round_events, attempt_events, hc]

/-! ## The claim C29 -/

/-- C29: within each try of `run_hammer_once` (the body of the loop over `try`), the
attempts are a first attempt with flip count `first` and then the repeat attempts with
the flip counts `later`; `total_flips` increases by exactly `first` and
`flips_from_repeats` by exactly the sum of `later`, so the repeat attempts do not change
`total_flips`; and there is a repeat attempt only when `repeat_flips > 0` and the first
attempt observed at least one flip. -/
theorem try_flip_accounting (env : experiment_env) (p : params) (rows : List row)
    (shift try_ : Int) (s s1 : run_state) (h : run_try env p rows shift try_ s = some s1) :
    ∃ (first : Int) (later : List Int),
      attempt_events s1.log = attempt_events s.log ++
        (event.attempt shift try_ true first ::
          later.map (fun f => event.attempt shift try_ false f)) ∧
      s1.total_flips = s.total_flips + first ∧
      s1.flips_from_repeats = s.flips_from_repeats + later.sum ∧
      s1.total_tries = s.total_tries ∧
      (later ≠ [] → 0 < p.repeat_flips ∧ 0 < first) := by
  obtain ⟨first, later, _, _, hlog, htr, htf, hfr, _, hrep⟩ :=
    run_try_spec env p rows shift try_ s s1 h
  refine ⟨first, later, ?_, htf, hfr, htr, hrep⟩
  rw [hlog, attempt_events_append, attempt_events_rounds]

theorem try_flip_accounting_witness :
    run_try flipping_env repeat_cfg two_word_rows 0 0 (initial_state zero_mem)
      = some repeat_try_result ∧
    (repeat_try_result.log, repeat_try_result.total_flips, repeat_try_result.flips_from_repeats)
      = ([event.attempt 0 0 true 2, event.refilled 0, event.attempt 0 0 false 1,
          event.refilled 0, event.attempt 0 0 false 1, event.refilled 0], 2, 2) ∧
    ∃ (first : Int) (later : List Int),
      attempt_events repeat_try_result.log = attempt_events (initial_state zero_mem).log ++
        (event.attempt 0 0 true first ::
          later.map (fun f => event.attempt 0 0 false f)) ∧
      repeat_try_result.total_flips = (initial_state zero_mem).total_flips + first ∧
      repeat_try_result.flips_from_repeats
        = (initial_state zero_mem).flips_from_repeats + later.sum ∧
      repeat_try_result.total_tries = (initial_state zero_mem).total_tries ∧
      (later ≠ [] → 0 < repeat_cfg.repeat_flips ∧ 0 < first) :=
  ⟨by rfl, by decide,
    try_flip_accounting flipping_env repeat_cfg two_word_rows 0 0 (initial_state zero_mem)
      repeat_try_result (by rfl)⟩

/-! ## The claim C24 -/

/-- C24: when row discovery returns `n != n_rows`, `run_hammer_once` returns at once: the
contents of memory, `total_tries`, `total_flips`, `flips_from_repeats` and the number of
hammer attempts are what they were, and the only event is the skip; and the loop of
`run_hammer` whose body ran this experiment at `mem` goes on from `mem + step` with
`count + 1`. -/
theorem skipped_experiment (env : experiment_env) (p : params) (base mem len : Nat)
    (s : run_state) (n : Int) (rows : List row)
    (body : Nat → run_state → Option run_state) (l : addr_loop) (max_addr fuel : Nat)
    (count : Int)
    (hfind : find_rows env p s.experiments mem len = some (n, rows)) (hn : n ≠ p.n_rows)
    (hbody : body mem s = run_hammer_once env p base mem len s)
    (hguard : mem < max_addr ∧ (l.count = 0 ∨ count < l.count)) :
    ∃ s1, run_hammer_once env p base mem len s = some s1 ∧
      s1.mem = s.mem ∧ s1.total_tries = s.total_tries ∧ s1.total_flips = s.total_flips ∧
      s1.flips_from_repeats = s.flips_from_repeats ∧ s1.hammers = s.hammers ∧
      s1.log = s.log ++ [event.skipped mem] ∧ s1.experiments = s.experiments + 1 ∧
      run_hammer_loop body l max_addr (fuel + 1) mem count s
        = run_hammer_loop body l max_addr fuel ((mem : Int) + l.step).toNat (count + 1) s1 := by
  have h1 : run_hammer_once env p base mem len s
      = some { s with experiments := s.experiments + 1, log := s.log ++ [event.skipped mem] } := by
    unfold run_hammer_once
    rw [hfind]
    simp only []
    rw [if_pos hn]
  refine ⟨_, h1, rfl, rfl, rfl, rfl, rfl, rfl, rfl, ?_⟩
  rw [run_hammer_loop, if_pos hguard, hbody, h1]

theorem skipped_experiment_witness :
    (find_rows short_first_env repeat_cfg (initial_state zero_mem).experiments 0 8192
        = some (1, two_word_rows) ∧ (1 : Int) ≠ repeat_cfg.n_rows ∧
      (fun m s => run_hammer_once short_first_env repeat_cfg 0 m 8192 s) 0
          (initial_state zero_mem)
        = run_hammer_once short_first_env repeat_cfg 0 0 8192 (initial_state zero_mem) ∧
      ((0 : Nat) < 8192 ∧
        (({ count := 2, step := 4096 } : addr_loop).count = 0 ∨
          (0 : Int) < ({ count := 2, step := 4096 } : addr_loop).count))) ∧
    (main short_first_env repeat_cfg 0 zero_mem 5).map
        (fun x => (x.2.total_tries, x.2.log.take 3))
      = some (2, [event.skipped 0, event.filled_rows 0, event.attempt 0 0 true 1]) ∧
    ∃ s1, run_hammer_once short_first_env repeat_cfg 0 0 8192 (initial_state zero_mem) = some s1 ∧
      s1.mem = (initial_state zero_mem).mem ∧
      s1.total_tries = (initial_state zero_mem).total_tries ∧
      s1.total_flips = (initial_state zero_mem).total_flips ∧
      s1.flips_from_repeats = (initial_state zero_mem).flips_from_repeats ∧
      s1.hammers = (initial_state zero_mem).hammers ∧
      s1.log = (initial_state zero_mem).log ++ [event.skipped 0] ∧
      s1.experiments = (initial_state zero_mem).experiments + 1 ∧
      run_hammer_loop (fun m s => run_hammer_once short_first_env repeat_cfg 0 m 8192 s)
          { count := 2, step := 4096 } 8192 (3 + 1) 0 0 (initial_state zero_mem)
        = run_hammer_loop (fun m s => run_hammer_once short_first_env repeat_cfg 0 m 8192 s)
            { count := 2, step := 4096 } 8192 3
            (((0 : Nat) : Int) + ({ count := 2, step := 4096 } : addr_loop).step).toNat (0 + 1)
            s1 :=
  ⟨⟨by rfl, by decide, by rfl, by decide⟩, by decide,
    skipped_experiment short_first_env repeat_cfg 0 0 8192 (initial_state zero_mem) 1
      two_word_rows (fun m s => run_hammer_once short_first_env repeat_cfg 0 m 8192 s)
      { count := 2, step := 4096 } 8192 3 0 (by rfl) (by decide) (by rfl) (by decide)⟩

/-! ## Lemmas on the counters of a run -/

theorem event_sum_pos_iff (f : event → Int) : ∀ (l : List event), (∀ e ∈ l, 0 ≤ f e) →
    (0 < (l.map f).sum ↔ ∃ e ∈ l, 0 < f e) := by
  intro l
  induction l with
  | nil => intro _; simp
  | cons a l ih =>
    intro h
    have ha := h a (by simp)
    have hl := ih (fun e he => h e (by simp [he]))
    have hs : 0 ≤ (l.map f).sum := List.sum_nonneg (by
      intro x hx
      obtain ⟨e, he, rfl⟩ := List.mem_map.1 hx
      exact h e (by simp [he]))
    rw [List.map_cons, List.sum_cons]
    constructor
    · intro hpos
      by_cases h0 : 0 < f a
      · exact ⟨a, by simp, h0⟩
      · obtain ⟨e, he, hp⟩ := hl.1 (by omega)
        exact ⟨e, by simp [he], hp⟩
    · rintro ⟨e, he, hp⟩
      rcases List.mem_cons.1 he with rfl | he1
      · omega
      · have := hl.2 ⟨e, he1, hp⟩
        omega

theorem accounted_step (s s1 : run_state) (ev : List event) (F R : Int) (h : accounted s)
    (hlog : s1.log = s.log ++ ev)
    (hnn : ∀ e ∈ ev, 0 ≤ first_flips e ∧ 0 ≤ repeat_flips e)
    (hF : (ev.map first_flips).sum = F) (hR : (ev.map repeat_flips).sum = R)
    (htf : s1.total_flips = s.total_flips + F)
    (hfr : s1.flips_from_repeats = s.flips_from_repeats + R)
    (hD : 0 < R → 0 < F) : accounted s1 := by
  obtain ⟨h1, h2, h3, h4⟩ := h
  have hF0 : 0 ≤ F := by
    rw [← hF]
    exact List.sum_nonneg (by
      intro x hx
      obtain ⟨e, he, rfl⟩ := List.mem_map.1 hx
      exact (hnn e he).1)
  have hR0 : 0 ≤ R := by
    rw [← hR]
    exact List.sum_nonneg (by
      intro x hx
      obtain ⟨e, he, rfl⟩ := List.mem_map.1 hx
      exact (hnn e he).2)
  have hT0 : 0 ≤ s.total_flips := by
    rw [h2]
    exact List.sum_nonneg (by
      intro x hx
      obtain ⟨e, he, rfl⟩ := List.mem_map.1 hx
      exact (h1 e he).1)
  refine ⟨?_, ?_, ?_, ?_⟩
  · intro e he
    rw [hlog] at he
    rcases List.mem_append.1 he with h | h
    · exact h1 e h
    · exact hnn e h
  · rw [htf, hlog, List.map_append, List.sum_append, h2, hF]
  · rw [hfr, hlog, List.map_append, List.sum_append, h3, hR]
  · intro hpos
    rw [htf]
    rw [hfr] at hpos
    by_cases hr : 0 < R
    · have := hD hr; omega
    · have := h4 (by omega); omega

theorem round_events_repeats_sums (p : params) (shift try_ : Int) : ∀ (fs : List Int),
    (∀ f ∈ fs, 0 ≤ f) →
    ((round_events p shift try_ false fs).map first_flips).sum = 0 ∧
    ((round_events p shift try_ false fs).map repeat_flips).sum = fs.sum ∧
    (∀ e ∈ round_events p shift try_ false fs, 0 ≤ first_flips e ∧ 0 ≤ repeat_flips e) := by
  intro fs
  induction fs with
  | nil => intro _; simp [round_events]
  | cons f fs ih =>
    intro h
    obtain ⟨i1, i2, i3⟩ := ih (fun x hx => h x (by simp [hx]))
    have hf := h f (by simp)
    rw [round_events_cons]
    simp only [List.map_append, List.sum_append, i1, i2, List.sum_cons]
    by_cases hc : f ≠ 0 ∨ p.always_refill ≠ 0
    · refine ⟨by simp [round_events, hc, first_flips], by simp [round_events, hc, repeat_flips], ?_⟩
      intro e he
      rcases List.mem_append.1 he with h1 | h1
      · simp only [round_events, if_pos hc, List.append_nil, List.mem_cons, List.mem_singleton,
          List.not_mem_nil, or_false] at h1
        rcases h1 with rfl | rfl
        · simp [first_flips, repeat_flips, hf]
        · simp [first_flips, repeat_flips]
      · exact i3 e h1
    · refine ⟨by simp [round_events, hc, first_flips], by simp [round_events, hc, repeat_flips], ?_⟩
      intro e he
      rcases List.mem_append.1 he with h1 | h1
      · simp only [round_events, if_neg hc, List.append_nil, List.mem_singleton] at h1
        subst h1
        simp [first_flips, repeat_flips, hf]
      · exact i3 e h1

theorem round_events_sums (p : params) (shift try_ : Int) (first : Int) (later : List Int)
    (h0 : 0 ≤ first) (h : ∀ f ∈ later, 0 ≤ f) :
    ((round_events p shift try_ true (first :: later)).map first_flips).sum = first ∧
    ((round_events p shift try_ true (first :: later)).map repeat_flips).sum = later.sum ∧
    (∀ e ∈ round_events p shift try_ true (first :: later),
      0 ≤ first_flips e ∧ 0 ≤ repeat_flips e) := by
  obtain ⟨i1, i2, i3⟩ := round_events_repeats_sums p shift try_ later h
  rw [round_events_cons]
  simp only [List.map_append, List.sum_append, i1, i2]
  by_cases hc : first ≠ 0 ∨ p.always_refill ≠ 0
  · refine ⟨by simp [round_events, hc, first_flips], by simp [round_events, hc, repeat_flips], ?_⟩
    intro e he
    rcases List.mem_append.1 he with h1 | h1
    · simp only [round_events, if_pos hc, List.append_nil, List.mem_cons, List.mem_singleton,
        List.not_mem_nil, or_false] at h1
      rcases h1 with rfl | rfl
      · simp [first_flips, repeat_flips, h0]
      · simp [first_flips, repeat_flips]
    · exact i3 e h1
  · refine ⟨by simp [round_events, hc, first_flips], by simp [round_events, hc, repeat_flips], ?_⟩
    intro e he
    rcases List.mem_append.1 he with h1 | h1
    · simp only [round_events, if_neg hc, List.append_nil, List.mem_singleton] at h1
      subst h1
      simp [first_flips, repeat_flips, h0]
    · exact i3 e h1

theorem run_try_accounted (env : experiment_env) (p : params) (rows : List row)
    (shift try_ : Int) (s s1 : run_state) (hs : accounted s)
    (h : run_try env p rows shift try_ s = some s1) : accounted s1 := by
  obtain ⟨first, later, h0, hl, hlog, _, htf, hfr, _, hrep⟩ :=
    run_try_spec env p rows shift try_ s s1 h
  obtain ⟨i1, i2, i3⟩ := round_events_sums p shift try_ first later h0 hl
  refine accounted_step s s1 _ first later.sum hs hlog i3 i1 i2 htf hfr ?_
  intro hpos
  have : later ≠ [] := by
    intro e; subst e; simp at hpos
  exact (hrep this).2

theorem accounted_of_eq (s s1 : run_state) (h : accounted s) (hlog : s1.log = s.log)
    (htf : s1.total_flips = s.total_flips)
    (hfr : s1.flips_from_repeats = s.flips_from_repeats) : accounted s1 := by
  unfold accounted at h ⊢
  rw [hlog, htf, hfr]
  exact h

theorem tries_loop_accounted (env : experiment_env) (p : params) (rows : List row)
    (shift stride : Int) : ∀ (fuel : Nat) (try_ : Int) (s s1 : run_state), accounted s →
    tries_loop env p rows shift stride fuel try_ s = some s1 → accounted s1 := by
  intro fuel
  induction fuel with
  | zero => intro try_ s s1 _ h; exact absurd h (by simp [tries_loop])
  | succ fuel ih =>
    intro try_ s s1 hs h
    rw [tries_loop] at h
    split at h
    · cases hr : run_try env p rows shift try_ s with
      | none => rw [hr] at h; exact absurd h (by simp)
      | some s2 =>
        rw [hr] at h
        simp only [] at h
        exact ih _ { s2 with total_tries := s2.total_tries + 1 } _
          (accounted_of_eq s2 _ (run_try_accounted env p rows shift try_ s s2 hs hr) rfl rfl rfl) h
    · simp only [Option.some.injEq] at h
      subst h; exact hs

theorem shifts_loop_accounted (env : experiment_env) (p : params) (rows : List row)
    (stride : Int) : ∀ (k : Nat) (mod : Int) (s s1 : run_state), accounted s →
    shifts_loop env p rows stride k mod s = some s1 → accounted s1 := by
  intro k
  induction k with
  | zero =>
    intro mod s s1 hs h
    simp only [shifts_loop, Option.some.injEq] at h
    subst h; exact hs
  | succ k ih =>
    intro mod s s1 hs h
    rw [shifts_loop] at h
    cases hf : fill_rows p s.mem rows mod with
    | none => rw [hf] at h; exact absurd h (by simp)
    | some m1 =>
      rw [hf] at h
      simp only [] at h
      cases ht : tries_loop env p rows mod stride (p.n_tries.toNat + 1) mod
          { s with mem := m1, log := s.log ++ [event.filled_rows mod] } with
      | none => rw [ht] at h; exact absurd h (by simp)
      | some s2 =>
        rw [ht] at h
        have h0 : accounted { s with mem := m1, log := s.log ++ [event.filled_rows mod] } :=
          accounted_step s _ [event.filled_rows mod] 0 0 hs rfl
            (by intro e he; simp at he; subst he; simp [first_flips, repeat_flips])
            (by simp [first_flips]) (by simp [repeat_flips]) (by simp) (by simp) (by simp)
        exact ih _ _ _ (tries_loop_accounted env p rows mod stride _ _ _ _ h0 ht) h

theorem run_hammer_once_accounted (env : experiment_env) (p : params) (base mem len : Nat)
    (s s1 : run_state) (hs : accounted s)
    (h : run_hammer_once env p base mem len s = some s1) : accounted s1 := by
  unfold run_hammer_once at h
  cases hf : find_rows env p s.experiments mem len with
  | none => rw [hf] at h; exact absurd h (by simp)
  | some r =>
    obtain ⟨n, rows⟩ := r
    rw [hf] at h
    simp only [] at h
    have hzero : ∀ (e : event), first_flips e = 0 → repeat_flips e = 0 → ∀ (t : run_state),
        accounted t → ∀ (t1 : run_state), t1.log = t.log ++ [e] →
        t1.total_flips = t.total_flips → t1.flips_from_repeats = t.flips_from_repeats →
        accounted t1 := by
      intro e e1 e2 t ht t1 hl h1 h2
      exact accounted_step t t1 [e] 0 0 ht hl
        (by intro x hx; simp at hx; subst hx; simp [e1, e2])
        (by simp [e1]) (by simp [e2]) (by simp [h1]) (by simp [h2]) (by simp)
    have hs0 : accounted { s with experiments := s.experiments + 1 } :=
      accounted_of_eq s _ hs rfl rfl rfl
    split at h
    · simp only [Option.some.injEq] at h
      subst h
      exact hzero (event.skipped mem) rfl rfl _ hs0 _ rfl rfl rfl
    · -- the rest of memory is filled
      generalize hfl : (if p.check_rest ≠ 0 then
          match fill p s.mem mem (ptr_diff (get_row_range rows).1 mem) with
          | none => none
          | some m1 =>
            match fill p m1 (get_row_range rows).2 (rest_len mem len (get_row_range rows).2) with
            | none => none
            | some m2 =>
              some ({ mem := m2, total_tries := s.total_tries, total_flips := s.total_flips,
                      flips_from_repeats := s.flips_from_repeats,
                      experiments := s.experiments + 1, hammers := s.hammers,
                      log := s.log ++ [event.filled_rest mem] } : run_state)
        else some ({ s with experiments := s.experiments + 1 } : run_state)) = filled at h
      cases filled with
      | none => exact absurd h (by simp)
      | some s2 =>
        simp only [] at h
        have hs2 : accounted s2 := by
          split at hfl
          · split at hfl
            · exact absurd hfl (by simp)
            · split at hfl
              · exact absurd hfl (by simp)
              · simp only [Option.some.injEq] at hfl
                subst hfl
                exact hzero (event.filled_rest mem) rfl rfl _ hs0 _ rfl rfl rfl
          · simp only [Option.some.injEq] at hfl
            subst hfl
            exact hs0
        cases hsh : shifts_loop env p rows (if p.mod_stride ≠ 0 then p.mod else 1)
            (if p.mod_stride ≠ 0 then p.mod else 1).toNat 0 s2 with
        | none => rw [hsh] at h; exact absurd h (by simp)
        | some s3 =>
          rw [hsh] at h
          simp only [] at h
          have hs3 := shifts_loop_accounted env p rows _ _ _ _ _ hs2 hsh
          split at h
          · split at h
            · exact absurd h (by simp)
            · rename_i d1 m1 _
              split at h
              · exact absurd h (by simp)
              · rename_i d2 m2 _
                simp only [Option.some.injEq] at h
                subst h
                refine accounted_step s3 _ [event.checked_rest d1, event.checked_rest d2]
                  ((d1 : Int) + d2) 0 hs3 rfl ?_ ?_ ?_ ?_ ?_ ?_
                · intro x hx
                  simp at hx
                  rcases hx with rfl | rfl <;> simp [first_flips, repeat_flips]
                · simp [first_flips]
                · simp [repeat_flips]
                · show s3.total_flips + d1 + d2 = s3.total_flips + ((d1 : Int) + d2)
                  ring
                · simp
                · intro hc; exact absurd hc (by simp)
          · simp only [Option.some.injEq] at h
            subst h
            exact hs3

theorem run_hammer_loop_preserves {σ : Type} (I : σ → Prop)
    (body : Nat → σ → Option σ) (hbody : ∀ mem s s1, I s → body mem s = some s1 → I s1)
    (l : addr_loop) (max_addr : Nat) : ∀ (fuel mem : Nat) (count : Int) (s s1 : σ), I s →
    run_hammer_loop body l max_addr fuel mem count s = some s1 → I s1 := by
  intro fuel
  induction fuel with
  | zero => intro mem count s s1 _ h; exact absurd h (by simp [run_hammer_loop])
  | succ fuel ih =>
    intro mem count s s1 hs h
    rw [run_hammer_loop] at h
    split at h
    · cases hb : body mem s with
      | none => rw [hb] at h; exact absurd h (by simp)
      | some s2 =>
        rw [hb] at h
        exact ih _ _ _ _ (hbody mem s s2 hs hb) h
    · simp only [Option.some.injEq] at h
      subst h; exact hs

theorem run_hammer_levels_preserves {σ : Type} (I : σ → Prop)
    (once : Nat → Nat → σ → Option σ)
    (honce : ∀ mem len s s1, I s → once mem len s = some s1 → I s1)
    (p : params) (base max_addr fuel : Nat) : ∀ (n mem depth : Nat) (s s1 : σ), I s →
    run_hammer_levels once p base max_addr fuel n mem depth s = some s1 → I s1 := by
  intro n
  induction n with
  | zero => intro mem depth s s1 _ h; exact absurd h (by simp [run_hammer_levels])
  | succ n ih =>
    intro mem depth s s1 hs h
    rw [run_hammer_levels] at h
    split at h
    · exact honce _ _ _ _ hs h
    · exact run_hammer_loop_preserves I _ (fun m t t1 ht hb => ih m (depth + 1) t t1 ht hb)
        _ max_addr fuel mem 0 s s1 hs h

theorem initial_state_accounted (m : Mem) : accounted (initial_state m) := by
  unfold accounted initial_state
  simp

theorem event_flips_split (e : event) : event_flips e = first_flips e + repeat_flips e := by
  cases e with
  | attempt sh t b f => cases b <;> simp [event_flips, first_flips, repeat_flips]
  | _ => simp [event_flips, first_flips, repeat_flips]

/-! ## The claim C23 -/

/-- C23: when a run does not abort, the exit code of `main` is 1 if some check of the run
(a first attempt of a try, a repeat attempt, or a check of the rest of memory) reported
at least one mismatching word, and 0 if none did; and `flips_from_repeats > 0` implies
`total_flips > 0`. -/
theorem exit_code_reports_flips (env : experiment_env) (p : params) (mem : Nat) (m : Mem)
    (fuel : Nat) (code : Int) (s : run_state)
    (h : main env p mem m fuel = some (code, s)) :
    (code = 1 ↔ ∃ e ∈ s.log, 0 < event_flips e) ∧
    (code = 0 ↔ ∀ e ∈ s.log, event_flips e = 0) ∧
    (0 < s.flips_from_repeats → 0 < s.total_flips) := by
  unfold main at h
  cases hr : run_hammer (run_hammer_once env p mem) p mem (mem + p.src_offset) (mem + p.size) 0
      fuel (initial_state m) with
  | none => rw [hr] at h; exact absurd h (by simp)
  | some s2 =>
    rw [hr] at h
    simp only [Option.some.injEq, Prod.mk.injEq] at h
    obtain ⟨hcode, hs⟩ := h
    subst hs
    have hacc : accounted s2 :=
      run_hammer_levels_preserves accounted (run_hammer_once env p mem)
        (fun a b t t1 ht hb => run_hammer_once_accounted env p mem a b t t1 ht hb)
        p mem (mem + p.size) fuel _ _ _ _ _ (initial_state_accounted m) hr
    obtain ⟨h1, h2, h3, h4⟩ := hacc
    have hpos1 := event_sum_pos_iff first_flips s2.log (fun e he => (h1 e he).1)
    have hpos2 := event_sum_pos_iff repeat_flips s2.log (fun e he => (h1 e he).2)
    rw [← h2] at hpos1
    rw [← h3] at hpos2
    have hany : 0 < s2.total_flips ↔ ∃ e ∈ s2.log, 0 < event_flips e := by
      constructor
      · intro hp
        obtain ⟨e, he, hf⟩ := hpos1.1 hp
        refine ⟨e, he, ?_⟩
        rw [event_flips_split]
        have := (h1 e he).2
        omega
      · rintro ⟨e, he, hf⟩
        rw [event_flips_split] at hf
        by_cases hfe : 0 < first_flips e
        · exact hpos1.2 ⟨e, he, hfe⟩
        · have hre : 0 < repeat_flips e := by
            have := (h1 e he).1
            omega
          exact h4 (hpos2.2 ⟨e, he, hre⟩)
    refine ⟨?_, ?_, h4⟩
    · rw [← hany, ← hcode]
      split <;> simp_all
    · constructor
      · intro hc e he
        have hn : ¬ 0 < s2.total_flips := by
          intro hp
          rw [if_pos hp] at hcode
          omega
        have hne : ¬ 0 < event_flips e := fun hf => hn (hany.2 ⟨e, he, hf⟩)
        have : 0 ≤ event_flips e := by
          rw [event_flips_split]
          have a := (h1 e he).1
          have b := (h1 e he).2
          omega
        omega
      · intro hall
        have hn : ¬ 0 < s2.total_flips := by
          intro hp
          obtain ⟨e, he, hf⟩ := hany.1 hp
          have := hall e he
          omega
        rw [if_neg hn] at hcode
        exact hcode.symm

theorem exit_code_reports_flips_witness :
    main short_first_env repeat_cfg 0 zero_mem 5
      = some (repeat_run_result.1, repeat_run_result.2) ∧
    (repeat_run_result.1, repeat_run_result.2.total_flips,
        repeat_run_result.2.flips_from_repeats) = (1, 2, 4) ∧
    (main quiet_env repeat_cfg 0 zero_mem 5).map
        (fun x => (x.1, x.2.total_flips, x.2.flips_from_repeats)) = some (0, 0, 0) ∧
    (repeat_run_result.1 = 1 ↔ ∃ e ∈ repeat_run_result.2.log, 0 < event_flips e) ∧
    (repeat_run_result.1 = 0 ↔ ∀ e ∈ repeat_run_result.2.log, event_flips e = 0) ∧
    (0 < repeat_run_result.2.flips_from_repeats → 0 < repeat_run_result.2.total_flips) :=
  ⟨by rfl, by decide, by decide,
    exit_code_reports_flips short_first_env repeat_cfg 0 zero_mem 5 repeat_run_result.1
      repeat_run_result.2 (by rfl)⟩

/-! ## Lemmas on the schedule of an experiment -/

theorem schedule_append (l1 l2 : List event) :
    schedule (l1 ++ l2) = schedule l1 ++ schedule l2 := by
  unfold schedule
  rw [List.filterMap_append]

theorem schedule_repeats (p : params) (shift try_ : Int) : ∀ (fs : List Int),
    schedule (round_events p shift try_ false fs) = [] := by
  intro fs
  induction fs with
  | nil => rfl
  | cons f fs ih =>
    rw [round_events_cons, schedule_append, ih]
    by_cases hc : f ≠ 0 ∨ p.always_refill ≠ 0
    · simp [round_events, schedule, schedule_entry, hc]
    · simp [round_events, schedule, schedule_entry, hc]

theorem schedule_rounds (p : params) (shift try_ : Int) (first : Int) (later : List Int) :
    schedule (round_events p shift try_ true (first :: later)) = [(shift, some try_)] := by
  rw [round_events_cons, schedule_append, schedule_repeats]
  by_cases hc : first ≠ 0 ∨ p.always_refill ≠ 0
  · simp [round_events, schedule, schedule_entry, hc]
  · simp [round_events, schedule, schedule_entry, hc]

theorem tries_loop_schedule (env : experiment_env) (p : params) (rows : List row)
    (shift stride : Int) : ∀ (fuel : Nat) (try_ : Int) (s s1 : run_state),
    tries_loop env p rows shift stride fuel try_ s = some s1 →
    schedule s1.log = schedule s.log ++
      (tries_from p.n_tries stride fuel try_).map (fun t => (shift, some t)) ∧
    s1.total_tries = s.total_tries + (tries_from p.n_tries stride fuel try_).length ∧
    s1.experiments = s.experiments := by
  intro fuel
  induction fuel with
  | zero => intro try_ s s1 h; exact absurd h (by simp [tries_loop])
  | succ fuel ih =>
    intro try_ s s1 h
    rw [tries_loop] at h
    rw [tries_from]
    by_cases hc : try_ < p.n_tries
    · rw [if_pos hc] at h ⊢
      cases hr : run_try env p rows shift try_ s with
      | none => rw [hr] at h; exact absurd h (by simp)
      | some s2 =>
        rw [hr] at h
        simp only [] at h
        obtain ⟨first, later, _, _, hlog, htr, _, _, hex, _⟩ :=
          run_try_spec env p rows shift try_ s s2 hr
        obtain ⟨i1, i2, i3⟩ := ih _ { s2 with total_tries := s2.total_tries + 1 } _ h
        refine ⟨?_, ?_, ?_⟩
        · rw [i1]
          show schedule s2.log ++ _ = _
          rw [hlog, schedule_append, schedule_rounds]
          simp
        · rw [i2]
          show s2.total_tries + 1 + _ = _
          rw [htr, List.length_cons]
          push_cast
          ring
        · rw [i3]; exact hex
    · rw [if_neg hc] at h ⊢
      simp only [Option.some.injEq] at h
      subst h
      simp

theorem shifts_loop_schedule (env : experiment_env) (p : params) (rows : List row)
    (stride : Int) : ∀ (k : Nat) (mod : Int) (s s1 : run_state),
    shifts_loop env p rows stride k mod s = some s1 →
    schedule s1.log = schedule s.log ++
      (List.range k).flatMap (fun (i : Nat) =>
        (mod + i, none) ::
          (tries_from p.n_tries stride (p.n_tries.toNat + 1) (mod + i)).map
            (fun t => (mod + (i : Int), some t))) ∧
    s1.total_tries = s.total_tries +
      ((List.range k).map (fun (i : Nat) =>
        ((tries_from p.n_tries stride (p.n_tries.toNat + 1) (mod + i)).length : Int))).sum ∧
    s1.experiments = s.experiments := by
  intro k
  induction k with
  | zero =>
    intro mod s s1 h
    simp only [shifts_loop, Option.some.injEq] at h
    subst h
    simp
  | succ k ih =>
    intro mod s s1 h
    rw [shifts_loop] at h
    cases hf : fill_rows p s.mem rows mod with
    | none => rw [hf] at h; exact absurd h (by simp)
    | some m1 =>
      rw [hf] at h
      simp only [] at h
      cases ht : tries_loop env p rows mod stride (p.n_tries.toNat + 1) mod
          { s with mem := m1, log := s.log ++ [event.filled_rows mod] } with
      | none => rw [ht] at h; exact absurd h (by simp)
      | some s2 =>
        rw [ht] at h
        obtain ⟨j1, j2, j3⟩ := tries_loop_schedule env p rows mod stride _ _ _ _ ht
        obtain ⟨i1, i2, i3⟩ := ih _ _ _ h
        have e1 : ∀ (i : Nat), mod + 1 + (i : Int) = mod + ((i + 1 : Nat) : Int) := by
          intro i; push_cast; ring
        refine ⟨?_, ?_, ?_⟩
        · rw [i1, j1]
          show schedule (s.log ++ [event.filled_rows mod]) ++ _ ++ _ = _
          rw [schedule_append, List.range_succ_eq_map, List.flatMap_cons, List.flatMap_map]
          simp only [e1, Function.comp, Nat.succ_eq_add_one]
          simp [schedule, schedule_entry]
        · rw [i2, j2]
          show s.total_tries + _ + _ = _
          rw [List.range_succ_eq_map, List.map_cons, List.sum_cons, List.map_map]
          simp only [e1, Nat.cast_zero, add_zero]
          rw [add_assoc]
          rfl
        · rw [i3, j3]

theorem tries_from_progression (n stride : Int) (hst : 1 ≤ stride) : ∀ (fuel : Nat) (t : Int),
    n - t ≤ fuel →
    ∃ cnt : Nat, tries_from n stride fuel t = (List.range cnt).map (fun (k : Nat) => t + k * stride) ∧
      (∀ k : Nat, k < cnt → t + k * stride < n) ∧ n ≤ t + cnt * stride := by
  intro fuel
  induction fuel with
  | zero =>
    intro t h
    exact ⟨0, by simp [tries_from], by intro k hk; omega, by simp at h ⊢; omega⟩
  | succ fuel ih =>
    intro t h
    rw [tries_from]
    by_cases hc : t < n
    · rw [if_pos hc]
      obtain ⟨cnt, h1, h2, h3⟩ := ih (t + stride) (by push_cast at h; omega)
      refine ⟨cnt + 1, ?_, ?_, ?_⟩
      · rw [h1, List.range_succ_eq_map, List.map_cons, List.map_map]
        simp only [Nat.cast_zero, zero_mul, add_zero, List.cons.injEq, true_and]
        refine List.map_congr_left ?_
        intro k _
        simp only [Function.comp, Nat.succ_eq_add_one]
        push_cast
        ring
      · intro k hk
        cases k with
        | zero => simpa using hc
        | succ k =>
          have := h2 k (by omega)
          push_cast
          have e : t + (↑k + 1) * stride = t + stride + ↑k * stride := by ring
          rw [e]; exact this
      · push_cast
        have e : t + (↑cnt + 1) * stride = t + stride + ↑cnt * stride := by ring
        rw [e]; exact h3
    · rw [if_neg hc]
      exact ⟨0, by simp, by intro k hk; omega, by simp; omega⟩

theorem run_hammer_once_schedule (env : experiment_env) (p : params) (base mem len : Nat)
    (s s1 : run_state) (rows : List row)
    (hfind : find_rows env p s.experiments mem len = some (p.n_rows, rows))
    (h : run_hammer_once env p base mem len s = some s1) :
    schedule s1.log = schedule s.log ++
      (List.range (if p.mod_stride ≠ 0 then p.mod else 1).toNat).flatMap (fun (i : Nat) =>
        ((i : Int), none) ::
          (tries_from p.n_tries (if p.mod_stride ≠ 0 then p.mod else 1) (p.n_tries.toNat + 1)
            (i : Int)).map (fun t => ((i : Int), some t))) := by
  unfold run_hammer_once at h
  rw [hfind] at h
  simp only [ne_eq, not_true_eq_false, if_false] at h
  by_cases hc : p.check_rest ≠ 0
  · simp only [if_pos hc] at h
    cases hf1 : fill p s.mem mem (ptr_diff (get_row_range rows).1 mem) with
    | none => rw [hf1] at h; exact absurd h (by simp)
    | some m1 =>
      rw [hf1] at h
      simp only [] at h
      cases hf2 : fill p m1 (get_row_range rows).2 (rest_len mem len (get_row_range rows).2) with
      | none => rw [hf2] at h; exact absurd h (by simp)
      | some m2 =>
        rw [hf2] at h
        simp only [] at h
        cases hs : shifts_loop env p rows (if p.mod_stride ≠ 0 then p.mod else 1)
            (if p.mod_stride ≠ 0 then p.mod else 1).toNat 0
            { s with experiments := s.experiments + 1, mem := m2,
                     log := s.log ++ [event.filled_rest mem] } with
        | none => rw [hs] at h; exact absurd h (by simp)
        | some s2 =>
          rw [hs] at h
          simp only [] at h
          obtain ⟨i1, _, _⟩ := shifts_loop_schedule env p rows _ _ _ _ _ hs
          cases hc1 : check p s2.mem mem (ptr_diff (get_row_range rows).1 mem) with
          | none => rw [hc1] at h; exact absurd h (by simp)
          | some r1 =>
            obtain ⟨d1, m3⟩ := r1
            rw [hc1] at h
            simp only [] at h
            cases hc2 : check p m3 (get_row_range rows).2
                (rest_len mem len (get_row_range rows).2) with
            | none => rw [hc2] at h; exact absurd h (by simp)
            | some r2 =>
              obtain ⟨d2, m4⟩ := r2
              rw [hc2] at h
              simp only [Option.some.injEq] at h
              subst h
              show schedule (s2.log ++ _) = _
              rw [schedule_append, i1]
              show schedule (s.log ++ _) ++ _ ++ _ = _
              rw [schedule_append]
              simp [schedule, schedule_entry]
  · simp only [if_neg hc] at h
    cases hs : shifts_loop env p rows (if p.mod_stride ≠ 0 then p.mod else 1)
        (if p.mod_stride ≠ 0 then p.mod else 1).toNat 0
        { s with experiments := s.experiments + 1 } with
    | none => rw [hs] at h; exact absurd h (by simp)
    | some s2 =>
      rw [hs] at h
      simp only [Option.some.injEq] at h
      subst h
      obtain ⟨i1, _, _⟩ := shifts_loop_schedule env p rows _ _ _ _ _ hs
      rw [i1]
      simp

/-- C28, as stated, fails: with `mod_stride=1` (on), `mod=3` and `n_tries=3` the rows are
filled for the shifts 0, 1 and 2 and one try runs under each (0, 1 and 2), while the
description read with `mod_stride` as the number of shifts and the step gives the shift
0 only, with the tries 0, 1 and 2 under it. -/
theorem mod_stride_flag_counterexample :
    shift_cfg.mod_stride = 1 ∧ shift_cfg.mod = 3 ∧ shift_cfg.n_tries = 3 ∧
    (run_hammer_once quiet_env shift_cfg 0 0 8192 (initial_state zero_mem)).map
        (fun s => schedule s.log)
      = some [(0, none), (0, some 0), (1, none), (1, some 1), (2, none), (2, some 2)] ∧
    described_schedule shift_cfg = [(0, none), (0, some 0), (0, some 1), (0, some 2)] := by
  refine ⟨rfl, rfl, rfl, ?_, ?_⟩
  · decide
  · decide

/-- C28, amended: `mod_stride` is a flag, and the number of fill-shifts and the step of
the tries is `stride`, which is `mod` when `mod_stride` is on and 1 when it is off.  In
one experiment that finds its rows, the rows are filled once for each shift `sh` of
`[0, stride)`, in order, and the tries run under `sh` are exactly
`sh, sh + stride, sh + 2*stride, ...` below `n_tries`. -/
theorem experiment_schedule (env : experiment_env) (p : params) (base mem len : Nat)
    (s s1 : run_state) (rows : List row)
    (hfind : find_rows env p s.experiments mem len = some (p.n_rows, rows))
    (h : run_hammer_once env p base mem len s = some s1) :
    ∃ cnt : Nat → Nat,
      schedule s1.log = schedule s.log ++
        (List.range (if p.mod_stride ≠ 0 then p.mod else 1).toNat).flatMap (fun (sh : Nat) =>
          ((sh : Int), none) ::
            (List.range (cnt sh)).map (fun (k : Nat) =>
              ((sh : Int), some ((sh : Int) + k * (if p.mod_stride ≠ 0 then p.mod else 1))))) ∧
      ∀ sh : Nat, sh < (if p.mod_stride ≠ 0 then p.mod else 1).toNat →
        (∀ k : Nat, k < cnt sh →
          (sh : Int) + k * (if p.mod_stride ≠ 0 then p.mod else 1) < p.n_tries) ∧
        p.n_tries ≤ (sh : Int) + cnt sh * (if p.mod_stride ≠ 0 then p.mod else 1) := by
  have hs := run_hammer_once_schedule env p base mem len s s1 rows hfind h
  generalize (if p.mod_stride ≠ 0 then p.mod else 1) = stride at hs ⊢
  have hprog : ∀ sh : Nat, sh < stride.toNat →
      ∃ cnt : Nat, tries_from p.n_tries stride (p.n_tries.toNat + 1) (sh : Int)
          = (List.range cnt).map (fun (k : Nat) => (sh : Int) + k * stride) ∧
        (∀ k : Nat, k < cnt → (sh : Int) + k * stride < p.n_tries) ∧
        p.n_tries ≤ (sh : Int) + cnt * stride := by
    intro sh hsh
    have h1 : 1 ≤ stride := by omega
    exact tries_from_progression p.n_tries stride h1 _ _ (by push_cast; omega)
  refine ⟨fun sh => if hsh : sh < stride.toNat then (hprog sh hsh).choose else 0, ?_, ?_⟩
  · rw [hs]
    congr 1
    refine List.flatMap_congr ?_
    intro sh hmem
    have hsh : sh < stride.toNat := List.mem_range.mp hmem
    simp only [dif_pos hsh]
    have e := (hprog sh hsh).choose_spec.1
    conv_lhs => rw [e, List.map_map]
    rfl
  · intro sh hsh
    simp only [dif_pos hsh]
    exact (hprog sh hsh).choose_spec.2

theorem experiment_schedule_witness :
    (find_rows flipping_env shift_cfg (initial_state zero_mem).experiments 0 8192
        = some (shift_cfg.n_rows, two_word_rows) ∧
      run_hammer_once flipping_env shift_cfg 0 0 8192 (initial_state zero_mem)
        = some shift_run_result) ∧
    ∃ cnt : Nat → Nat,
      schedule shift_run_result.log = schedule (initial_state zero_mem).log ++
        (List.range (if shift_cfg.mod_stride ≠ 0 then shift_cfg.mod else 1).toNat).flatMap
          (fun (sh : Nat) =>
          ((sh : Int), none) ::
            (List.range (cnt sh)).map (fun (k : Nat) =>
              ((sh : Int),
                some ((sh : Int) + k * (if shift_cfg.mod_stride ≠ 0 then shift_cfg.mod else 1))))) ∧
      ∀ sh : Nat, sh < (if shift_cfg.mod_stride ≠ 0 then shift_cfg.mod else 1).toNat →
        (∀ k : Nat, k < cnt sh →
          (sh : Int) + k * (if shift_cfg.mod_stride ≠ 0 then shift_cfg.mod else 1)
            < shift_cfg.n_tries) ∧
        shift_cfg.n_tries
          ≤ (sh : Int) + cnt sh * (if shift_cfg.mod_stride ≠ 0 then shift_cfg.mod else 1) :=
  ⟨⟨by rfl, by rfl⟩,
    experiment_schedule flipping_env shift_cfg 0 0 8192 (initial_state zero_mem)
      shift_run_result two_word_rows (by rfl) (by rfl)⟩

/-! ## Lemmas on the termination of row discovery -/

theorem find_rows_loop_bound (p : params) (timing : timing_oracle) (mem : Nat) (step : Int)
    (len : Nat) (rows_len : Int) (ffuel : Nat) (fuel : Nat) :
    ∀ (off : Nat) (st st1 : find_state), 0 ≤ st.nr_rows → st.nr_rows < rows_len →
      find_rows_loop p timing mem step len rows_len ffuel fuel off st = some st1 →
      0 ≤ st1.nr_rows ∧ st1.nr_rows ≤ rows_len := by
  induction fuel with
  | zero => intro off st st1 _ _ h; exact absurd h (by simp [find_rows_loop])
  | succ fuel ih =>
    intro off st st1 h0 h1 h
    rw [find_rows_loop] at h
    by_cases hlt : off < len
    · rw [if_pos hlt] at h
      cases hf : fuzz_scan p timing mem ffuel 0 (mem + off) st.calls with
      | none => rw [hf] at h; exact absurd h (by simp)
      | some r =>
        obtain ⟨conflict, target, calls⟩ := r
        rw [hf] at h
        simp only [] at h
        by_cases hc : conflict = false
        · rw [if_pos hc] at h
          exact ih _ { st with calls := calls } _ h0 h1 h
        · rw [if_neg hc] at h
          by_cases he : (accept_row st target calls).nr_rows = rows_len
          · rw [if_pos he] at h
            simp only [Option.some.injEq] at h
            subst h
            rw [accept_row_nr] at he ⊢
            omega
          · rw [if_neg he] at h
            rw [accept_row_nr] at he
            exact ih _ _ _ (by rw [accept_row_nr]; omega) (by rw [accept_row_nr]; omega) h
    · rw [if_neg hlt] at h
      simp only [Option.some.injEq] at h
      subst h
      omega

theorem find_rows_in_same_bank_returns (p : params) (timing : timing_oracle)
    (qs : List row → List row) (mem : Nat) (step : Int) (len : Nat) (rows0 : Int → row)
    (rows_len : Int) (fuel : Nat) (hrows : 1 ≤ rows_len)
    (hsort : p.sort_rows = 0 ∨ p.pagemap ≠ 0) (hw : walk_no_wrap p step len)
    (hfs : 0 < p.fuzz_step) (hfuel : len + p.max_fuzz + 2 ≤ fuel) :
    ∃ st, find_rows_in_same_bank p timing qs mem step len rows0 rows_len fuel = some st ∧
      0 ≤ st.nr_rows ∧ st.nr_rows ≤ rows_len := by
  obtain ⟨st0, h0⟩ := find_rows_loop_returns p timing mem step len rows_len fuel hw hfs
    (by omega) fuel p.offset0 { rows := rows0, nr_rows := 0, calls := 0 } (by omega) (by omega)
  have hb := find_rows_loop_bound p timing mem step len rows_len fuel fuel p.offset0 _ st0
    (le_refl _) (by show (0 : Int) < rows_len; omega) h0
  unfold find_rows_in_same_bank
  rw [h0]
  simp only []
  by_cases hs : p.sort_rows ≠ 0
  · rw [if_pos hs]
    have hp : ¬ p.pagemap = 0 := by
      rcases hsort with h | h
      · exact absurd h hs
      · exact h
    rw [if_neg hp]
    exact ⟨_, rfl, hb⟩
  · rw [if_neg hs]
    exact ⟨_, rfl, hb⟩

theorem bank_find_loop_returns (p : params) (timing : timing_oracle) (mem len : Nat)
    (hau : 0 < p.atomic_unit) (hw : alt_no_wrap p len) (fuel : Nat) :
    ∀ (off : Nat) (st : bank_state), 1 ≤ fuel → len + 1 ≤ off + fuel →
      ∃ st1, bank_find_loop p timing mem len fuel off st = some st1 := by
  obtain ⟨hb0, hb1⟩ := hw
  induction fuel with
  | zero =>
    intro off st h
    omega
  | succ fuel ih =>
    intro off st _ hb
    rw [bank_find_loop]
    by_cases hc : off < len ∧ st.found_banks < p.nr_banks
    · rw [if_pos hc]
      have e1 : (((off : Int) + p.atomic_unit) % 2 ^ 64).toNat = off + p.atomic_unit.toNat := by
        rw [Int.emod_eq_of_lt (by omega) (by omega)]
        omega
      have e2 : (((off : Int) + p.bank_find_step) % 2 ^ 64).toNat
          = off + p.bank_find_step.toNat := by
        rw [Int.emod_eq_of_lt (by omega) (by omega)]
        omega
      have e3 : ((((off + p.bank_find_step.toNat : Nat) : Int) + p.atomic_unit) % 2 ^ 64).toNat
          = off + p.bank_find_step.toNat + p.atomic_unit.toNat := by
        rw [Int.emod_eq_of_lt (by omega) (by push_cast; omega)]
        omega
      simp only []
      by_cases hph : st.phase = 0
      · rw [if_pos hph, e1]
        exact ih _ _ (by omega) (by omega)
      · rw [if_neg hph]
        by_cases hi : (bank_probe p timing st.bank (mem + off) st.found_banks
            st.found_banks.toNat 0 st.calls).1 = st.found_banks
        · rw [if_pos hi, e2, e3]
          exact ih _ _ (by omega) (by omega)
        · rw [if_neg hi, e1]
          exact ih _ _ (by omega) (by omega)
    · rw [if_neg hc]
      exact ⟨_, rfl⟩

theorem alt_rows_loop_returns (p : params) (timing : timing_oracle) (bank : Int → Nat)
    (mem len : Nat) (rows_len : Int) (hau : 0 < p.atomic_unit)
    (hw : (len : Int) + p.atomic_unit ≤ 2 ^ 64) (fuel : Nat) :
    ∀ (off : Nat) (st : alt_state), 1 ≤ fuel → len + 1 ≤ off + fuel →
      0 ≤ st.found.nr_rows → st.found.nr_rows < rows_len →
      ∃ st1, alt_rows_loop p timing bank mem len rows_len fuel off st = some st1 ∧
        0 ≤ st1.found.nr_rows ∧ st1.found.nr_rows ≤ rows_len := by
  induction fuel with
  | zero =>
    intro off st h
    omega
  | succ fuel ih =>
    intro off st _ hb h0 h1
    rw [alt_rows_loop]
    by_cases hc : off < len
    · rw [if_pos hc]
      have e1 : (((off : Int) + p.atomic_unit) % 2 ^ 64).toNat = off + p.atomic_unit.toNat := by
        rw [Int.emod_eq_of_lt (by omega) (by omega)]
        omega
      simp only []
      rw [e1]
      by_cases hcf : is_conflict p (timing st.found.calls st.addr0 (mem + off)) = false
      · rw [if_pos hcf]
        exact ih _ _ (by omega) (by omega) h0 h1
      · rw [if_neg hcf]
        by_cases hn : st.nr_atomic_units + 1 = p.row_size
        · rw [if_pos hn]
          by_cases he : (accept_row st.found
              (if st.nr_atomic_units = 0 then mem + off else st.row_start)
              (st.found.calls + 1)).nr_rows = rows_len
          · rw [if_pos he]
            refine ⟨_, rfl, ?_, ?_⟩
            · show 0 ≤ (accept_row _ _ _).nr_rows
              rw [accept_row_nr]; omega
            · show (accept_row _ _ _).nr_rows ≤ rows_len
              rw [he]
          · rw [if_neg he]
            rw [accept_row_nr] at he
            exact ih _ _ (by omega) (by omega)
              (by show 0 ≤ (accept_row _ _ _).nr_rows; rw [accept_row_nr]; omega)
              (by show (accept_row _ _ _).nr_rows < rows_len; rw [accept_row_nr]; omega)
        · rw [if_neg hn]
          exact ih _ _ (by omega) (by omega) h0 h1
    · rw [if_neg hc]
      exact ⟨_, rfl, h0, le_of_lt h1⟩

theorem find_rows_alt_returns (p : params) (timing : timing_oracle) (mem len : Nat)
    (rows0 : Int → row) (bank0 : Int → Nat) (rows_len : Int) (fuel : Nat)
    (hrows : 1 ≤ rows_len) (hau : 0 < p.atomic_unit) (hw : alt_no_wrap p len)
    (hfuel : len + 1 ≤ fuel) :
    ∃ st, find_rows_alt p timing mem len rows0 bank0 rows_len fuel = some st ∧
      0 ≤ st.nr_rows ∧ st.nr_rows ≤ rows_len := by
  obtain ⟨b, hb⟩ := bank_find_loop_returns p timing mem len hau hw fuel
    (p.bank_find_step % 2 ^ 64).toNat
    { bank := set_bank bank0 0 mem, found_banks := 1, phase := 0, calls := 0 } (by omega)
    (by omega)
  obtain ⟨st1, h1, h2, h3⟩ := alt_rows_loop_returns p timing b.bank mem len rows_len hau
    (by have := hw.1; have := hw.2; omega) fuel p.offset0
    { found := { rows := rows0, nr_rows := 0, calls := b.calls }
      nr_atomic_units := 0
      row_start := 0
      cur_bank := 0
      set_row := 0
      addr0 := b.bank 0 } (by omega) (by omega) (le_refl _)
    (by show (0 : Int) < rows_len; omega)
  unfold find_rows_alt
  rw [hb]
  simp only []
  rw [h1]
  simp only []
  by_cases hp : st1.found.nr_rows > 0
  · rw [if_pos hp]
    exact ⟨_, rfl, h2, h3⟩
  · rw [if_neg hp]
    exact ⟨_, rfl, h2, h3⟩

theorem fuzz_scan_endless (anchor : Nat) (fuel : Nat) :
    ∀ (fuzz target calls : Nat), fuzz < 2 ^ 64 →
      fuzz_scan endless_fuzz_cfg (conflict_at []) anchor fuel fuzz target calls = none := by
  induction fuel with
  | zero => intro fuzz target calls _; rfl
  | succ fuel ih =>
    intro fuzz target calls h
    rw [fuzz_scan]
    have h1 : fuzz ≤ endless_fuzz_cfg.max_fuzz := by
      show fuzz ≤ 2 ^ 64 - 1
      omega
    have h2 : is_conflict endless_fuzz_cfg (conflict_at [] calls anchor target) = false := by
      show is_conflict endless_fuzz_cfg 1000 = false
      decide
    rw [if_pos h1, h2]
    simp only [Bool.false_eq_true, if_false]
    exact ih _ _ _ (Nat.mod_lt _ (by norm_num))

theorem fuzz_scan_quiet (p : params) (anchor : Nat) (hq : is_conflict p 1000 = false)
    (fuel : Nat) : ∀ (fuzz target calls : Nat) (r : Bool × Nat × Nat),
      fuzz_scan p (conflict_at []) anchor fuel fuzz target calls = some r → r.1 = false := by
  induction fuel with
  | zero => intro fuzz target calls r h; exact absurd h (by simp [fuzz_scan])
  | succ fuel ih =>
    intro fuzz target calls r h
    rw [fuzz_scan] at h
    have h2 : is_conflict p (conflict_at [] calls anchor target) = false := hq
    by_cases h1 : fuzz ≤ p.max_fuzz
    · rw [if_pos h1, h2] at h
      simp only [Bool.false_eq_true, if_false] at h
      exact ih _ _ _ _ h
    · rw [if_neg h1] at h
      simp only [Option.some.injEq] at h
      rw [← h]

theorem find_rows_loop_wraps (mem : Nat) (rows_len : Int) (ffuel : Nat) (fuel : Nat) :
    ∀ (off : Nat) (st : find_state), off % 2 = 0 → off < 2 ^ 64 →
      find_rows_loop wrap_walk_cfg (conflict_at []) mem 2 (2 ^ 64 - 1) rows_len ffuel fuel off st
        = none := by
  induction fuel with
  | zero => intro off st _ _; rfl
  | succ fuel ih =>
    intro off st h2 hlt
    rw [find_rows_loop]
    have hc : off < 2 ^ 64 - 1 := by omega
    rw [if_pos hc]
    cases hf : fuzz_scan wrap_walk_cfg (conflict_at []) mem ffuel 0 (mem + off) st.calls with
    | none => rfl
    | some r =>
      obtain ⟨conflict, target, calls⟩ := r
      have hq := fuzz_scan_quiet wrap_walk_cfg mem (by decide) ffuel _ _ _ _ hf
      simp only [] at hq
      subst hq
      simp only [if_true]
      exact ih _ _ (by omega) (by omega)

theorem alt_rows_loop_wraps (bank : Int → Nat) (mem : Nat) (rows_len : Int) (fuel : Nat) :
    ∀ (off : Nat) (st : alt_state), off % 2 = 0 → off < 2 ^ 64 →
      alt_rows_loop wrap_alt_cfg (conflict_at []) bank mem (2 ^ 64 - 1) rows_len fuel off st
        = none := by
  induction fuel with
  | zero => intro off st _ _; rfl
  | succ fuel ih =>
    intro off st h2 hlt
    rw [alt_rows_loop]
    have hc : off < 2 ^ 64 - 1 := by omega
    rw [if_pos hc]
    have hq : is_conflict wrap_alt_cfg (conflict_at [] st.found.calls st.addr0 (mem + off))
        = false := by
      show is_conflict wrap_alt_cfg 1000 = false
      decide
    simp only []
    rw [if_pos hq]
    exact ih _ _ (by show (((off : Int) + 2) % 2 ^ 64).toNat % 2 = 0; omega)
      (by show (((off : Int) + 2) % 2 ^ 64).toNat < 2 ^ 64; omega)

/-! ## The claims C31 and C34 -/

/-- C31, the code at the failing inputs.  The entries around the array `rows` hold
`len = 98` at index -2 and `len = 99` at index -1.  When the same-bank walk finds no row,
its final copy `rows[nr_rows - 1].len = rows[nr_rows - 2].len` stores the 98 of
`rows[-2]` in `rows[-1]`; when it finds one row, `rows[0].len` is the 99 read from
`rows[-1]`.  `find_rows_alt` guards the copy with `nr_rows > 0`: with no row nothing is
stored, with one row `rows[0].len` is again the 99 read from `rows[-1]`. -/
theorem final_copy_outside_rows :
    (numbered_rows (-2)).len = 98 ∧ (numbered_rows (-1)).len = 99 ∧
    (find_rows_in_same_bank plain_walk_cfg (conflict_at []) id walk_mem
        plain_walk_cfg.find_step plain_walk_cfg.size numbered_rows plain_walk_cfg.n_rows 20).map
        (fun st => (st.nr_rows, (st.rows (-1)).len))
      = some (0, 98) ∧
    (find_rows_in_same_bank plain_walk_cfg (conflict_at [walk_mem + 4096]) id walk_mem
        plain_walk_cfg.find_step plain_walk_cfg.size numbered_rows plain_walk_cfg.n_rows 20).map
        (fun st => (st.nr_rows, (st.rows 0).start, (st.rows 0).len))
      = some (1, walk_mem + 4096, 99) ∧
    (find_rows_alt alt_cfg (conflict_at []) walk_mem 4096 numbered_rows (fun _ => 0)
        alt_cfg.n_rows 20).map (fun st => (st.nr_rows, (st.rows (-1)).len))
      = some (0, 99) ∧
    (find_rows_alt alt_cfg always_conflict walk_mem 4096 numbered_rows (fun _ => 0)
        alt_cfg.n_rows 20).map (fun st => (st.nr_rows, (st.rows 0).start, (st.rows 0).len))
      = some (1, walk_mem, 99) := by
  refine ⟨by decide, by decide, by decide, by decide, by decide, by decide⟩

/-- C34, as stated, fails.  With `find_step > 0`, `fuzz_step > 0` and `rows_len >= 1` the
same-bank walk does not return when the counter `fuzz` wraps (`max_fuzz = 2^64 - 1`: the
test `fuzz <= max_fuzz` never fails) or the counter `off` wraps (`len = 2^64 - 1`,
`find_step = 2`), under an oracle without conflicts, and it dies with `sort_rows` and
no `pagemap`.  With `atomic_unit > 0`, `find_rows_alt` called with `rows_len = 0` returns
4 rows, since it stops only at `nr_rows == rows_len`, and it does not return when its
`off` wraps (`len = 2^64 - 1`, `atomic_unit = 2`). -/
theorem row_discovery_counterexample :
    (0 < endless_fuzz_cfg.find_step ∧ 0 < endless_fuzz_cfg.fuzz_step ∧
      (1 : Int) ≤ endless_fuzz_cfg.n_rows ∧
      ∀ fuel, find_rows_in_same_bank endless_fuzz_cfg (conflict_at []) id walk_mem
        endless_fuzz_cfg.find_step endless_fuzz_cfg.size (junk_rows 7)
        endless_fuzz_cfg.n_rows fuel = none) ∧
    (0 < wrap_walk_cfg.find_step ∧ 0 < wrap_walk_cfg.fuzz_step ∧
      (1 : Int) ≤ wrap_walk_cfg.n_rows ∧
      ∀ fuel, find_rows_in_same_bank wrap_walk_cfg (conflict_at []) id walk_mem
        wrap_walk_cfg.find_step (2 ^ 64 - 1) (junk_rows 7) wrap_walk_cfg.n_rows fuel = none) ∧
    (0 < sort_no_pagemap_cfg.find_step ∧ 0 < sort_no_pagemap_cfg.fuzz_step ∧
      (1 : Int) ≤ sort_no_pagemap_cfg.n_rows ∧
      ∀ fuel, find_rows_in_same_bank sort_no_pagemap_cfg (conflict_at []) id walk_mem
        sort_no_pagemap_cfg.find_step sort_no_pagemap_cfg.size (junk_rows 7)
        sort_no_pagemap_cfg.n_rows fuel = none) ∧
    (0 < alt_no_rows_cfg.atomic_unit ∧ alt_no_rows_cfg.n_rows = 0 ∧
      (find_rows_alt alt_no_rows_cfg always_conflict walk_mem alt_no_rows_cfg.size
        (junk_rows 7) (fun _ => 0) alt_no_rows_cfg.n_rows 20).map find_state.nr_rows
        = some 4) ∧
    (0 < wrap_alt_cfg.atomic_unit ∧ (1 : Int) ≤ wrap_alt_cfg.n_rows ∧
      ∀ fuel, find_rows_alt wrap_alt_cfg (conflict_at []) walk_mem (2 ^ 64 - 1) (junk_rows 7)
        (fun _ => 0) wrap_alt_cfg.n_rows fuel = none) := by
  refine ⟨⟨by decide, by decide, by decide, ?_⟩, ⟨by decide, by decide, by decide, ?_⟩,
    ⟨by decide, by decide, by decide, ?_⟩, ⟨by decide, rfl, by decide⟩,
    ⟨by decide, by decide, ?_⟩⟩
  · intro fuel
    unfold find_rows_in_same_bank
    cases fuel with
    | zero => rfl
    | succ n =>
      rw [find_rows_loop]
      have hc : endless_fuzz_cfg.offset0 < endless_fuzz_cfg.size := by decide
      rw [if_pos hc, fuzz_scan_endless walk_mem (n + 1) 0 _ _ (by norm_num)]
  · intro fuel
    unfold find_rows_in_same_bank
    have e : wrap_walk_cfg.find_step = 2 := rfl
    have e0 : wrap_walk_cfg.offset0 = 0 := rfl
    rw [e, e0, find_rows_loop_wraps walk_mem _ fuel fuel 0 _ (by norm_num) (by norm_num)]
  · intro fuel
    unfold find_rows_in_same_bank
    cases find_rows_loop sort_no_pagemap_cfg (conflict_at []) walk_mem
        sort_no_pagemap_cfg.find_step sort_no_pagemap_cfg.size sort_no_pagemap_cfg.n_rows fuel
        fuel sort_no_pagemap_cfg.offset0 { rows := junk_rows 7, nr_rows := 0, calls := 0 } with
    | none => rfl
    | some st => rfl
  · intro fuel
    unfold find_rows_alt
    cases fuel with
    | zero => rfl
    | succ n =>
      rw [bank_find_loop]
      have hc : ¬ ((wrap_alt_cfg.bank_find_step % 2 ^ 64).toNat < 2 ^ 64 - 1 ∧
          (1 : Int) < wrap_alt_cfg.nr_banks) := by decide
      rw [if_neg hc]
      simp only []
      have e0 : wrap_alt_cfg.offset0 = 0 := rfl
      rw [e0, alt_rows_loop_wraps _ walk_mem _ (n + 1) 0 _ (by norm_num) (by norm_num)]

/-- C34, amended: for every timing oracle and every bound on the loops that is large
enough, `find_rows_in_same_bank` returns at most `rows_len` rows when `find_step > 0`,
`fuzz_step > 0`, `rows_len >= 1`, the counters `off` and `fuzz` do not wrap and
`sort_rows` is used only with `pagemap`; `find_rows_alt` returns at most `rows_len` rows
when `atomic_unit > 0`, `rows_len >= 1` and its offsets do not wrap.  The two functions
take their own configurations `p` and `q`. -/
theorem row_discovery_returns (p q : params) (timing : timing_oracle)
    (qs : List row → List row) (mem len : Nat) (rows0 : Int → row) (bank0 : Int → Nat)
    (rows_len : Int) (fuel : Nat) (hrows : 1 ≤ rows_len)
    (hstep : 0 < p.find_step) (hfs : 0 < p.fuzz_step)
    (hoff : (len : Int) + p.find_step ≤ 2 ^ 64) (hfuzz : p.max_fuzz + p.fuzz_step < 2 ^ 64)
    (hsort : p.sort_rows = 0 ∨ p.pagemap ≠ 0)
    (hau : 0 < q.atomic_unit) (halt : alt_no_wrap q len)
    (hfuel : len + p.max_fuzz + 2 ≤ fuel) :
    (∃ st, find_rows_in_same_bank p timing qs mem p.find_step len rows0 rows_len fuel = some st ∧
      0 ≤ st.nr_rows ∧ st.nr_rows ≤ rows_len) ∧
    (∃ st, find_rows_alt q timing mem len rows0 bank0 rows_len fuel = some st ∧
      0 ≤ st.nr_rows ∧ st.nr_rows ≤ rows_len) :=
  ⟨find_rows_in_same_bank_returns p timing qs mem p.find_step len rows0 rows_len fuel hrows
      hsort ⟨hstep, hoff, hfuzz⟩ hfs hfuel,
    find_rows_alt_returns q timing mem len rows0 bank0 rows_len fuel hrows hau halt
      (by omega)⟩

theorem row_discovery_returns_witness :
    ((1 : Int) ≤ 3 ∧ 0 < plain_walk_cfg.find_step ∧ 0 < plain_walk_cfg.fuzz_step ∧
      ((14336 : Nat) : Int) + plain_walk_cfg.find_step ≤ 2 ^ 64 ∧
      plain_walk_cfg.max_fuzz + plain_walk_cfg.fuzz_step < 2 ^ 64 ∧
      (plain_walk_cfg.sort_rows = 0 ∨ plain_walk_cfg.pagemap ≠ 0) ∧
      0 < alt_cfg.atomic_unit ∧ alt_no_wrap alt_cfg 14336 ∧
      14336 + plain_walk_cfg.max_fuzz + 2 ≤ 14338) ∧
    (∃ st, find_rows_in_same_bank plain_walk_cfg always_conflict id walk_mem
        plain_walk_cfg.find_step 14336 (junk_rows 7) 3 14338 = some st ∧
      0 ≤ st.nr_rows ∧ st.nr_rows ≤ 3) ∧
    (∃ st, find_rows_alt alt_cfg always_conflict walk_mem 14336 (junk_rows 7) (fun _ => 0) 3
        14338 = some st ∧
      0 ≤ st.nr_rows ∧ st.nr_rows ≤ 3) :=
  ⟨⟨by decide, by decide, by decide, by decide, by decide, by decide, by decide, by decide,
      by decide⟩,
    row_discovery_returns plain_walk_cfg alt_cfg always_conflict id walk_mem 14336
      (junk_rows 7) (fun _ => 0) 3 14338 (by decide) (by decide) (by decide) (by decide)
      (by decide) (by decide) (by decide) (by decide) (by decide)⟩

/-! ## Lemmas on the tries of an experiment -/

theorem tries_from_mem (n stride : Int) (hst : 1 ≤ stride) : ∀ (fuel : Nat) (t x : Int),
    x ∈ tries_from n stride fuel t → t ≤ x ∧ x < n ∧ stride ∣ x - t := by
  intro fuel
  induction fuel with
  | zero => intro t x h; simp [tries_from] at h
  | succ fuel ih =>
    intro t x h
    rw [tries_from] at h
    by_cases hc : t < n
    · rw [if_pos hc] at h
      rcases List.mem_cons.mp h with h1 | h1
      · subst h1
        exact ⟨le_refl _, hc, by simp⟩
      · obtain ⟨a, b, c⟩ := ih _ _ h1
        refine ⟨by omega, b, ?_⟩
        have e : x - t = (x - (t + stride)) + stride := by ring
        rw [e]
        exact dvd_add c (dvd_refl _)
    · rw [if_neg hc] at h
      simp at h

theorem tries_from_complete (n stride : Int) (hst : 1 ≤ stride) : ∀ (fuel : Nat) (t x : Int),
    n - t ≤ fuel → t ≤ x → x < n → stride ∣ x - t → x ∈ tries_from n stride fuel t := by
  intro fuel
  induction fuel with
  | zero => intro t x h1 h2 h3 _; simp at h1; omega
  | succ fuel ih =>
    intro t x h1 h2 h3 h4
    rw [tries_from, if_pos (by omega)]
    by_cases he : x = t
    · subst he
      exact List.mem_cons_self _ _
    · apply List.mem_cons_of_mem
      have hpos : 0 < x - t := by omega
      have hle : stride ≤ x - t := Int.le_of_dvd hpos h4
      apply ih
      · push_cast at h1; omega
      · omega
      · exact h3
      · have e : x - (t + stride) = (x - t) - stride := by ring
        rw [e]
        exact dvd_sub h4 (dvd_refl _)

theorem tries_from_nodup (n stride : Int) (hst : 1 ≤ stride) : ∀ (fuel : Nat) (t : Int),
    (tries_from n stride fuel t).Nodup := by
  intro fuel
  induction fuel with
  | zero => intro t; simp [tries_from]
  | succ fuel ih =>
    intro t
    rw [tries_from]
    by_cases hc : t < n
    · rw [if_pos hc]
      refine List.nodup_cons.mpr ⟨?_, ih _⟩
      intro hm
      have := (tries_from_mem n stride hst _ _ _ hm).1
      omega
    · rw [if_neg hc]
      exact List.nodup_nil

/-- Two residues below `stride` that differ by a multiple of `stride` are equal. -/
theorem residue_unique (stride : Int) (i j : Nat) (hi : (i : Int) < stride)
    (hj : (j : Int) < stride) (h : stride ∣ (i : Int) - j) : i = j := by
  obtain ⟨c, hc⟩ := h
  have h1 : -stride < (i : Int) - j := by omega
  have h2 : (i : Int) - j < stride := by omega
  rw [hc] at h1 h2
  have hs : 0 < stride := by omega
  have c1 : -1 < c := by
    by_contra hn
    have : c ≤ -1 := by omega
    have := Int.mul_le_mul_of_nonneg_left this (le_of_lt hs)
    omega
  have c2 : c < 1 := by
    by_contra hn
    have : 1 ≤ c := by omega
    have := Int.mul_le_mul_of_nonneg_left this (le_of_lt hs)
    omega
  have c0 : c = 0 := by omega
  rw [c0] at hc
  omega

/-- All the tries of an experiment, shift by shift. -/
theorem all_tries_length (n stride : Int) (hst : 1 ≤ stride) :
    (((List.range stride.toNat).map (fun (i : Nat) =>
      ((tries_from n stride (n.toNat + 1) (i : Int)).length : Int))).sum) = max n 0 := by
  have hfuel : ∀ i : Nat, n - (i : Int) ≤ ((n.toNat + 1 : Nat) : Int) := by
    intro i; push_cast; omega
  have hnd : ((List.range stride.toNat).flatMap (fun (i : Nat) =>
      tries_from n stride (n.toNat + 1) (i : Int))).Nodup := by
    rw [List.nodup_flatMap]
    refine ⟨fun i _ => tries_from_nodup n stride hst _ _, ?_⟩
    refine List.Pairwise.imp_of_mem ?_ (List.nodup_range stride.toNat)
    intro i j hi hj hij
    show List.Disjoint _ _
    intro x hx1 hx2
    have a := (tries_from_mem n stride hst _ _ _ hx1).2.2
    have b := (tries_from_mem n stride hst _ _ _ hx2).2.2
    have hd : stride ∣ (i : Int) - j := by
      have e : (i : Int) - j = (x - j) - (x - i) := by ring
      rw [e]
      exact dvd_sub b a
    have hi1 := List.mem_range.mp hi
    have hj1 := List.mem_range.mp hj
    exact hij (residue_unique stride i j (by omega) (by omega) hd)
  have hmem : ∀ x : Int, x ∈ (List.range stride.toNat).flatMap (fun (i : Nat) =>
      tries_from n stride (n.toNat + 1) (i : Int)) ↔
      x ∈ (List.range n.toNat).map (fun (k : Nat) => (k : Int)) := by
    intro x
    rw [List.mem_flatMap, List.mem_map]
    constructor
    · rintro ⟨i, _, hx⟩
      obtain ⟨a, b, _⟩ := tries_from_mem n stride hst _ _ _ hx
      exact ⟨x.toNat, List.mem_range.mpr (by omega), by omega⟩
    · rintro ⟨k, hk, rfl⟩
      have hk1 := List.mem_range.mp hk
      refine ⟨((k : Int) % stride).toNat, List.mem_range.mpr ?_, ?_⟩
      · have := Int.emod_lt_of_pos (k : Int) (by omega : 0 < stride)
        have := Int.emod_nonneg (k : Int) (by omega : stride ≠ 0)
        omega
      · have h0 := Int.emod_nonneg (k : Int) (by omega : stride ≠ 0)
        have e : (((k : Int) % stride).toNat : Int) = (k : Int) % stride := Int.toNat_of_nonneg h0
        rw [e]
        apply tries_from_complete n stride hst _ _ _ (by
          have := hfuel ((k : Int) % stride).toNat
          rw [e] at this
          exact this)
        · have hq : 0 ≤ (k : Int) / stride := Int.ediv_nonneg (by omega) (by omega)
          have hm := mul_nonneg (by omega : (0 : Int) ≤ stride) hq
          have := Int.emod_add_ediv (k : Int) stride
          omega
        · omega
        · exact Int.dvd_sub_of_emod_eq rfl
  have hperm := (List.perm_ext_iff_of_nodup hnd
    ((List.nodup_range n.toNat).map (fun a b h => by simpa using h))).mpr hmem
  have hlen := hperm.length_eq
  rw [List.length_flatMap, List.length_map, List.length_range] at hlen
  have e2 : ((List.range stride.toNat).map (fun (i : Nat) =>
      ((tries_from n stride (n.toNat + 1) (i : Int)).length : Int))).sum
      = (((List.map (List.length ∘ fun (i : Nat) => tries_from n stride (n.toNat + 1) (i : Int))
          (List.range stride.toNat)).sum : Nat) : Int) := by
    generalize List.range stride.toNat = l
    induction l with
    | nil => simp
    | cons a l ih =>
      rw [List.map_cons, List.sum_cons, ih, List.map_cons, List.sum_cons]
      push_cast
      rfl
  rw [e2, hlen]
  omega

theorem run_hammer_once_total_tries (env : experiment_env) (p : params) (base mem len : Nat)
    (s s1 : run_state) (rows : List row)
    (hfind : find_rows env p s.experiments mem len = some (p.n_rows, rows))
    (h : run_hammer_once env p base mem len s = some s1) :
    s1.total_tries = s.total_tries +
      ((List.range (if p.mod_stride ≠ 0 then p.mod else 1).toNat).map (fun (i : Nat) =>
        ((tries_from p.n_tries (if p.mod_stride ≠ 0 then p.mod else 1) (p.n_tries.toNat + 1)
          (i : Int)).length : Int))).sum := by
  unfold run_hammer_once at h
  rw [hfind] at h
  simp only [ne_eq, not_true_eq_false, if_false] at h
  by_cases hc : p.check_rest ≠ 0
  · simp only [if_pos hc] at h
    cases hf1 : fill p s.mem mem (ptr_diff (get_row_range rows).1 mem) with
    | none => rw [hf1] at h; exact absurd h (by simp)
    | some m1 =>
      rw [hf1] at h
      simp only [] at h
      cases hf2 : fill p m1 (get_row_range rows).2 (rest_len mem len (get_row_range rows).2) with
      | none => rw [hf2] at h; exact absurd h (by simp)
      | some m2 =>
        rw [hf2] at h
        simp only [] at h
        cases hs : shifts_loop env p rows (if p.mod_stride ≠ 0 then p.mod else 1)
            (if p.mod_stride ≠ 0 then p.mod else 1).toNat 0
            { s with experiments := s.experiments + 1, mem := m2,
                     log := s.log ++ [event.filled_rest mem] } with
        | none => rw [hs] at h; exact absurd h (by simp)
        | some s2 =>
          rw [hs] at h
          simp only [] at h
          obtain ⟨_, i2, _⟩ := shifts_loop_schedule env p rows _ _ _ _ _ hs
          simp only [zero_add] at i2
          cases hc1 : check p s2.mem mem (ptr_diff (get_row_range rows).1 mem) with
          | none => rw [hc1] at h; exact absurd h (by simp)
          | some r1 =>
            obtain ⟨d1, m3⟩ := r1
            rw [hc1] at h
            simp only [] at h
            cases hc2 : check p m3 (get_row_range rows).2
                (rest_len mem len (get_row_range rows).2) with
            | none => rw [hc2] at h; exact absurd h (by simp)
            | some r2 =>
              obtain ⟨d2, m4⟩ := r2
              rw [hc2] at h
              simp only [Option.some.injEq] at h
              subst h
              exact i2
  · simp only [if_neg hc] at h
    cases hs : shifts_loop env p rows (if p.mod_stride ≠ 0 then p.mod else 1)
        (if p.mod_stride ≠ 0 then p.mod else 1).toNat 0
        { s with experiments := s.experiments + 1 } with
    | none => rw [hs] at h; exact absurd h (by simp)
    | some s2 =>
      rw [hs] at h
      simp only [Option.some.injEq] at h
      subst h
      obtain ⟨_, i2, _⟩ := shifts_loop_schedule env p rows _ _ _ _ _ hs
      simp only [zero_add] at i2
      exact i2

theorem count_eq_one_of_nodup_mem {α : Type} [BEq α] [LawfulBEq α] (a : α) :
    ∀ (l : List α), l.Nodup → a ∈ l → l.count a = 1 := by
  intro l
  induction l with
  | nil => intro _ h; cases h
  | cons x l ih =>
    intro hnd hm
    rw [List.nodup_cons] at hnd
    rw [List.count_cons]
    by_cases hx : x = a
    · subst hx
      rw [List.count_eq_zero_of_not_mem hnd.1]
      simp
    · have hm1 : a ∈ l := by
        rcases List.mem_cons.mp hm with h | h
        · exact absurd h.symm hx
        · exact h
      rw [ih hnd.2 hm1]
      have : (x == a) = false := by
        apply Bool.eq_false_iff.mpr
        intro hb
        exact hx (eq_of_beq hb)
      rw [this]
      simp

theorem shift_blocks_nodup (k : Nat) (tries : Nat → List Int)
    (hnd : ∀ sh, (tries sh).Nodup) : (shift_blocks k tries).Nodup := by
  unfold shift_blocks
  rw [List.nodup_flatMap]
  refine ⟨fun i _ => ?_, ?_⟩
  · refine List.nodup_cons.mpr ⟨by simp, ?_⟩
    exact (hnd i).map (fun a b h => by simpa using h)
  · refine List.Pairwise.imp_of_mem ?_ (List.nodup_range k)
    intro i j _ _ hij
    show List.Disjoint _ _
    intro x hx1 hx2
    have a : x.1 = (i : Int) := by
      rcases List.mem_cons.mp hx1 with h | h
      · rw [h]
      · obtain ⟨t, _, rfl⟩ := List.mem_map.mp h
        rfl
    have b : x.1 = (j : Int) := by
      rcases List.mem_cons.mp hx2 with h | h
      · rw [h]
      · obtain ⟨t, _, rfl⟩ := List.mem_map.mp h
        rfl
    rw [a] at b
    exact hij (by exact_mod_cast b)

theorem shift_blocks_mem (k : Nat) (tries : Nat → List Int) (sh t : Int) :
    (sh, some t) ∈ shift_blocks k tries ↔ ∃ i : Nat, i < k ∧ sh = (i : Int) ∧ t ∈ tries i := by
  unfold shift_blocks
  rw [List.mem_flatMap]
  constructor
  · rintro ⟨i, hi, hx⟩
    refine ⟨i, List.mem_range.mp hi, ?_⟩
    rcases List.mem_cons.mp hx with h | h
    · simp at h
    · obtain ⟨t1, ht1, e⟩ := List.mem_map.mp h
      simp only [Prod.mk.injEq, Option.some.injEq] at e
      exact ⟨e.1.symm, by rw [← e.2]; exact ht1⟩
  · rintro ⟨i, hi, rfl, ht⟩
    exact ⟨i, List.mem_range.mpr hi,
      List.mem_cons_of_mem _ (List.mem_map.mpr ⟨t, ht, rfl⟩)⟩

/-! ## The claim C33 -/

/-- C33, as stated, fails: with `n_tries=-1` (and `mod=3`, `mod_stride=1`, so that
`stride = 3 >= 1`) the experiment runs to its end, no try is made and `total_tries`
keeps its value 0; it does not increase by `n_tries = -1`. -/
theorem negative_tries_counterexample :
    negative_tries_cfg.n_tries = -1 ∧
    (1 : Int) ≤ (if negative_tries_cfg.mod_stride ≠ 0 then negative_tries_cfg.mod else 1) ∧
    find_rows quiet_env negative_tries_cfg (initial_state zero_mem).experiments 0 8192
      = some (negative_tries_cfg.n_rows, two_word_rows) ∧
    (initial_state zero_mem).total_tries = 0 ∧
    (run_hammer_once quiet_env negative_tries_cfg 0 0 8192 (initial_state zero_mem)).map
        (fun s => (s.total_tries, schedule s.log))
      = some (0, [(0, none), (1, none), (2, none)]) := by
  refine ⟨rfl, by decide, by rfl, rfl, by decide⟩

/-- C33, amended: in one experiment that finds its rows and runs to its end, with
`stride >= 1` (`stride` is `mod` when `mod_stride` is set, else 1), the schedule is one
block for each shift of `[0, stride)`, the fill with that shift followed by tries; every
try index `t` of `[0, n_tries)` is executed exactly once, in the block of the shift
`t mod stride`, and nothing else is executed; `total_tries` increases by exactly
`n_tries` when `n_tries >= 0`, and stays as it was when `n_tries < 0`. -/
theorem every_try_once (env : experiment_env) (p : params) (base mem len : Nat)
    (s s1 : run_state) (rows : List row)
    (hfind : find_rows env p s.experiments mem len = some (p.n_rows, rows))
    (h : run_hammer_once env p base mem len s = some s1)
    (hstride : 1 ≤ (if p.mod_stride ≠ 0 then p.mod else 1)) :
    ∃ tries : Nat → List Int,
      schedule s1.log = schedule s.log ++
        shift_blocks (if p.mod_stride ≠ 0 then p.mod else 1).toNat tries ∧
      (∀ t : Int, 0 ≤ t → t < p.n_tries →
        (shift_blocks (if p.mod_stride ≠ 0 then p.mod else 1).toNat tries).count
          (t % (if p.mod_stride ≠ 0 then p.mod else 1), some t) = 1) ∧
      (∀ sh t : Int,
        (sh, some t) ∈ shift_blocks (if p.mod_stride ≠ 0 then p.mod else 1).toNat tries →
        0 ≤ t ∧ t < p.n_tries ∧ sh = t % (if p.mod_stride ≠ 0 then p.mod else 1)) ∧
      s1.total_tries = s.total_tries + max p.n_tries 0 := by
  have hs := run_hammer_once_schedule env p base mem len s s1 rows hfind h
  have ht := run_hammer_once_total_tries env p base mem len s s1 rows hfind h
  generalize (if p.mod_stride ≠ 0 then p.mod else 1) = stride at hs ht hstride ⊢
  have hfuel : ∀ i : Int, 0 ≤ i → p.n_tries - i ≤ ((p.n_tries.toNat + 1 : Nat) : Int) := by
    intro i hi; push_cast; omega
  have hres : ∀ (i : Nat) (t : Int), (i : Int) < stride →
      t ∈ tries_from p.n_tries stride (p.n_tries.toNat + 1) (i : Int) →
      0 ≤ t ∧ t < p.n_tries ∧ t % stride = (i : Int) := by
    intro i t hi hm
    obtain ⟨a, b, c, hc⟩ := tries_from_mem p.n_tries stride hstride _ _ _ hm
    refine ⟨by omega, b, ?_⟩
    have e : t = (i : Int) + stride * c := by omega
    rw [e, Int.add_mul_emod_self_left]
    exact Int.emod_eq_of_lt (by omega) hi
  refine ⟨fun sh => tries_from p.n_tries stride (p.n_tries.toNat + 1) (sh : Int), hs, ?_, ?_, ?_⟩
  · intro t h0 h1
    apply count_eq_one_of_nodup_mem
    · exact shift_blocks_nodup _ _ (fun sh => tries_from_nodup p.n_tries stride hstride _ _)
    · rw [shift_blocks_mem]
      have hm0 := Int.emod_nonneg t (by omega : stride ≠ 0)
      have hm1 := Int.emod_lt_of_pos t (by omega : 0 < stride)
      have e : ((t % stride).toNat : Int) = t % stride := Int.toNat_of_nonneg hm0
      refine ⟨(t % stride).toNat, by omega, e.symm, ?_⟩
      rw [e]
      apply tries_from_complete p.n_tries stride hstride _ _ _ (hfuel _ hm0)
      · have hq : 0 ≤ t / stride := Int.ediv_nonneg h0 (by omega)
        have hm := mul_nonneg (by omega : (0 : Int) ≤ stride) hq
        have := Int.emod_add_ediv t stride
        omega
      · exact h1
      · exact Int.dvd_sub_of_emod_eq rfl
  · intro sh t hm
    rw [shift_blocks_mem] at hm
    obtain ⟨i, hi, rfl, ht1⟩ := hm
    obtain ⟨a, b, c⟩ := hres i t (by omega) ht1
    exact ⟨a, b, c.symm⟩
  · rw [ht, all_tries_length p.n_tries stride hstride]

theorem every_try_once_witness :
    (find_rows flipping_env shift_cfg (initial_state zero_mem).experiments 0 8192
        = some (shift_cfg.n_rows, two_word_rows) ∧
      run_hammer_once flipping_env shift_cfg 0 0 8192 (initial_state zero_mem)
        = some shift_run_result ∧
      (1 : Int) ≤ (if shift_cfg.mod_stride ≠ 0 then shift_cfg.mod else 1)) ∧
    ∃ tries : Nat → List Int,
      schedule shift_run_result.log = schedule (initial_state zero_mem).log ++
        shift_blocks (if shift_cfg.mod_stride ≠ 0 then shift_cfg.mod else 1).toNat tries ∧
      (∀ t : Int, 0 ≤ t → t < shift_cfg.n_tries →
        (shift_blocks (if shift_cfg.mod_stride ≠ 0 then shift_cfg.mod else 1).toNat tries).count
          (t % (if shift_cfg.mod_stride ≠ 0 then shift_cfg.mod else 1), some t) = 1) ∧
      (∀ sh t : Int,
        (sh, some t) ∈
          shift_blocks (if shift_cfg.mod_stride ≠ 0 then shift_cfg.mod else 1).toNat tries →
        0 ≤ t ∧ t < shift_cfg.n_tries ∧
          sh = t % (if shift_cfg.mod_stride ≠ 0 then shift_cfg.mod else 1)) ∧
      shift_run_result.total_tries
        = (initial_state zero_mem).total_tries + max shift_cfg.n_tries 0 :=
  ⟨⟨by rfl, by rfl, by decide⟩,
    every_try_once flipping_env shift_cfg 0 0 8192 (initial_state zero_mem)
      shift_run_result two_word_rows (by rfl) (by rfl) (by decide)⟩

/-! ## Lemmas on the rows at the calls of `select_and_hammer_aggr` -/

theorem check_rows_mem (p : params) (m m1 : Mem) (rows : List row) (shift : Int) (f : Nat)
    (h : check_rows p m rows shift = some (f, m1)) : m1 = m := by
  unfold check_rows at h
  cases hf : p.fill_type with
  | FILL_RANDOM =>
    rw [hf] at h
    simp only [check_rows_random, check] at h
    split at h
    · exact absurd h (by simp)
    · simp only [flush_loop_eq, ite_self, Option.some.injEq, Prod.mk.injEq] at h
      exact h.2.symm
  | FILL_MOD =>
    rw [hf] at h
    simp only [Option.some.injEq, Prod.mk.injEq] at h
    exact h.2.symm

theorem fill_rows_hold (p : params) (m m1 : Mem) (rows : List row) (shift : Int)
    (hrows : p.fill_type = fill_type.FILL_RANDOM ∨ rows.Pairwise rows_apart)
    (h : fill_rows p m rows shift = some m1) : rows_hold p rows shift m1 := by
  unfold rows_hold
  unfold fill_rows at h
  unfold check_rows
  cases hf : p.fill_type with
  | FILL_RANDOM =>
    rw [hf] at h
    simp only [fill_rows_random] at h
    simp only [check_rows_random]
    generalize (get_row_range rows).1 = a at h ⊢
    generalize ptr_diff (get_row_range rows).2 a = len at h ⊢
    by_cases hlen : len % 4 = 0
    · rw [fill_eq p m a len hlen] at h
      simp only [Option.some.injEq] at h
      subst h
      rw [check_eq p _ a len hlen, Option.map_some', check_loop_count, Nat.zero_add,
        List.countP_eq_zero.mpr]
      intro j hj
      have hw := fill_loop_word a (len / 4) 0 (seed_of a) m j (List.mem_range.mp hj)
      simp [hw]
      rw [Nat.zero_add] at hw
      exact hw
    · simp only [fill, hlen, ne_eq, not_false_eq_true, if_true] at h
      exact absurd h (by simp)
  | FILL_MOD =>
    rw [hf] at h
    have hp : rows.Pairwise rows_apart := by
      rcases hrows with h1 | h1
      · rw [hf] at h1; exact absurd h1 (by simp)
      · exact h1
    simp only [fill_rows_mod_k] at h
    split at h
    · exact absurd h (by simp)
    · simp only [Option.some.injEq] at h
      subst h
      simp only [Option.map_some', check_rows_mod_k]
      rw [check_rows_loop_uniform p _ shift (fun r => mod_k_pattern p r shift) rows 0
        (fill_rows_loop_word p shift rows m hp)]
      simp

theorem attempt_hold (env : experiment_env) (p : params) (rows : List row)
    (shift try_ seed : Int) (first_try : Bool) (s s1 : run_state) (flips : Int)
    (hrows : p.fill_type = fill_type.FILL_RANDOM ∨ rows.Pairwise rows_apart)
    (h : attempt env p rows shift try_ seed first_try s = some (s1, flips)) :
    rows_hold p rows shift s1.mem := by
  unfold attempt at h
  simp only [] at h
  split at h
  · exact absurd h (by simp)
  · split at h
    · exact absurd h (by simp)
    · rename_i fl m1 hck
      have hm := check_rows_mem p _ m1 rows shift fl hck
      split at h
      · split at h
        · exact absurd h (by simp)
        · rename_i m2 hfill
          simp only [Option.some.injEq, Prod.mk.injEq] at h
          obtain ⟨h1, _⟩ := h
          subst h1
          exact fill_rows_hold p _ m2 rows shift hrows hfill
      · rename_i hc
        simp only [Option.some.injEq, Prod.mk.injEq] at h
        obtain ⟨h1, _⟩ := h
        subst h1
        show rows_hold p rows shift m1
        unfold rows_hold
        have hfl : fl = 0 := by
          by_contra hne
          exact hc (Or.inl (by exact_mod_cast hne))
        rw [hm, hck, hfl]
        rfl

theorem attempts_calls_hold (env : experiment_env) (p : params) (rows : List row)
    (shift try_ seed : Int)
    (hrows : p.fill_type = fill_type.FILL_RANDOM ∨ rows.Pairwise rows_apart) :
    ∀ (fuel : Nat) (rep : Int) (first_try : Bool) (s : run_state),
    rows_hold p rows shift s.mem →
    (∀ m ∈ attempts_calls env p rows shift try_ seed fuel rep first_try s,
      rows_hold p rows shift m) ∧
    (∀ s1, attempts_loop env p rows shift try_ seed fuel rep first_try s = some s1 →
      rows_hold p rows shift s1.mem ∧
      s1.hammers = s.hammers +
        (attempts_calls env p rows shift try_ seed fuel rep first_try s).length) := by
  intro fuel
  induction fuel with
  | zero =>
    intro rep first_try s _
    exact ⟨fun m hm => by simp [attempts_calls] at hm,
      fun s1 h => absurd h (by simp [attempts_loop])⟩
  | succ fuel ih =>
    intro rep first_try s hs
    rw [attempts_calls, attempts_loop]
    cases ha : attempt env p rows shift try_ seed first_try s with
    | none =>
      exact ⟨fun m hm => by
        simp only [List.mem_cons, List.not_mem_nil, or_false] at hm
        rw [hm]; exact hs, fun s1 h => absurd h (by simp)⟩
    | some r =>
      obtain ⟨s2, flips⟩ := r
      have h2 := attempt_hold env p rows shift try_ seed first_try s s2 flips hrows ha
      have hh := (attempt_spec env p rows shift try_ seed first_try s s2 flips ha).2.2.2.2.2.2
      simp only []
      by_cases hc1 : first_try = true ∧ flips = 0
      · rw [if_pos hc1, if_pos hc1]
        refine ⟨fun m hm => ?_, fun s1 h => ?_⟩
        · simp only [List.mem_cons, List.not_mem_nil, or_false] at hm
          rw [hm]; exact hs
        · simp only [Option.some.injEq] at h
          subst h
          exact ⟨h2, by rw [hh]; rfl⟩
      · rw [if_neg hc1, if_neg hc1]
        by_cases hc2 : p.repeat_flips ≠ 0 ∧ rep + 1 < p.repeat_flips
        · rw [if_pos hc2, if_pos hc2]
          obtain ⟨i1, i2⟩ := ih (rep + 1) false s2 h2
          refine ⟨fun m hm => ?_, fun s1 h => ?_⟩
          · rcases List.mem_cons.mp hm with h1 | h1
            · rw [h1]; exact hs
            · exact i1 m h1
          · obtain ⟨j1, j2⟩ := i2 s1 h
            refine ⟨j1, ?_⟩
            rw [j2, hh, List.length_cons]
            omega
        · rw [if_neg hc2, if_neg hc2]
          refine ⟨fun m hm => ?_, fun s1 h => ?_⟩
          · simp only [List.mem_cons, List.not_mem_nil, or_false] at hm
            rw [hm]; exact hs
          · simp only [Option.some.injEq] at h
            subst h
            exact ⟨h2, by rw [hh]; rfl⟩

theorem tries_calls_hold (env : experiment_env) (p : params) (rows : List row)
    (shift stride : Int)
    (hrows : p.fill_type = fill_type.FILL_RANDOM ∨ rows.Pairwise rows_apart) :
    ∀ (fuel : Nat) (try_ : Int) (s : run_state),
    rows_hold p rows shift s.mem →
    (∀ m ∈ tries_calls env p rows shift stride fuel try_ s, rows_hold p rows shift m) ∧
    (∀ s1, tries_loop env p rows shift stride fuel try_ s = some s1 →
      rows_hold p rows shift s1.mem ∧
      s1.hammers = s.hammers + (tries_calls env p rows shift stride fuel try_ s).length) := by
  intro fuel
  induction fuel with
  | zero =>
    intro try_ s _
    exact ⟨fun m hm => by simp [tries_calls] at hm,
      fun s1 h => absurd h (by simp [tries_loop])⟩
  | succ fuel ih =>
    intro try_ s hs
    rw [tries_calls, tries_loop]
    by_cases hc : try_ < p.n_tries
    · rw [if_pos hc, if_pos hc]
      obtain ⟨a1, a2⟩ :
          (∀ m ∈ try_calls env p rows shift try_ s, rows_hold p rows shift m) ∧
          (∀ s1, run_try env p rows shift try_ s = some s1 →
            rows_hold p rows shift s1.mem ∧
            s1.hammers = s.hammers + (try_calls env p rows shift try_ s).length) :=
        attempts_calls_hold env p rows shift try_
          (if p.repeat_flips ≠ 0 then env.time s.hammers else 0) hrows
          (p.repeat_flips.toNat + 1) 0 true s hs
      cases hr : run_try env p rows shift try_ s with
      | none =>
        refine ⟨fun m hm => ?_, fun s1 h => absurd h (by simp)⟩
        simp only [List.append_nil] at hm
        exact a1 m hm
      | some s2 =>
        obtain ⟨b1, b2⟩ := a2 s2 hr
        obtain ⟨i1, i2⟩ := ih (try_ + stride) { s2 with total_tries := s2.total_tries + 1 } b1
        simp only []
        refine ⟨fun m hm => ?_, fun s1 h => ?_⟩
        · rcases List.mem_append.mp hm with h1 | h1
          · exact a1 m h1
          · exact i1 m h1
        · obtain ⟨j1, j2⟩ := i2 s1 h
          have e : ({ s2 with total_tries := s2.total_tries + 1 } : run_state).hammers
              = s2.hammers := rfl
          rw [e] at j2
          refine ⟨j1, ?_⟩
          rw [List.length_append]
          omega
    · rw [if_neg hc, if_neg hc]
      refine ⟨fun m hm => (by cases hm), fun s1 h => ?_⟩
      simp only [Option.some.injEq] at h
      subst h
      exact ⟨hs, rfl⟩

theorem shifts_calls_hold (env : experiment_env) (p : params) (rows : List row)
    (stride : Int)
    (hrows : p.fill_type = fill_type.FILL_RANDOM ∨ rows.Pairwise rows_apart) :
    ∀ (k : Nat) (mod : Int) (s : run_state),
    (∀ c ∈ shifts_calls env p rows stride k mod s, rows_hold p rows c.1 c.2) ∧
    (∀ s1, shifts_loop env p rows stride k mod s = some s1 →
      s1.hammers = s.hammers + (shifts_calls env p rows stride k mod s).length) := by
  intro k
  induction k with
  | zero =>
    intro mod s
    refine ⟨fun c hc => by simp [shifts_calls] at hc, fun s1 h => ?_⟩
    simp only [shifts_loop, Option.some.injEq] at h
    subst h
    rfl
  | succ k ih =>
    intro mod s
    rw [shifts_calls, shifts_loop]
    cases hf : fill_rows p s.mem rows mod with
    | none => exact ⟨fun c hc => (by cases hc), fun s1 h => absurd h (by simp)⟩
    | some m1 =>
      simp only []
      have h0 := fill_rows_hold p s.mem m1 rows mod hrows hf
      obtain ⟨a1, a2⟩ := tries_calls_hold env p rows mod stride hrows (p.n_tries.toNat + 1) mod
        { s with mem := m1, log := s.log ++ [event.filled_rows mod] } h0
      cases ht : tries_loop env p rows mod stride (p.n_tries.toNat + 1) mod
          { s with mem := m1, log := s.log ++ [event.filled_rows mod] } with
      | none =>
        refine ⟨fun c hc => ?_, fun s1 h => absurd h (by simp)⟩
        simp only [List.append_nil] at hc
        obtain ⟨m, hm, rfl⟩ := List.mem_map.mp hc
        exact a1 m hm
      | some s2 =>
        obtain ⟨_, b2⟩ := a2 s2 ht
        obtain ⟨i1, i2⟩ := ih (mod + 1) s2
        simp only []
        refine ⟨fun c hc => ?_, fun s1 h => ?_⟩
        · rcases List.mem_append.mp hc with h1 | h1
          · obtain ⟨m, hm, rfl⟩ := List.mem_map.mp h1
            exact a1 m hm
          · exact i1 c h1
        · have j2 := i2 s1 h
          have e : ({ s with mem := m1, log := s.log ++ [event.filled_rows mod] }
              : run_state).hammers = s.hammers := rfl
          rw [e] at b2
          rw [List.length_append, List.length_map]
          omega

theorem check_row_words_mono (m : Mem) (start pat : Nat) (k : Nat) :
    ∀ (j flips : Nat), flips ≤ check_row_words m start pat k j flips := by
  induction k with
  | zero => intro j flips; exact le_refl _
  | succ k ih =>
    intro j flips
    rw [check_row_words]
    refine le_trans ?_ (ih _ _)
    split <;> omega

theorem check_row_words_pos (m : Mem) (start pat k flips : Nat) (hk : 0 < k)
    (h : read32 m start ≠ pat) : flips < check_row_words m start pat k 0 flips := by
  cases k with
  | zero => omega
  | succ k =>
    rw [check_row_words]
    have h1 : read32 m (start + 4 * 0) ≠ pat := h
    rw [if_pos h1]
    have := check_row_words_mono m start pat k (0 + 1) (flips + 1)
    omega

theorem check_rows_loop_mono (p : params) (m : Mem) (shift : Int) (rows : List row) :
    ∀ (flips : Nat), flips ≤ check_rows_loop p m shift rows flips := by
  induction rows with
  | nil => intro flips; exact le_refl _
  | cons r rs ih =>
    intro flips
    rw [check_rows_loop]
    exact le_trans (check_row_words_mono m _ _ _ 0 flips) (ih _)

theorem experiment_calls_head (env : experiment_env) (p : params) (mem len : Nat)
    (s : run_state) (rows : List row) (m1 : Mem)
    (hfind : find_rows env p s.experiments mem len = some (p.n_rows, rows))
    (hrest : p.check_rest = 0) (hstride : 0 < (if p.mod_stride ≠ 0 then p.mod else 1))
    (htries : 0 < p.n_tries) (hfill : fill_rows p s.mem rows 0 = some m1) :
    (experiment_calls env p mem len s).head? = some (0, m1) := by
  unfold experiment_calls
  rw [hfind]
  simp only [ne_eq, not_true_eq_false, if_false, hrest]
  obtain ⟨k, hk⟩ : ∃ k, (if p.mod_stride = 0 then 1 else p.mod).toNat = k + 1 := by
    have e : (if p.mod_stride = 0 then 1 else p.mod) = (if p.mod_stride ≠ 0 then p.mod else 1) := by
      by_cases h : p.mod_stride = 0 <;> simp [h]
    rw [e]
    exact ⟨(if p.mod_stride ≠ 0 then p.mod else 1).toNat - 1, by omega⟩
  simp only [ite_not]
  rw [hk, shifts_calls]
  simp only []
  rw [hfill]
  simp only []
  rw [tries_calls, if_pos htries]
  unfold try_calls
  simp only []
  rw [attempts_calls]
  rfl

/-! ## The claim C32 -/

/-- C32, as stated, fails for discovered rows that overlap.  The same-bank walk of
`descending_cfg` (`find_step=1024`, `max_fuzz=4096`, `fuzz_step=4096`), with conflicts
4 KiB and 1 KiB into the region, finds the row at 4 KiB first and the row at 1 KiB second,
each with `len = 2^32 - 3072`, so that row 1 covers the start of row 0.  `fill_rows`
(`mod=2`, `victim_mask=1`, shift 0) writes row 0 and then row 1 over it, and at the first
call of `select_and_hammer_aggr` `check_rows` with shift 0 would return more than 0. -/
theorem overlapping_rows_counterexample :
    find_rows descending_env descending_cfg (initial_state zero_mem).experiments walk_mem
        descending_cfg.size
      = some (descending_cfg.n_rows, descending_rows) ∧
    ∃ (m : Mem) (flips : Nat),
      (experiment_calls descending_env descending_cfg walk_mem descending_cfg.size
        (initial_state zero_mem)).head? = some (0, m) ∧
      check_rows descending_cfg m descending_rows 0 = some (flips, m) ∧ 0 < flips := by
  have hfind : find_rows descending_env descending_cfg (initial_state zero_mem).experiments
      walk_mem descending_cfg.size = some (descending_cfg.n_rows, descending_rows) := by
    decide
  refine ⟨hfind, fill_rows_loop descending_cfg 0 descending_rows zero_mem,
    check_rows_mod_k descending_cfg
      (fill_rows_loop descending_cfg 0 descending_rows zero_mem) descending_rows 0, ?_, ?_, ?_⟩
  · exact experiment_calls_head descending_env descending_cfg walk_mem descending_cfg.size
      (initial_state zero_mem) descending_rows _ hfind rfl (by decide) (by decide)
      (by show fill_rows descending_cfg zero_mem descending_rows 0 = _
          simp [fill_rows, fill_rows_mod_k, descending_cfg])
  · simp [check_rows, descending_cfg]
  · unfold check_rows_mod_k descending_rows
    rw [check_rows_loop]
    refine lt_of_lt_of_le ?_ (check_rows_loop_mono _ _ _ _ _)
    apply check_row_words_pos
    · norm_num
    · rw [fill_rows_loop, fill_rows_loop, fill_rows_loop]
      simp only []
      have hw := fill_row_words_word descending_cfg.cached (walk_mem + 1024)
        (mod_k_pattern descending_cfg { idx := 1, start := walk_mem + 1024, len := 4294964224 } 0)
        (4294964224 / 4) 0
        (fill_row_words descending_cfg.cached (walk_mem + 4096)
          (mod_k_pattern descending_cfg { idx := 0, start := walk_mem + 4096, len := 4294964224 } 0)
          (4294964224 / 4) 0 zero_mem) 768 (by norm_num)
      have e : walk_mem + 1024 + 4 * (0 + 768) = walk_mem + 4096 := by norm_num
      rw [e] at hw
      rw [hw]
      decide

/-- C32, amended: in `run_hammer_once` with discovered rows whose byte ranges are
pairwise disjoint (or with the random fill), at every call of `select_and_hammer_aggr`
the rows hold the fill pattern of the current shift (`check_rows` with that shift
returns 0 on the memory of that moment), whatever the earlier hammering did to memory;
the calls counted are all the calls of an experiment that runs to its end. -/
theorem rows_hold_at_every_call (env : experiment_env) (p : params) (base mem len : Nat)
    (s : run_state) (rows : List row)
    (hfind : find_rows env p s.experiments mem len = some (p.n_rows, rows))
    (hrows : p.fill_type = fill_type.FILL_RANDOM ∨ rows.Pairwise rows_apart) :
    (∀ c ∈ experiment_calls env p mem len s, rows_hold p rows c.1 c.2) ∧
    (∀ s1, run_hammer_once env p base mem len s = some s1 →
      s1.hammers = s.hammers + (experiment_calls env p mem len s).length) := by
  unfold experiment_calls run_hammer_once
  rw [hfind]
  simp only [ne_eq, not_true_eq_false, if_false]
  generalize (if ¬p.mod_stride = 0 then p.mod else 1) = stride
  by_cases hc : p.check_rest = 0
  · simp only [hc, if_true, not_true_eq_false, if_false]
    obtain ⟨a1, a2⟩ := shifts_calls_hold env p rows stride
      hrows stride.toNat 0
      { s with experiments := s.experiments + 1 }
    refine ⟨a1, fun s1 h => ?_⟩
    cases hs : shifts_loop env p rows stride
        stride.toNat 0
        { s with experiments := s.experiments + 1 } with
    | none => rw [hs] at h; exact absurd h (by simp)
    | some s2 =>
      rw [hs] at h
      simp only [Option.some.injEq] at h
      subst h
      exact a2 s2 hs
  · simp only [hc, if_false, not_false_eq_true, if_true]
    cases hf1 : fill p s.mem mem (ptr_diff (get_row_range rows).1 mem) with
    | none => exact ⟨fun c h => (by cases h), fun s1 h => absurd h (by simp)⟩
    | some m1 =>
      simp only []
      cases hf2 : fill p m1 (get_row_range rows).2 (rest_len mem len (get_row_range rows).2) with
      | none => exact ⟨fun c h => (by cases h), fun s1 h => absurd h (by simp)⟩
      | some m2 =>
        simp only []
        obtain ⟨a1, a2⟩ := shifts_calls_hold env p rows stride
          hrows stride.toNat 0
          { s with experiments := s.experiments + 1, mem := m2,
                   log := s.log ++ [event.filled_rest mem] }
        refine ⟨a1, fun s1 h => ?_⟩
        cases hs : shifts_loop env p rows stride
            stride.toNat 0
            { s with experiments := s.experiments + 1, mem := m2,
                     log := s.log ++ [event.filled_rest mem] } with
        | none => rw [hs] at h; exact absurd h (by simp)
        | some s2 =>
          rw [hs] at h
          simp only [] at h
          have j := a2 s2 hs
          cases hc1 : check p s2.mem mem (ptr_diff (get_row_range rows).1 mem) with
          | none => rw [hc1] at h; exact absurd h (by simp)
          | some r1 =>
            obtain ⟨d1, m3⟩ := r1
            rw [hc1] at h
            simp only [] at h
            cases hc2 : check p m3 (get_row_range rows).2
                (rest_len mem len (get_row_range rows).2) with
            | none => rw [hc2] at h; exact absurd h (by simp)
            | some r2 =>
              obtain ⟨d2, m4⟩ := r2
              rw [hc2] at h
              simp only [Option.some.injEq] at h
              subst h
              exact j

theorem rows_hold_at_every_call_witness :
    (find_rows flipping_env shift_cfg (initial_state zero_mem).experiments 0 8192
        = some (shift_cfg.n_rows, two_word_rows) ∧
      (shift_cfg.fill_type = fill_type.FILL_RANDOM ∨ two_word_rows.Pairwise rows_apart)) ∧
    (experiment_calls flipping_env shift_cfg 0 8192 (initial_state zero_mem)).length = 3 ∧
    (∀ c ∈ experiment_calls flipping_env shift_cfg 0 8192 (initial_state zero_mem),
      rows_hold shift_cfg two_word_rows c.1 c.2) ∧
    (∀ s1, run_hammer_once flipping_env shift_cfg 0 0 8192 (initial_state zero_mem) = some s1 →
      s1.hammers = (initial_state zero_mem).hammers +
        (experiment_calls flipping_env shift_cfg 0 8192 (initial_state zero_mem)).length) :=
  ⟨⟨by rfl, Or.inr (by decide)⟩, by decide,
    rows_hold_at_every_call flipping_env shift_cfg 0 0 8192 (initial_state zero_mem)
      two_word_rows (by rfl) (Or.inr (by decide))⟩

end HammerKit
